import Mathlib

/-!
# PopIns2: colored de Bruijn graph traversal

A shallow embedding of `src/ColoredDeBruijnGraph.cpp` (class `Traceback`, and of
`ExtendedCCDBG` the identifiers, the connected components and the traversal engine)
together with theorems about it.

Conventions of the embedding.

* The Bifrost graph is an external collaborator.  It enters as the record `CCDBG n`:
  `n` unitigs, handles `UnitigColorMap n` (a unitig together with a strand bit, as
  Bifrost hands them out), neighbor lists per handle, the stored sequence and the
  colors of the head and tail k-mer per unitig.
* The mutable part of `ExtendedCCDBG` (the `UnitigExtension` of every unitig, the
  `id_init_status` bit and the static `Traceback::recursion_priority_counter`) is the
  record `ExtendedCCDBG n`, passed explicitly.
* `start_vec` and the `Setcover` are passed by reference in the source; here they travel
  in the record `Walk n` through the recursion.
* The recursion `DFS_Visit -> DFS_case -> DFS_Visit` is driven by a fuel argument;
  `DFS_Init` supplies `2 * n + 1`, and `DFS_Init_returns` shows that this never runs out.
* The member `UF` of `ExtendedCCDBG` is passed explicitly to `connected_components` and
  `count_connected_components`; `seqan::UnionFind` is a library type and enters through
  the representative that `findSet` returns.
* `verbose` only switches logging and is left out.
-/

namespace PopIns2

/-! ## Strings and sequences -/

/-- Ways in which a run aborts instead of returning. -/
inductive Fault where
  /-- Thrown by `std::string::substr(pos)` when `pos > size()`. -/
  | out_of_range
  /-- The recursion budget of the embedding ran out (never happens, see `DFS_Init_returns`). -/
  | out_of_fuel
  deriving DecidableEq, Repr

/-- Alphabet of unitig sequences and FASTA output. -/
inductive Nucleotide where
  | A | C | G | T | N
  deriving DecidableEq, Repr

/-- A `std::string` holding a nucleotide sequence. -/
abbrev Sequence := List Nucleotide

/-- Modelled from the spec: `reverse_complement` has no definition among the sources; the
complement maps A to T, C to G, G to C, T to A and N to N. -/
def complement : Nucleotide → Nucleotide
  | .A => .T
  | .C => .G
  | .G => .C
  | .T => .A
  | .N => .N

/-- Modelled from the spec: `reverse_complement` has no definition among the sources; it
reverses the sequence and complements every symbol. -/
def reverse_complement (s : Sequence) : Sequence :=
  (s.map complement).reverse

/-- The 64-bit `size_t` expression `k-1`, wrapping at zero. -/
def size_pred (k : Nat) : Nat :=
  (2 ^ 64 - 1 + k) % 2 ^ 64

/-- `std::string::substr(pos)`: the suffix starting at `pos`; throws when `pos > size()`. -/
def substr {α : Type} (s : List α) (pos : Nat) : Except Fault (List α) :=
  if pos ≤ s.length then .ok (s.drop pos) else .error .out_of_range

/-! ## Traceback -/

/-- `VSequences`: one path, stored from sink to source. -/
abbrev VSequences := List Sequence

/-- The per-object members of class `Traceback` used by the traversal
(`recursion_priority_counter` is static and lives in `ExtendedCCDBG`). -/
structure Traceback where
  pathseqs : List VSequences
  recursive_return_status : Bool
  deriving DecidableEq, Repr

/-- A default-constructed `Traceback`. -/
def Traceback.empty : Traceback :=
  { pathseqs := [], recursive_return_status := false }

/-- `Traceback::join`: append every path of `t`. -/
def Traceback.join (self t : Traceback) : Traceback :=
  { self with pathseqs := self.pathseqs ++ t.pathseqs }

/-- The body of the loop of `Traceback::cutconcat` for every element after the first:
`s += rit->substr(k-1)`. -/
def cutconcatLoop {α : Type} (k : Nat) : List (List α) → List α → Except Fault (List α)
  | [], s => .ok s
  | p :: rest, s =>
    match substr p (size_pred k) with
    | .ok t => cutconcatLoop k rest (s ++ t)
    | .error e => .error e

/-- `Traceback::cutconcat(s, path, k)`: runs backwards over `path`; the first element met
(the last of `path`) is appended verbatim, every other one without its first `k-1`
characters.  Returns the new value of `s`. -/
def cutconcat {α : Type} (s : List α) (path : List (List α)) (k : Nat) :
    Except Fault (List α) :=
  match path.reverse with
  | [] => .ok s
  | first :: rest => cutconcatLoop k rest (s ++ first)

/-- One FASTA record `>contig_<contig>\n<seq>\n`. -/
structure FastaRecord where
  contig : Nat
  seq : Sequence
  deriving DecidableEq, Repr

/-- The output file stream: whether it is open, and the records written so far. -/
structure Ofstream where
  is_open : Bool
  records : List FastaRecord
  deriving DecidableEq, Repr

/-- The loop of `Traceback::write` over the paths of the bundle; `++counter` is taken in
the 64 bits of `size_t`. -/
def writeLoop (k : Nat) : List VSequences → List FastaRecord → Nat →
    Except Fault (List FastaRecord × Nat)
  | [], recs, counter => .ok (recs, counter)
  | path :: rest, recs, counter =>
    match cutconcat [] path k with
    | .ok seq =>
      writeLoop k rest (recs ++ [{ contig := (counter + 1) % 2 ^ 64, seq := seq }])
        ((counter + 1) % 2 ^ 64)
    | .error e => .error e

/-- `Traceback::write(ofs, k, counter)`: returns the return value, the stream and the
counter. -/
def Traceback.write (self : Traceback) (ofs : Ofstream) (k : Nat) (counter : Nat) :
    Except Fault (Bool × Ofstream × Nat) :=
  if ofs.is_open then
    match writeLoop k self.pathseqs ofs.records counter with
    | .ok (recs, c) => .ok (true, { ofs with records := recs }, c)
    | .error e => .error e
  else .ok (false, ofs, counter)

/-! ## The graph -/

/-- A Bifrost unitig handle: which unitig, and on which strand it is looked at. -/
structure UnitigColorMap (n : Nat) where
  unitig : Fin n
  strand : Bool
  deriving DecidableEq, Repr

/-- The read-only graph: iteration order, neighbor lists, stored sequences, and the color
bits of the head k-mer (position 0) and the tail k-mer (position size-k) of each unitig. -/
structure CCDBG (n : Nat) where
  unitigs : List (UnitigColorMap n)
  getPredecessors : UnitigColorMap n → List (UnitigColorMap n)
  getSuccessors : UnitigColorMap n → List (UnitigColorMap n)
  referenceUnitigToString : Fin n → Sequence
  headColor : Fin n → Nat → Bool
  tailColor : Fin n → Nat → Bool
  getNbColors : Nat

/-- The fields of `CCDBG_Build_opt` read by the traversal. -/
structure CCDBG_Build_opt where
  k : Nat
  verbose : Bool

/-- Modelled from the spec: `UnitigExtension.h` is not among the sources; each direction
carries one of three traversal marks. -/
inductive Mark where
  | undiscovered | seen | visited
  deriving DecidableEq, Repr

/-- Modelled from the spec: `UnitigExtension.h` is not among the sources; a unitig carries
its id and one mark per direction. -/
structure UnitigExtension where
  ID : Nat
  dfs_fw : Mark
  dfs_bw : Mark
  deriving DecidableEq, Repr

namespace UnitigExtension

/-- Modelled from the spec: `UnitigExtension.h` is not among the sources; `set_undiscovered_fw` sets the forward mark to undiscovered. -/
def set_undiscovered_fw (ue : UnitigExtension) : UnitigExtension :=
  { ue with dfs_fw := .undiscovered }

/-- Modelled from the spec: `UnitigExtension.h` is not among the sources; `set_undiscovered_bw` sets the backward mark to undiscovered. -/
def set_undiscovered_bw (ue : UnitigExtension) : UnitigExtension :=
  { ue with dfs_bw := .undiscovered }

/-- Modelled from the spec: `UnitigExtension.h` is not among the sources; `set_seen_fw` sets the forward mark to seen. -/
def set_seen_fw (ue : UnitigExtension) : UnitigExtension :=
  { ue with dfs_fw := .seen }

/-- Modelled from the spec: `UnitigExtension.h` is not among the sources; `set_seen_bw` sets the backward mark to seen. -/
def set_seen_bw (ue : UnitigExtension) : UnitigExtension :=
  { ue with dfs_bw := .seen }

/-- Modelled from the spec: `UnitigExtension.h` is not among the sources; `set_visited_fw` sets the forward mark to visited. -/
def set_visited_fw (ue : UnitigExtension) : UnitigExtension :=
  { ue with dfs_fw := .visited }

/-- Modelled from the spec: `UnitigExtension.h` is not among the sources; `set_visited_bw` sets the backward mark to visited. -/
def set_visited_bw (ue : UnitigExtension) : UnitigExtension :=
  { ue with dfs_bw := .visited }

/-- Modelled from the spec: `UnitigExtension.h` is not among the sources; `is_undiscovered_fw` tests the forward mark for undiscovered. -/
def is_undiscovered_fw (ue : UnitigExtension) : Bool :=
  ue.dfs_fw = .undiscovered

/-- Modelled from the spec: `UnitigExtension.h` is not among the sources; `is_undiscovered_bw` tests the backward mark for undiscovered. -/
def is_undiscovered_bw (ue : UnitigExtension) : Bool :=
  ue.dfs_bw = .undiscovered

/-- Modelled from the spec: `UnitigExtension.h` is not among the sources; `is_seen_fw` tests the forward mark for seen. -/
def is_seen_fw (ue : UnitigExtension) : Bool :=
  ue.dfs_fw = .seen

/-- Modelled from the spec: `UnitigExtension.h` is not among the sources; `is_seen_bw` tests the backward mark for seen. -/
def is_seen_bw (ue : UnitigExtension) : Bool :=
  ue.dfs_bw = .seen

/-- Modelled from the spec: `UnitigExtension.h` is not among the sources; `is_visited_fw` tests the forward mark for visited. -/
def is_visited_fw (ue : UnitigExtension) : Bool :=
  ue.dfs_fw = .visited

/-- Modelled from the spec: `UnitigExtension.h` is not among the sources; `is_visited_bw` tests the backward mark for visited. -/
def is_visited_bw (ue : UnitigExtension) : Bool :=
  ue.dfs_bw = .visited

end UnitigExtension

/-- The mutable members: the extension of every unitig, `id_init_status`, and the static
8-bit `Traceback::recursion_priority_counter`. -/
structure ExtendedCCDBG (n : Nat) where
  data : Fin n → UnitigExtension
  id_init_status : Bool
  recursion_priority_counter : Nat

/-- Apply `f` to the extension of unitig `i`. -/
def ExtendedCCDBG.modify {n : Nat} (st : ExtendedCCDBG n) (i : Fin n)
    (f : UnitigExtension → UnitigExtension) : ExtendedCCDBG n :=
  { st with data := fun j => if j = i then f (st.data j) else st.data j }

/-- Modelled from the spec: the `Setcover` class is not among the sources; it keeps the
stack of ids of the active walk, the set of covered ids and the list of start nodes. -/
structure Setcover where
  current_path : List Nat
  covered : List Nat
  startnodes : List Nat
  deriving DecidableEq, Repr

namespace Setcover

/-- Modelled from the spec: a fresh `Setcover` object holds nothing. -/
def init : Setcover := { current_path := [], covered := [], startnodes := [] }

/-- Modelled from the spec: `add(id)` pushes `id` onto the current path. -/
def add (sc : Setcover) (id : Nat) : Setcover :=
  { sc with current_path := sc.current_path ++ [id] }

/-- Modelled from the spec: `del()` pops one id from the current path. -/
def del (sc : Setcover) : Setcover :=
  { sc with current_path := sc.current_path.dropLast }

/-- Modelled from the spec: `clear()` empties the current path. -/
def clear (sc : Setcover) : Setcover :=
  { sc with current_path := [] }

/-- Modelled from the spec: `unify()` commits the current path whenever called, adding
its ids to the covered set. -/
def unify (sc : Setcover) : Setcover :=
  { sc with covered := sc.covered ++ sc.current_path.filter (fun i => !sc.covered.contains i) }

/-- Modelled from the spec: `addStartnode(id)` records a start node. -/
def addStartnode (sc : Setcover) (id : Nat) : Setcover :=
  { sc with startnodes := sc.startnodes ++ [id] }

end Setcover

/-- The two values `GO_FORWARD = 0x0` and `GO_BACKWARD = 0x1`. -/
inductive Direction where
  | GO_FORWARD | GO_BACKWARD
  deriving DecidableEq, Repr

/-! ## Directions and colors -/

/-- `ExtendedCCDBG::whereToGo(um, src)`: `GO_FORWARD` when some predecessor of `um`
equals `src`, else `GO_BACKWARD`. -/
def whereToGo {n : Nat} (g : CCDBG n) (um src : UnitigColorMap n) : Direction :=
  (g.getPredecessors um).foldl
    (fun ret predecessor => if predecessor = src then .GO_FORWARD else ret) .GO_BACKWARD

/-- `ExtendedCCDBG::whereFrom(um, src)`. -/
def whereFrom {n : Nat} (g : CCDBG n) (um src : UnitigColorMap n) : Direction :=
  if whereToGo g um src = .GO_FORWARD then .GO_BACKWARD else .GO_FORWARD

/-- `ucm.strand ? ucm.referenceUnitigToString() : reverse_complement(...)`, the
expression pushed onto a path wherever the source records a unitig. -/
def orientedSequence {n : Nat} (g : CCDBG n) (ucm : UnitigColorMap n) : Sequence :=
  if ucm.strand then g.referenceUnitigToString ucm.unitig
  else reverse_complement (g.referenceUnitigToString ucm.unitig)

/-- The vector built in `DFS_Init` when going backward: `nb_colors` bits, bit `c` set
when the head k-mer has color `c`. -/
def headVec {n : Nat} (g : CCDBG n) (ucm : UnitigColorMap n) : List Bool :=
  (List.range g.getNbColors).map (fun color_id => g.headColor ucm.unitig color_id)

/-- The vector built in `DFS_Init` when going forward: `nb_colors` bits, bit `c` set
when the tail k-mer has color `c`. -/
def tailVec {n : Nat} (g : CCDBG n) (ucm : UnitigColorMap n) : List Bool :=
  (List.range g.getNbColors).map (fun color_id => g.tailColor ucm.unitig color_id)

/-- `ExtendedCCDBG::update_start_vec`: for every color id below `nb_colors`,
`start_vec[c] = start_vec[c] && head[c] && tail[c]`.  The vector has `nb_colors`
entries wherever the source calls this. -/
def update_start_vec {n : Nat} (g : CCDBG n) (start_vec : List Bool)
    (ucm : UnitigColorMap n) : List Bool :=
  (List.range g.getNbColors).map (fun color_id =>
    start_vec.getD color_id false && g.headColor ucm.unitig color_id
      && g.tailColor ucm.unitig color_id)

/-- `ExtendedCCDBG::is_empty_start_vec`: true when no entry is true. -/
def is_empty_start_vec (start_vec : List Bool) : Bool :=
  !start_vec.any (fun b => b)

/-- The counter `equalColorbits` of `ExtendedCCDBG::equalColorbitsRate(v, neighbor)`: the
number of color ids whose head bit equals the tail bit and the bit of `v`.  The function
returns this count divided by `nb_colors` as a float; since every key of one container
has the same denominator, the embedding ranks by the count itself, and `ecr > 0.0f` is
`0 < equalColorbits`. -/
def equalColorbits {n : Nat} (g : CCDBG n) (v : List Bool) (neighbor : UnitigColorMap n) :
    Nat :=
  ((List.range g.getNbColors).filter (fun color_id =>
    g.headColor neighbor.unitig color_id == g.tailColor neighbor.unitig color_id
      && g.tailColor neighbor.unitig color_id == v.getD color_id false)).length

/-- Modelled from the spec: the comparison functor `GreaterThan` is not among the sources;
neighbors are ranked by rate in descending order, so it orders `a` before `b` when
`a > b`. -/
def GreaterThan (a b : Nat) : Bool :=
  decide (b < a)

/-- `std::multimap<float, unsigned, GreaterThan>::insert`: a new pair goes in front of the
first pair that the comparison puts behind its key, that is behind all pairs whose key
is not smaller. -/
def multimapInsert (p : Nat × Nat) : List (Nat × Nat) → List (Nat × Nat)
  | [] => [p]
  | q :: qs => if GreaterThan p.1 q.1 then p :: q :: qs else q :: multimapInsert p qs

/-- `ExtendedCCDBG::sortNeighbors`: inserts `(rate, id)` for every neighbor of positive
rate into `container`. -/
def sortNeighbors {n : Nat} (g : CCDBG n) (data : Fin n → UnitigExtension)
    (neighbors : List (UnitigColorMap n)) (start_vec : List Bool)
    (container : List (Nat × Nat)) : List (Nat × Nat) :=
  neighbors.foldl (fun cont neighbor =>
    let id := (data neighbor.unitig).ID
    let ecr := equalColorbits g start_vec neighbor
    if 0 < ecr then multimapInsert (ecr, id) cont else cont) container

/-- The loop of `ExtendedCCDBG::yStemCheck` over the neighbors of one side, leaving at
the first neighbor whose two cardinalities do not add up to 1. -/
def yStemLoop {n : Nat} (g : CCDBG n) : List (UnitigColorMap n) → Bool
  | [] => true
  | neighbors :: rest =>
    if (g.getPredecessors neighbors).length + (g.getSuccessors neighbors).length ≠ 1 then false
    else yStemLoop g rest

/-- `ExtendedCCDBG::yStemCheck(startnode)`. -/
def yStemCheck {n : Nat} (g : CCDBG n) (startnode : UnitigColorMap n) : Bool :=
  if (g.getPredecessors startnode).isEmpty = false then yStemLoop g (g.getPredecessors startnode)
  else yStemLoop g (g.getSuccessors startnode)

/-! ## The depth-first traversal -/

/-- What the recursion passes by reference: `start_vec`, the graph members and the
`Setcover`. -/
structure Walk (n : Nat) where
  start_vec : List Bool
  graph : ExtendedCCDBG n
  sc : Setcover

/-- The type of `DFS_Visit` once graph, `max_paths` and fuel are fixed. -/
abbrev Visit (n : Nat) :=
  UnitigColorMap n → Direction → Walk n → Except Fault (Traceback × Walk n)

/-- Handling of the bundle returned by the recursive call in `DFS_case`: on success every
returned path gets the oriented sequence of `ucm` appended and is joined to `tb`. -/
def absorb {n : Nat} (g : CCDBG n) (ucm : UnitigColorMap n) (tb returned_tb : Traceback) :
    Traceback :=
  if returned_tb.recursive_return_status then
    Traceback.join { tb with recursive_return_status := true }
      { returned_tb with
        pathseqs := returned_tb.pathseqs.map (fun p => p ++ [orientedSequence g ucm]) }
  else tb

/-- `ExtendedCCDBG::DFS_case(ucm, neighbor, start_vec, tb, sc)` with the recursive call
to `DFS_Visit` given as `visit`. -/
def DFS_case {n : Nat} (g : CCDBG n) (visit : Visit n) (ucm neighbor : UnitigColorMap n)
    (tb : Traceback) (w : Walk n) : Except Fault (Traceback × Walk n) :=
  if whereFrom g neighbor ucm = .GO_BACKWARD then
    if (w.graph.data neighbor.unitig).is_undiscovered_fw then
      match visit neighbor .GO_BACKWARD { w with sc := w.sc.add (w.graph.data ucm.unitig).ID } with
      | .ok (returned_tb, w2) => .ok (absorb g ucm tb returned_tb, w2)
      | .error e => .error e
    else .ok (tb, w)
  else
    if (w.graph.data neighbor.unitig).is_undiscovered_bw then
      match visit neighbor .GO_FORWARD { w with sc := w.sc.add (w.graph.data ucm.unitig).ID } with
      | .ok (returned_tb, w2) => .ok (absorb g ucm tb returned_tb, w2)
      | .error e => .error e
    else .ok (tb, w)

/-- The loop over `descendingSortedNeighbors` shared by `DFS_Init` and `DFS_Visit`: while
the counter is below `max_paths`, the first neighbor carrying the ranked id is handed to
`DFS_case`; otherwise the loop is left. -/
def neighborLoop {n : Nat} (g : CCDBG n) (visit : Visit n) (max_paths : Nat)
    (ucm : UnitigColorMap n) (neighbors : List (UnitigColorMap n)) :
    List (Nat × Nat) → Traceback → Walk n → Except Fault (Traceback × Walk n)
  | [], tb, w => .ok (tb, w)
  | it :: rest, tb, w =>
    if w.graph.recursion_priority_counter < max_paths then
      match neighbors.find? (fun neighbor => (w.graph.data neighbor.unitig).ID = it.2) with
      | some neighbor =>
        match DFS_case g visit ucm neighbor tb w with
        | .ok (tb1, w1) => neighborLoop g visit max_paths ucm neighbors rest tb1 w1
        | .error e => .error e
      | none => neighborLoop g visit max_paths ucm neighbors rest tb w
    else .ok (tb, w)

/-- The sink branch of `DFS_Visit`: a one-element path, success, the 8-bit counter
incremented, and the id added to the set cover, which is then unified. -/
def sinkReturn {n : Nat} (g : CCDBG n) (ucm : UnitigColorMap n) (w : Walk n) :
    Traceback × Walk n :=
  ({ pathseqs := [[orientedSequence g ucm]], recursive_return_status := true },
   { w with
     graph := { w.graph with
       recursion_priority_counter := (w.graph.recursion_priority_counter + 1) % 256 }
     sc := (w.sc.add (w.graph.data ucm.unitig).ID).unify })

/-- The body of `ExtendedCCDBG::DFS_Visit(ucm, start_vec, src_direction, sc, max_paths)`,
the recursive calls made through `DFS_case` going to `visit`. -/
def DFS_VisitBody {n : Nat} (g : CCDBG n) (max_paths : Nat) (visit : Visit n) : Visit n :=
  fun ucm src_direction w =>
    let traversal_direction :=
      if src_direction = .GO_BACKWARD then Direction.GO_FORWARD else Direction.GO_BACKWARD
    let start_vec := update_start_vec g w.start_vec ucm
    if traversal_direction = .GO_BACKWARD then
      let w1 : Walk n :=
        { w with start_vec := start_vec
                 graph := w.graph.modify ucm.unitig UnitigExtension.set_seen_bw }
      if is_empty_start_vec start_vec then .ok (Traceback.empty, w1)
      else
        let bw_neighbors := g.getPredecessors ucm
        if bw_neighbors.isEmpty && !(w1.graph.data ucm.unitig).is_visited_bw then
          .ok (sinkReturn g ucm w1)
        else
          match neighborLoop g visit max_paths ucm bw_neighbors
              (sortNeighbors g w1.graph.data bw_neighbors start_vec []) Traceback.empty w1 with
          | .ok (tb, w2) => .ok (tb, { w2 with sc := w2.sc.del })
          | .error e => .error e
    else
      let w1 : Walk n :=
        { w with start_vec := start_vec
                 graph := w.graph.modify ucm.unitig UnitigExtension.set_seen_fw }
      if is_empty_start_vec start_vec then .ok (Traceback.empty, w1)
      else
        let fw_neighbors := g.getSuccessors ucm
        if fw_neighbors.isEmpty && !(w1.graph.data ucm.unitig).is_visited_fw then
          .ok (sinkReturn g ucm w1)
        else
          match neighborLoop g visit max_paths ucm fw_neighbors
              (sortNeighbors g w1.graph.data fw_neighbors start_vec []) Traceback.empty w1 with
          | .ok (tb, w2) => .ok (tb, { w2 with sc := w2.sc.del })
          | .error e => .error e

/-- `ExtendedCCDBG::DFS_Visit`: the recursion, of depth at most `fuel`. -/
def DFS_Visit {n : Nat} (g : CCDBG n) (max_paths : Nat) : Nat → Visit n
  | 0, _, _, _ => .error .out_of_fuel
  | fuel + 1, ucm, src_direction, w =>
    DFS_VisitBody g max_paths (fun u d x => DFS_Visit g max_paths fuel u d x) ucm src_direction w

/-- The value stored by `tb.recursion_priority_counter = max_paths - 1`: the 32-bit
`unsigned` difference, truncated to 8 bits. -/
def initialCounter (max_paths : Nat) : Nat :=
  ((2 ^ 32 - 1 + max_paths) % 2 ^ 32) % 256

/-- The end of `DFS_Init` after a traversal: `sc.clear()`, and when a traceback happened
the start node becomes visited in both directions and is registered as start node. -/
def finishInit {n : Nat} (ucm : UnitigColorMap n) (tb : Traceback) (graph : ExtendedCCDBG n)
    (sc : Setcover) : Traceback × ExtendedCCDBG n × Setcover :=
  if tb.recursive_return_status then
    (tb,
     (graph.modify ucm.unitig UnitigExtension.set_visited_fw).modify ucm.unitig
       UnitigExtension.set_visited_bw,
     sc.clear.addStartnode (graph.data ucm.unitig).ID)
  else (tb, graph, sc.clear)

/-- The traversal started by `DFS_Init` in one direction, after the start node was marked
seen (`st1`) and `start_vec` was filled: rank the neighbors of that side, run the loop over
them, then finish. -/
def traverseFrom {n : Nat} (g : CCDBG n) (visit : Visit n) (max_paths : Nat)
    (ucm : UnitigColorMap n) (sc : Setcover) (st1 : ExtendedCCDBG n)
    (neighbors : List (UnitigColorMap n)) (start_vec : List Bool) :
    Except Fault (Traceback × ExtendedCCDBG n × Setcover) :=
  match neighborLoop g visit max_paths ucm neighbors
      (sortNeighbors g st1.data neighbors start_vec []) Traceback.empty
      { start_vec := start_vec, graph := st1, sc := sc } with
  | .ok (tb1, w) => .ok (finishInit ucm tb1 w.graph w.sc)
  | .error e => .error e

/-- `ExtendedCCDBG::DFS_Init(ucm, sc, max_paths)` with the fuel of the recursion explicit.
Returns the bundle and the new values of the graph members and of `sc`. -/
def DFS_InitFuel {n : Nat} (g : CCDBG n) (fuel : Nat) (ucm : UnitigColorMap n) (sc : Setcover)
    (max_paths : Nat) (st : ExtendedCCDBG n) :
    Except Fault (Traceback × ExtendedCCDBG n × Setcover) :=
  let st0 : ExtendedCCDBG n := { st with recursion_priority_counter := initialCounter max_paths }
  let tb := Traceback.empty
  if (st0.data ucm.unitig).is_visited_fw then .ok (tb, st0, sc)
  else
    let bw_neighbors := g.getPredecessors ucm
    let fw_neighbors := g.getSuccessors ucm
    if bw_neighbors.isEmpty && fw_neighbors.isEmpty then
      .ok ({ pathseqs := [[orientedSequence g ucm]], recursive_return_status := true }, st0,
           ((sc.add (st0.data ucm.unitig).ID).unify).clear)
    else if !bw_neighbors.isEmpty && !fw_neighbors.isEmpty then .ok (tb, st0, sc)
    else if yStemCheck g ucm then .ok (tb, st0, sc)
    else
      let direction := if bw_neighbors.isEmpty then Direction.GO_FORWARD else Direction.GO_BACKWARD
      if direction = .GO_BACKWARD then
        traverseFrom g (DFS_Visit g max_paths fuel) max_paths ucm sc
          (st0.modify ucm.unitig UnitigExtension.set_seen_bw) bw_neighbors (headVec g ucm)
      else
        traverseFrom g (DFS_Visit g max_paths fuel) max_paths ucm sc
          (st0.modify ucm.unitig UnitigExtension.set_seen_fw) fw_neighbors (tailVec g ucm)

/-- `ExtendedCCDBG::DFS_Init(ucm, sc, max_paths)`: every unitig has two marks, so the
recursion is at most `2 * n` deep. -/
def DFS_Init {n : Nat} (g : CCDBG n) (ucm : UnitigColorMap n) (sc : Setcover)
    (max_paths : Nat) (st : ExtendedCCDBG n) :
    Except Fault (Traceback × ExtendedCCDBG n × Setcover) :=
  DFS_InitFuel g (2 * n + 1) ucm sc max_paths st

/-- `ExtendedCCDBG::DFS_cleaner`: both marks of every unitig back to undiscovered. -/
def DFS_cleaner {n : Nat} (g : CCDBG n) (st : ExtendedCCDBG n) : ExtendedCCDBG n :=
  g.unitigs.foldl (fun s ucm =>
    (s.modify ucm.unitig UnitigExtension.set_undiscovered_fw).modify ucm.unitig
      UnitigExtension.set_undiscovered_bw) st

/-- The loop body of `ExtendedCCDBG::DFS_cleaner_seen_only` for one unitig. -/
def cleanSeen (ue : UnitigExtension) : UnitigExtension :=
  let ue1 := if ue.is_seen_fw then ue.set_undiscovered_fw else ue
  if ue1.is_seen_bw then ue1.set_undiscovered_bw else ue1

/-- `ExtendedCCDBG::DFS_cleaner_seen_only`: marks that are seen go back to undiscovered. -/
def DFS_cleaner_seen_only {n : Nat} (g : CCDBG n) (st : ExtendedCCDBG n) : ExtendedCCDBG n :=
  g.unitigs.foldl (fun s ucm => s.modify ucm.unitig cleanSeen) st

/-! ## The outer loop -/

/-- The local variables of `merge` that change in the loops, and the graph members. -/
structure MergeState (n : Nat) where
  graph : ExtendedCCDBG n
  sc : Setcover
  ofs : Ofstream
  sv_counter : Nat

/-- One round of the inner loop of `merge` over the unitigs: `DFS_Init`, `write` on
success (leaving `merge` with `false` when `write` fails), then the seen-only cleaner.
The Boolean is false when `merge` has returned false. -/
def mergeUnitigs {n : Nat} (g : CCDBG n) (opt : CCDBG_Build_opt) (max_paths : Nat) :
    List (UnitigColorMap n) → MergeState n → Except Fault (Bool × MergeState n)
  | [], m => .ok (true, m)
  | unitig :: rest, m =>
    match DFS_Init g unitig m.sc max_paths m.graph with
    | .error e => .error e
    | .ok (tb, graph1, sc1) =>
      if tb.recursive_return_status then
        match tb.write m.ofs opt.k m.sv_counter with
        | .error e => .error e
        | .ok (written, ofs1, counter1) =>
          if written then
            mergeUnitigs g opt max_paths rest
              { graph := DFS_cleaner_seen_only g graph1, sc := sc1, ofs := ofs1,
                sv_counter := counter1 }
          else .ok (false, { graph := graph1, sc := sc1, ofs := ofs1, sv_counter := counter1 })
      else
        mergeUnitigs g opt max_paths rest
          { m with graph := DFS_cleaner_seen_only g graph1, sc := sc1 }

/-- The outer loop `for (unsigned c = max_paths; c >= 1; --c)` of `merge`; the loop
variable `c` is only printed, every pass calls `DFS_Init` with `max_paths`. -/
def mergePasses {n : Nat} (g : CCDBG n) (opt : CCDBG_Build_opt) (max_paths : Nat) :
    Nat → MergeState n → Except Fault (Bool × MergeState n)
  | 0, m => .ok (true, m)
  | c + 1, m =>
    match mergeUnitigs g opt max_paths g.unitigs m with
    | .error e => .error e
    | .ok (true, m1) => mergePasses g opt max_paths c m1
    | .ok (false, m1) => .ok (false, m1)

/-- `ExtendedCCDBG::merge(opt, max_paths)`; `canOpen` says whether `contigs.fa` can be
opened.  Returns the return value, the records written to the file and the graph
members. -/
def merge {n : Nat} (g : CCDBG n) (opt : CCDBG_Build_opt) (max_paths : Nat) (canOpen : Bool)
    (st : ExtendedCCDBG n) : Except Fault (Bool × List FastaRecord × ExtendedCCDBG n) :=
  if st.id_init_status = false then .ok (false, [], st)
  else if canOpen = false then .ok (false, [], st)
  else
    match mergePasses g opt max_paths max_paths
        { graph := st, sc := Setcover.init, ofs := { is_open := true, records := [] },
          sv_counter := 0 } with
    | .error e => .error e
    | .ok (ret, m) => .ok (ret, m.ofs.records, m.graph)

/-! ## Identifiers -/

/-- Modelled from the spec: `UnitigExtension.h` is not among the sources; `setID` stores
the id. -/
def UnitigExtension.setID (ue : UnitigExtension) (i : Nat) : UnitigExtension :=
  { ue with ID := i }

/-- The loop of `ExtendedCCDBG::init_ids` with its running index `i`. -/
def init_idsLoop {n : Nat} : List (UnitigColorMap n) → Nat → ExtendedCCDBG n → ExtendedCCDBG n
  | [], _, st => st
  | unitig :: rest, i, st =>
    init_idsLoop rest (i + 1) (st.modify unitig.unitig (fun ue => ue.setID i))

/-- `ExtendedCCDBG::init_ids`: ids in iteration order, starting at 1. -/
def init_ids {n : Nat} (g : CCDBG n) (st : ExtendedCCDBG n) : ExtendedCCDBG n :=
  { init_idsLoop g.unitigs 1 st with id_init_status := true }

/-- `ExtendedCCDBG::is_id_init` (ColoredDeBruijnGraph.h, line 83): returns
`id_init_status`. -/
def is_id_init {n : Nat} (st : ExtendedCCDBG n) : Bool :=
  st.id_init_status

/-- The members right after construction: ids not initialised, every mark undiscovered. -/
def constructed (n : Nat) : ExtendedCCDBG n :=
  { data := fun _ => { ID := 0, dfs_fw := .undiscovered, dfs_bw := .undiscovered },
    id_init_status := false, recursion_priority_counter := 0 }

/-- The members after `init_ids` on a graph iterated in the order of its unitig indices:
unitig `i` has id `i+1`, every mark is undiscovered. -/
def numbered (n : Nat) : ExtendedCCDBG n :=
  { data := fun i => { ID := i.val + 1, dfs_fw := .undiscovered, dfs_bw := .undiscovered },
    id_init_status := true, recursion_priority_counter := 0 }

/-! ## Connected components -/

/-- Modelled from the spec: `seqan::UnionFind` is a library type outside the sources ("a
parent index per unitig id"); here every element below `size` stores the index of the
representative (root) of its set, which is the tree that `findSet` with path compression
leaves behind. -/
structure UnionFind where
  size : Nat
  values : Nat → Nat

/-- Modelled from the spec: a default-constructed union-find holds no element. -/
def UnionFind.empty : UnionFind :=
  { size := 0, values := fun q => q }

/-- Modelled from the spec: `resize(UF, size)` keeps the elements there are and adds the
new ones as sets of their own. -/
def UnionFind.resize (uf : UnionFind) (size : Nat) : UnionFind :=
  { size := size, values := fun q => if q < uf.size then uf.values q else q }

/-- Modelled from the spec: `findSet(UF, q)` is the representative of the set of `q`. -/
def findSet (uf : UnionFind) (q : Nat) : Nat :=
  uf.values q

/-- Modelled from the spec: `joinSets(UF, l, r)` on two representatives unions their sets;
the members of the set of `r` get the representative `l`. -/
def joinSets (uf : UnionFind) (l r : Nat) : UnionFind :=
  { uf with values := fun q => if uf.values q = r then l else uf.values q }

/-- One of the two inner loops of `ExtendedCCDBG::connected_components`: for every
neighbor, `joinSets(UF, findSet(UF, unitig_id), findSet(UF, neighbor_id))`. -/
def joinNeighbors {n : Nat} (data : Fin n → UnitigExtension) (unitig_id : Nat)
    (neighbors : List (UnitigColorMap n)) (uf : UnionFind) : UnionFind :=
  neighbors.foldl (fun uf it =>
    joinSets uf (findSet uf unitig_id) (findSet uf (data it.unitig).ID)) uf

/-- `ExtendedCCDBG::connected_components`, the member `UF` passed explicitly: the
union-find is resized to the number of unitigs plus one, then every unitig is joined with
its predecessors and with its successors.  Returns the return value and `UF`. -/
def connected_components {n : Nat} (g : CCDBG n) (st : ExtendedCCDBG n) (uf : UnionFind) :
    Bool × UnionFind :=
  (true,
   g.unitigs.foldl (fun uf unitig =>
     let unitig_id := (st.data unitig.unitig).ID
     joinNeighbors st.data unitig_id (g.getSuccessors unitig)
       (joinNeighbors st.data unitig_id (g.getPredecessors unitig) uf)) (uf.resize (n + 1)))

/-- `ExtendedCCDBG::count_connected_components`, the member `UF` passed explicitly: the
size of the set of the representatives of all unitig ids. -/
def count_connected_components {n : Nat} (g : CCDBG n) (st : ExtendedCCDBG n)
    (uf : UnionFind) : Nat :=
  ((g.unitigs.map (fun unitig => findSet uf (st.data unitig.unitig).ID)).dedup).length

/-! ## Observations and example graphs -/

/-- The records that a call of `merge` wrote, when it returned. -/
def writtenRecords {n : Nat} (r : Except Fault (Bool × List FastaRecord × ExtendedCCDBG n)) :
    Option (List FastaRecord) :=
  match r with
  | .ok (_, recs, _) => some recs
  | .error _ => none

/-- The sequences that a call of `merge` wrote, when it returned. -/
def writtenSequences {n : Nat} (r : Except Fault (Bool × List FastaRecord × ExtendedCCDBG n)) :
    Option (List Sequence) :=
  (writtenRecords r).map (fun recs => recs.map (fun r => r.seq))

/-- The bundle that a call of `DFS_Init` returned. -/
def returnedBundle {n : Nat} (r : Except Fault (Traceback × ExtendedCCDBG n × Setcover)) :
    Option Traceback :=
  match r with
  | .ok (tb, _, _) => some tb
  | .error _ => none

/-- The number of paths in the bundle that a call of `DFS_Init` returned. -/
def bundleSize {n : Nat} (r : Except Fault (Traceback × ExtendedCCDBG n × Setcover)) :
    Option Nat :=
  (returnedBundle r).map (fun tb => tb.pathseqs.length)

/-- A graph in which every link joins two forward strands: `edges` lists the links
`u -> v`; the handle of the reverse strand sees the mirrored neighborhood. -/
def forwardGraph {n : Nat} (order : List (Fin n)) (edges : List (Fin n × Fin n))
    (seqs : Fin n → Sequence) (head tail : Fin n → Nat → Bool) (nb_colors : Nat) : CCDBG n where
  unitigs := order.map (fun i => { unitig := i, strand := true })
  getPredecessors := fun h =>
    if h.strand then
      (edges.filter (fun e => e.2 = h.unitig)).map (fun e => { unitig := e.1, strand := true })
    else (edges.filter (fun e => e.1 = h.unitig)).map (fun e => { unitig := e.2, strand := false })
  getSuccessors := fun h =>
    if h.strand then
      (edges.filter (fun e => e.1 = h.unitig)).map (fun e => { unitig := e.2, strand := true })
    else (edges.filter (fun e => e.2 = h.unitig)).map (fun e => { unitig := e.1, strand := false })
  referenceUnitigToString := seqs
  headColor := head
  tailColor := tail
  getNbColors := nb_colors

/-- A full run on a freshly constructed graph: `init_ids`, then `merge` with an output
file that opens; the sequences of the records written. -/
def runMerge {n : Nat} (g : CCDBG n) (k max_paths : Nat) : Option (List Sequence) :=
  writtenSequences
    (merge g { k := k, verbose := false } max_paths true (init_ids g (constructed n)))

/-- The contig that `cutconcat` builds for the sink-first path through the forward
handles of the unitigs `path`. -/
def pathContig {n : Nat} (g : CCDBG n) (k : Nat) (path : List (Fin n)) : Option Sequence :=
  match cutconcat [] (path.map (fun i => orientedSequence g { unitig := i, strand := true })) k
  with
  | .ok s => some s
  | .error _ => none

/-- Scenario 1 of the spec: the single unitig `ACGTACGTAC`, one color. -/
def singletonGraph : CCDBG 1 :=
  forwardGraph [0] [] (fun _ => [.A, .C, .G, .T, .A, .C, .G, .T, .A, .C])
    (fun _ c => c == 0) (fun _ c => c == 0) 1

/-- A single unitig whose head k-mer has color 0 only and whose tail k-mer has color 1
only, of two colors. -/
def splitColorSingleton : CCDBG 1 :=
  forwardGraph [0] [] (fun _ => [.A, .C, .G, .T, .A, .C, .G, .T, .A, .C])
    (fun _ c => c == 0) (fun _ c => c == 1) 2

/-- Sequences of the linear chain of scenario 2. -/
def chainSeq : Fin 3 → Sequence
  | 0 => [.A, .A, .A, .C, .C]
  | 1 => [.A, .C, .C, .G, .G]
  | 2 => [.C, .G, .G, .T, .T]

/-- Scenario 2 of the spec: the chain `u1 -> u2 -> u3` (indices 0, 1, 2), one color
carried by every k-mer. -/
def chainGraph (order : List (Fin 3)) : CCDBG 3 :=
  forwardGraph order [(0, 1), (1, 2)] chainSeq (fun _ c => c == 0) (fun _ c => c == 0) 1

/-- Sequences used for the color-prune chain and the stem of the Y-split; consecutive
unitigs overlap in `k-1 = 2` characters. -/
def overlapSeq : Fin 4 → Sequence
  | 0 => [.A, .A, .A, .C, .C]
  | 1 => [.C, .C, .G, .T, .T]
  | 2 => [.T, .T, .A, .A, .A]
  | 3 => [.T, .T, .C, .C, .C]

/-- Colors of scenario 4: `u1` has colors 0 and 1, `u2` color 0, `u3` color 1. -/
def pruneColor : Fin 3 → Nat → Bool
  | 0, c => c == 0 || c == 1
  | 1, c => c == 0
  | 2, c => c == 1

/-- Scenario 4 of the spec: the chain `u1 -> u2 -> u3` (indices 0, 1, 2) with two
colors. -/
def pruneGraph (order : List (Fin 3)) : CCDBG 3 :=
  forwardGraph order [(0, 1), (1, 2)] (fun i => overlapSeq (Fin.castSucc i)) pruneColor
    pruneColor 2

/-- Colors of scenario 3: `u0` and `u1` have colors 0 and 1, `u2` color 0, `u3` color 1. -/
def ySplitColor : Fin 4 → Nat → Bool
  | 0, c => c == 0 || c == 1
  | 1, c => c == 0 || c == 1
  | 2, c => c == 0
  | 3, c => c == 1

/-- Scenario 3 of the spec: the Y-split `u0 -> u1`, `u1 -> u2`, `u1 -> u3`. -/
def ySplitGraph (order : List (Fin 4)) : CCDBG 4 :=
  forwardGraph order [(0, 1), (1, 2), (1, 3)] overlapSeq ySplitColor ySplitColor 2

/-- A bush of 291 unitigs, all met on the forward strand: `u0 -> u1`, `u1 -> u` for each
of the 17 unitigs `u2 .. u18`, and each of these has 16 successors of its own among the 272
unitigs `u19 .. u290`, which end the graph; one color carried by every k-mer. -/
def bush : CCDBG 291 where
  unitigs := (List.finRange 291).map (fun i => { unitig := i, strand := true })
  getPredecessors := fun h =>
    if h.unitig.val = 0 then []
    else if h.unitig.val = 1 then [{ unitig := 0, strand := true }]
    else if h.unitig.val < 19 then [{ unitig := 1, strand := true }]
    else [{ unitig := Fin.ofNat ((h.unitig.val - 19) / 16 + 2), strand := true }]
  getSuccessors := fun h =>
    if h.unitig.val = 0 then [{ unitig := 1, strand := true }]
    else if h.unitig.val = 1 then
      (List.range 17).map (fun j => { unitig := Fin.ofNat (j + 2), strand := true })
    else if h.unitig.val < 19 then
      (List.range 16).map (fun t =>
        { unitig := Fin.ofNat ((h.unitig.val - 2) * 16 + t + 19), strand := true })
    else []
  referenceUnitigToString := fun _ => [.A]
  headColor := fun _ c => c == 0
  tailColor := fun _ c => c == 0
  getNbColors := 1

/-- The 11-mer at the root of the quaternary tree. -/
def quadRoot : Sequence := [.A, .T, .T, .A, .T, .G, .C, .A, .G, .A, .A]

/-- The base that leads to the child number `j` of a unitig of the quaternary tree. -/
def quadBase : Nat → Nucleotide
  | 0 => .A
  | 1 => .C
  | 2 => .G
  | _ => .T

/-- The 11-mer of the unitig `i` of the quaternary tree: that of its parent `(i - 1) / 4`
without its first base, followed by the base of the child number `(i - 1) % 4`. -/
def quadSeqFuel : Nat → Nat → Sequence
  | 0, _ => quadRoot
  | fuel + 1, i =>
    if i = 0 then quadRoot
    else (quadSeqFuel fuel ((i - 1) / 4)).drop 1 ++ [quadBase ((i - 1) % 4)]

/-- The parent of a unitig of the quaternary tree, on the strand `s`. -/
def quadParent (i : Fin 345) (s : Bool) : List (UnitigColorMap 345) :=
  if i.val = 0 then [] else [{ unitig := Fin.ofNat ((i.val - 1) / 4), strand := s }]

/-- The four children `4 i + 1 .. 4 i + 4` of a unitig of the quaternary tree, on the strand
`s`; the unitigs from `u86` on have none. -/
def quadChildren (i : Fin 345) (s : Bool) : List (UnitigColorMap 345) :=
  if 4 * i.val + 4 < 345 then
    (List.range 4).map (fun j => { unitig := Fin.ofNat (4 * i.val + 1 + j), strand := s })
  else []

/-- A quaternary tree of 345 unitigs, each a single 11-mer (`k = 11`): `u0` is the root and
every unitig `u0 .. u85` has the four successors that extend its 11-mer by one base, so that
the 256 unitigs `u85 .. u340` are four links from the root and `u341 .. u344` are the
successors of `u85`; the 259 unitigs `u86 .. u344` end the graph. The handle of the reverse
strand sees the mirrored neighborhood. One color is carried by every k-mer. -/
def quadTree : CCDBG 345 where
  unitigs := (List.finRange 345).map (fun i => { unitig := i, strand := true })
  getPredecessors := fun h =>
    if h.strand then quadParent h.unitig true else quadChildren h.unitig false
  getSuccessors := fun h =>
    if h.strand then quadChildren h.unitig true else quadParent h.unitig false
  referenceUnitigToString := fun i => quadSeqFuel 5 i.val
  headColor := fun _ c => c == 0
  tailColor := fun _ c => c == 0
  getNbColors := 1

/-- The contigs of a list of sink-first paths, in order. -/
def pathContigs {n : Nat} (g : CCDBG n) (k : Nat) : List (List (Fin n)) → Option (List Sequence)
  | [] => some []
  | p :: ps =>
    match pathContig g k p, pathContigs g k ps with
    | some c, some cs => some (c :: cs)
    | _, _ => none

/-- A pure cycle `u1 -> u2 -> u3 -> u1` (indices 0, 1, 2), one color carried by every
k-mer. -/
def cycleGraph : CCDBG 3 :=
  forwardGraph [0, 1, 2] [(0, 1), (1, 2), (2, 0)] chainSeq (fun _ c => c == 0)
    (fun _ c => c == 0) 1

/-- Two components: the chain `u1 -> u2` and the single unitig `u3`. -/
def twoComponents : CCDBG 3 :=
  forwardGraph [0, 1, 2] [(0, 1)] chainSeq (fun _ c => c == 0) (fun _ c => c == 0) 1

/-- The Y graph `u1 -> u2`, `u1 -> u3` (indices 0, 1, 2), one color carried by every
k-mer. -/
def yGraph (order : List (Fin 3)) : CCDBG 3 :=
  forwardGraph order [(0, 1), (0, 2)] chainSeq (fun _ c => c == 0) (fun _ c => c == 0) 1

/-! ## Notions used in the statements and proofs -/

/-- The bitwise intersection, over the unitigs of `walk`, of head-k-mer colors AND
tail-k-mer colors: one bit per color id. -/
def commonColors {n : Nat} (g : CCDBG n) (walk : List (UnitigColorMap n)) : List Bool :=
  (List.range g.getNbColors).map (fun c =>
    walk.all (fun u => g.headColor u.unitig c && g.tailColor u.unitig c))

/-- Contribution of one unitig to the count of undiscovered marks. -/
def undiscoveredAt (ue : UnitigExtension) : Nat :=
  (if ue.dfs_fw = .undiscovered then 1 else 0) + (if ue.dfs_bw = .undiscovered then 1 else 0)

/-- The number of pairs (unitig, direction) whose mark is undiscovered. -/
def undiscoveredMarks {n : Nat} (st : ExtendedCCDBG n) : Nat :=
  Finset.sum Finset.univ (fun i : Fin n => undiscoveredAt (st.data i))

/-- What the recursion needs of `visit` to return: called on an undiscovered mark with
at most `fuel` undiscovered marks left, it returns and leaves fewer of them. -/
def VisitReturns {n : Nat} (fuel : Nat) (visit : Visit n) : Prop :=
  (∀ u w, undiscoveredMarks w.graph ≤ fuel → (w.graph.data u.unitig).dfs_fw = .undiscovered →
      ∃ tb w2, visit u .GO_BACKWARD w = .ok (tb, w2)
        ∧ undiscoveredMarks w2.graph < undiscoveredMarks w.graph)
  ∧ (∀ u w, undiscoveredMarks w.graph ≤ fuel → (w.graph.data u.unitig).dfs_bw = .undiscovered →
      ∃ tb w2, visit u .GO_FORWARD w = .ok (tb, w2)
        ∧ undiscoveredMarks w2.graph < undiscoveredMarks w.graph)

/-- Color `c` is carried by the head k-mer and by the tail k-mer of every unitig of
`walk`. -/
def colorOnAll {n : Nat} (g : CCDBG n) (c : Nat) (walk : List (UnitigColorMap n)) : Prop :=
  ∀ u ∈ walk, g.headColor u.unitig c = true ∧ g.tailColor u.unitig c = true

/-- The path `p` lists the oriented sequences of a walk all of whose unitigs carry, at
head and tail, some color that is set in `sv`. -/
def SupportedPath {n : Nat} (g : CCDBG n) (sv : List Bool) (p : VSequences) : Prop :=
  ∃ walk : List (UnitigColorMap n), p = walk.map (orientedSequence g)
    ∧ ∃ c, sv.getD c false = true ∧ colorOnAll g c walk

/-- The path `p` lists the oriented sequences of a walk followed by `ucm`; some color set
in `sv` is carried, at head and tail, by every unitig of the walk before `ucm`. -/
def SupportedVia {n : Nat} (g : CCDBG n) (sv : List Bool) (ucm : UnitigColorMap n)
    (p : VSequences) : Prop :=
  ∃ walk : List (UnitigColorMap n), p = (walk ++ [ucm]).map (orientedSequence g)
    ∧ ∃ c, sv.getD c false = true ∧ colorOnAll g c walk

/-- Partial correctness of a visit: ids and `id_init_status` are untouched, no bit of
`start_vec` gets set, and every returned path is supported by the incoming `start_vec`. -/
def VisitKeeps {n : Nat} (g : CCDBG n) (visit : Visit n) : Prop :=
  ∀ u d w tb w2, visit u d w = .ok (tb, w2) →
    (∀ i, (w2.graph.data i).ID = (w.graph.data i).ID)
    ∧ w2.graph.id_init_status = w.graph.id_init_status
    ∧ (∀ c, w2.start_vec.getD c false = true → w.start_vec.getD c false = true)
    ∧ (∀ p ∈ tb.pathseqs, SupportedPath g w.start_vec p)

/-- Two calls of `merge` on the same graph, the second starting from the graph members the
first one left behind after `between` was applied to them; the records written by the
first and by the second call. -/
def mergeTwice {n : Nat} (g : CCDBG n) (opt : CCDBG_Build_opt) (max_paths : Nat)
    (canOpen : Bool) (between : ExtendedCCDBG n → ExtendedCCDBG n) (st : ExtendedCCDBG n) :
    Except Fault (List FastaRecord × List FastaRecord) :=
  match merge g opt max_paths canOpen st with
  | .error e => .error e
  | .ok (_, first, st2) =>
    match merge g opt max_paths canOpen (between st2) with
    | .error e => .error e
    | .ok (_, second, _) => .ok (first, second)

/-- The ids and `id_init_status` of two values of the graph members agree. -/
def SameIds {n : Nat} (a b : ExtendedCCDBG n) : Prop :=
  (∀ i, (a.data i).ID = (b.data i).ID) ∧ a.id_init_status = b.id_init_status

/-- The two marks of every unitig, in the order of the unitig indices. -/
def marksOf {n : Nat} (st : ExtendedCCDBG n) : List (Mark × Mark) :=
  (List.finRange n).map (fun i => ((st.data i).dfs_fw, (st.data i).dfs_bw))

/-- What one round over the unitigs left behind, apart from the set cover and the static
counter: the return flag, the marks, the stream and the contig counter. -/
def passView {n : Nat} (r : Except Fault (Bool × MergeState n)) :
    Option (Bool × List (Mark × Mark) × Ofstream × Nat) :=
  match r with
  | .ok (b, m) => some (b, marksOf m.graph, m.ofs, m.sv_counter)
  | .error _ => none

/-- Two values of `max_paths` with a relation between the counters of two runs under
which the loop guard `counter < max_paths` decides alike and which an increment at a
sink preserves. -/
structure GuardSim (mp1 mp2 : Nat) (Rc : Nat → Nat → Prop) : Prop where
  guard : ∀ c1 c2, Rc c1 c2 → (c1 < mp1 ↔ c2 < mp2)
  step : ∀ c1 c2, Rc c1 c2 → c1 < mp1 → Rc ((c1 + 1) % 256) ((c2 + 1) % 256)

/-- Two walks that agree except for counters related by `Rc`. -/
def WalkSim {n : Nat} (Rc : Nat → Nat → Prop) (w1 w2 : Walk n) : Prop :=
  w1.start_vec = w2.start_vec ∧ w1.graph.data = w2.graph.data
    ∧ w1.graph.id_init_status = w2.graph.id_init_status ∧ w1.sc = w2.sc
    ∧ Rc w1.graph.recursion_priority_counter w2.graph.recursion_priority_counter

/-- Two results of a visit that agree except for counters related by `Rc`. -/
def ResultSim {n : Nat} (Rc : Nat → Nat → Prop)
    (r1 r2 : Except Fault (Traceback × Walk n)) : Prop :=
  match r1, r2 with
  | .ok (tb1, w1), .ok (tb2, w2) => tb1 = tb2 ∧ WalkSim Rc w1 w2
  | .error e1, .error e2 => e1 = e2
  | _, _ => False

/-- Two visits that give related results on related walks whose guard holds. -/
def VisitSim {n : Nat} (mp1 : Nat) (Rc : Nat → Nat → Prop) (v1 v2 : Visit n) : Prop :=
  ∀ u d w1 w2, WalkSim Rc w1 w2 → w1.graph.recursion_priority_counter < mp1 →
    ResultSim Rc (v1 u d w1) (v2 u d w2)

/-- Two results of `DFS_Init` that agree except for the counter. -/
def InitSim {n : Nat} (r1 r2 : Except Fault (Traceback × ExtendedCCDBG n × Setcover)) : Prop :=
  match r1, r2 with
  | .ok (tb1, st1, sc1), .ok (tb2, st2, sc2) =>
    tb1 = tb2 ∧ st1.data = st2.data ∧ st1.id_init_status = st2.id_init_status ∧ sc1 = sc2
  | .error e1, .error e2 => e1 = e2
  | _, _ => False

/-- Two states of `merge` that agree except for the static counter. -/
def MergeSim {n : Nat} (m1 m2 : MergeState n) : Prop :=
  m1.graph.data = m2.graph.data ∧ m1.graph.id_init_status = m2.graph.id_init_status
    ∧ m1.sc = m2.sc ∧ m1.ofs = m2.ofs ∧ m1.sv_counter = m2.sv_counter

/-- Two results of a round of `merge` that agree except for the static counter. -/
def PassSim {n : Nat} (r1 r2 : Except Fault (Bool × MergeState n)) : Prop :=
  match r1, r2 with
  | .ok (b1, m1), .ok (b2, m2) => b1 = b2 ∧ MergeSim m1 m2
  | .error e1, .error e2 => e1 = e2
  | _, _ => False

/-- The records in the stream after the passes of `merge`, when they returned. -/
def passRecords {n : Nat} (r : Except Fault (Bool × MergeState n)) : Option (List FastaRecord) :=
  match r with
  | .ok (_, m) => some m.ofs.records
  | .error _ => none

/-- The unitig data of the chain of scenario 2 after the first contig was written: ids
1, 2, 3, the first unitig visited in both directions. -/
def chainAfter : Fin 3 → UnitigExtension :=
  fun i => if i = 0 then { ID := 1, dfs_fw := .visited, dfs_bw := .visited }
    else { ID := i.val + 1, dfs_fw := .undiscovered, dfs_bw := .undiscovered }

/-- The unitig data after construction and `init_ids` when `order` is the iteration order:
the id of a unitig is its position in the order counted from 1, every mark is
undiscovered. -/
def orderData {n : Nat} (order : List (Fin n)) : Fin n → UnitigExtension :=
  fun i => { ID := order.indexOf i + 1, dfs_fw := .undiscovered, dfs_bw := .undiscovered }

/-- The contract of the Bifrost iterator behind `for (auto &unitig : *this)`: it meets every
unitig of the graph, and each of them once. -/
def IteratesOnce {n : Nat} (g : CCDBG n) : Prop :=
  (g.unitigs.map (fun u => u.unitig)).Nodup ∧ ∀ i : Fin n, ∃ u ∈ g.unitigs, u.unitig = i

/-- The id that the loop of `init_ids`, started with index `i`, writes last to unitig `j`,
when it writes to it at all. -/
def lastId {n : Nat} : List (UnitigColorMap n) → Nat → Fin n → Option Nat
  | [], _, _ => none
  | unitig :: rest, i, j =>
    match lastId rest (i + 1) j with
    | some v => some v
    | none => if j = unitig.unitig then some i else none

/-- The headers of the records of a stream count up from `contig_1` without gap (numbers in
the 64 bits of the counter), and the counter stands at the number of records. -/
def NumberedFromOne {n : Nat} (m : MergeState n) : Prop :=
  m.sv_counter = m.ofs.records.length % 2 ^ 64
    ∧ ∀ (i : Nat) (hi : i < m.ofs.records.length),
        (m.ofs.records.get ⟨i, hi⟩).contig = (i + 1) % 2 ^ 64

/-- Unitig `j` is among the predecessors or successors of unitig `i`, as reported for a
handle under which the iteration meets `i`. -/
def Linked {n : Nat} (g : CCDBG n) (i j : Fin n) : Prop :=
  ∃ u ∈ g.unitigs, u.unitig = i
    ∧ ∃ v ∈ g.getPredecessors u ++ g.getSuccessors u, v.unitig = j

/-- Whatever shares a representative in `a` shares one in `b`. -/
def UnionFind.Coarser (a b : UnionFind) : Prop :=
  ∀ x y, findSet a x = findSet a y → findSet b x = findSet b y

/-- Unitigs whose ids share a representative are related by `E`. -/
def UnionFind.Sound {n : Nat} (ids : Fin n → Nat) (E : Fin n → Fin n → Prop)
    (uf : UnionFind) : Prop :=
  ∀ i j, findSet uf (ids i) = findSet uf (ids j) → E i j

/-- A Y graph of three unitigs as the handles report it: under each of its handles the stem
`s` has no neighbor on one side and, on the other side, one handle of `a1` and one of `a2`;
under each of its handles an arm has the stem as its only neighbor; links are reciprocal
(`y` succeeds `x` exactly when `x` precedes `y`); the iteration meets every unitig once. -/
structure YGraph (g : CCDBG 3) (s a1 a2 : Fin 3) : Prop where
  distinct : s ≠ a1 ∧ s ≠ a2 ∧ a1 ≠ a2
  iteration : (g.unitigs.map (fun u => u.unitig)).Perm [s, a1, a2]
  reciprocal : ∀ x y : UnitigColorMap 3, y ∈ g.getSuccessors x ↔ x ∈ g.getPredecessors y
  stem : ∀ x : UnitigColorMap 3, x.unitig = s →
    (g.getPredecessors x = [] ∨ g.getSuccessors x = [])
      ∧ ((g.getPredecessors x ++ g.getSuccessors x).map (fun u => u.unitig)).Perm [a1, a2]
  arm : ∀ x : UnitigColorMap 3, x.unitig = a1 ∨ x.unitig = a2 →
    (g.getPredecessors x ++ g.getSuccessors x).map (fun u => u.unitig) = [s]

/-- All head and tail k-mers of the graph carry the same color set, and it is not empty. -/
def SameColors {n : Nat} (g : CCDBG n) : Prop :=
  (∀ (i j : Fin n) (c : Nat), c < g.getNbColors →
      g.headColor i c = g.headColor j c ∧ g.tailColor i c = g.headColor j c)
    ∧ ∃ (i : Fin n) (c : Nat), c < g.getNbColors ∧ g.headColor i c = true

/-- The contig that `cutconcat` builds for the path from the first neighbor `h` of `a`
(the sink) back to the start `a`: `a` whole, then `h` without its first `k-1` characters. -/
def hopContig {n : Nat} (g : CCDBG n) (k : Nat) (a : UnitigColorMap n) : Sequence :=
  match g.getPredecessors a ++ g.getSuccessors a with
  | h :: _ => orientedSequence g a ++ (orientedSequence g h).drop (size_pred k)
  | [] => orientedSequence g a

/-- The marks of a Y graph between two starts of `merge`: the stem is undiscovered in both
directions, and `d1`, `d2` tell whether the arms are visited. -/
def YMarks (s a1 a2 : Fin 3) (st : ExtendedCCDBG 3) (d1 d2 : Bool) : Prop :=
  (st.data s).dfs_fw = .undiscovered ∧ (st.data s).dfs_bw = .undiscovered
    ∧ ((st.data a1).dfs_fw = .visited ↔ d1 = true)
    ∧ ((st.data a2).dfs_fw = .visited ↔ d2 = true)

/-- The neighbors on the side a visit entered with `src_direction` walks on. -/
def sideOf {n : Nat} (g : CCDBG n) (src_direction : Direction) (ucm : UnitigColorMap n) :
    List (UnitigColorMap n) :=
  if src_direction = .GO_BACKWARD then g.getSuccessors ucm else g.getPredecessors ucm

/-- The setter a visit entered with `src_direction` applies to its unitig on entry. -/
def seenSetter (src_direction : Direction) : UnitigExtension → UnitigExtension :=
  if src_direction = .GO_BACKWARD then UnitigExtension.set_seen_fw
  else UnitigExtension.set_seen_bw

/-- The mark a visit entered with `src_direction` sets on entry. -/
def markOf (src_direction : Direction) (ue : UnitigExtension) : Mark :=
  if src_direction = .GO_BACKWARD then ue.dfs_fw else ue.dfs_bw

/-- The walk state of a visit of `ucm` after its first two statements: `start_vec` updated
and the mark of the traversal direction set to seen. -/
def entered {n : Nat} (g : CCDBG n) (ucm : UnitigColorMap n) (src_direction : Direction)
    (w : Walk n) : Walk n :=
  { w with start_vec := update_start_vec g w.start_vec ucm
           graph := w.graph.modify ucm.unitig (seenSetter src_direction) }

/-- The bundle and the counter while at most one sink can be reached: either no path yet
and the counter one below `max_paths`, or at most one path and the counter at
`max_paths`. -/
def OneSink {n : Nat} (max_paths : Nat) (tb : Traceback) (w : Walk n) : Prop :=
  (w.graph.recursion_priority_counter + 1 = max_paths ∧ tb.pathseqs = [])
    ∨ (w.graph.recursion_priority_counter = max_paths ∧ tb.pathseqs.length ≤ 1)

/-- The order `undiscovered < seen < visited` of the traversal marks. -/
def Mark.rank : Mark → Nat
  | .undiscovered => 0
  | .seen => 1
  | .visited => 2

/-- No mark of `b` stands lower than the same mark of `a`. -/
def MarksLe {n : Nat} (a b : ExtendedCCDBG n) : Prop :=
  ∀ i, (a.data i).dfs_fw.rank ≤ (b.data i).dfs_fw.rank
    ∧ (a.data i).dfs_bw.rank ≤ (b.data i).dfs_bw.rank

/-- Every visited mark of `b` is a visited mark of `a`. -/
def NoNewVisited {n : Nat} (a b : ExtendedCCDBG n) : Prop :=
  ∀ i, ((b.data i).dfs_fw = .visited → (a.data i).dfs_fw = .visited)
    ∧ ((b.data i).dfs_bw = .visited → (a.data i).dfs_bw = .visited)

/-- The marks as the program leaves them between two calls: a unitig is visited in one
direction exactly when it is visited in the other. -/
def VisitedInPairs {n : Nat} (st : ExtendedCCDBG n) : Prop :=
  ∀ i, (st.data i).dfs_fw = .visited ↔ (st.data i).dfs_bw = .visited

/-- The walks behind the paths that a visit of `u` entered with `src_direction = d`
returns, listed sink-first: the visit ends in `u` when `u` has no neighbor on the side
it walks on, or it goes on into a neighbor `v` of that side, which is entered with the
direction that `whereFrom` gives, and `u` is appended to the walk found there. -/
inductive WalkTo {n : Nat} (g : CCDBG n) :
    UnitigColorMap n → Direction → List (UnitigColorMap n) → Prop
  | sink (u : UnitigColorMap n) (d : Direction) : sideOf g d u = [] → WalkTo g u d [u]
  | step (u : UnitigColorMap n) (d : Direction) (v : UnitigColorMap n)
      (q : List (UnitigColorMap n)) :
      v ∈ sideOf g d u → WalkTo g v (whereFrom g v u) q → WalkTo g u d (q ++ [u])

/-- The handle `x` has exactly one neighbor, and that neighbor has exactly one: `x` is an
end of a component of two unitigs joined by a single edge. -/
def IsolatedEnd {n : Nat} (g : CCDBG n) (x : UnitigColorMap n) : Prop :=
  ∃ y, g.getPredecessors x ++ g.getSuccessors x = [y]
    ∧ (g.getPredecessors y).length + (g.getSuccessors y).length = 1

/-- A graph of two unitigs joined by the single edge `u1 -> u2`, with three colors: the
head of `u1` has color 0, its tail color 1, both k-mers of `u2` have colors 1 and 2. -/
def pairGraph (order : List (Fin 2)) : CCDBG 2 :=
  forwardGraph order [(0, 1)] (fun i => chainSeq (Fin.castSucc i))
    (fun i c => if i = 0 then c == 0 else c == 1 || c == 2)
    (fun i c => if i = 0 then c == 1 else c == 1 || c == 2) 3

/-- The current-path stack of the set cover after a visit, when it returned. -/
def stackAfter {n : Nat} (r : Except Fault (Traceback × Walk n)) : Option (List Nat) :=
  match r with
  | .ok (_, w) => some w.sc.current_path
  | .error _ => none

/-- The outer loop as the specification words it ("for `c = max_paths` down to 1: for each
unitig `u`: `bundle := dfs_init(u, c)`; if `bundle.success`, `write(bundle, ...)`; then run
the seen-only cleaner"): the round with loop value `c` hands `c` to `DFS_Init`. -/
def specPasses {n : Nat} (g : CCDBG n) (opt : CCDBG_Build_opt) :
    Nat → MergeState n → Except Fault (Bool × MergeState n)
  | 0, m => .ok (true, m)
  | c + 1, m =>
    match mergeUnitigs g opt (c + 1) g.unitigs m with
    | .error e => .error e
    | .ok (true, m1) => specPasses g opt c m1
    | .ok (false, m1) => .ok (false, m1)

/-- The function `merge` with the outer loop as the specification words it. -/
def specMerge {n : Nat} (g : CCDBG n) (opt : CCDBG_Build_opt) (max_paths : Nat)
    (canOpen : Bool) (st : ExtendedCCDBG n) :
    Except Fault (Bool × List FastaRecord × ExtendedCCDBG n) :=
  if st.id_init_status = false then .ok (false, [], st)
  else if canOpen = false then .ok (false, [], st)
  else
    match specPasses g opt max_paths
        { graph := st, sc := Setcover.init, ofs := { is_open := true, records := [] },
          sv_counter := 0 } with
    | .error e => .error e
    | .ok (ret, m) => .ok (ret, m.ofs.records, m.graph)

/-- The state that a round over the unitigs left behind, `m0` when it failed. -/
def passState {n : Nat} (r : Except Fault (Bool × MergeState n)) (m0 : MergeState n) :
    MergeState n :=
  match r with
  | .ok (_, m) => m
  | .error _ => m0

/-- Sequences of the fork: `u0 -> u1`, `u0 -> u2`, `u2 -> u3`, `u2 -> u4` overlap in
`k-1 = 3` characters; with `k = 4` these five are the unitigs of a compacted de Bruijn
graph (the ten 4-mers and their reverse complements are distinct, and the only overlaps
are the four edges). -/
def forkSeq : Fin 5 → Sequence
  | 0 => [.A, .A, .A, .C, .C]
  | 1 => [.A, .C, .C, .G, .A]
  | 2 => [.A, .C, .C, .T, .T]
  | 3 => [.C, .T, .T, .A, .C]
  | 4 => [.C, .T, .T, .G, .G]

/-- Head colors of the fork, of four colors. -/
def forkHead : Fin 5 → Nat → Bool
  | 0, c => c == 1
  | 1, c => c == 1
  | 2, c => c == 0 || c == 2 || c == 3
  | 3, c => c == 0
  | 4, c => c == 0

/-- Tail colors of the fork. -/
def forkTail : Fin 5 → Nat → Bool
  | 0, c => c == 0 || c == 1
  | 1, c => c == 2
  | 2, c => c == 0
  | 3, c => c == 0
  | 4, c => c == 0

/-- The fork `u0 -> u1`, `u0 -> u2`, `u2 -> u3`, `u2 -> u4`, iterated in the order of the
indices; every k-mer has a color. From `u0` the neighbors `u1` and `u2` have the same rate,
so `u1`, the first of the neighbor list, is entered first; its head and tail k-mer share no
color, which empties the color vector, so that `u0` yields nothing as long as `u1` is not
visited; `u1` yields a contig of its own; `u3` and `u4` yield none. -/
def forkGraph : CCDBG 5 :=
  forwardGraph [0, 1, 2, 3, 4] [(0, 1), (0, 2), (2, 3), (2, 4)] forkSeq forkHead forkTail 4

/-- The unitig data of the fork once `u0` and `u1` are visited. -/
def forkAfter : Fin 5 → UnitigExtension :=
  fun i => if i.val ≤ 1 then { ID := i.val + 1, dfs_fw := .visited, dfs_bw := .visited }
    else { ID := i.val + 1, dfs_fw := .undiscovered, dfs_bw := .undiscovered }

/-- The number of calls of `DFS_Visit` made while one call of `DFS_case` runs; `count`
gives that number for the call that `DFS_case` makes itself, this call included. -/
def caseVisits {n : Nat} (g : CCDBG n)
    (count : UnitigColorMap n → Direction → Walk n → Nat) (ucm neighbor : UnitigColorMap n)
    (w : Walk n) : Nat :=
  if whereFrom g neighbor ucm = .GO_BACKWARD then
    if (w.graph.data neighbor.unitig).is_undiscovered_fw then
      count neighbor .GO_BACKWARD { w with sc := w.sc.add (w.graph.data ucm.unitig).ID }
    else 0
  else
    if (w.graph.data neighbor.unitig).is_undiscovered_bw then
      count neighbor .GO_FORWARD { w with sc := w.sc.add (w.graph.data ucm.unitig).ID }
    else 0

/-- The number of calls of `DFS_Visit` made while the loop over the ranked neighbors
runs: those of each `DFS_case` it calls, the walk being threaded as in `neighborLoop`. -/
def loopVisits {n : Nat} (g : CCDBG n) (visit : Visit n)
    (count : UnitigColorMap n → Direction → Walk n → Nat) (max_paths : Nat)
    (ucm : UnitigColorMap n) (neighbors : List (UnitigColorMap n)) :
    List (Nat × Nat) → Traceback → Walk n → Nat
  | [], _, _ => 0
  | it :: rest, tb, w =>
    if w.graph.recursion_priority_counter < max_paths then
      match neighbors.find? (fun neighbor => (w.graph.data neighbor.unitig).ID = it.2) with
      | some neighbor =>
        match DFS_case g visit ucm neighbor tb w with
        | .ok (tb1, w1) =>
          caseVisits g count ucm neighbor w
            + loopVisits g visit count max_paths ucm neighbors rest tb1 w1
        | .error _ => caseVisits g count ucm neighbor w
      | none => loopVisits g visit count max_paths ucm neighbors rest tb w
    else 0

/-- The number of calls of `DFS_Visit` made by one run of its body, this call included:
one for the call itself, and after neither the color prune nor the sink return those of
the loop over the ranked neighbors. -/
def bodyVisits {n : Nat} (g : CCDBG n) (max_paths : Nat) (visit : Visit n)
    (count : UnitigColorMap n → Direction → Walk n → Nat) :
    UnitigColorMap n → Direction → Walk n → Nat :=
  fun ucm src_direction w =>
    let traversal_direction :=
      if src_direction = .GO_BACKWARD then Direction.GO_FORWARD else Direction.GO_BACKWARD
    let start_vec := update_start_vec g w.start_vec ucm
    if traversal_direction = .GO_BACKWARD then
      let w1 : Walk n :=
        { w with start_vec := start_vec
                 graph := w.graph.modify ucm.unitig UnitigExtension.set_seen_bw }
      if is_empty_start_vec start_vec then 1
      else
        let bw_neighbors := g.getPredecessors ucm
        if bw_neighbors.isEmpty && !(w1.graph.data ucm.unitig).is_visited_bw then 1
        else
          1 + loopVisits g visit count max_paths ucm bw_neighbors
            (sortNeighbors g w1.graph.data bw_neighbors start_vec []) Traceback.empty w1
    else
      let w1 : Walk n :=
        { w with start_vec := start_vec
                 graph := w.graph.modify ucm.unitig UnitigExtension.set_seen_fw }
      if is_empty_start_vec start_vec then 1
      else
        let fw_neighbors := g.getSuccessors ucm
        if fw_neighbors.isEmpty && !(w1.graph.data ucm.unitig).is_visited_fw then 1
        else
          1 + loopVisits g visit count max_paths ucm fw_neighbors
            (sortNeighbors g w1.graph.data fw_neighbors start_vec []) Traceback.empty w1

/-- The number of calls of `DFS_Visit` made by one call of it with the given fuel, nested
and successive ones, this call included. -/
def visitCount {n : Nat} (g : CCDBG n) (max_paths : Nat) :
    Nat → UnitigColorMap n → Direction → Walk n → Nat
  | 0, _, _, _ => 1
  | fuel + 1, ucm, src_direction, w =>
    bodyVisits g max_paths (fun u d x => DFS_Visit g max_paths fuel u d x)
      (fun u d x => visitCount g max_paths fuel u d x) ucm src_direction w

/-- The number of calls of `DFS_Visit` made by one call of `DFS_Init`: none when it
returns before the traversal, else those of its loop over the ranked neighbors. -/
def initVisits {n : Nat} (g : CCDBG n) (ucm : UnitigColorMap n) (sc : Setcover)
    (max_paths : Nat) (st : ExtendedCCDBG n) : Nat :=
  let st0 : ExtendedCCDBG n := { st with recursion_priority_counter := initialCounter max_paths }
  if (st0.data ucm.unitig).is_visited_fw then 0
  else
    let bw_neighbors := g.getPredecessors ucm
    let fw_neighbors := g.getSuccessors ucm
    if bw_neighbors.isEmpty && fw_neighbors.isEmpty then 0
    else if !bw_neighbors.isEmpty && !fw_neighbors.isEmpty then 0
    else if yStemCheck g ucm then 0
    else
      let direction := if bw_neighbors.isEmpty then Direction.GO_FORWARD else Direction.GO_BACKWARD
      if direction = .GO_BACKWARD then
        loopVisits g (DFS_Visit g max_paths (2 * n + 1)) (visitCount g max_paths (2 * n + 1))
          max_paths ucm bw_neighbors
          (sortNeighbors g (st0.modify ucm.unitig UnitigExtension.set_seen_bw).data bw_neighbors
            (headVec g ucm) []) Traceback.empty
          { start_vec := headVec g ucm,
            graph := st0.modify ucm.unitig UnitigExtension.set_seen_bw, sc := sc }
      else
        loopVisits g (DFS_Visit g max_paths (2 * n + 1)) (visitCount g max_paths (2 * n + 1))
          max_paths ucm fw_neighbors
          (sortNeighbors g (st0.modify ucm.unitig UnitigExtension.set_seen_fw).data fw_neighbors
            (tailVec g ucm) []) Traceback.empty
          { start_vec := tailVec g ucm,
            graph := st0.modify ucm.unitig UnitigExtension.set_seen_fw, sc := sc }

/-- What the count needs of `visit`: called on an undiscovered mark with at most `fuel`
undiscovered marks left, it returns, and the undiscovered marks it leaves plus the calls
it made are no more than the undiscovered marks it found. -/
def VisitCounts {n : Nat} (fuel : Nat) (visit : Visit n)
    (count : UnitigColorMap n → Direction → Walk n → Nat) : Prop :=
  (∀ u w, undiscoveredMarks w.graph ≤ fuel → (w.graph.data u.unitig).dfs_fw = .undiscovered →
      ∃ tb w2, visit u .GO_BACKWARD w = .ok (tb, w2)
        ∧ count u .GO_BACKWARD w + undiscoveredMarks w2.graph ≤ undiscoveredMarks w.graph)
  ∧ (∀ u w, undiscoveredMarks w.graph ≤ fuel → (w.graph.data u.unitig).dfs_bw = .undiscovered →
      ∃ tb w2, visit u .GO_FORWARD w = .ok (tb, w2)
        ∧ count u .GO_FORWARD w + undiscoveredMarks w2.graph ≤ undiscoveredMarks w.graph)

/-- A graph with a cycle, a self-loop and a hairpin: `u0 -> u1`, `u1 -> u2`, `u2 -> u1`,
`u2 -> u2`, and `u1` followed by its own reverse complement; the handles of the reverse
strand see the mirrored neighborhood; one color carried by every k-mer. -/
def loopyGraph : CCDBG 3 where
  unitigs := [⟨0, true⟩, ⟨1, true⟩, ⟨2, true⟩]
  getPredecessors := fun h =>
    if h.strand then
      if h.unitig.val = 0 then []
      else if h.unitig.val = 1 then [⟨0, true⟩, ⟨2, true⟩]
      else [⟨1, true⟩, ⟨2, true⟩]
    else
      if h.unitig.val = 0 then [⟨1, false⟩]
      else if h.unitig.val = 1 then [⟨2, false⟩, ⟨1, true⟩]
      else [⟨1, false⟩, ⟨2, false⟩]
  getSuccessors := fun h =>
    if h.strand then
      if h.unitig.val = 0 then [⟨1, true⟩]
      else if h.unitig.val = 1 then [⟨2, true⟩, ⟨1, false⟩]
      else [⟨1, true⟩, ⟨2, true⟩]
    else
      if h.unitig.val = 0 then []
      else if h.unitig.val = 1 then [⟨0, false⟩, ⟨2, false⟩]
      else [⟨1, false⟩, ⟨2, false⟩]
  referenceUnitigToString := chainSeq
  headColor := fun _ c => c == 0
  tailColor := fun _ c => c == 0
  getNbColors := 1

/-- The fork `u0 -> u1`, `u0 -> u2`, `u2 -> u3`, `u2 -> u4` with one color carried by
every k-mer. -/
def forkPlain (order : List (Fin 5)) : CCDBG 5 :=
  forwardGraph order [(0, 1), (0, 2), (2, 3), (2, 4)] forkSeq (fun _ c => c == 0)
    (fun _ c => c == 0) 1

/-- The fork `u0 -> u1`, `u0 -> u2`, `u2 -> u3`, `u2 -> u4` with two colors: the head k-mer
of `u0` has color 1 only, every other k-mer color 0 only. -/
def oddStartFork : CCDBG 5 :=
  forwardGraph [0, 1, 2, 3, 4] [(0, 1), (0, 2), (2, 3), (2, 4)] forkSeq
    (fun i c => if i = 0 then c == 1 else c == 0) (fun _ c => c == 0) 2

/-- The de Bruijn overlap of two sequences: both have at least `k-1` characters and the
last `k-1` of `a` are the first `k-1` of `b`. -/
def Overlaps {α : Type} (k : Nat) (a b : List α) : Prop :=
  k - 1 ≤ a.length ∧ k - 1 ≤ b.length ∧ a.drop (a.length - (k - 1)) = b.take (k - 1)

/-- The integer nearest to `x`, the even one where two integers are equally near. -/
def roundHalfEven (x : ℚ) : Int :=
  if x - ⌊x⌋ < 1 / 2 then ⌊x⌋
  else if 1 / 2 < x - ⌊x⌋ then ⌊x⌋ + 1
  else if ⌊x⌋ % 2 = 0 then ⌊x⌋ else ⌊x⌋ + 1

/-- The `float` nearest to `q`: `q` rounded to 24 significant bits, ties to even, as in the
conversion of an integer to `float` and in a division of two `float` values. The exponent
range of `float` is not modelled: the values of an `unsigned` and of a `size_t` and their
quotients lie within it. -/
def toFloat (q : ℚ) : ℚ :=
  if q = 0 then 0
  else (roundHalfEven (q / 2 ^ (Int.log 2 |q| - 23)) : ℚ) * 2 ^ (Int.log 2 |q| - 23)

/-- `ExtendedCCDBG::equalColorbitsRate(v, neighbor)`: `static_cast<float>(equalColorbits) /
nb_colors`, that is the counter converted to `float`, divided in `float` arithmetic by
`nb_colors` converted to `float`. With no color the quotient is NaN, which is not greater
than 0; it is 0 here. -/
def equalColorbitsRate {n : Nat} (g : CCDBG n) (v : List Bool) (neighbor : UnitigColorMap n) :
    ℚ :=
  toFloat (toFloat (equalColorbits g v neighbor : ℚ) / toFloat (g.getNbColors : ℚ))

/-- The colors `c` in `[0, C)` for which the head bit of the neighbor, its tail bit and
`v[c]` are all set or all clear (in the words of the claim). -/
def agreeingColors {n : Nat} (g : CCDBG n) (v : List Bool) (neighbor : UnitigColorMap n) :
    Finset Nat :=
  (Finset.range g.getNbColors).filter (fun c =>
    (g.headColor neighbor.unitig c = true ∧ g.tailColor neighbor.unitig c = true
      ∧ v[c]? = some true)
    ∨ (g.headColor neighbor.unitig c = false ∧ g.tailColor neighbor.unitig c = false
      ∧ v[c]? = some false))

/-- Colors of the fork with three colors: `u0` has all three, `u1` color 0, `u2` colors 1
and 2, `u3` color 1, `u4` color 2, each at its head and at its tail k-mer. -/
def forkThreeColor : Fin 5 → Nat → Bool
  | 0, c => c == 0 || c == 1 || c == 2
  | 1, c => c == 0
  | 2, c => c == 1 || c == 2
  | 3, c => c == 1
  | 4, c => c == 2

/-- The fork `u0 -> u1`, `u0 -> u2`, `u2 -> u3`, `u2 -> u4` with three colors. -/
def forkThree : CCDBG 5 :=
  forwardGraph [0, 1, 2, 3, 4] [(0, 1), (0, 2), (2, 3), (2, 4)] forkSeq forkThreeColor
    forkThreeColor 3

/-- The pairs `(counter, id)` that `sortNeighbors` inserts, in the order of the neighbor
list: one for every neighbor whose counter of equal color bits is positive. -/
def ratedNeighbors {n : Nat} (g : CCDBG n) (data : Fin n → UnitigExtension)
    (neighbors : List (UnitigColorMap n)) (start_vec : List Bool) : List (Nat × Nat) :=
  (neighbors.filter (fun x => decide (0 < equalColorbits g start_vec x))).map
    (fun x => (equalColorbits g start_vec x, (data x.unitig).ID))

/-- Keys in non-increasing order, as the iteration of a
`std::multimap<float, unsigned, GreaterThan>` meets them. -/
def Descending (l : List (Nat × Nat)) : Prop :=
  l.Pairwise (fun a b => b.1 ≤ a.1)

/-- The values of the graph members at the entry of every `DFS_Init` that one round of
the inner loop of `merge` calls, in the order of the calls. -/
def mergeUnitigsCalls {n : Nat} (g : CCDBG n) (opt : CCDBG_Build_opt) (max_paths : Nat) :
    List (UnitigColorMap n) → MergeState n → List (ExtendedCCDBG n)
  | [], _ => []
  | unitig :: rest, m =>
    m.graph ::
      match DFS_Init g unitig m.sc max_paths m.graph with
      | .error _ => []
      | .ok (tb, graph1, sc1) =>
        if tb.recursive_return_status then
          match tb.write m.ofs opt.k m.sv_counter with
          | .error _ => []
          | .ok (written, ofs1, counter1) =>
            if written then
              mergeUnitigsCalls g opt max_paths rest
                { graph := DFS_cleaner_seen_only g graph1, sc := sc1, ofs := ofs1,
                  sv_counter := counter1 }
            else []
        else
          mergeUnitigsCalls g opt max_paths rest
            { m with graph := DFS_cleaner_seen_only g graph1, sc := sc1 }

/-- The values of the graph members at the entry of every `DFS_Init` called in the passes
of the outer loop of `merge`. -/
def mergePassesCalls {n : Nat} (g : CCDBG n) (opt : CCDBG_Build_opt) (max_paths : Nat) :
    Nat → MergeState n → List (ExtendedCCDBG n)
  | 0, _ => []
  | c + 1, m =>
    mergeUnitigsCalls g opt max_paths g.unitigs m ++
      match mergeUnitigs g opt max_paths g.unitigs m with
      | .error _ => []
      | .ok (true, m1) => mergePassesCalls g opt max_paths c m1
      | .ok (false, _) => []

/-- The values of the graph members at the entry of every `DFS_Init` that `merge` calls. -/
def mergeCalls {n : Nat} (g : CCDBG n) (opt : CCDBG_Build_opt) (max_paths : Nat)
    (canOpen : Bool) (st : ExtendedCCDBG n) : List (ExtendedCCDBG n) :=
  if st.id_init_status = false then []
  else if canOpen = false then []
  else
    mergePassesCalls g opt max_paths max_paths
      { graph := st, sc := Setcover.init, ofs := { is_open := true, records := [] },
        sv_counter := 0 }

/-- Modelled from the SAM format specification: the flag bit of SeqAn's `BamFlags` (library
code outside the sources) saying that the template has several segments. -/
def BAM_FLAG_MULTIPLE : Nat := 0x0001

/-- Modelled from the SAM format specification: the flag bit of an unmapped segment. -/
def BAM_FLAG_UNMAPPED : Nat := 0x0004

/-- Modelled from the SAM format specification: the flag bit of an unmapped next segment. -/
def BAM_FLAG_NEXT_UNMAPPED : Nat := 0x0008

/-- Modelled from the SAM format specification: the flag bit of a reverse-complemented
segment. -/
def BAM_FLAG_RC : Nat := 0x0010

/-- Modelled from the SAM format specification: the flag bit of a reverse-complemented next
segment. -/
def BAM_FLAG_NEXT_RC : Nat := 0x0020

/-- Modelled from the SAM format specification: the flag bit of the first segment. -/
def BAM_FLAG_FIRST : Nat := 0x0040

/-- Modelled from the SAM format specification: the flag bit of the last segment. -/
def BAM_FLAG_LAST : Nat := 0x0080

/-- Modelled from the SAM format specification: the fields of SeqAn's `BamAlignmentRecord`
(library code outside the sources) that `setMates` reads or writes; `flag` is a `__uint32`,
kept below `2 ^ 32`. -/
structure BamAlignmentRecord where
  rID : Int
  beginPos : Int
  flag : Nat
  rNextId : Int
  pNext : Int
  deriving DecidableEq, Repr

/-- Modelled from the SAM format specification: SeqAn's flag test
`(record.flag & bit) == bit`. -/
def hasFlag (bit : Nat) (record : BamAlignmentRecord) : Bool :=
  (record.flag &&& bit) == bit

/-- Modelled from the SAM format specification: `hasFlagUnmapped` of SeqAn. -/
def hasFlagUnmapped (record : BamAlignmentRecord) : Bool := hasFlag BAM_FLAG_UNMAPPED record

/-- Modelled from the SAM format specification: `hasFlagNextUnmapped` of SeqAn. -/
def hasFlagNextUnmapped (record : BamAlignmentRecord) : Bool :=
  hasFlag BAM_FLAG_NEXT_UNMAPPED record

/-- Modelled from the SAM format specification: `hasFlagRC` of SeqAn. -/
def hasFlagRC (record : BamAlignmentRecord) : Bool := hasFlag BAM_FLAG_RC record

/-- Modelled from the SAM format specification: `hasFlagNextRC` of SeqAn. -/
def hasFlagNextRC (record : BamAlignmentRecord) : Bool := hasFlag BAM_FLAG_NEXT_RC record

/-- Modelled from the SAM format specification: `hasFlagFirst` of SeqAn. -/
def hasFlagFirst (record : BamAlignmentRecord) : Bool := hasFlag BAM_FLAG_FIRST record

/-- Modelled from the SAM format specification: `hasFlagLast` of SeqAn. -/
def hasFlagLast (record : BamAlignmentRecord) : Bool := hasFlag BAM_FLAG_LAST record

/-- Modelled from the SAM format specification: `hasFlagMultiple` of SeqAn. -/
def hasFlagMultiple (record : BamAlignmentRecord) : Bool := hasFlag BAM_FLAG_MULTIPLE record

/-- The statement `record.flag |= bit`. -/
def orFlag (bit : Nat) (record : BamAlignmentRecord) : BamAlignmentRecord :=
  { record with flag := record.flag ||| bit }

/-- The statement `record.flag &= ~bit` on the 32 bit flag word. -/
def clearFlag (bit : Nat) (record : BamAlignmentRecord) : BamAlignmentRecord :=
  { record with flag := record.flag &&& (2 ^ 32 - 1 - bit) }

/-- The statements of `setMates` after its two assertions, in the order of the source. -/
def setMatesBody (record1 record2 : BamAlignmentRecord) :
    BamAlignmentRecord × BamAlignmentRecord :=
  -- Set the next ref id.
  let record1 := { record1 with rNextId := record2.rID }
  let record2 := { record2 with rNextId := record1.rID }
  -- Set the next ref pos.
  let record1 := { record1 with pNext := record2.beginPos }
  let record2 := { record2 with pNext := record1.beginPos }
  -- Fix the next unmapped flag.
  let record1 := if hasFlagUnmapped record2 then orFlag BAM_FLAG_NEXT_UNMAPPED record1
    else clearFlag BAM_FLAG_NEXT_UNMAPPED record1
  let record2 := if hasFlagUnmapped record1 then orFlag BAM_FLAG_NEXT_UNMAPPED record2
    else clearFlag BAM_FLAG_NEXT_UNMAPPED record2
  -- Fix the next reversed flag.
  let record1 := if hasFlagRC record2 then orFlag BAM_FLAG_NEXT_RC record1
    else clearFlag BAM_FLAG_NEXT_RC record1
  let record2 := if hasFlagRC record1 then orFlag BAM_FLAG_NEXT_RC record2
    else clearFlag BAM_FLAG_NEXT_RC record2
  -- Fix first/second in pair flags.
  let record2 := if hasFlagFirst record1 then orFlag BAM_FLAG_LAST record2 else record2
  let record1 := if hasFlagFirst record2 then orFlag BAM_FLAG_LAST record1 else record1
  let record2 := if hasFlagLast record1 then orFlag BAM_FLAG_FIRST record2 else record2
  let record1 := if hasFlagLast record2 then orFlag BAM_FLAG_FIRST record1 else record1
  -- Set flag paired.
  let record1 := orFlag BAM_FLAG_MULTIPLE record1
  let record2 := orFlag BAM_FLAG_MULTIPLE record2
  (record1, record2)

/-- The two assertions at the top of `setMates`: the records are not both first and not both
last segments. -/
def setMatesAsserts (record1 record2 : BamAlignmentRecord) : Bool :=
  (!hasFlagFirst record1 || !hasFlagFirst record2)
    && (!hasFlagLast record1 || !hasFlagLast record2)

/-- The function `setMates`; `none` is the abort of a failed `SEQAN_ASSERT`. -/
def setMates (record1 record2 : BamAlignmentRecord) :
    Option (BamAlignmentRecord × BamAlignmentRecord) :=
  if setMatesAsserts record1 record2 then some (setMatesBody record1 record2) else none

/-- A first segment, reversed, as an example of a record. -/
def mateA : BamAlignmentRecord :=
  { rID := 3, beginPos := 100, flag := 0x50, rNextId := -1, pNext := -1 }

/-- A last segment, unmapped and with stale next flags, as an example of a record. -/
def mateB : BamAlignmentRecord :=
  { rID := 5, beginPos := 250, flag := 0xAC, rNextId := -1, pNext := -1 }

/-- The test `isdigit` of the C library on an `unsigned char`. -/
def isdigit (c : Nat) : Bool := decide (48 ≤ c) && decide (c ≤ 57)

/-- The byte `*p` at a pointer into a NUL-terminated string; the pointer is given by the
bytes from it to the terminator. -/
def deref (p : List Nat) : Nat := p.headD 0

/-- The loop `while (*pa == '0') ++pa;` of `compare_qName`. -/
def skipZeros : List Nat → List Nat
  | [] => []
  | c :: p => if c = 48 then skipZeros p else c :: p

/-- The loop `while (isdigit(*pa) && isdigit(*pb) && *pa == *pb) ++pa, ++pb;` of
`compare_qName`. -/
def skipEqualDigits : List Nat → List Nat → List Nat × List Nat
  | c :: pa, d :: pb =>
    if isdigit c && isdigit d && decide (c = d) then skipEqualDigits pa pb
    else (c :: pa, d :: pb)
  | pa, pb => (pa, pb)

/-- The index `i` after the loop `while (isdigit(pa[i]) && isdigit(pb[i])) ++i;` of
`compare_qName`. -/
def commonDigits : List Nat → List Nat → Nat
  | c :: pa, d :: pb => if isdigit c && isdigit d then commonDigits pa pb + 1 else 0
  | _, _ => 0

/-- One pass through the body of the outer loop of `compare_qName` on the strings `a` and
`b` with the pointers `pa` and `pb`: the value returned, or the pointers of the next pass. -/
def compare_qNameBody (a b pa pb : List Nat) : Int ⊕ (List Nat × List Nat) :=
  if isdigit (deref pa) && isdigit (deref pb) then
    let p := skipEqualDigits (skipZeros pa) (skipZeros pb)
    let pa := p.1
    let pb := p.2
    if isdigit (deref pa) && isdigit (deref pb) then
      let i := commonDigits pa pb
      .inl (if isdigit (deref (pa.drop i)) then 1
        else if isdigit (deref (pb.drop i)) then -1
        else (deref pa : Int) - (deref pb : Int))
    else if isdigit (deref pa) then .inl 1
    else if isdigit (deref pb) then .inl (-1)
    else if a.length - pa.length ≠ b.length - pb.length then
      .inl (if a.length - pa.length < b.length - pb.length then 1 else -1)
    else .inr (pa, pb)
  else if deref pa ≠ deref pb then .inl ((deref pa : Int) - (deref pb : Int))
  else .inr (pa.tail, pb.tail)

/-- The outer loop of `compare_qName` with its final `return`; every pass uses one unit of
fuel. -/
def compare_qNameLoop (a b : List Nat) : Nat → List Nat → List Nat → Except Fault Int
  | 0, _, _ => .error .out_of_fuel
  | fuel + 1, pa, pb =>
    if deref pa ≠ 0 ∧ deref pb ≠ 0 then
      match compare_qNameBody a b pa pb with
      | .inl r => .ok r
      | .inr p => compare_qNameLoop a b fuel p.1 p.2
    else .ok (if deref pa ≠ 0 then 1 else if deref pb ≠ 0 then -1 else 0)

/-- The function `compare_qName` on the bytes of the two names before their terminators. -/
def compare_qName (a b : List Nat) : Except Fault Int :=
  compare_qNameLoop a b (a.length + 1) a b

/-- The bytes of a string of ASCII characters. -/
def bytesOf (s : String) : List Nat := s.toList.map Char.toNat

/-- The statement `diCounts[dimer] = 1` for a dimer that `find` does not report, and
`diCounts[dimer] += 1` on the `unsigned` count otherwise; the table lists the entries of the
`unordered_map` in the order of their insertion. -/
def countDimer (diCounts : List (List Char × Nat)) (dimer : List Char) :
    List (List Char × Nat) :=
  if (diCounts.find? (fun it => decide (it.1 = dimer))).isNone then diCounts ++ [(dimer, 1)]
  else diCounts.map (fun it => if it.1 = dimer then (it.1, (it.2 + 1) % 2 ^ 32) else it)

/-- The body of the first loop of `entropy` at position `i`, on the table `diCounts` and the
`unsigned` counter `counted`. -/
def countLoopBody (sequence : List Char) (st : List (List Char × Nat) × Nat) (i : Nat) :
    List (List Char × Nat) × Nat :=
  let dimer := (sequence.drop i).take 2
  if sequence.getD i (Char.ofNat 0) ≠ 'N' ∧ sequence.getD (i + 1) (Char.ofNat 0) ≠ 'N' then
    (countDimer st.1 dimer, (st.2 + 1) % 2 ^ 32)
  else st

/-- The conversion of a floating point value to `unsigned`, which drops the fraction (the
conversion is defined for values above -1 and below `2 ^ 32`). -/
def toUnsigned (x : ℚ) : Nat := Int.toNat ⌊x⌋

/-- The body of the second loop of `entropy` at the entry `it`, on the `unsigned` variable
`entropy`: the statement `entropy -= p * log(p) / log(2)` computes the difference in floating
point and converts it back. The value of `p * log(p) / log(2)` for
`p = float(it->second) / counted` is the parameter `plog it->second counted`. -/
def entropyLoopBody (plog : Nat → Nat → ℚ) (counted : Nat) (entropy : Nat)
    (it : List Char × Nat) : Nat :=
  if it.2 = 0 then entropy else toUnsigned ((entropy : ℚ) - plog it.2 counted)

/-- The function `entropy`. An empty sequence makes `substr` throw at position 1; the 32 bit
index of the first loop never reaches the bound `sequence.length() - 1` when this is above
`2 ^ 32 - 1`, so no fuel suffices there. The value returned is the `unsigned` quotient
`entropy / 4`, converted to `float`. -/
def entropy (plog : Nat → Nat → ℚ) (sequence : List Char) : Except Fault ℚ :=
  if sequence.length = 0 then .error .out_of_range
  else if 2 ^ 32 < sequence.length then .error .out_of_fuel
  else
    let st := (List.range (sequence.length - 1)).foldl (countLoopBody sequence) ([], 0)
    let acc := st.1.foldl (entropyLoopBody plog st.2) 0
    .ok ((acc / 4 : Nat) : ℚ)

/-- The dinucleotides of a sequence without an `N`, one for every position (in the words of
the spec). -/
def specDimers (sequence : List Char) : List (List Char) :=
  ((List.range (sequence.length - 1)).map (fun i => (sequence.drop i).take 2)).filter
    (fun dimer => !dimer.contains 'N')

/-- The entropy in the words of the spec: `H / 4` for `H` the negated sum of `p * log2 p` over
the observed dinucleotides, `p` the count of a dinucleotide divided by the number of positions
counted; `plog count counted` stands for `p * log2 p`. -/
def specEntropy (plog : Nat → Nat → ℚ) (sequence : List Char) : ℚ :=
  -((specDimers sequence).dedup.map
      (fun dimer => plog ((specDimers sequence).count dimer) (specDimers sequence).length)).sum
    / 4

/-- A sequence in which each of the 16 dinucleotides occurs once. -/
def everyDimerOnce : List Char := "AACAGATCCGCTGGTTA".toList

/-- A value for the parameter `plog`: `p * log2 p` for `p = count / counted`, with the
logarithm of `counted / count` rounded down; it is exact where that is a power of two. -/
def plogDyadic (count counted : Nat) : ℚ :=
  -((count : ℚ) / (counted : ℚ)) * (Nat.log 2 (counted / count) : ℚ)

/-- The number of the base `a` among the four bases. -/
def baseIndex : Nucleotide → Nat
  | .A => 0
  | .C => 1
  | .G => 2
  | .T => 3
  | .N => 0

/-- The first six bases of the 11-mers of the forward strand of the quaternary tree, by the
number of links from the root: the windows of the root 11-mer. -/
def quadWindows : List Sequence :=
  (List.range 6).map (fun d => (quadRoot.drop d).take 6)

/-- The index of the unitig of the quaternary tree with the 11-mer `s`, read off `s`: the
first six bases tell the number `d` of links from the root, the last `d` bases the way from
the root. -/
def quadIndexForward (s : Sequence) : Nat :=
  (s.drop (11 - quadWindows.indexOf (s.take 6))).foldl (fun i a => 4 * i + 1 + baseIndex a) 0

/-- The position in `quadKmers` of an 11-mer of the quaternary tree, read off the 11-mer: the
index of its unitig, or 345 more for the reverse complement of a unitig. -/
def quadIndex (s : Sequence) : Nat :=
  if quadWindows.indexOf (s.take 6) < 6 then quadIndexForward s
  else 345 + quadIndexForward (reverse_complement s)

/-- The 11-mer at position `j` among the 11-mers of the quaternary tree on both strands:
that of the unitig `j` below 345, the reverse complement of that of the unitig `j - 345` from
there on. -/
def kmerAt (j : Nat) : Sequence :=
  if j < 345 then quadSeqFuel 5 j else reverse_complement (quadSeqFuel 5 (j - 345))

/-- The 11-mers of the quaternary tree on both strands. -/
def quadKmers : List Sequence :=
  (List.range 690).map kmerAt

/-- The positions in `quadKmers` of the 11-mers that follow the one at position `j` along a
link of the quaternary tree: the four children of a unitig on the forward strand, the parent
on the reverse strand. -/
def quadLinks (j : Nat) : List Nat :=
  if j < 345 then
    if 4 * j + 4 < 345 then [4 * j + 1, 4 * j + 2, 4 * j + 3, 4 * j + 4] else []
  else if j = 345 then [] else [345 + (j - 345 - 1) / 4]

/-- The four 11-mers that overlap the 11-mer `x` in its last 10 characters. -/
def extensions (x : Sequence) : List Sequence :=
  [x.drop 1 ++ [.A], x.drop 1 ++ [.C], x.drop 1 ++ [.G], x.drop 1 ++ [.T]]

/-- The test whether `y` stands in `quadKmers` at the position read off it. -/
def inQuadKmers (y : Sequence) : Bool :=
  decide (quadIndex y < 690) && decide (kmerAt (quadIndex y) = y)

/-- The positions read off those of the four 11-mers overlapping the 11-mer at position `j`
in its last 10 characters that are 11-mers of the quaternary tree. -/
def extRow (j : Nat) : List Nat :=
  ((extensions (kmerAt j)).filter inQuadKmers).map quadIndex

/-! ## Theorems: traceback output -/

theorem size_pred_eq (k : Nat) (hk : 1 ≤ k) (hk64 : k < 2 ^ 64) : size_pred k = k - 1 := by
  unfold size_pred
  norm_num at hk64 ⊢
  omega

theorem substr_pred {α : Type} (k : Nat) (hk : 1 ≤ k) (hk64 : k < 2 ^ 64) (p : List α)
    (hp : k - 1 ≤ p.length) : substr p (size_pred k) = .ok (p.drop (k - 1)) := by
  rw [size_pred_eq k hk hk64]
  exact if_pos hp

theorem cutconcatLoop_eq {α : Type} (k : Nat) (hk : 1 ≤ k) (hk64 : k < 2 ^ 64)
    (rest : List (List α)) (s : List α) (hlen : ∀ p ∈ rest, k - 1 ≤ p.length) :
    cutconcatLoop k rest s = .ok (s ++ (rest.map (List.drop (k - 1))).flatten) := by
  induction rest generalizing s with
  | nil => simp only [cutconcatLoop, List.map_nil, List.flatten_nil, List.append_nil]
  | cons p rest ih =>
    have hp : k - 1 ≤ p.length := hlen p (List.mem_cons_self _ _)
    have hr : ∀ q ∈ rest, k - 1 ≤ q.length := fun q hq => hlen q (List.mem_cons_of_mem _ hq)
    simp only [cutconcatLoop, substr_pred k hk hk64 p hp, ih _ hr, List.map_cons,
      List.flatten_cons, List.append_assoc]

theorem cutconcat_snoc {α : Type} (init : List (List α)) (last : List α) (k : Nat)
    (hk : 1 ≤ k) (hk64 : k < 2 ^ 64) (hlen : ∀ p ∈ init, k - 1 ≤ p.length) :
    cutconcat [] (init ++ [last]) k
      = .ok (last ++ ((init.reverse).map (List.drop (k - 1))).flatten) := by
  unfold cutconcat
  simp only [List.reverse_append, List.reverse_cons, List.reverse_nil, List.nil_append,
    List.singleton_append]
  rw [cutconcatLoop_eq k hk hk64]
  intro p hp
  exact hlen p (List.mem_reverse.mp hp)

theorem trimmed_length {α : Type} (k : Nat) (init : List (List α)) :
    (((init.reverse).map (List.drop (k - 1))).flatten).length
      = (init.map (fun u => u.length - (k - 1))).sum := by
  induction init with
  | nil => simp
  | cons p rest ih =>
    simp only [List.reverse_cons, List.map_append, List.map_cons, List.map_nil,
      List.flatten_append, List.length_append, ih, List.flatten_cons, List.flatten_nil,
      List.append_nil, List.length_drop, List.sum_cons]
    omega

theorem writeLoop_lengths (k : Nat) (hk : 1 ≤ k) (hk64 : k < 2 ^ 64)
    (paths : List (VSequences × Sequence))
    (hlen : ∀ q ∈ paths, ∀ p ∈ q.1, k - 1 ≤ p.length) (recs : List FastaRecord) (counter : Nat) :
    ∃ (added : List FastaRecord) (counter2 : Nat),
      writeLoop k (paths.map (fun q => q.1 ++ [q.2])) recs counter
        = .ok (recs ++ added, counter2)
      ∧ added.map (fun r => r.seq.length)
        = paths.map (fun q => q.2.length + (q.1.map (fun u => u.length - (k - 1))).sum) := by
  induction paths generalizing recs counter with
  | nil => exact ⟨[], counter, by simp [writeLoop]⟩
  | cons q rest ih =>
    have hq : ∀ p ∈ q.1, k - 1 ≤ p.length := hlen q (List.mem_cons_self _ _)
    have hr : ∀ q ∈ rest, ∀ p ∈ q.1, k - 1 ≤ p.length :=
      fun x hx => hlen x (List.mem_cons_of_mem _ hx)
    obtain ⟨added, counter2, h1, h2⟩ := ih hr
      (recs ++ [{ contig := (counter + 1) % 2 ^ 64,
                  seq := q.2 ++ ((q.1.reverse).map (List.drop (k - 1))).flatten }])
      ((counter + 1) % 2 ^ 64)
    refine ⟨{ contig := (counter + 1) % 2 ^ 64,
              seq := q.2 ++ ((q.1.reverse).map (List.drop (k - 1))).flatten } :: added,
      counter2, ?_, ?_⟩
    · simp only [List.map_cons, writeLoop, cutconcat_snoc q.1 q.2 k hk hk64 hq, h1,
        List.append_assoc, List.singleton_append]
    · simp only [List.map_cons, h2, List.length_append, trimmed_length]

/-- C1: for a non-empty path `p1, ..., pm` stored sink-first (`init` is `p1 .. p(m-1)`,
`last` is `pm`) and `k >= 1` with every element of `init` at least `k-1` long,
`cutconcat` on an empty string yields `pm` verbatim followed by `p(m-1), ..., p1`, each
without its first `k-1` characters. -/
theorem C1_cutconcat_reverse_trimmed {α : Type} (init : List (List α)) (last : List α)
    (k : Nat) (hk : 1 ≤ k) (hk64 : k < 2 ^ 64) (hlen : ∀ p ∈ init, k - 1 ≤ p.length) :
    cutconcat [] (init ++ [last]) k
      = .ok (last ++ ((init.reverse).map (List.drop (k - 1))).flatten) :=
  cutconcat_snoc init last k hk hk64 hlen

/-- Witness of C1 on the path `ACG, CGT, GTA` with `k = 3`. -/
theorem C1_cutconcat_reverse_trimmed_witness :
    cutconcat [] ([[Nucleotide.A, .C, .G], [.C, .G, .T]] ++ [[Nucleotide.G, .T, .A]]) 3
      = .ok ([Nucleotide.G, .T, .A]
          ++ (([[Nucleotide.A, .C, .G], [.C, .G, .T]].reverse).map (List.drop (3 - 1))).flatten) :=
  C1_cutconcat_reverse_trimmed [[Nucleotide.A, .C, .G], [.C, .G, .T]] [.G, .T, .A] 3
    (by decide) (by norm_num) (by decide)

/-- Writing a bundle all of whose paths are long enough succeeds and appends one record
per path, with the lengths given by the trimmed concatenation. -/
theorem write_lengths (k : Nat) (hk : 1 ≤ k) (hk64 : k < 2 ^ 64)
    (paths : List (VSequences × Sequence))
    (hlen : ∀ q ∈ paths, ∀ p ∈ q.1, k - 1 ≤ p.length)
    (status : Bool) (ofs : Ofstream) (hopen : ofs.is_open = true) (counter : Nat) :
    ∃ (added : List FastaRecord) (counter2 : Nat),
      Traceback.write
          { pathseqs := paths.map (fun q => q.1 ++ [q.2]), recursive_return_status := status }
          ofs k counter
        = .ok (true, { ofs with records := ofs.records ++ added }, counter2)
      ∧ added.map (fun r => r.seq.length)
        = paths.map (fun q => q.2.length + (q.1.map (fun u => u.length - (k - 1))).sum) := by
  obtain ⟨added, counter2, h1, h2⟩ := writeLoop_lengths k hk hk64 paths hlen ofs.records counter
  refine ⟨added, counter2, ?_, h2⟩
  simp only [Traceback.write, hopen, if_true, h1]

theorem writeLoop_appends (k : Nat) (paths : List VSequences) (recs : List FastaRecord)
    (c : Nat) (recs2 : List FastaRecord) (c2 : Nat)
    (h : writeLoop k paths recs c = .ok (recs2, c2)) : ∃ added, recs2 = recs ++ added := by
  induction paths generalizing recs c with
  | nil =>
    simp only [writeLoop, Except.ok.injEq, Prod.mk.injEq] at h
    exact ⟨[], by rw [← h.1, List.append_nil]⟩
  | cons p rest ih =>
    unfold writeLoop at h
    split at h
    · obtain ⟨added, ha⟩ := ih _ _ h
      exact ⟨_ :: added, by rw [ha, List.append_assoc, List.singleton_append]⟩
    · cases h

theorem writeLoop_record (k : Nat) (before : List VSequences) (path : VSequences)
    (after : List VSequences) (recs : List FastaRecord) (c : Nat) (recs2 : List FastaRecord)
    (c2 : Nat) (h : writeLoop k (before ++ path :: after) recs c = .ok (recs2, c2)) :
    ∃ seq, cutconcat [] path k = .ok seq
      ∧ recs2[recs.length + before.length]?
          = some { contig := (c + before.length + 1) % 2 ^ 64, seq := seq } := by
  induction before generalizing recs c with
  | nil =>
    simp only [List.nil_append] at h
    unfold writeLoop at h
    split at h
    · rename_i seq hseq
      obtain ⟨added, ha⟩ := writeLoop_appends k after _ _ recs2 c2 h
      refine ⟨seq, hseq, ?_⟩
      rw [ha, List.append_assoc, List.singleton_append]
      show (recs ++ _ :: added)[recs.length]? = _
      rw [List.getElem?_append_right (Nat.le_refl _), Nat.sub_self]
      simp only [List.getElem?_cons_zero, List.length_nil, Nat.add_zero]
    · cases h
  | cons b before ih =>
    simp only [List.cons_append] at h
    unfold writeLoop at h
    split at h
    · obtain ⟨seq, h1, h2⟩ := ih _ _ h
      refine ⟨seq, h1, ?_⟩
      simp only [List.length_append, List.length_singleton, List.length_cons] at h2 ⊢
      rw [show recs.length + (before.length + 1) = recs.length + 1 + before.length by omega,
        show (c + (before.length + 1) + 1) % 2 ^ 64
          = ((c + 1) % 2 ^ 64 + before.length + 1) % 2 ^ 64 by omega]
      exact h2
    · cases h

/-- C2: for every path `u1 .. um` of a bundle (sink-first; `init` is `u1 .. u(m-1)`, `last`
is `um`; `before` and `after` are the other paths of the bundle) and every `k >= 1` with
`|ui| >= k-1` for all `i < m`, the contig sequence that `write` builds for that path has
length `|um| + sum over i < m of (|ui| - (k-1))`, and when `write` returns on an open
stream, the record it wrote for that path carries a sequence of that length. -/
theorem C2_written_contig_length (k : Nat) (hk : 1 ≤ k) (hk64 : k < 2 ^ 64)
    (before after : List VSequences) (init : VSequences) (last : Sequence)
    (hlen : ∀ p ∈ init, k - 1 ≤ p.length) (status : Bool) (ofs : Ofstream) (counter : Nat) :
    (∃ seq, cutconcat [] (init ++ [last]) k = .ok seq
      ∧ seq.length = last.length + (init.map (fun u => u.length - (k - 1))).sum)
    ∧ ∀ ret ofs2 counter2,
        Traceback.write
            { pathseqs := before ++ (init ++ [last]) :: after, recursive_return_status := status }
            ofs k counter = .ok (ret, ofs2, counter2) →
        ofs.is_open = true →
        ∃ r, ofs2.records[ofs.records.length + before.length]? = some r
          ∧ r.contig = (counter + before.length + 1) % 2 ^ 64
          ∧ r.seq.length = last.length + (init.map (fun u => u.length - (k - 1))).sum := by
  have hc := cutconcat_snoc init last k hk hk64 hlen
  have hl := trimmed_length k init
  constructor
  · exact ⟨_, hc, by rw [List.length_append, hl]⟩
  · intro ret ofs2 counter2 hw hopen
    simp only [Traceback.write, hopen, if_true] at hw
    split at hw
    · rename_i recs c hloop
      obtain ⟨seq, h1, h2⟩ := writeLoop_record k before (init ++ [last]) after _ _ _ _ hloop
      simp only [Except.ok.injEq, Prod.mk.injEq] at hw
      rw [← hw.2.1]
      refine ⟨_, h2, rfl, ?_⟩
      rw [hc] at h1
      simp only [Except.ok.injEq] at h1
      rw [← h1, List.length_append, hl]
    · cases hw

/-- Witness of C2 on the bundle holding the single path `ACG, CGT, GTA`, with `k = 3`. -/
theorem C2_written_contig_length_witness :
    (∃ seq, cutconcat [] ([[Nucleotide.A, .C, .G], [.C, .G, .T]] ++ [[Nucleotide.G, .T, .A]]) 3
        = .ok seq
      ∧ seq.length = [Nucleotide.G, .T, .A].length
          + ([[Nucleotide.A, .C, .G], [.C, .G, .T]].map (fun u => u.length - (3 - 1))).sum)
    ∧ ∀ ret ofs2 counter2,
        Traceback.write
            { pathseqs := [] ++ ([[Nucleotide.A, .C, .G], [.C, .G, .T]] ++ [[Nucleotide.G, .T, .A]])
                :: [],
              recursive_return_status := true }
            { is_open := true, records := [] } 3 0 = .ok (ret, ofs2, counter2) →
        ({ is_open := true, records := [] } : Ofstream).is_open = true →
        ∃ r, ofs2.records[({ is_open := true, records := [] } : Ofstream).records.length
              + ([] : List VSequences).length]? = some r
          ∧ r.contig = (0 + ([] : List VSequences).length + 1) % 2 ^ 64
          ∧ r.seq.length = [Nucleotide.G, .T, .A].length
              + ([[Nucleotide.A, .C, .G], [.C, .G, .T]].map (fun u => u.length - (3 - 1))).sum :=
  C2_written_contig_length 3 (by decide) (by norm_num) [] []
    [[Nucleotide.A, .C, .G], [.C, .G, .T]] [.G, .T, .A] (by decide) true
    { is_open := true, records := [] } 0

/-! ## Theorems: the Y-stem guard -/

theorem yStemLoop_iff {n : Nat} (g : CCDBG n) (l : List (UnitigColorMap n)) :
    yStemLoop g l = true
      ↔ ∀ nb ∈ l, (g.getPredecessors nb).length + (g.getSuccessors nb).length = 1 := by
  induction l with
  | nil => simp [yStemLoop]
  | cons a rest ih =>
    by_cases h : (g.getPredecessors a).length + (g.getSuccessors a).length = 1
    · simp [yStemLoop, h, ih]
    · simp [yStemLoop, h]

/-- C10: for a unitig `s` with neighbors on exactly one side, `yStemCheck` returns true
exactly when every neighbor on that side (every member of the one non-empty neighbor
list) has `|predecessors| + |successors| = 1`. -/
theorem C10_yStemCheck_iff {n : Nat} (g : CCDBG n) (s : UnitigColorMap n)
    (hside : (g.getPredecessors s = [] ∧ g.getSuccessors s ≠ [])
      ∨ (g.getPredecessors s ≠ [] ∧ g.getSuccessors s = [])) :
    yStemCheck g s = true
      ↔ ∀ nb ∈ g.getPredecessors s ++ g.getSuccessors s,
          (g.getPredecessors nb).length + (g.getSuccessors nb).length = 1 := by
  unfold yStemCheck
  rcases hside with ⟨hp, _⟩ | ⟨hp, hs⟩
  · simp [hp, yStemLoop_iff]
  · have : (g.getPredecessors s).isEmpty = false := by
      cases h : g.getPredecessors s with
      | nil => exact absurd h hp
      | cons a l => rfl
    simp [this, hs, yStemLoop_iff]

/-- Witness of C10 at the first unitig of the chain of scenario 2, which has a successor
and no predecessor. -/
theorem C10_yStemCheck_iff_witness :
    yStemCheck (chainGraph [0, 1, 2]) { unitig := 0, strand := true } = true
      ↔ ∀ nb ∈ (chainGraph [0, 1, 2]).getPredecessors { unitig := 0, strand := true }
            ++ (chainGraph [0, 1, 2]).getSuccessors { unitig := 0, strand := true },
          ((chainGraph [0, 1, 2]).getPredecessors nb).length
            + ((chainGraph [0, 1, 2]).getSuccessors nb).length = 1 :=
  C10_yStemCheck_iff (chainGraph [0, 1, 2]) { unitig := 0, strand := true }
    (Or.inl (by decide))

/-! ## Theorems: the scenarios of the spec, evaluated -/

theorem perm_three (order : List (Fin 3)) (h : order.Perm [0, 1, 2]) :
    ∃ a b c : Fin 3, order = [a, b, c] ∧ [a, b, c].Nodup := by
  have hn : order.Nodup := h.nodup_iff.2 (by decide)
  have hl : order.length = 3 := h.length_eq
  match order, hl, hn with
  | [a, b, c], _, hn => exact ⟨a, b, c, rfl, hn⟩

theorem perm_four (order : List (Fin 4)) (h : order.Perm [0, 1, 2, 3]) :
    ∃ a b c d : Fin 4, order = [a, b, c, d] ∧ [a, b, c, d].Nodup := by
  have hn : order.Nodup := h.nodup_iff.2 (by decide)
  have hl : order.length = 4 := h.length_eq
  match order, hl, hn with
  | [a, b, c, d], _, hn => exact ⟨a, b, c, d, rfl, hn⟩

/-- C3 (evaluation at the failing input): on the graph of scenario 1 with `max_paths = 2`
one run of `merge` writes the singleton twice, once per pass of the outer loop. -/
theorem C3_singleton_written_in_every_pass :
    runMerge singletonGraph 5 2
      = some [[.A, .C, .G, .T, .A, .C, .G, .T, .A, .C], [.A, .C, .G, .T, .A, .C, .G, .T, .A, .C]] := by
  decide

set_option maxRecDepth 10000 in
theorem ySplit_all_orders : ∀ a b c d : Fin 4, [a, b, c, d].Nodup →
    (([a, b, c, d].indexOf 0 < [a, b, c, d].indexOf 2
        ∧ [a, b, c, d].indexOf 0 < [a, b, c, d].indexOf 3 →
      runMerge (ySplitGraph [a, b, c, d]) 3 2
        = pathContigs (ySplitGraph [a, b, c, d]) 3 [[2, 1, 0]])
    ∧ (¬ ([a, b, c, d].indexOf 0 < [a, b, c, d].indexOf 2
        ∧ [a, b, c, d].indexOf 0 < [a, b, c, d].indexOf 3) →
      ∃ p2 ∈ [[2, 1, 0], [0, 1, 2]], ∃ p3 ∈ [[3, 1, 0], [0, 1, 3]],
        runMerge (ySplitGraph [a, b, c, d]) 3 2
            = pathContigs (ySplitGraph [a, b, c, d]) 3 [p2, p3]
        ∨ runMerge (ySplitGraph [a, b, c, d]) 3 2
            = pathContigs (ySplitGraph [a, b, c, d]) 3 [p3, p2])) := by
  decide

/-- C7 (counterexample): in the Y-split graph iterated in the order `u0, u1, u2, u3` with
`max_paths = 2`, `merge` emits one contig, not two. -/
theorem C7_stem_first_one_contig :
    (runMerge (ySplitGraph [0, 1, 2, 3]) 3 2).map List.length = some 1 := by
  decide

/-- C7 (amended): in the Y-split graph with `max_paths = 2`, for every iteration order of
the four unitigs: when `u0` comes before both `u2` and `u3`, `merge` emits exactly one
contig, that of the walk `u0, u1, u2` (stored sink-first as `u2, u1, u0`); in every other
order it emits exactly two contigs, one of a walk joining `u0` and `u2` and one of a walk
joining `u0` and `u3`, both through `u1`. -/
theorem C7_ySplit_contigs (order : List (Fin 4)) (horder : order.Perm [0, 1, 2, 3]) :
    (order.indexOf 0 < order.indexOf 2 ∧ order.indexOf 0 < order.indexOf 3 →
      runMerge (ySplitGraph order) 3 2 = pathContigs (ySplitGraph order) 3 [[2, 1, 0]])
    ∧ (¬ (order.indexOf 0 < order.indexOf 2 ∧ order.indexOf 0 < order.indexOf 3) →
      ∃ p2 ∈ [[2, 1, 0], [0, 1, 2]], ∃ p3 ∈ [[3, 1, 0], [0, 1, 3]],
        runMerge (ySplitGraph order) 3 2 = pathContigs (ySplitGraph order) 3 [p2, p3]
        ∨ runMerge (ySplitGraph order) 3 2 = pathContigs (ySplitGraph order) 3 [p3, p2]) := by
  obtain ⟨a, b, c, d, rfl, hn⟩ := perm_four order horder
  exact ySplit_all_orders a b c d hn

/-- Witness of C7 (amended) at the iteration order `u2, u0, u1, u3`. -/
theorem C7_ySplit_contigs_witness :
    (([2, 0, 1, 3] : List (Fin 4)).indexOf 0 < ([2, 0, 1, 3] : List (Fin 4)).indexOf 2
        ∧ ([2, 0, 1, 3] : List (Fin 4)).indexOf 0 < ([2, 0, 1, 3] : List (Fin 4)).indexOf 3 →
      runMerge (ySplitGraph [2, 0, 1, 3]) 3 2
        = pathContigs (ySplitGraph [2, 0, 1, 3]) 3 [[2, 1, 0]])
    ∧ (¬ (([2, 0, 1, 3] : List (Fin 4)).indexOf 0 < ([2, 0, 1, 3] : List (Fin 4)).indexOf 2
        ∧ ([2, 0, 1, 3] : List (Fin 4)).indexOf 0 < ([2, 0, 1, 3] : List (Fin 4)).indexOf 3) →
      ∃ p2 ∈ [[2, 1, 0], [0, 1, 2]], ∃ p3 ∈ [[3, 1, 0], [0, 1, 3]],
        runMerge (ySplitGraph [2, 0, 1, 3]) 3 2
            = pathContigs (ySplitGraph [2, 0, 1, 3]) 3 [p2, p3]
        ∨ runMerge (ySplitGraph [2, 0, 1, 3]) 3 2
            = pathContigs (ySplitGraph [2, 0, 1, 3]) 3 [p3, p2]) :=
  C7_ySplit_contigs [2, 0, 1, 3] (by decide)

/-! ## Theorems: the traversal returns, and what it keeps -/

theorem sum_change_one {n : Nat} (f f2 : Fin n → Nat) (i : Fin n)
    (hne : ∀ j, j ≠ i → f2 j = f j) :
    Finset.sum Finset.univ f2 + f i = Finset.sum Finset.univ f + f2 i := by
  have h1 : f i + (Finset.univ.erase i).sum f = Finset.univ.sum f :=
    Finset.add_sum_erase Finset.univ f (Finset.mem_univ i)
  have h2 : f2 i + (Finset.univ.erase i).sum f2 = Finset.univ.sum f2 :=
    Finset.add_sum_erase Finset.univ f2 (Finset.mem_univ i)
  have h3 : (Finset.univ.erase i).sum f2 = (Finset.univ.erase i).sum f :=
    Finset.sum_congr rfl (fun j hj => hne j (Finset.ne_of_mem_erase hj))
  omega

theorem undiscoveredMarks_modify {n : Nat} (st : ExtendedCCDBG n) (i : Fin n)
    (f : UnitigExtension → UnitigExtension) :
    undiscoveredMarks (st.modify i f) + undiscoveredAt (st.data i)
      = undiscoveredMarks st + undiscoveredAt (f (st.data i)) := by
  unfold undiscoveredMarks
  have h := sum_change_one (fun j => undiscoveredAt (st.data j))
    (fun j => undiscoveredAt ((st.modify i f).data j)) i
    (by intro j hj; simp [ExtendedCCDBG.modify, hj])
  simpa [ExtendedCCDBG.modify] using h

theorem undiscoveredAt_le_marks {n : Nat} (st : ExtendedCCDBG n) (i : Fin n) :
    undiscoveredAt (st.data i) ≤ undiscoveredMarks st :=
  Finset.single_le_sum (f := fun j => undiscoveredAt (st.data j))
    (fun _ _ => Nat.zero_le _) (Finset.mem_univ i)

theorem undiscoveredMarks_le {n : Nat} (st : ExtendedCCDBG n) : undiscoveredMarks st ≤ 2 * n := by
  unfold undiscoveredMarks
  have h : ∀ i ∈ (Finset.univ : Finset (Fin n)), undiscoveredAt (st.data i) ≤ 2 := by
    intro i _
    unfold undiscoveredAt
    split <;> split <;> omega
  have := Finset.sum_le_card_nsmul _ _ 2 h
  simpa [Nat.mul_comm] using this

theorem marks_seen_fw {n : Nat} (st : ExtendedCCDBG n) (i : Fin n)
    (h : (st.data i).dfs_fw = .undiscovered) :
    undiscoveredMarks (st.modify i UnitigExtension.set_seen_fw) + 1 = undiscoveredMarks st := by
  have := undiscoveredMarks_modify st i UnitigExtension.set_seen_fw
  simp [undiscoveredAt, UnitigExtension.set_seen_fw, h] at this
  omega

theorem marks_seen_bw {n : Nat} (st : ExtendedCCDBG n) (i : Fin n)
    (h : (st.data i).dfs_bw = .undiscovered) :
    undiscoveredMarks (st.modify i UnitigExtension.set_seen_bw) + 1 = undiscoveredMarks st := by
  have := undiscoveredMarks_modify st i UnitigExtension.set_seen_bw
  simp [undiscoveredAt, UnitigExtension.set_seen_bw, h] at this
  omega

theorem marks_seen_fw_le {n : Nat} (st : ExtendedCCDBG n) (i : Fin n) :
    undiscoveredMarks (st.modify i UnitigExtension.set_seen_fw) ≤ undiscoveredMarks st := by
  have := undiscoveredMarks_modify st i UnitigExtension.set_seen_fw
  have h2 : undiscoveredAt (UnitigExtension.set_seen_fw (st.data i)) ≤ undiscoveredAt (st.data i) := by
    simp only [undiscoveredAt, UnitigExtension.set_seen_fw]
    split <;> simp_all
  omega

theorem marks_seen_bw_le {n : Nat} (st : ExtendedCCDBG n) (i : Fin n) :
    undiscoveredMarks (st.modify i UnitigExtension.set_seen_bw) ≤ undiscoveredMarks st := by
  have := undiscoveredMarks_modify st i UnitigExtension.set_seen_bw
  have h2 : undiscoveredAt (UnitigExtension.set_seen_bw (st.data i)) ≤ undiscoveredAt (st.data i) := by
    simp only [undiscoveredAt, UnitigExtension.set_seen_bw]
    split <;> simp_all
  omega

theorem DFS_case_returns {n : Nat} (g : CCDBG n) (fuel : Nat) (visit : Visit n)
    (hv : VisitReturns fuel visit) (ucm neighbor : UnitigColorMap n) (tb : Traceback)
    (w : Walk n) (hw : undiscoveredMarks w.graph ≤ fuel) :
    ∃ tb2 w2, DFS_case g visit ucm neighbor tb w = .ok (tb2, w2)
      ∧ undiscoveredMarks w2.graph ≤ undiscoveredMarks w.graph := by
  unfold DFS_case
  split
  · split
    · rename_i hu
      obtain ⟨rtb, w2, h1, h2⟩ := hv.1 neighbor { w with sc := w.sc.add (w.graph.data ucm.unitig).ID }
        hw (by simpa [UnitigExtension.is_undiscovered_fw] using hu)
      rw [h1]
      exact ⟨_, _, rfl, Nat.le_of_lt h2⟩
    · exact ⟨_, _, rfl, Nat.le_refl _⟩
  · split
    · rename_i hu
      obtain ⟨rtb, w2, h1, h2⟩ := hv.2 neighbor { w with sc := w.sc.add (w.graph.data ucm.unitig).ID }
        hw (by simpa [UnitigExtension.is_undiscovered_bw] using hu)
      rw [h1]
      exact ⟨_, _, rfl, Nat.le_of_lt h2⟩
    · exact ⟨_, _, rfl, Nat.le_refl _⟩

theorem neighborLoop_returns {n : Nat} (g : CCDBG n) (fuel : Nat) (visit : Visit n)
    (hv : VisitReturns fuel visit) (max_paths : Nat) (ucm : UnitigColorMap n)
    (neighbors : List (UnitigColorMap n)) (sorted : List (Nat × Nat)) (tb : Traceback)
    (w : Walk n) (hw : undiscoveredMarks w.graph ≤ fuel) :
    ∃ tb2 w2, neighborLoop g visit max_paths ucm neighbors sorted tb w = .ok (tb2, w2)
      ∧ undiscoveredMarks w2.graph ≤ undiscoveredMarks w.graph := by
  induction sorted generalizing tb w with
  | nil => exact ⟨tb, w, rfl, Nat.le_refl _⟩
  | cons it rest ih =>
    unfold neighborLoop
    split
    · split
      · rename_i neighbor _
        obtain ⟨tb1, w1, h1, h2⟩ := DFS_case_returns g fuel visit hv ucm neighbor tb w hw
        rw [h1]
        obtain ⟨tb2, w2, h3, h4⟩ := ih tb1 w1 (Nat.le_trans h2 hw)
        exact ⟨tb2, w2, h3, Nat.le_trans h4 h2⟩
      · exact ih tb w hw
    · exact ⟨tb, w, rfl, Nat.le_refl _⟩

theorem DFS_VisitBody_returns {n : Nat} (g : CCDBG n) (max_paths fuel : Nat) (visit : Visit n)
    (hv : VisitReturns fuel visit) : VisitReturns (fuel + 1) (DFS_VisitBody g max_paths visit) := by
  constructor
  · intro u w hw hu
    have hm := marks_seen_fw w.graph u.unitig hu
    simp only [DFS_VisitBody, if_true, if_false, reduceCtorEq]
    split
    · exact ⟨_, _, rfl, by simp only; omega⟩
    · split
      · exact ⟨_, _, rfl, by simp only [sinkReturn]; show undiscoveredMarks (w.graph.modify u.unitig UnitigExtension.set_seen_fw) < _; omega⟩
      · obtain ⟨tb2, w2, h1, h2⟩ := neighborLoop_returns g fuel visit hv max_paths u
          (g.getSuccessors u)
          (sortNeighbors g (w.graph.modify u.unitig UnitigExtension.set_seen_fw).data
            (g.getSuccessors u) (update_start_vec g w.start_vec u) [])
          Traceback.empty
          { w with start_vec := update_start_vec g w.start_vec u
                   graph := w.graph.modify u.unitig UnitigExtension.set_seen_fw }
          (by simp only; omega)
        rw [h1]
        exact ⟨_, _, rfl, by simp only at h2 ⊢; omega⟩
  · intro u w hw hu
    have hm := marks_seen_bw w.graph u.unitig hu
    simp only [DFS_VisitBody, if_true, if_false, reduceCtorEq]
    split
    · exact ⟨_, _, rfl, by simp only; omega⟩
    · split
      · exact ⟨_, _, rfl, by simp only [sinkReturn]; show undiscoveredMarks (w.graph.modify u.unitig UnitigExtension.set_seen_bw) < _; omega⟩
      · obtain ⟨tb2, w2, h1, h2⟩ := neighborLoop_returns g fuel visit hv max_paths u
          (g.getPredecessors u)
          (sortNeighbors g (w.graph.modify u.unitig UnitigExtension.set_seen_bw).data
            (g.getPredecessors u) (update_start_vec g w.start_vec u) [])
          Traceback.empty
          { w with start_vec := update_start_vec g w.start_vec u
                   graph := w.graph.modify u.unitig UnitigExtension.set_seen_bw }
          (by simp only; omega)
        rw [h1]
        exact ⟨_, _, rfl, by simp only at h2 ⊢; omega⟩

theorem DFS_Visit_returns {n : Nat} (g : CCDBG n) (max_paths : Nat) (fuel : Nat) :
    VisitReturns fuel (DFS_Visit g max_paths fuel) := by
  induction fuel with
  | zero =>
    constructor
    · intro u w hw hu
      have h1 := undiscoveredAt_le_marks w.graph u.unitig
      simp [undiscoveredAt, hu] at h1
      omega
    · intro u w hw hu
      have h1 := undiscoveredAt_le_marks w.graph u.unitig
      simp [undiscoveredAt, hu] at h1
      omega
  | succ fuel ih => exact DFS_VisitBody_returns g max_paths fuel _ ih

theorem getD_map_range (f : Nat → Bool) (m c : Nat) :
    ((List.range m).map f).getD c false = true ↔ c < m ∧ f c = true := by
  by_cases h : c < m
  · simp [List.getD, h, List.getElem?_map, List.getElem?_range]
  · simp [List.getD, h, List.getElem?_map, List.getElem?_eq_none, Nat.le_of_not_lt h]

theorem update_start_vec_getD {n : Nat} (g : CCDBG n) (sv : List Bool) (u : UnitigColorMap n)
    (c : Nat) :
    (update_start_vec g sv u).getD c false = true
      ↔ c < g.getNbColors ∧ sv.getD c false = true ∧ g.headColor u.unitig c = true
          ∧ g.tailColor u.unitig c = true := by
  unfold update_start_vec
  rw [getD_map_range]
  simp [Bool.and_eq_true, and_assoc]

theorem exists_bit_of_not_empty (sv : List Bool) (h : is_empty_start_vec sv = false) :
    ∃ c, sv.getD c false = true := by
  unfold is_empty_start_vec at h
  simp only [Bool.not_eq_false_eq_eq_true, Bool.not_eq_eq_eq_not, Bool.not_false,
    List.any_eq_true] at h
  obtain ⟨b, hb, hb2⟩ := h
  obtain ⟨i, hi, hget⟩ := List.getElem_of_mem hb
  refine ⟨i, ?_⟩
  simp [List.getD, List.getElem?_eq_getElem hi, hget, hb2]

theorem modify_ID {n : Nat} (st : ExtendedCCDBG n) (i : Fin n)
    (f : UnitigExtension → UnitigExtension) (hf : ∀ ue, (f ue).ID = ue.ID) (j : Fin n) :
    ((st.modify i f).data j).ID = (st.data j).ID := by
  unfold ExtendedCCDBG.modify
  by_cases h : j = i
  · simp [h, hf]
  · simp [h]

theorem absorb_pathseqs {n : Nat} (g : CCDBG n) (ucm : UnitigColorMap n)
    (tb rtb : Traceback) (p : VSequences) (hp : p ∈ (absorb g ucm tb rtb).pathseqs) :
    p ∈ tb.pathseqs ∨ ∃ q ∈ rtb.pathseqs, p = q ++ [orientedSequence g ucm] := by
  unfold absorb at hp
  split at hp
  · simp only [Traceback.join, List.mem_append, List.mem_map] at hp
    rcases hp with hp | ⟨q, hq, rfl⟩
    · exact Or.inl hp
    · exact Or.inr ⟨q, hq, rfl⟩
  · exact Or.inl hp

theorem supportedVia_of_path {n : Nat} (g : CCDBG n) (sv : List Bool) (ucm : UnitigColorMap n)
    (q : VSequences) (hq : SupportedPath g sv q) :
    SupportedVia g sv ucm (q ++ [orientedSequence g ucm]) := by
  obtain ⟨walk, rfl, c, hc, hall⟩ := hq
  exact ⟨walk, by simp, c, hc, hall⟩

theorem DFS_case_keeps {n : Nat} (g : CCDBG n) (visit : Visit n) (hv : VisitKeeps g visit)
    (ucm neighbor : UnitigColorMap n) (tb : Traceback) (w : Walk n) (tb2 : Traceback)
    (w2 : Walk n) (h : DFS_case g visit ucm neighbor tb w = .ok (tb2, w2)) :
    (∀ i, (w2.graph.data i).ID = (w.graph.data i).ID)
    ∧ w2.graph.id_init_status = w.graph.id_init_status
    ∧ (∀ c, w2.start_vec.getD c false = true → w.start_vec.getD c false = true)
    ∧ (∀ p ∈ tb2.pathseqs, p ∈ tb.pathseqs ∨ SupportedVia g w.start_vec ucm p) := by
  unfold DFS_case at h
  split at h
  · split at h
    · split at h
      · rename_i rtb w3 hvis
        simp only [Except.ok.injEq, Prod.mk.injEq] at h
        obtain ⟨rfl, rfl⟩ := h
        obtain ⟨h1, h2, h3, h4⟩ := hv _ _ _ _ _ hvis
        refine ⟨h1, h2, h3, ?_⟩
        intro p hp
        rcases absorb_pathseqs g ucm tb rtb p hp with hp | ⟨q, hq, rfl⟩
        · exact Or.inl hp
        · exact Or.inr (supportedVia_of_path g _ ucm q (h4 q hq))
      · cases h
    · simp only [Except.ok.injEq, Prod.mk.injEq] at h
      obtain ⟨rfl, rfl⟩ := h
      exact ⟨fun _ => rfl, rfl, fun _ hc => hc, fun p hp => Or.inl hp⟩
  · split at h
    · split at h
      · rename_i rtb w3 hvis
        simp only [Except.ok.injEq, Prod.mk.injEq] at h
        obtain ⟨rfl, rfl⟩ := h
        obtain ⟨h1, h2, h3, h4⟩ := hv _ _ _ _ _ hvis
        refine ⟨h1, h2, h3, ?_⟩
        intro p hp
        rcases absorb_pathseqs g ucm tb rtb p hp with hp | ⟨q, hq, rfl⟩
        · exact Or.inl hp
        · exact Or.inr (supportedVia_of_path g _ ucm q (h4 q hq))
      · cases h
    · simp only [Except.ok.injEq, Prod.mk.injEq] at h
      obtain ⟨rfl, rfl⟩ := h
      exact ⟨fun _ => rfl, rfl, fun _ hc => hc, fun p hp => Or.inl hp⟩

theorem supportedVia_mono {n : Nat} (g : CCDBG n) (sv sv2 : List Bool) (ucm : UnitigColorMap n)
    (p : VSequences) (hmono : ∀ c, sv2.getD c false = true → sv.getD c false = true)
    (hp : SupportedVia g sv2 ucm p) : SupportedVia g sv ucm p := by
  obtain ⟨walk, hw, c, hc, hall⟩ := hp
  exact ⟨walk, hw, c, hmono c hc, hall⟩

theorem neighborLoop_keeps {n : Nat} (g : CCDBG n) (visit : Visit n) (hv : VisitKeeps g visit)
    (max_paths : Nat) (ucm : UnitigColorMap n) (neighbors : List (UnitigColorMap n))
    (sorted : List (Nat × Nat)) (tb : Traceback) (w : Walk n) (tb2 : Traceback) (w2 : Walk n)
    (h : neighborLoop g visit max_paths ucm neighbors sorted tb w = .ok (tb2, w2)) :
    (∀ i, (w2.graph.data i).ID = (w.graph.data i).ID)
    ∧ w2.graph.id_init_status = w.graph.id_init_status
    ∧ (∀ c, w2.start_vec.getD c false = true → w.start_vec.getD c false = true)
    ∧ (∀ p ∈ tb2.pathseqs, p ∈ tb.pathseqs ∨ SupportedVia g w.start_vec ucm p) := by
  induction sorted generalizing tb w with
  | nil =>
    simp only [neighborLoop, Except.ok.injEq, Prod.mk.injEq] at h
    obtain ⟨rfl, rfl⟩ := h
    exact ⟨fun _ => rfl, rfl, fun _ hc => hc, fun p hp => Or.inl hp⟩
  | cons it rest ih =>
    unfold neighborLoop at h
    split at h
    · split at h
      · split at h
        · rename_i neighbor _ _ tb1 w1 hcase
          obtain ⟨a1, a2, a3, a4⟩ := DFS_case_keeps g visit hv ucm neighbor tb w tb1 w1 hcase
          obtain ⟨b1, b2, b3, b4⟩ := ih tb1 w1 h
          refine ⟨fun i => (b1 i).trans (a1 i), b2.trans a2, fun c hc => a3 c (b3 c hc), ?_⟩
          intro p hp
          rcases b4 p hp with hp | hp
          · exact a4 p hp
          · exact Or.inr (supportedVia_mono g _ _ ucm p a3 hp)
        · cases h
      · exact ih tb w h
    · simp only [Except.ok.injEq, Prod.mk.injEq] at h
      obtain ⟨rfl, rfl⟩ := h
      exact ⟨fun _ => rfl, rfl, fun _ hc => hc, fun p hp => Or.inl hp⟩

theorem supportedPath_of_via {n : Nat} (g : CCDBG n) (sv : List Bool) (u : UnitigColorMap n)
    (p : VSequences) (hp : SupportedVia g (update_start_vec g sv u) u p) :
    SupportedPath g sv p := by
  obtain ⟨walk, hw, c, hc, hall⟩ := hp
  obtain ⟨_, h2, h3, h4⟩ := (update_start_vec_getD g sv u c).1 hc
  refine ⟨walk ++ [u], hw, c, h2, ?_⟩
  intro x hx
  rcases List.mem_append.1 hx with hx | hx
  · exact hall x hx
  · rw [List.mem_singleton.1 hx]
    exact ⟨h3, h4⟩

theorem supportedPath_sink {n : Nat} (g : CCDBG n) (sv : List Bool) (u : UnitigColorMap n)
    (hne : is_empty_start_vec (update_start_vec g sv u) = false) :
    SupportedPath g sv [orientedSequence g u] := by
  obtain ⟨c, hc⟩ := exists_bit_of_not_empty _ hne
  obtain ⟨_, h2, h3, h4⟩ := (update_start_vec_getD g sv u c).1 hc
  refine ⟨[u], rfl, c, h2, ?_⟩
  intro x hx
  rw [List.mem_singleton.1 hx]
  exact ⟨h3, h4⟩

theorem visitBody_branch_keeps {n : Nat} (g : CCDBG n) (max_paths : Nat) (visit : Visit n)
    (hv : VisitKeeps g visit) (u : UnitigColorMap n) (w : Walk n)
    (f : UnitigExtension → UnitigExtension) (hf : ∀ ue, (f ue).ID = ue.ID)
    (neighbors : List (UnitigColorMap n)) (sink : Bool) (tb : Traceback) (w2 : Walk n)
    (h : (if is_empty_start_vec (update_start_vec g w.start_vec u) then
            (.ok (Traceback.empty,
              { w with start_vec := update_start_vec g w.start_vec u
                       graph := w.graph.modify u.unitig f }) :
              Except Fault (Traceback × Walk n))
          else if sink then
            .ok (sinkReturn g u
              { w with start_vec := update_start_vec g w.start_vec u
                       graph := w.graph.modify u.unitig f })
          else
            match neighborLoop g visit max_paths u neighbors
                (sortNeighbors g (w.graph.modify u.unitig f).data neighbors
                  (update_start_vec g w.start_vec u) []) Traceback.empty
                { w with start_vec := update_start_vec g w.start_vec u
                         graph := w.graph.modify u.unitig f } with
            | .ok (tb, w2) => .ok (tb, { w2 with sc := w2.sc.del })
            | .error e => .error e) = .ok (tb, w2)) :
    (∀ i, (w2.graph.data i).ID = (w.graph.data i).ID)
    ∧ w2.graph.id_init_status = w.graph.id_init_status
    ∧ (∀ c, w2.start_vec.getD c false = true → w.start_vec.getD c false = true)
    ∧ (∀ p ∈ tb.pathseqs, SupportedPath g w.start_vec p) := by
  have hmono : ∀ c, (update_start_vec g w.start_vec u).getD c false = true →
      w.start_vec.getD c false = true :=
    fun c hc => ((update_start_vec_getD g w.start_vec u c).1 hc).2.1
  split at h
  · simp only [Except.ok.injEq, Prod.mk.injEq] at h
    obtain ⟨rfl, rfl⟩ := h
    exact ⟨modify_ID w.graph u.unitig f hf, rfl, hmono, fun p hp => by simp [Traceback.empty] at hp⟩
  · rename_i hne
    split at h
    · simp only [sinkReturn, Except.ok.injEq, Prod.mk.injEq] at h
      obtain ⟨rfl, rfl⟩ := h
      refine ⟨modify_ID w.graph u.unitig f hf, rfl, hmono, ?_⟩
      intro p hp
      rw [List.mem_singleton.1 hp]
      exact supportedPath_sink g w.start_vec u (by simpa using hne)
    · split at h
      · rename_i tb1 w1 hloop
        simp only [Except.ok.injEq, Prod.mk.injEq] at h
        obtain ⟨rfl, rfl⟩ := h
        obtain ⟨a1, a2, a3, a4⟩ := neighborLoop_keeps g visit hv max_paths u neighbors _ _ _ _ _ hloop
        refine ⟨fun i => (a1 i).trans (modify_ID w.graph u.unitig f hf i), a2,
          fun c hc => hmono c (a3 c hc), ?_⟩
        intro p hp
        rcases a4 p hp with hp | hp
        · simp [Traceback.empty] at hp
        · exact supportedPath_of_via g w.start_vec u p hp
      · cases h

theorem DFS_VisitBody_keeps {n : Nat} (g : CCDBG n) (max_paths : Nat) (visit : Visit n)
    (hv : VisitKeeps g visit) : VisitKeeps g (DFS_VisitBody g max_paths visit) := by
  intro u d w tb w2 h
  cases d with
  | GO_FORWARD =>
    simp only [DFS_VisitBody, if_true, if_false, reduceCtorEq] at h
    exact visitBody_branch_keeps g max_paths visit hv u w UnitigExtension.set_seen_bw
      (fun _ => rfl) (g.getPredecessors u) _ tb w2 h
  | GO_BACKWARD =>
    simp only [DFS_VisitBody, if_true, if_false, reduceCtorEq] at h
    exact visitBody_branch_keeps g max_paths visit hv u w UnitigExtension.set_seen_fw
      (fun _ => rfl) (g.getSuccessors u) _ tb w2 h

theorem DFS_Visit_keeps {n : Nat} (g : CCDBG n) (max_paths : Nat) (fuel : Nat) :
    VisitKeeps g (DFS_Visit g max_paths fuel) := by
  induction fuel with
  | zero =>
    intro u d w tb w2 h
    simp [DFS_Visit] at h
  | succ fuel ih => exact DFS_VisitBody_keeps g max_paths _ ih

theorem traverseFrom_returns {n : Nat} (g : CCDBG n) (fuel : Nat) (visit : Visit n)
    (hv : VisitReturns fuel visit) (max_paths : Nat) (ucm : UnitigColorMap n) (sc : Setcover)
    (st1 : ExtendedCCDBG n) (hst : undiscoveredMarks st1 ≤ fuel)
    (neighbors : List (UnitigColorMap n)) (start_vec : List Bool) :
    ∃ r, traverseFrom g visit max_paths ucm sc st1 neighbors start_vec = .ok r := by
  unfold traverseFrom
  obtain ⟨tb2, w2, h1, _⟩ := neighborLoop_returns g fuel visit hv max_paths ucm neighbors
    (sortNeighbors g st1.data neighbors start_vec []) Traceback.empty
    { start_vec := start_vec, graph := st1, sc := sc } hst
  rw [h1]
  exact ⟨_, rfl⟩

theorem finishInit_ID {n : Nat} (ucm : UnitigColorMap n) (tb : Traceback)
    (graph : ExtendedCCDBG n) (sc : Setcover) :
    (finishInit ucm tb graph sc).1 = tb
    ∧ (∀ i, ((finishInit ucm tb graph sc).2.1.data i).ID = (graph.data i).ID)
    ∧ (finishInit ucm tb graph sc).2.1.id_init_status = graph.id_init_status := by
  unfold finishInit
  split
  · refine ⟨rfl, fun i => ?_, rfl⟩
    show (((graph.modify ucm.unitig UnitigExtension.set_visited_fw).modify ucm.unitig
      UnitigExtension.set_visited_bw).data i).ID = (graph.data i).ID
    rw [modify_ID _ _ UnitigExtension.set_visited_bw (fun _ => rfl),
      modify_ID _ _ UnitigExtension.set_visited_fw (fun _ => rfl)]
  · exact ⟨rfl, fun _ => rfl, rfl⟩

theorem traverseFrom_keeps {n : Nat} (g : CCDBG n) (visit : Visit n) (hv : VisitKeeps g visit)
    (max_paths : Nat) (ucm : UnitigColorMap n) (sc : Setcover) (st1 : ExtendedCCDBG n)
    (neighbors : List (UnitigColorMap n)) (start_vec : List Bool)
    (tb : Traceback) (st2 : ExtendedCCDBG n) (sc2 : Setcover)
    (h : traverseFrom g visit max_paths ucm sc st1 neighbors start_vec = .ok (tb, st2, sc2)) :
    (∀ i, (st2.data i).ID = (st1.data i).ID)
    ∧ st2.id_init_status = st1.id_init_status
    ∧ (∀ p ∈ tb.pathseqs, SupportedVia g start_vec ucm p) := by
  unfold traverseFrom at h
  split at h
  · rename_i tb1 w1 hloop
    obtain ⟨a1, a2, _, a4⟩ := neighborLoop_keeps g visit hv max_paths ucm neighbors _ _ _ _ _ hloop
    obtain ⟨b1, b2, b3⟩ := finishInit_ID ucm tb1 w1.graph w1.sc
    simp only [Except.ok.injEq] at h
    rw [h] at b1 b2 b3
    simp only at b1 b2 b3
    refine ⟨fun i => (b2 i).trans (a1 i), b3.trans a2, ?_⟩
    intro p hp
    rw [b1] at hp
    rcases a4 p hp with hp | hp
    · simp [Traceback.empty] at hp
    · exact hp
  · cases h

/-- The ways in which `DFS_InitFuel` returns. -/
theorem DFS_InitFuel_cases {n : Nat} (g : CCDBG n) (fuel : Nat) (ucm : UnitigColorMap n)
    (sc : Setcover) (max_paths : Nat) (st : ExtendedCCDBG n) :
    (DFS_InitFuel g fuel ucm sc max_paths st
        = .ok (Traceback.empty,
            { st with recursion_priority_counter := initialCounter max_paths }, sc))
    ∨ (g.getPredecessors ucm = [] ∧ g.getSuccessors ucm = []
        ∧ DFS_InitFuel g fuel ucm sc max_paths st
          = .ok ({ pathseqs := [[orientedSequence g ucm]], recursive_return_status := true },
              { st with recursion_priority_counter := initialCounter max_paths },
              ((sc.add (st.data ucm.unitig).ID).unify).clear))
    ∨ (g.getPredecessors ucm = [] ∧ g.getSuccessors ucm ≠ []
        ∧ DFS_InitFuel g fuel ucm sc max_paths st
          = traverseFrom g (DFS_Visit g max_paths fuel) max_paths ucm sc
              (ExtendedCCDBG.modify
                { st with recursion_priority_counter := initialCounter max_paths }
                ucm.unitig UnitigExtension.set_seen_fw)
              (g.getSuccessors ucm) (tailVec g ucm))
    ∨ (g.getPredecessors ucm ≠ [] ∧ g.getSuccessors ucm = []
        ∧ DFS_InitFuel g fuel ucm sc max_paths st
          = traverseFrom g (DFS_Visit g max_paths fuel) max_paths ucm sc
              (ExtendedCCDBG.modify
                { st with recursion_priority_counter := initialCounter max_paths }
                ucm.unitig UnitigExtension.set_seen_bw)
              (g.getPredecessors ucm) (headVec g ucm)) := by
  unfold DFS_InitFuel
  simp only
  split
  · exact Or.inl rfl
  · cases hp : g.getPredecessors ucm with
    | nil =>
      cases hs : g.getSuccessors ucm with
      | nil =>
        refine Or.inr (Or.inl ⟨rfl, rfl, ?_⟩)
        simp
      | cons b l =>
        simp only [List.isEmpty_nil, List.isEmpty_cons, Bool.and_false, Bool.false_eq_true,
          if_false, Bool.not_true, Bool.false_and, if_true, reduceCtorEq]
        split
        · exact Or.inl rfl
        · exact Or.inr (Or.inr (Or.inl ⟨trivial, by simp, rfl⟩))
    | cons a l =>
      cases hs : g.getSuccessors ucm with
      | nil =>
        simp only [List.isEmpty_nil, List.isEmpty_cons, Bool.false_and, Bool.false_eq_true,
          if_false, Bool.not_true, Bool.and_false, Bool.not_false, Bool.true_and, if_true]
        split
        · exact Or.inl rfl
        · exact Or.inr (Or.inr (Or.inr ⟨by simp, trivial, rfl⟩))
      | cons b l2 =>
        simp

theorem DFS_InitFuel_returns {n : Nat} (g : CCDBG n) (fuel : Nat) (hfuel : 2 * n ≤ fuel)
    (ucm : UnitigColorMap n) (sc : Setcover) (max_paths : Nat) (st : ExtendedCCDBG n) :
    ∃ r, DFS_InitFuel g fuel ucm sc max_paths st = .ok r := by
  have hv := DFS_Visit_returns g max_paths fuel
  rcases DFS_InitFuel_cases g fuel ucm sc max_paths st with h | ⟨_, _, h⟩ | ⟨_, _, h⟩ | ⟨_, _, h⟩
  · exact ⟨_, h⟩
  · exact ⟨_, h⟩
  · rw [h]
    exact traverseFrom_returns g fuel _ hv max_paths ucm sc _
      (Nat.le_trans (undiscoveredMarks_le _) hfuel) _ _
  · rw [h]
    exact traverseFrom_returns g fuel _ hv max_paths ucm sc _
      (Nat.le_trans (undiscoveredMarks_le _) hfuel) _ _

theorem DFS_Init_returns {n : Nat} (g : CCDBG n) (ucm : UnitigColorMap n) (sc : Setcover)
    (max_paths : Nat) (st : ExtendedCCDBG n) :
    ∃ tb st2 sc2, DFS_Init g ucm sc max_paths st = .ok (tb, st2, sc2) := by
  obtain ⟨⟨tb, st2, sc2⟩, h⟩ :=
    DFS_InitFuel_returns g (2 * n + 1) (Nat.le_succ _) ucm sc max_paths st
  exact ⟨tb, st2, sc2, h⟩

/-! ## Theorems: colors along the returned paths -/

/-- C5 (amended): for every graph and every start `s` that is not a singleton, `DFS_Init`
returns, and every path of the returned bundle is the walk of some unitigs followed by
`s` such that one color is set in the k-mer of `s` at the end where the traversal leaves
it (tail k-mer when `s` has no predecessors, head k-mer otherwise) and in both the head
and the tail k-mer of every other unitig of the walk. -/
theorem C5_paths_keep_a_common_color {n : Nat} (g : CCDBG n) (s : UnitigColorMap n)
    (sc : Setcover) (max_paths : Nat) (st : ExtendedCCDBG n)
    (hns : ¬ (g.getPredecessors s = [] ∧ g.getSuccessors s = [])) :
    ∃ tb st2 sc2, DFS_Init g s sc max_paths st = .ok (tb, st2, sc2)
      ∧ ∀ p ∈ tb.pathseqs, ∃ walk : List (UnitigColorMap n),
          p = (walk ++ [s]).map (orientedSequence g)
          ∧ ∃ c, c < g.getNbColors
              ∧ (if g.getPredecessors s = [] then g.tailColor s.unitig c
                  else g.headColor s.unitig c) = true
              ∧ colorOnAll g c walk := by
  obtain ⟨tb, st2, sc2, hret⟩ := DFS_Init_returns g s sc max_paths st
  refine ⟨tb, st2, sc2, hret, ?_⟩
  unfold DFS_Init at hret
  have hv := DFS_Visit_keeps g max_paths (2 * n + 1)
  rcases DFS_InitFuel_cases g (2 * n + 1) s sc max_paths st with h | ⟨h1, h2, _⟩ | ⟨h1, _, h⟩
    | ⟨h1, _, h⟩
  · rw [h] at hret
    simp only [Except.ok.injEq, Prod.mk.injEq] at hret
    intro p hp
    rw [← hret.1] at hp
    simp [Traceback.empty] at hp
  · exact absurd ⟨h1, h2⟩ hns
  · rw [h] at hret
    obtain ⟨_, _, a3⟩ := traverseFrom_keeps g _ hv max_paths s sc _ _ _ tb st2 sc2 hret
    intro p hp
    obtain ⟨walk, hw, c, hc, hall⟩ := a3 p hp
    obtain ⟨hc1, hc2⟩ := (getD_map_range _ _ _).1 hc
    exact ⟨walk, hw, c, hc1, by rw [if_pos h1]; exact hc2, hall⟩
  · rw [h] at hret
    obtain ⟨_, _, a3⟩ := traverseFrom_keeps g _ hv max_paths s sc _ _ _ tb st2 sc2 hret
    intro p hp
    obtain ⟨walk, hw, c, hc, hall⟩ := a3 p hp
    obtain ⟨hc1, hc2⟩ := (getD_map_range _ _ _).1 hc
    exact ⟨walk, hw, c, hc1, by rw [if_neg h1]; exact hc2, hall⟩

/-- Witness of C5 (amended) at the first unitig of the chain of scenario 2. -/
theorem C5_paths_keep_a_common_color_witness :
    ∃ tb st2 sc2, DFS_Init (chainGraph [0, 1, 2]) { unitig := 0, strand := true } Setcover.init 1
          (numbered 3) = .ok (tb, st2, sc2)
      ∧ ∀ p ∈ tb.pathseqs, ∃ walk : List (UnitigColorMap 3),
          p = (walk ++ [({ unitig := 0, strand := true } : UnitigColorMap 3)]).map
                (orientedSequence (chainGraph [0, 1, 2]))
          ∧ ∃ c, c < (chainGraph [0, 1, 2]).getNbColors
              ∧ (if (chainGraph [0, 1, 2]).getPredecessors { unitig := 0, strand := true } = []
                  then (chainGraph [0, 1, 2]).tailColor
                    ({ unitig := 0, strand := true } : UnitigColorMap 3).unitig c
                  else (chainGraph [0, 1, 2]).headColor
                    ({ unitig := 0, strand := true } : UnitigColorMap 3).unitig c) = true
              ∧ colorOnAll (chainGraph [0, 1, 2]) c walk :=
  C5_paths_keep_a_common_color (chainGraph [0, 1, 2]) { unitig := 0, strand := true }
    Setcover.init 1 (numbered 3) (by decide)

/-- C5 (counterexample): `DFS_Init` returns a successful bundle for a singleton whose
head k-mer has color 0 only and whose tail k-mer has color 1 only, and for the first unitig
of a fork whose head k-mer has color 1 only while every other k-mer has color 0 only; in
both cases the path of the bundle runs through that unitig, and the intersection of the
head and tail colors over the unitigs of the path has no bit set. -/
theorem C5_bundle_without_common_color :
    (returnedBundle (DFS_Init splitColorSingleton { unitig := 0, strand := true } Setcover.init 1
        (numbered 1))
      = some { pathseqs := [[orientedSequence splitColorSingleton { unitig := 0, strand := true }]],
               recursive_return_status := true }
      ∧ is_empty_start_vec (commonColors splitColorSingleton [{ unitig := 0, strand := true }])
          = true)
    ∧ (returnedBundle (DFS_Init oddStartFork { unitig := 0, strand := true } Setcover.init 1
        (numbered 5))
      = some { pathseqs := [[orientedSequence oddStartFork { unitig := 1, strand := true },
                             orientedSequence oddStartFork { unitig := 0, strand := true }]],
               recursive_return_status := true }
      ∧ is_empty_start_vec (commonColors oddStartFork
          [{ unitig := 1, strand := true }, { unitig := 0, strand := true }]) = true) := by
  decide

/-! ## Theorems: running merge twice -/

theorem DFS_Init_counter {n : Nat} (g : CCDBG n) (ucm : UnitigColorMap n) (sc : Setcover)
    (max_paths : Nat) (st : ExtendedCCDBG n) (c : Nat) :
    DFS_Init g ucm sc max_paths { st with recursion_priority_counter := c }
      = DFS_Init g ucm sc max_paths st := rfl

theorem mergeUnitigs_counter {n : Nat} (g : CCDBG n) (opt : CCDBG_Build_opt) (max_paths : Nat)
    (u : UnitigColorMap n) (us : List (UnitigColorMap n)) (m : MergeState n) (c : Nat) :
    mergeUnitigs g opt max_paths (u :: us)
        { m with graph := { m.graph with recursion_priority_counter := c } }
      = mergeUnitigs g opt max_paths (u :: us) m := by
  simp only [mergeUnitigs, DFS_Init_counter]

theorem mergePasses_counter {n : Nat} (g : CCDBG n) (opt : CCDBG_Build_opt) (max_paths : Nat)
    (u : UnitigColorMap n) (us : List (UnitigColorMap n)) (hg : g.unitigs = u :: us)
    (passes : Nat) (m : MergeState n) (c : Nat) :
    mergePasses g opt max_paths (passes + 1)
        { m with graph := { m.graph with recursion_priority_counter := c } }
      = mergePasses g opt max_paths (passes + 1) m := by
  simp only [mergePasses, hg, mergeUnitigs_counter]

theorem mergePasses_nil {n : Nat} (g : CCDBG n) (opt : CCDBG_Build_opt) (max_paths : Nat)
    (hg : g.unitigs = []) (passes : Nat) (m : MergeState n) :
    mergePasses g opt max_paths passes m = .ok (true, m) := by
  induction passes with
  | zero => rfl
  | succ p ih => simp only [mergePasses, hg, mergeUnitigs, ih]

theorem merge_counter {n : Nat} (g : CCDBG n) (opt : CCDBG_Build_opt) (max_paths : Nat)
    (canOpen : Bool) (st : ExtendedCCDBG n) (c : Nat) :
    writtenRecords (merge g opt max_paths canOpen { st with recursion_priority_counter := c })
      = writtenRecords (merge g opt max_paths canOpen st) := by
  unfold merge
  simp only
  split
  · rfl
  · split
    · rfl
    · cases hg : g.unitigs with
      | nil => simp only [mergePasses_nil g opt max_paths hg, writtenRecords]
      | cons u us =>
        cases max_paths with
        | zero => simp only [mergePasses, writtenRecords]
        | succ p =>
          have := mergePasses_counter g opt (p + 1) u us hg p
            { graph := st, sc := Setcover.init, ofs := { is_open := true, records := [] },
              sv_counter := 0 } c
          simp only at this
          rw [this]

theorem SameIds.refl {n : Nat} (a : ExtendedCCDBG n) : SameIds a a := ⟨fun _ => rfl, rfl⟩

theorem SameIds.trans {n : Nat} {a b c : ExtendedCCDBG n} (h1 : SameIds a b) (h2 : SameIds b c) :
    SameIds a c := ⟨fun i => (h1.1 i).trans (h2.1 i), h1.2.trans h2.2⟩

theorem sameIds_modify {n : Nat} (st : ExtendedCCDBG n) (i : Fin n)
    (f : UnitigExtension → UnitigExtension) (hf : ∀ ue, (f ue).ID = ue.ID) :
    SameIds (st.modify i f) st := ⟨modify_ID st i f hf, rfl⟩

theorem DFS_Init_sameIds {n : Nat} (g : CCDBG n) (ucm : UnitigColorMap n) (sc : Setcover)
    (max_paths : Nat) (st : ExtendedCCDBG n) (tb : Traceback) (st2 : ExtendedCCDBG n)
    (sc2 : Setcover) (h : DFS_Init g ucm sc max_paths st = .ok (tb, st2, sc2)) :
    SameIds st2 st := by
  unfold DFS_Init at h
  have hv := DFS_Visit_keeps g max_paths (2 * n + 1)
  rcases DFS_InitFuel_cases g (2 * n + 1) ucm sc max_paths st with h1 | ⟨_, _, h1⟩ | ⟨_, _, h1⟩
    | ⟨_, _, h1⟩
  · rw [h1] at h
    simp only [Except.ok.injEq, Prod.mk.injEq] at h
    rw [← h.2.1]
    exact ⟨fun _ => rfl, rfl⟩
  · rw [h1] at h
    simp only [Except.ok.injEq, Prod.mk.injEq] at h
    rw [← h.2.1]
    exact ⟨fun _ => rfl, rfl⟩
  · rw [h1] at h
    obtain ⟨a1, a2, _⟩ := traverseFrom_keeps g _ hv max_paths ucm sc _ _ _ tb st2 sc2 h
    exact SameIds.trans ⟨a1, a2⟩ (sameIds_modify _ _ _ (fun _ => rfl))
  · rw [h1] at h
    obtain ⟨a1, a2, _⟩ := traverseFrom_keeps g _ hv max_paths ucm sc _ _ _ tb st2 sc2 h
    exact SameIds.trans ⟨a1, a2⟩ (sameIds_modify _ _ _ (fun _ => rfl))

theorem cleanSeen_ID (ue : UnitigExtension) : (cleanSeen ue).ID = ue.ID := by
  unfold cleanSeen
  simp only
  split <;> split <;> rfl

theorem foldl_modify_sameIds {n : Nat} (f : UnitigExtension → UnitigExtension)
    (hf : ∀ ue, (f ue).ID = ue.ID) (l : List (UnitigColorMap n)) (st : ExtendedCCDBG n) :
    SameIds (l.foldl (fun s ucm => s.modify ucm.unitig f) st) st := by
  induction l generalizing st with
  | nil => exact SameIds.refl st
  | cons u rest ih =>
    simp only [List.foldl_cons]
    exact SameIds.trans (ih _) (sameIds_modify st u.unitig f hf)

theorem DFS_cleaner_seen_only_sameIds {n : Nat} (g : CCDBG n) (st : ExtendedCCDBG n) :
    SameIds (DFS_cleaner_seen_only g st) st :=
  foldl_modify_sameIds cleanSeen cleanSeen_ID g.unitigs st

theorem mergeUnitigs_sameIds {n : Nat} (g : CCDBG n) (opt : CCDBG_Build_opt) (max_paths : Nat)
    (us : List (UnitigColorMap n)) (m : MergeState n) (ret : Bool) (m2 : MergeState n)
    (h : mergeUnitigs g opt max_paths us m = .ok (ret, m2)) : SameIds m2.graph m.graph := by
  induction us generalizing m with
  | nil =>
    simp only [mergeUnitigs, Except.ok.injEq, Prod.mk.injEq] at h
    rw [← h.2]
    exact SameIds.refl _
  | cons u rest ih =>
    unfold mergeUnitigs at h
    split at h
    · cases h
    · rename_i tb graph1 sc1 hinit
      have h1 := DFS_Init_sameIds g u m.sc max_paths m.graph tb graph1 sc1 hinit
      have h2 := DFS_cleaner_seen_only_sameIds g graph1
      split at h
      · split at h
        · cases h
        · split at h
          · exact SameIds.trans (ih _ h) (SameIds.trans h2 h1)
          · simp only [Except.ok.injEq, Prod.mk.injEq] at h
            rw [← h.2]
            exact h1
      · exact SameIds.trans (ih _ h) (SameIds.trans h2 h1)

theorem mergePasses_sameIds {n : Nat} (g : CCDBG n) (opt : CCDBG_Build_opt) (max_paths : Nat)
    (passes : Nat) (m : MergeState n) (ret : Bool) (m2 : MergeState n)
    (h : mergePasses g opt max_paths passes m = .ok (ret, m2)) : SameIds m2.graph m.graph := by
  induction passes generalizing m with
  | zero =>
    simp only [mergePasses, Except.ok.injEq, Prod.mk.injEq] at h
    rw [← h.2]
    exact SameIds.refl _
  | succ p ih =>
    unfold mergePasses at h
    split at h
    · cases h
    · rename_i m1 hu
      exact SameIds.trans (ih _ h) (mergeUnitigs_sameIds g opt max_paths _ m true m1 hu)
    · rename_i m1 hu
      simp only [Except.ok.injEq, Prod.mk.injEq] at h
      rw [← h.2]
      exact mergeUnitigs_sameIds g opt max_paths _ m false m1 hu

theorem merge_sameIds {n : Nat} (g : CCDBG n) (opt : CCDBG_Build_opt) (max_paths : Nat)
    (canOpen : Bool) (st : ExtendedCCDBG n) (ret : Bool) (recs : List FastaRecord)
    (st2 : ExtendedCCDBG n) (h : merge g opt max_paths canOpen st = .ok (ret, recs, st2)) :
    SameIds st2 st := by
  unfold merge at h
  split at h
  · simp only [Except.ok.injEq, Prod.mk.injEq] at h
    rw [← h.2.2]
    exact SameIds.refl _
  · split at h
    · simp only [Except.ok.injEq, Prod.mk.injEq] at h
      rw [← h.2.2]
      exact SameIds.refl _
    · split at h
      · cases h
      · rename_i ret2 m hp
        simp only [Except.ok.injEq, Prod.mk.injEq] at h
        rw [← h.2.2]
        exact mergePasses_sameIds g opt max_paths max_paths _ ret2 m hp

theorem cleaner_step_data {n : Nat} (st : ExtendedCCDBG n) (u : UnitigColorMap n) (i : Fin n) :
    (((st.modify u.unitig UnitigExtension.set_undiscovered_fw).modify u.unitig
        UnitigExtension.set_undiscovered_bw).data i)
      = if i = u.unitig then
          { ID := (st.data i).ID, dfs_fw := .undiscovered, dfs_bw := .undiscovered }
        else st.data i := by
  unfold ExtendedCCDBG.modify
  by_cases h : i = u.unitig
  · simp [h, UnitigExtension.set_undiscovered_fw, UnitigExtension.set_undiscovered_bw]
  · simp [h]

theorem cleaner_fold_keeps {n : Nat} (l : List (UnitigColorMap n)) (st : ExtendedCCDBG n)
    (i : Fin n) (id : Nat)
    (h : st.data i = { ID := id, dfs_fw := .undiscovered, dfs_bw := .undiscovered }) :
    (l.foldl (fun s ucm =>
        (s.modify ucm.unitig UnitigExtension.set_undiscovered_fw).modify ucm.unitig
          UnitigExtension.set_undiscovered_bw) st).data i
      = { ID := id, dfs_fw := .undiscovered, dfs_bw := .undiscovered } := by
  induction l generalizing st with
  | nil => exact h
  | cons u rest ih =>
    simp only [List.foldl_cons]
    apply ih
    rw [cleaner_step_data]
    split
    · rw [h]
    · exact h

theorem cleaner_fold_resets {n : Nat} (l : List (UnitigColorMap n)) (st : ExtendedCCDBG n)
    (i : Fin n) (hi : ∃ u ∈ l, u.unitig = i) :
    (l.foldl (fun s ucm =>
        (s.modify ucm.unitig UnitigExtension.set_undiscovered_fw).modify ucm.unitig
          UnitigExtension.set_undiscovered_bw) st).data i
      = { ID := (st.data i).ID, dfs_fw := .undiscovered, dfs_bw := .undiscovered } := by
  induction l generalizing st with
  | nil =>
    obtain ⟨u, hu, _⟩ := hi
    cases hu
  | cons u rest ih =>
    simp only [List.foldl_cons]
    by_cases h : i = u.unitig
    · apply cleaner_fold_keeps
      rw [cleaner_step_data, if_pos h]
    · obtain ⟨v, hv, hvi⟩ := hi
      have hv2 : v ∈ rest := by
        rcases List.mem_cons.1 hv with rfl | hv
        · exact absurd hvi.symm h
        · exact hv
      rw [ih _ ⟨v, hv2, hvi⟩, cleaner_step_data, if_neg h]

theorem cleaner_fold_rest {n : Nat} (l : List (UnitigColorMap n)) (st : ExtendedCCDBG n) :
    (l.foldl (fun s ucm =>
        (s.modify ucm.unitig UnitigExtension.set_undiscovered_fw).modify ucm.unitig
          UnitigExtension.set_undiscovered_bw) st).id_init_status = st.id_init_status
    ∧ (l.foldl (fun s ucm =>
        (s.modify ucm.unitig UnitigExtension.set_undiscovered_fw).modify ucm.unitig
          UnitigExtension.set_undiscovered_bw) st).recursion_priority_counter
        = st.recursion_priority_counter := by
  induction l generalizing st with
  | nil => exact ⟨rfl, rfl⟩
  | cons u rest ih =>
    simp only [List.foldl_cons]
    exact ih _

theorem DFS_cleaner_after {n : Nat} (g : CCDBG n) (st st2 : ExtendedCCDBG n)
    (hfresh : ∀ i, (st.data i).dfs_fw = .undiscovered ∧ (st.data i).dfs_bw = .undiscovered)
    (hcover : ∀ i : Fin n, ∃ u ∈ g.unitigs, u.unitig = i) (hids : SameIds st2 st) :
    DFS_cleaner g st2
      = { st with recursion_priority_counter := st2.recursion_priority_counter } := by
  obtain ⟨h1, h2⟩ := cleaner_fold_rest g.unitigs st2
  have h3 : (DFS_cleaner g st2).data = st.data := by
    funext i
    unfold DFS_cleaner
    rw [cleaner_fold_resets g.unitigs st2 i (hcover i), hids.1 i]
    cases hd : st.data i with
    | mk id fw bw =>
      have := hfresh i
      rw [hd] at this
      simp only at this
      rw [this.1, this.2]
  cases hc : DFS_cleaner g st2 with
  | mk d s c =>
    rw [hc] at h3
    unfold DFS_cleaner at hc
    rw [hc] at h1 h2
    simp only at h1 h2 h3
    rw [h3, h1, h2, hids.2]

theorem writtenRecords_eq_some {n : Nat}
    (r : Except Fault (Bool × List FastaRecord × ExtendedCCDBG n)) (recs : List FastaRecord)
    (h : writtenRecords r = some recs) : ∃ ret st, r = .ok (ret, recs, st) := by
  unfold writtenRecords at h
  split at h
  · rename_i ret recs2 st
    simp only [Option.some.injEq] at h
    exact ⟨ret, st, by rw [h]⟩
  · cases h

/-- C6 (amended): for every graph whose iteration lists every unitig, and every
configuration, when the first call of `merge` starts with all traversal marks
undiscovered and the marks are reset by `DFS_cleaner` before the second call, the second
call writes exactly the same sequence of contig records as the first (and returns
whenever the first does). -/
theorem C6_merge_repeats_after_cleaner {n : Nat} (g : CCDBG n) (opt : CCDBG_Build_opt)
    (max_paths : Nat) (canOpen : Bool) (st : ExtendedCCDBG n)
    (hfresh : ∀ i, (st.data i).dfs_fw = .undiscovered ∧ (st.data i).dfs_bw = .undiscovered)
    (hcover : ∀ i : Fin n, ∃ u ∈ g.unitigs, u.unitig = i) :
    mergeTwice g opt max_paths canOpen (DFS_cleaner g) st
      = match merge g opt max_paths canOpen st with
        | .error e => .error e
        | .ok (_, recs, _) => .ok (recs, recs) := by
  unfold mergeTwice
  cases h : merge g opt max_paths canOpen st with
  | error e => rfl
  | ok r =>
    obtain ⟨ret, recs, st2⟩ := r
    simp only
    rw [DFS_cleaner_after g st st2 hfresh hcover (merge_sameIds g opt max_paths canOpen st _ _ _ h)]
    have h2 := merge_counter g opt max_paths canOpen st st2.recursion_priority_counter
    rw [h] at h2
    obtain ⟨ret3, st3, h3⟩ := writtenRecords_eq_some _ recs h2
    rw [h3]

/-- C6 (counterexample): on the chain of scenario 2 with `max_paths = 1`, the first call
of `merge` writes one contig and a second call, starting from the marks the first one left
behind, writes none. -/
theorem C6_second_merge_writes_nothing :
    mergeTwice (chainGraph [0, 1, 2]) { k := 3, verbose := false } 1 true (fun st => st)
        (numbered 3)
      = .ok ([{ contig := 1, seq := [.A, .A, .A, .C, .C, .C, .G, .G, .G, .T, .T] }], []) := by
  rfl

/-- Witness of C6 (amended) on the chain of scenario 2. -/
theorem C6_merge_repeats_after_cleaner_witness :
    mergeTwice (chainGraph [0, 1, 2]) { k := 3, verbose := false } 1 true
        (DFS_cleaner (chainGraph [0, 1, 2])) (numbered 3)
      = match merge (chainGraph [0, 1, 2]) { k := 3, verbose := false } 1 true (numbered 3) with
        | .error e => .error e
        | .ok (_, recs, _) => .ok (recs, recs) :=
  C6_merge_repeats_after_cleaner (chainGraph [0, 1, 2]) { k := 3, verbose := false } 1 true (numbered 3)
    (fun _ => ⟨rfl, rfl⟩) (by decide)

/-! ## Theorems: more scenarios, evaluated -/

set_option maxRecDepth 100000 in
/-- The links of the quaternary tree: every unitig is an 11-mer with at most four successors
and at most one predecessor, and every successor is met on the forward strand, has the
unitig as its predecessor and overlaps it in `k - 1 = 10` characters. -/
theorem quadTree_links : ∀ i : Fin 345,
    (quadSeqFuel 5 i.val).length = 11
    ∧ (quadTree.getSuccessors ⟨i, true⟩).length ≤ 4
    ∧ (quadTree.getPredecessors ⟨i, true⟩).length ≤ 1
    ∧ ∀ b ∈ quadTree.getSuccessors ⟨i, true⟩,
        b.strand = true ∧ (⟨i, true⟩ : UnitigColorMap 345) ∈ quadTree.getPredecessors b
        ∧ (quadSeqFuel 5 i.val).drop 1 = (quadSeqFuel 5 b.unitig.val).take 10 := by
  decide!

set_option maxRecDepth 100000 in
/-- C4 (evaluation at the failing input): on the quaternary tree, started at the root `u0`
with `max_paths = 256`, `DFS_Init` returns a bundle of 259 paths, one for every unitig that
ends the graph. The 8-bit counter starts at 255, wraps to 0 at the first sink and stays
below 256 for ever. -/
theorem C4_bundle_exceeds_max_paths :
    bundleSize (DFS_Init quadTree { unitig := 0, strand := true } Setcover.init 256
        (numbered 345))
      = some 259 := by
  decide!

/-- C8 (counterexample): on the chain of scenario 4, iterated as `u1, u2, u3` with
`max_paths = 1`, `merge` emits no contig, so not exactly one. -/
theorem C8_color_prune_emits_nothing :
    runMerge (pruneGraph [0, 1, 2]) 3 1 = some [] := by
  decide

/-- C9 (counterexample): on the chain of scenario 2 with `k = 3` and `max_paths = 1`,
`merge` emits the single contig `AAACCCGGGTT`, which is not `AAACCGGTT`. -/
theorem C9_chain_contig_is_longer :
    runMerge (chainGraph [0, 1, 2]) 3 1
        = some [[.A, .A, .A, .C, .C, .C, .G, .G, .G, .T, .T]]
      ∧ runMerge (chainGraph [0, 1, 2]) 3 1 ≠ some [[.A, .A, .A, .C, .C, .G, .G, .T, .T]] := by
  decide

/-! ## Theorems: max_paths only matters through the loop guard -/

theorem data_eq_of_marks {n : Nat} (a b : ExtendedCCDBG n) (hid : ∀ i, (a.data i).ID = (b.data i).ID)
    (hm : marksOf a = marksOf b) : a.data = b.data := by
  funext i
  have h := (List.map_inj_left.1 hm) i (List.mem_finRange i)
  simp only [Prod.mk.injEq] at h
  have h2 := hid i
  cases ha : a.data i
  cases hb : b.data i
  rw [ha, hb] at h h2
  simp only at h h2
  rw [h.1, h.2, h2]

theorem pass_of_view {n : Nat} (g : CCDBG n) (opt : CCDBG_Build_opt) (max_paths : Nat)
    (m : MergeState n) (hinit : m.graph.id_init_status = true) (d : Fin n → UnitigExtension)
    (hid : ∀ i, (d i).ID = (m.graph.data i).ID) (ofs : Ofstream) (k : Nat)
    (h : passView (mergeUnitigs g opt max_paths g.unitigs m)
      = some (true,
          marksOf (⟨d, true, 0⟩ : ExtendedCCDBG n),
          ofs, k)) :
    ∃ sc2 c2, mergeUnitigs g opt max_paths g.unitigs m
      = .ok (true, (⟨⟨d, true, c2⟩, sc2, ofs, k⟩ : MergeState n)) := by
  cases hr : mergeUnitigs g opt max_paths g.unitigs m with
  | error e => rw [hr] at h; simp [passView] at h
  | ok r =>
    obtain ⟨b, m2⟩ := r
    rw [hr] at h
    simp only [passView, Option.some.injEq, Prod.mk.injEq] at h
    obtain ⟨rfl, hm, hofs, hk⟩ := h
    have hs := mergeUnitigs_sameIds g opt max_paths g.unitigs m true m2 hr
    have hd : m2.graph.data = d :=
      data_eq_of_marks m2.graph ⟨d, true, 0⟩
        (fun i => (hs.1 i).trans (hid i).symm) hm
    refine ⟨m2.sc, m2.graph.recursion_priority_counter, ?_⟩
    obtain ⟨⟨d2, i2, c2⟩, sc2, ofs2, k2⟩ := m2
    simp only at hd hofs hk hs
    have hi2 : i2 = true := hs.2.trans hinit
    rw [hd, hofs, hk, hi2]

theorem mergePasses_stable {n : Nat} (g : CCDBG n) (opt : CCDBG_Build_opt) (max_paths : Nat)
    (d : Fin n → UnitigExtension)
    (hpass : ∀ sc c ofs k, passView (mergeUnitigs g opt max_paths g.unitigs
        (⟨⟨d, true, c⟩, sc, ofs, k⟩ : MergeState n))
      = some (true,
          marksOf (⟨d, true, 0⟩ : ExtendedCCDBG n),
          ofs, k))
    (passes : Nat) (sc : Setcover) (c : Nat) (ofs : Ofstream) (k : Nat) :
    ∃ sc2 c2, mergePasses g opt max_paths passes
        (⟨⟨d, true, c⟩, sc, ofs, k⟩ : MergeState n)
      = .ok (true, (⟨⟨d, true, c2⟩, sc2, ofs, k⟩ : MergeState n)) := by
  induction passes generalizing sc c with
  | zero => exact ⟨sc, c, rfl⟩
  | succ p ih =>
    obtain ⟨sc1, c1, h1⟩ := pass_of_view g opt max_paths _ rfl d (fun _ => rfl) ofs k
      (hpass sc c ofs k)
    obtain ⟨sc2, c2, h2⟩ := ih sc1 c1
    refine ⟨sc2, c2, ?_⟩
    simp only [mergePasses, h1, h2]

theorem walkSim_cases {n : Nat} (Rc : Nat → Nat → Prop) (w1 w2 : Walk n)
    (h : WalkSim Rc w1 w2) :
    ∃ sv d i sc c1 c2, w1 = ⟨sv, ⟨d, i, c1⟩, sc⟩ ∧ w2 = ⟨sv, ⟨d, i, c2⟩, sc⟩ ∧ Rc c1 c2 := by
  obtain ⟨sv1, ⟨d1, i1, c1⟩, sc1⟩ := w1
  obtain ⟨sv2, ⟨d2, i2, c2⟩, sc2⟩ := w2
  simp only [WalkSim] at h
  obtain ⟨rfl, rfl, rfl, rfl, h5⟩ := h
  exact ⟨_, _, _, _, _, _, rfl, rfl, h5⟩

theorem DFS_case_sim {n : Nat} (g : CCDBG n) (mp1 : Nat) (Rc : Nat → Nat → Prop)
    (v1 v2 : Visit n) (hv : VisitSim mp1 Rc v1 v2) (ucm neighbor : UnitigColorMap n)
    (tb : Traceback) (w1 w2 : Walk n) (hw : WalkSim Rc w1 w2)
    (hg : w1.graph.recursion_priority_counter < mp1) :
    ResultSim Rc (DFS_case g v1 ucm neighbor tb w1) (DFS_case g v2 ucm neighbor tb w2) := by
  obtain ⟨sv, d, i, sc, c1, c2, rfl, rfl, hc⟩ := walkSim_cases Rc w1 w2 hw
  unfold DFS_case
  simp only
  split
  · split
    · have h := hv neighbor .GO_BACKWARD ⟨sv, ⟨d, i, c1⟩, sc.add (d ucm.unitig).ID⟩
        ⟨sv, ⟨d, i, c2⟩, sc.add (d ucm.unitig).ID⟩ ⟨rfl, rfl, rfl, rfl, hc⟩ hg
      revert h
      generalize v1 neighbor .GO_BACKWARD ⟨sv, ⟨d, i, c1⟩, sc.add (d ucm.unitig).ID⟩ = r1
      generalize v2 neighbor .GO_BACKWARD ⟨sv, ⟨d, i, c2⟩, sc.add (d ucm.unitig).ID⟩ = r2
      intro h
      rcases r1 with e1 | ⟨tb1, x1⟩ <;> rcases r2 with e2 | ⟨tb2, x2⟩
      · exact h
      · exact h.elim
      · exact h.elim
      · exact ⟨by rw [h.1], h.2⟩
    · exact ⟨rfl, hw⟩
  · split
    · have h := hv neighbor .GO_FORWARD ⟨sv, ⟨d, i, c1⟩, sc.add (d ucm.unitig).ID⟩
        ⟨sv, ⟨d, i, c2⟩, sc.add (d ucm.unitig).ID⟩ ⟨rfl, rfl, rfl, rfl, hc⟩ hg
      revert h
      generalize v1 neighbor .GO_FORWARD ⟨sv, ⟨d, i, c1⟩, sc.add (d ucm.unitig).ID⟩ = r1
      generalize v2 neighbor .GO_FORWARD ⟨sv, ⟨d, i, c2⟩, sc.add (d ucm.unitig).ID⟩ = r2
      intro h
      rcases r1 with e1 | ⟨tb1, x1⟩ <;> rcases r2 with e2 | ⟨tb2, x2⟩
      · exact h
      · exact h.elim
      · exact h.elim
      · exact ⟨by rw [h.1], h.2⟩
    · exact ⟨rfl, hw⟩

theorem neighborLoop_sim {n : Nat} (g : CCDBG n) (mp1 mp2 : Nat) (Rc : Nat → Nat → Prop)
    (hs : GuardSim mp1 mp2 Rc) (v1 v2 : Visit n) (hv : VisitSim mp1 Rc v1 v2)
    (ucm : UnitigColorMap n) (neighbors : List (UnitigColorMap n)) (sorted : List (Nat × Nat))
    (tb : Traceback) (w1 w2 : Walk n) (hw : WalkSim Rc w1 w2) :
    ResultSim Rc (neighborLoop g v1 mp1 ucm neighbors sorted tb w1)
      (neighborLoop g v2 mp2 ucm neighbors sorted tb w2) := by
  induction sorted generalizing tb w1 w2 with
  | nil => exact ⟨rfl, hw⟩
  | cons it rest ih =>
    have hgd := hs.guard _ _ hw.2.2.2.2
    have hd : w1.graph.data = w2.graph.data := hw.2.1
    unfold neighborLoop
    rw [hd]
    by_cases hg : w1.graph.recursion_priority_counter < mp1
    · rw [if_pos hg, if_pos (hgd.1 hg)]
      split
      · rename_i neighbor _
        have h := DFS_case_sim g mp1 Rc v1 v2 hv ucm neighbor tb w1 w2 hw hg
        revert h
        generalize DFS_case g v1 ucm neighbor tb w1 = r1
        generalize DFS_case g v2 ucm neighbor tb w2 = r2
        intro h
        rcases r1 with e1 | ⟨tb1, x1⟩ <;> rcases r2 with e2 | ⟨tb2, x2⟩
        · exact h
        · exact h.elim
        · exact h.elim
        · obtain ⟨h0, hx⟩ := h
          simp only
          rw [h0]
          exact ih tb2 x1 x2 hx
      · exact ih tb w1 w2 hw
    · rw [if_neg hg, if_neg (fun h => hg (hgd.2 h))]
      exact ⟨rfl, hw⟩

theorem visitBranch_sim {n : Nat} (g : CCDBG n) (mp1 mp2 : Nat) (Rc : Nat → Nat → Prop)
    (hs : GuardSim mp1 mp2 Rc) (v1 v2 : Visit n) (hv : VisitSim mp1 Rc v1 v2)
    (u : UnitigColorMap n) (sv : List Bool) (st1 st2 : ExtendedCCDBG n) (sc : Setcover)
    (hw : WalkSim Rc ⟨sv, st1, sc⟩ ⟨sv, st2, sc⟩)
    (hg : st1.recursion_priority_counter < mp1)
    (neighbors : List (UnitigColorMap n)) (sink : Bool) :
    ResultSim Rc
      (if is_empty_start_vec sv then
          (.ok (Traceback.empty, ⟨sv, st1, sc⟩) : Except Fault (Traceback × Walk n))
        else if sink then .ok (sinkReturn g u ⟨sv, st1, sc⟩)
        else
          match neighborLoop g v1 mp1 u neighbors (sortNeighbors g st1.data neighbors sv [])
              Traceback.empty ⟨sv, st1, sc⟩ with
          | .ok (tb, w2) => .ok (tb, { w2 with sc := w2.sc.del })
          | .error e => .error e)
      (if is_empty_start_vec sv then
          (.ok (Traceback.empty, ⟨sv, st2, sc⟩) : Except Fault (Traceback × Walk n))
        else if sink then .ok (sinkReturn g u ⟨sv, st2, sc⟩)
        else
          match neighborLoop g v2 mp2 u neighbors (sortNeighbors g st2.data neighbors sv [])
              Traceback.empty ⟨sv, st2, sc⟩ with
          | .ok (tb, w2) => .ok (tb, { w2 with sc := w2.sc.del })
          | .error e => .error e) := by
  have hd : st1.data = st2.data := hw.2.1
  split
  · exact ⟨rfl, hw⟩
  · split
    · refine ⟨rfl, rfl, hd, hw.2.2.1, ?_, hs.step _ _ hw.2.2.2.2 hg⟩
      simp only [hd]
    · rw [hd]
      have h := neighborLoop_sim g mp1 mp2 Rc hs v1 v2 hv u neighbors
        (sortNeighbors g st2.data neighbors sv []) Traceback.empty _ _ hw
      revert h
      generalize neighborLoop g v1 mp1 u neighbors (sortNeighbors g st2.data neighbors sv [])
        Traceback.empty ⟨sv, st1, sc⟩ = r1
      generalize neighborLoop g v2 mp2 u neighbors (sortNeighbors g st2.data neighbors sv [])
        Traceback.empty ⟨sv, st2, sc⟩ = r2
      intro h
      rcases r1 with e1 | ⟨tb1, x1⟩ <;> rcases r2 with e2 | ⟨tb2, x2⟩
      · exact h
      · exact h.elim
      · exact h.elim
      · obtain ⟨h0, hx⟩ := h
        exact ⟨h0, hx.1, hx.2.1, hx.2.2.1, by simp only [hx.2.2.2.1], hx.2.2.2.2⟩

theorem DFS_VisitBody_sim {n : Nat} (g : CCDBG n) (mp1 mp2 : Nat) (Rc : Nat → Nat → Prop)
    (hs : GuardSim mp1 mp2 Rc) (v1 v2 : Visit n) (hv : VisitSim mp1 Rc v1 v2) :
    VisitSim mp1 Rc (DFS_VisitBody g mp1 v1) (DFS_VisitBody g mp2 v2) := by
  intro u d w1 w2 hw hg
  obtain ⟨sv, dt, i, sc, c1, c2, rfl, rfl, hc⟩ := walkSim_cases Rc w1 w2 hw
  cases d with
  | GO_FORWARD =>
    simp only [DFS_VisitBody, if_true, if_false, reduceCtorEq]
    exact visitBranch_sim g mp1 mp2 Rc hs v1 v2 hv u (update_start_vec g sv u)
      (ExtendedCCDBG.modify ⟨dt, i, c1⟩ u.unitig UnitigExtension.set_seen_bw)
      (ExtendedCCDBG.modify ⟨dt, i, c2⟩ u.unitig UnitigExtension.set_seen_bw) sc
      ⟨rfl, rfl, rfl, rfl, hc⟩ hg (g.getPredecessors u) _
  | GO_BACKWARD =>
    simp only [DFS_VisitBody, if_true, if_false, reduceCtorEq]
    exact visitBranch_sim g mp1 mp2 Rc hs v1 v2 hv u (update_start_vec g sv u)
      (ExtendedCCDBG.modify ⟨dt, i, c1⟩ u.unitig UnitigExtension.set_seen_fw)
      (ExtendedCCDBG.modify ⟨dt, i, c2⟩ u.unitig UnitigExtension.set_seen_fw) sc
      ⟨rfl, rfl, rfl, rfl, hc⟩ hg (g.getSuccessors u) _

theorem DFS_Visit_sim {n : Nat} (g : CCDBG n) (mp1 mp2 : Nat) (Rc : Nat → Nat → Prop)
    (hs : GuardSim mp1 mp2 Rc) (fuel : Nat) :
    VisitSim mp1 Rc (DFS_Visit g mp1 fuel) (DFS_Visit g mp2 fuel) := by
  induction fuel with
  | zero =>
    intro u d w1 w2 _ _
    simp only [DFS_Visit, ResultSim]
  | succ fuel ih => exact DFS_VisitBody_sim g mp1 mp2 Rc hs _ _ ih

theorem traverseFrom_sim {n : Nat} (g : CCDBG n) (mp1 mp2 : Nat) (Rc : Nat → Nat → Prop)
    (hs : GuardSim mp1 mp2 Rc) (v1 v2 : Visit n) (hv : VisitSim mp1 Rc v1 v2)
    (ucm : UnitigColorMap n) (sc : Setcover) (d : Fin n → UnitigExtension) (i : Bool)
    (c1 c2 : Nat) (hc : Rc c1 c2) (neighbors : List (UnitigColorMap n)) (sv : List Bool) :
    InitSim (traverseFrom g v1 mp1 ucm sc ⟨d, i, c1⟩ neighbors sv)
      (traverseFrom g v2 mp2 ucm sc ⟨d, i, c2⟩ neighbors sv) := by
  unfold traverseFrom
  have h := neighborLoop_sim g mp1 mp2 Rc hs v1 v2 hv ucm neighbors
    (sortNeighbors g d neighbors sv []) Traceback.empty ⟨sv, ⟨d, i, c1⟩, sc⟩ ⟨sv, ⟨d, i, c2⟩, sc⟩
    ⟨rfl, rfl, rfl, rfl, hc⟩
  revert h
  generalize neighborLoop g v1 mp1 ucm neighbors (sortNeighbors g d neighbors sv [])
    Traceback.empty ⟨sv, ⟨d, i, c1⟩, sc⟩ = r1
  generalize neighborLoop g v2 mp2 ucm neighbors (sortNeighbors g d neighbors sv [])
    Traceback.empty ⟨sv, ⟨d, i, c2⟩, sc⟩ = r2
  intro h
  rcases r1 with e1 | ⟨tb1, x1⟩ <;> rcases r2 with e2 | ⟨tb2, x2⟩
  · exact h
  · exact h.elim
  · exact h.elim
  · obtain ⟨rfl, hx⟩ := h
    obtain ⟨sv2, d2, i2, sc2, k1, k2, rfl, rfl, _⟩ := walkSim_cases Rc x1 x2 hx
    simp only [finishInit]
    split
    · exact ⟨rfl, rfl, rfl, rfl⟩
    · exact ⟨rfl, rfl, rfl, rfl⟩

theorem DFS_Init_sim {n : Nat} (g : CCDBG n) (mp1 mp2 : Nat) (Rc : Nat → Nat → Prop)
    (hs : GuardSim mp1 mp2 Rc) (hinit : Rc (initialCounter mp1) (initialCounter mp2))
    (ucm : UnitigColorMap n) (sc : Setcover) (d : Fin n → UnitigExtension) (i : Bool)
    (c1 c2 : Nat) :
    InitSim (DFS_Init g ucm sc mp1 ⟨d, i, c1⟩) (DFS_Init g ucm sc mp2 ⟨d, i, c2⟩) := by
  have hv := DFS_Visit_sim g mp1 mp2 Rc hs (2 * n + 1)
  unfold DFS_Init DFS_InitFuel
  simp only
  split
  · exact ⟨rfl, rfl, rfl, rfl⟩
  · split
    · exact ⟨rfl, rfl, rfl, rfl⟩
    · split
      · exact ⟨rfl, rfl, rfl, rfl⟩
      · split
        · exact ⟨rfl, rfl, rfl, rfl⟩
        · split
          · exact traverseFrom_sim g mp1 mp2 Rc hs _ _ hv ucm sc _ i _ _ hinit _ _
          · exact traverseFrom_sim g mp1 mp2 Rc hs _ _ hv ucm sc _ i _ _ hinit _ _

theorem foldl_modify_counter {n : Nat} (f : UnitigExtension → UnitigExtension)
    (l : List (UnitigColorMap n)) (d : Fin n → UnitigExtension) (i : Bool) (c1 c2 : Nat) :
    (l.foldl (fun (s : ExtendedCCDBG n) ucm => s.modify ucm.unitig f) ⟨d, i, c1⟩).data
        = (l.foldl (fun (s : ExtendedCCDBG n) ucm => s.modify ucm.unitig f) ⟨d, i, c2⟩).data
      ∧ (l.foldl (fun (s : ExtendedCCDBG n) ucm => s.modify ucm.unitig f)
          ⟨d, i, c1⟩).id_init_status = i := by
  induction l generalizing d with
  | nil => exact ⟨rfl, rfl⟩
  | cons u rest ih => exact ih _

theorem cleaner_seen_only_sim {n : Nat} (g : CCDBG n) (st1 st2 : ExtendedCCDBG n)
    (hd : st1.data = st2.data) (hi : st1.id_init_status = st2.id_init_status) :
    (DFS_cleaner_seen_only g st1).data = (DFS_cleaner_seen_only g st2).data
      ∧ (DFS_cleaner_seen_only g st1).id_init_status
          = (DFS_cleaner_seen_only g st2).id_init_status := by
  obtain ⟨d1, i1, c1⟩ := st1
  obtain ⟨d2, i2, c2⟩ := st2
  simp only at hd hi
  subst hd
  subst hi
  unfold DFS_cleaner_seen_only
  have h1 := foldl_modify_counter cleanSeen g.unitigs d1 i1 c1 c2
  have h2 := foldl_modify_counter cleanSeen g.unitigs d1 i1 c2 c1
  exact ⟨h1.1, h1.2.trans h2.2.symm⟩

theorem mergeUnitigs_sim {n : Nat} (g : CCDBG n) (opt : CCDBG_Build_opt) (mp1 mp2 : Nat)
    (Rc : Nat → Nat → Prop) (hs : GuardSim mp1 mp2 Rc)
    (hinit : Rc (initialCounter mp1) (initialCounter mp2))
    (us : List (UnitigColorMap n)) (m1 m2 : MergeState n) (hm : MergeSim m1 m2) :
    PassSim (mergeUnitigs g opt mp1 us m1) (mergeUnitigs g opt mp2 us m2) := by
  induction us generalizing m1 m2 with
  | nil => exact ⟨rfl, hm⟩
  | cons u rest ih =>
    obtain ⟨⟨d1, i1, c1⟩, sc1, ofs1, k1⟩ := m1
    obtain ⟨⟨d2, i2, c2⟩, sc2, ofs2, k2⟩ := m2
    simp only [MergeSim] at hm
    obtain ⟨rfl, rfl, rfl, rfl, rfl⟩ := hm
    unfold mergeUnitigs
    simp only
    have h := DFS_Init_sim g mp1 mp2 Rc hs hinit u sc1 d1 i1 c1 c2
    revert h
    generalize DFS_Init g u sc1 mp1 ⟨d1, i1, c1⟩ = r1
    generalize DFS_Init g u sc1 mp2 ⟨d1, i1, c2⟩ = r2
    intro h
    rcases r1 with e1 | ⟨tb1, x1, s1⟩ <;> rcases r2 with e2 | ⟨tb2, x2, s2⟩
    · exact h
    · exact h.elim
    · exact h.elim
    · obtain ⟨rfl, hd, hi, rfl⟩ := h
      obtain ⟨hcd, hci⟩ := cleaner_seen_only_sim g x1 x2 hd hi
      simp only
      split
      · cases hwr : Traceback.write tb1 ofs1 opt.k k1 with
        | error e => exact rfl
        | ok r =>
          obtain ⟨written, ofs3, k3⟩ := r
          simp only
          split
          · exact ih _ _ ⟨hcd, hci, rfl, rfl, rfl⟩
          · exact ⟨rfl, hd, hi, rfl, rfl, rfl⟩
      · exact ih _ _ ⟨hcd, hci, rfl, rfl, rfl⟩

theorem mergePasses_sim {n : Nat} (g : CCDBG n) (opt : CCDBG_Build_opt) (mp1 mp2 : Nat)
    (Rc : Nat → Nat → Prop) (hs : GuardSim mp1 mp2 Rc)
    (hinit : Rc (initialCounter mp1) (initialCounter mp2))
    (passes : Nat) (m1 m2 : MergeState n) (hm : MergeSim m1 m2) :
    PassSim (mergePasses g opt mp1 passes m1) (mergePasses g opt mp2 passes m2) := by
  induction passes generalizing m1 m2 with
  | zero => exact ⟨rfl, hm⟩
  | succ p ih =>
    unfold mergePasses
    have h := mergeUnitigs_sim g opt mp1 mp2 Rc hs hinit g.unitigs m1 m2 hm
    revert h
    generalize mergeUnitigs g opt mp1 g.unitigs m1 = r1
    generalize mergeUnitigs g opt mp2 g.unitigs m2 = r2
    intro h
    rcases r1 with e1 | ⟨b1, x1⟩ <;> rcases r2 with e2 | ⟨b2, x2⟩
    · exact h
    · exact h.elim
    · exact h.elim
    · obtain ⟨rfl, hx⟩ := h
      cases b1 with
      | true => exact ih x1 x2 hx
      | false => exact ⟨rfl, hx⟩

theorem passRecords_sim {n : Nat} (r1 r2 : Except Fault (Bool × MergeState n))
    (h : PassSim r1 r2) : passRecords r1 = passRecords r2 := by
  rcases r1 with e1 | ⟨b1, x1⟩ <;> rcases r2 with e2 | ⟨b2, x2⟩
  · rfl
  · exact h.elim
  · exact h.elim
  · simp only [passRecords, h.2.2.2.2.1]

theorem merge_records {n : Nat} (g : CCDBG n) (opt : CCDBG_Build_opt) (mp : Nat)
    (st : ExtendedCCDBG n) (hst : st.id_init_status = true) :
    writtenRecords (merge g opt mp true st)
      = passRecords (mergePasses g opt mp mp
          ⟨st, Setcover.init, ⟨true, []⟩, 0⟩) := by
  unfold merge
  simp only [hst, Bool.true_eq_false, if_false]
  cases mergePasses g opt mp mp ⟨st, Setcover.init, ⟨true, []⟩, 0⟩ with
  | error e => rfl
  | ok r => rfl

theorem guardSim_small (mp : Nat) (h1 : 1 ≤ mp) (h2 : mp ≤ 255) :
    GuardSim mp 1 (fun c1 c2 => (c1 + 1 = mp ∧ c2 = 0) ∨ (c1 = mp ∧ c2 = 1)) where
  guard := by
    intro c1 c2 h
    omega
  step := by
    intro c1 c2 h hlt
    omega

theorem guardSim_large (mp : Nat) (h1 : 256 ≤ mp) :
    GuardSim mp 256 (fun c1 c2 => c1 < 256 ∧ c2 < 256) where
  guard := by
    intro c1 c2 h
    omega
  step := by
    intro c1 c2 h hlt
    omega

theorem initialCounter_small (mp : Nat) (h1 : 1 ≤ mp) (h2 : mp ≤ 255) :
    (initialCounter mp + 1 = mp ∧ initialCounter 1 = 0) ∨ (initialCounter mp = mp ∧ initialCounter 1 = 1) := by
  unfold initialCounter
  omega

theorem initialCounter_large (mp : Nat) : initialCounter mp < 256 ∧ initialCounter 256 < 256 := by
  unfold initialCounter
  omega

/-- The records written by `merge` are those of `max_paths` rounds in which `DFS_Init`
runs with `max_paths = 1` (when `1 <= max_paths <= 255`) or with `max_paths = 256` (when
`256 <= max_paths`): the loop guard only tells these two classes apart. -/
theorem merge_records_class {n : Nat} (g : CCDBG n) (opt : CCDBG_Build_opt) (mp : Nat)
    (h1 : 1 ≤ mp) (st : ExtendedCCDBG n) (hst : st.id_init_status = true) :
    writtenRecords (merge g opt mp true st)
      = passRecords (mergePasses g opt (if mp ≤ 255 then 1 else 256) mp
          ⟨st, Setcover.init, ⟨true, []⟩, 0⟩) := by
  rw [merge_records g opt mp st hst]
  apply passRecords_sim
  split
  · rename_i h2
    exact mergePasses_sim g opt mp 1 _ (guardSim_small mp h1 h2) (initialCounter_small mp h1 h2)
      mp _ _ ⟨rfl, rfl, rfl, rfl, rfl⟩
  · rename_i h2
    exact mergePasses_sim g opt mp 256 _ (guardSim_large mp (by omega)) (initialCounter_large mp)
      mp _ _ ⟨rfl, rfl, rfl, rfl, rfl⟩

theorem mergePasses_first_then_stable {n : Nat} (g : CCDBG n) (opt : CCDBG_Build_opt)
    (mp0 : Nat) (m0 : MergeState n) (hinit0 : m0.graph.id_init_status = true)
    (d : Fin n → UnitigExtension) (hid : ∀ i, (d i).ID = (m0.graph.data i).ID)
    (ofs1 : Ofstream) (k1 : Nat)
    (hfirst : passView (mergeUnitigs g opt mp0 g.unitigs m0)
      = some (true, marksOf (⟨d, true, 0⟩ : ExtendedCCDBG n), ofs1, k1))
    (hpass : ∀ sc c ofs k, passView (mergeUnitigs g opt mp0 g.unitigs
        (⟨⟨d, true, c⟩, sc, ofs, k⟩ : MergeState n))
      = some (true, marksOf (⟨d, true, 0⟩ : ExtendedCCDBG n), ofs, k))
    (passes : Nat) :
    passRecords (mergePasses g opt mp0 (passes + 1) m0) = some ofs1.records := by
  obtain ⟨sc1, c1, h1⟩ := pass_of_view g opt mp0 m0 hinit0 d hid ofs1 k1 hfirst
  obtain ⟨sc2, c2, h2⟩ := mergePasses_stable g opt mp0 d hpass passes sc1 c1 ofs1 k1
  simp only [mergePasses, h1, h2, passRecords]

theorem chain_first_pass (mp0 : Nat) (h : mp0 = 1 ∨ mp0 = 256) :
    passView (mergeUnitigs (chainGraph [0, 1, 2]) { k := 3, verbose := false } mp0
        (chainGraph [0, 1, 2]).unitigs
        ⟨init_ids (chainGraph [0, 1, 2]) (constructed 3), Setcover.init, ⟨true, []⟩, 0⟩)
      = some (true, marksOf (⟨chainAfter, true, 0⟩ : ExtendedCCDBG 3),
          ⟨true, [{ contig := 1, seq := [.A, .A, .A, .C, .C, .C, .G, .G, .G, .T, .T] }]⟩, 1) := by
  rcases h with rfl | rfl <;> decide

theorem chain_later_pass (mp0 : Nat) (h : mp0 = 1 ∨ mp0 = 256) (sc : Setcover) (c : Nat)
    (ofs : Ofstream) (k : Nat) :
    passView (mergeUnitigs (chainGraph [0, 1, 2]) { k := 3, verbose := false } mp0
        (chainGraph [0, 1, 2]).unitigs (⟨⟨chainAfter, true, c⟩, sc, ofs, k⟩ : MergeState 3))
      = some (true, marksOf (⟨chainAfter, true, 0⟩ : ExtendedCCDBG 3), ofs, k) := by
  rcases h with rfl | rfl <;> rfl

/-- C9 (amended): in the linear chain `u1 -> u2 -> u3` with sequences AAACC, ACCGG,
CGGTT, `k = 3`, one color carried by every k-mer, iterated in the order `u1, u2, u3`,
`merge` emits for every `max_paths >= 1` exactly one contig, and its sequence is
AAACCCGGGTT: `u1` followed by `u2` and `u3`, each without its first `k-1 = 2`
characters. -/
theorem C9_chain_contig (mp : Nat) (hmp : 1 ≤ mp) :
    runMerge (chainGraph [0, 1, 2]) 3 mp
      = some [[.A, .A, .A, .C, .C, .C, .G, .G, .G, .T, .T]] := by
  unfold runMerge writtenSequences
  rw [merge_records_class _ _ mp hmp _ rfl]
  obtain ⟨p, rfl⟩ : ∃ p, mp = p + 1 := ⟨mp - 1, by omega⟩
  have h0 : (if p + 1 ≤ 255 then 1 else 256) = 1 ∨ (if p + 1 ≤ 255 then 1 else 256) = 256 := by
    split
    · exact Or.inl rfl
    · exact Or.inr rfl
  rw [mergePasses_first_then_stable (chainGraph [0, 1, 2]) { k := 3, verbose := false } _ _ rfl
    chainAfter (by decide) _ _ (chain_first_pass _ h0) (chain_later_pass _ h0) p]
  rfl

/-- Witness of C9 (amended) at `max_paths = 2`. -/
theorem C9_chain_contig_witness :
    runMerge (chainGraph [0, 1, 2]) 3 2
      = some [[.A, .A, .A, .C, .C, .C, .G, .G, .G, .T, .T]] :=
  C9_chain_contig 2 (by decide)

theorem merge_zero_paths {n : Nat} (g : CCDBG n) (opt : CCDBG_Build_opt)
    (st : ExtendedCCDBG n) (hst : st.id_init_status = true) :
    writtenRecords (merge g opt 0 true st) = some [] := by
  rw [merge_records g opt 0 st hst]
  rfl

/-- When a round over the unitigs, started from the unitig data of `st`, writes nothing
and leaves the marks as they were, `merge` writes no record, whatever `max_paths`. -/
theorem merge_writes_nothing_of_stable {n : Nat} (g : CCDBG n) (opt : CCDBG_Build_opt)
    (mp : Nat) (st : ExtendedCCDBG n) (hst : st.id_init_status = true)
    (hpass : ∀ mp0, mp0 = 1 ∨ mp0 = 256 → ∀ sc c ofs k,
      passView (mergeUnitigs g opt mp0 g.unitigs (⟨⟨st.data, true, c⟩, sc, ofs, k⟩ : MergeState n))
        = some (true, marksOf (⟨st.data, true, 0⟩ : ExtendedCCDBG n), ofs, k)) :
    writtenRecords (merge g opt mp true st) = some [] := by
  rcases Nat.eq_zero_or_pos mp with rfl | hmp
  · exact merge_zero_paths g opt st hst
  · rw [merge_records_class g opt mp hmp st hst]
    have h0 : (if mp ≤ 255 then 1 else 256) = 1 ∨ (if mp ≤ 255 then 1 else 256) = 256 := by
      split
      · exact Or.inl rfl
      · exact Or.inr rfl
    obtain ⟨d, i, c⟩ := st
    simp only at hst
    subst hst
    obtain ⟨sc2, c2, h2⟩ := mergePasses_stable g opt _ d (hpass _ h0) mp Setcover.init c
      ⟨true, []⟩ 0
    rw [h2]
    rfl

theorem prune_init_ids (a b c : Fin 3) (hn : [a, b, c].Nodup) :
    (init_ids (pruneGraph [a, b, c]) (constructed 3)).data = orderData [a, b, c] := by
  funext i
  revert hn
  fin_cases a <;> fin_cases b <;> fin_cases c <;> fin_cases i <;> decide

set_option maxHeartbeats 4000000 in
theorem prune_pass (a b c : Fin 3) (hn : [a, b, c].Nodup) (mp0 : Nat)
    (h : mp0 = 1 ∨ mp0 = 256) (sc : Setcover) (cnt : Nat) (ofs : Ofstream) (k : Nat) :
    passView (mergeUnitigs (pruneGraph [a, b, c]) { k := 3, verbose := false } mp0
        (pruneGraph [a, b, c]).unitigs
        (⟨⟨orderData [a, b, c], true, cnt⟩, sc, ofs, k⟩ : MergeState 3))
      = some (true, marksOf (⟨orderData [a, b, c], true, 0⟩ : ExtendedCCDBG 3), ofs, k) := by
  rcases h with rfl | rfl <;> fin_cases a <;> fin_cases b <;> fin_cases c <;>
    first
    | exact absurd hn (by decide)
    | rfl

/-- C8 (amended): on the chain `u1 -> u2 -> u3` with `C = 2` and head/tail colors
`{0,1}`, `{0}`, `{1}`, for every iteration order of the three unitigs and every
`max_paths`, `merge` emits no contig at all: a path is only recorded at a sink, the walk
from `u1` stops at `u2` (its only neighbor has rate 0) before reaching one, and the walk
from `u3` finds no neighbor of positive rate. -/
theorem C8_color_prune_no_contig (order : List (Fin 3)) (horder : order.Perm [0, 1, 2])
    (mp : Nat) : runMerge (pruneGraph order) 3 mp = some [] := by
  obtain ⟨a, b, c, rfl, hn⟩ := perm_three order horder
  unfold runMerge writtenSequences
  rw [merge_writes_nothing_of_stable (pruneGraph [a, b, c]) _ mp _ rfl
    (fun mp0 h0 sc cnt ofs k => by
      rw [prune_init_ids a b c hn]
      exact prune_pass a b c hn mp0 h0 sc cnt ofs k)]
  rfl

/-- Witness of C8 (amended) at the iteration order `u3, u1, u2` and `max_paths = 2`. -/
theorem C8_color_prune_no_contig_witness :
    runMerge (pruneGraph [2, 0, 1]) 3 2 = some [] :=
  C8_color_prune_no_contig [2, 0, 1] (by decide) 2

/-! ## Theorems: identifiers -/

theorem extendedCCDBG_eq {n : Nat} (a b : ExtendedCCDBG n) (h1 : a.data = b.data)
    (h2 : a.id_init_status = b.id_init_status)
    (h3 : a.recursion_priority_counter = b.recursion_priority_counter) : a = b := by
  cases a
  cases b
  simp only at h1 h2 h3
  rw [h1, h2, h3]

theorem init_idsLoop_rest {n : Nat} (l : List (UnitigColorMap n)) (i : Nat)
    (st : ExtendedCCDBG n) :
    (init_idsLoop l i st).id_init_status = st.id_init_status
      ∧ (init_idsLoop l i st).recursion_priority_counter = st.recursion_priority_counter := by
  induction l generalizing i st with
  | nil => exact ⟨rfl, rfl⟩
  | cons u rest ih => exact ih _ _

theorem init_idsLoop_data {n : Nat} (l : List (UnitigColorMap n)) (i : Nat)
    (st : ExtendedCCDBG n) (j : Fin n) :
    (init_idsLoop l i st).data j
      = match lastId l i j with
        | some v => (st.data j).setID v
        | none => st.data j := by
  induction l generalizing i st with
  | nil => rfl
  | cons u rest ih =>
    simp only [init_idsLoop, lastId]
    rw [ih]
    cases lastId rest (i + 1) j with
    | some v =>
      simp only [ExtendedCCDBG.modify]
      split <;> rfl
    | none =>
      simp only [ExtendedCCDBG.modify]
      split <;> rfl

theorem lastId_none {n : Nat} (l : List (UnitigColorMap n)) (i : Nat) (j : Fin n)
    (hj : j ∉ l.map (fun u => u.unitig)) : lastId l i j = none := by
  induction l generalizing i with
  | nil => rfl
  | cons u rest ih =>
    simp only [List.map_cons, List.mem_cons, not_or] at hj
    simp only [lastId, ih (i + 1) hj.2, if_neg hj.1]

theorem lastId_nodup {n : Nat} (l : List (UnitigColorMap n)) (i : Nat)
    (hn : (l.map (fun u => u.unitig)).Nodup) (k : Nat) (hk : k < l.length) :
    lastId l i (l.get ⟨k, hk⟩).unitig = some (i + k) := by
  induction l generalizing i k with
  | nil => exact absurd hk (Nat.not_lt_zero _)
  | cons u rest ih =>
    simp only [List.map_cons, List.nodup_cons] at hn
    cases k with
    | zero =>
      simp only [List.get_eq_getElem, List.getElem_cons_zero, lastId,
        lastId_none rest (i + 1) u.unitig hn.1, if_true, Nat.add_zero]
    | succ k =>
      have hk2 : k < rest.length := Nat.lt_of_succ_lt_succ hk
      have := ih (i + 1) hn.2 k hk2
      simp only [List.get_eq_getElem] at this
      simp only [List.get_eq_getElem, List.getElem_cons_succ, lastId, this]
      congr 1
      omega

theorem iteratesOnce_length {n : Nat} (g : CCDBG n) (honce : IteratesOnce g) :
    g.unitigs.length = n := by
  have h1 : (g.unitigs.map (fun u => u.unitig)).toFinset = Finset.univ := by
    ext i
    simp only [List.mem_toFinset, List.mem_map, Finset.mem_univ, iff_true]
    obtain ⟨u, hu, hi⟩ := honce.2 i
    exact ⟨u, hu, hi⟩
  have h2 := List.toFinset_card_of_nodup honce.1
  rw [h1, Finset.card_univ, Fintype.card_fin, List.length_map] at h2
  exact h2.symm

theorem init_ids_ID_get {n : Nat} (g : CCDBG n) (st : ExtendedCCDBG n)
    (hn : (g.unitigs.map (fun u => u.unitig)).Nodup) (k : Nat) (hk : k < g.unitigs.length) :
    ((init_ids g st).data (g.unitigs.get ⟨k, hk⟩).unitig).ID = k + 1 := by
  show ((init_idsLoop g.unitigs 1 st).data (g.unitigs.get ⟨k, hk⟩).unitig).ID = k + 1
  rw [init_idsLoop_data, lastId_nodup g.unitigs 1 hn k hk]
  simp only [UnitigExtension.setID]
  omega

theorem init_ids_ID_position {n : Nat} (g : CCDBG n) (st : ExtendedCCDBG n)
    (honce : IteratesOnce g) (i : Fin n) :
    ∃ (k : Nat) (hk : k < g.unitigs.length),
      (g.unitigs.get ⟨k, hk⟩).unitig = i ∧ ((init_ids g st).data i).ID = k + 1 := by
  obtain ⟨u, hu, hi⟩ := honce.2 i
  obtain ⟨⟨k, hk⟩, hget⟩ := List.mem_iff_get.1 hu
  refine ⟨k, hk, by rw [hget, hi], ?_⟩
  have := init_ids_ID_get g st honce.1 k hk
  rw [hget, hi] at this
  exact this

theorem init_ids_injective {n : Nat} (g : CCDBG n) (st : ExtendedCCDBG n)
    (honce : IteratesOnce g) (i j : Fin n)
    (h : ((init_ids g st).data i).ID = ((init_ids g st).data j).ID) : i = j := by
  obtain ⟨k1, hk1, hg1, hid1⟩ := init_ids_ID_position g st honce i
  obtain ⟨k2, hk2, hg2, hid2⟩ := init_ids_ID_position g st honce j
  have hk : k1 = k2 := by omega
  subst hk
  rw [← hg1, ← hg2]

/-- C14: on a graph with `N` unitigs whose iteration meets every unitig once, after
`init_ids` the unitig at position `k` of the iteration order (counting from 0) has id
`k+1`; the ids of two different unitigs differ, and the ids in use are exactly the numbers
`1, ..., N`. -/
theorem C14_init_ids_dense {n : Nat} (g : CCDBG n) (st : ExtendedCCDBG n)
    (honce : IteratesOnce g) :
    (∀ (k : Nat) (hk : k < g.unitigs.length),
        ((init_ids g st).data (g.unitigs.get ⟨k, hk⟩).unitig).ID = k + 1)
    ∧ (∀ i j : Fin n, ((init_ids g st).data i).ID = ((init_ids g st).data j).ID → i = j)
    ∧ (∀ v : Nat, (∃ i : Fin n, ((init_ids g st).data i).ID = v) ↔ 1 ≤ v ∧ v ≤ n) := by
  refine ⟨fun k hk => init_ids_ID_get g st honce.1 k hk, init_ids_injective g st honce, ?_⟩
  intro v
  have hlen := iteratesOnce_length g honce
  constructor
  · rintro ⟨i, hi⟩
    obtain ⟨k, hk, _, hid⟩ := init_ids_ID_position g st honce i
    omega
  · rintro ⟨h1, h2⟩
    have hk : v - 1 < g.unitigs.length := by omega
    refine ⟨(g.unitigs.get ⟨v - 1, hk⟩).unitig, ?_⟩
    rw [init_ids_ID_get g st honce.1 (v - 1) hk]
    omega

/-- Witness of C14 on the chain of scenario 2 iterated in the order `u3, u1, u2`. -/
theorem C14_init_ids_dense_witness :
    (∀ (k : Nat) (hk : k < (chainGraph [2, 0, 1]).unitigs.length),
        ((init_ids (chainGraph [2, 0, 1]) (constructed 3)).data
          ((chainGraph [2, 0, 1]).unitigs.get ⟨k, hk⟩).unitig).ID = k + 1)
    ∧ (∀ i j : Fin 3, ((init_ids (chainGraph [2, 0, 1]) (constructed 3)).data i).ID
          = ((init_ids (chainGraph [2, 0, 1]) (constructed 3)).data j).ID → i = j)
    ∧ (∀ v : Nat, (∃ i : Fin 3, ((init_ids (chainGraph [2, 0, 1]) (constructed 3)).data i).ID = v)
          ↔ 1 ≤ v ∧ v ≤ 3) :=
  C14_init_ids_dense (chainGraph [2, 0, 1]) (constructed 3) ⟨by decide, by decide⟩

/-- C15: `init_ids` is idempotent: on every graph and from every state of the graph
members, a second call leaves every unitig extension (the id included), `id_init_status`
and everything else as the first call left it. -/
theorem C15_init_ids_idempotent {n : Nat} (g : CCDBG n) (st : ExtendedCCDBG n) :
    init_ids g (init_ids g st) = init_ids g st := by
  have hrest := init_idsLoop_rest g.unitigs 1
  apply extendedCCDBG_eq
  · funext j
    show (init_idsLoop g.unitigs 1 _).data j = (init_idsLoop g.unitigs 1 st).data j
    rw [init_idsLoop_data, init_idsLoop_data]
    show (match lastId g.unitigs 1 j with
      | some v => ((init_idsLoop g.unitigs 1 st).data j).setID v
      | none => (init_idsLoop g.unitigs 1 st).data j) = _
    rw [init_idsLoop_data]
    cases lastId g.unitigs 1 j <;> rfl
  · rfl
  · show (init_idsLoop g.unitigs 1 _).recursion_priority_counter
      = (init_idsLoop g.unitigs 1 st).recursion_priority_counter
    rw [(hrest _).2, (hrest st).2]
    show (init_idsLoop g.unitigs 1 st).recursion_priority_counter = _
    rw [(hrest st).2]

/-- C16: `is_id_init` returns false on a freshly constructed `ExtendedCCDBG` and true
after any call of `init_ids`, on whatever graph and from whatever state. -/
theorem C16_is_id_init :
    (∀ n : Nat, is_id_init (constructed n) = false)
    ∧ ∀ (n : Nat) (g : CCDBG n) (st : ExtendedCCDBG n), is_id_init (init_ids g st) = true :=
  ⟨fun _ => rfl, fun _ _ _ => rfl⟩

/-- C17: when `init_ids` has not been called (`is_id_init` is false), `merge` returns
false at its first test, before the output file is opened (so whether it could be opened
plays no role), writes no record and leaves the graph members, all traversal marks
included, as they were. -/
theorem C17_merge_needs_ids {n : Nat} (g : CCDBG n) (opt : CCDBG_Build_opt) (max_paths : Nat)
    (canOpen : Bool) (st : ExtendedCCDBG n) (h : is_id_init st = false) :
    merge g opt max_paths canOpen st = .ok (false, [], st) := by
  unfold is_id_init at h
  unfold merge
  rw [if_pos h]

/-- Witness of C17 on the freshly constructed chain of scenario 2. -/
theorem C17_merge_needs_ids_witness :
    merge (chainGraph [0, 1, 2]) { k := 3, verbose := false } 2 true (constructed 3)
      = .ok (false, [], constructed 3) :=
  C17_merge_needs_ids (chainGraph [0, 1, 2]) { k := 3, verbose := false } 2 true (constructed 3)
    rfl

/-! ## Theorems: the seen-only cleaner -/

theorem cleanSeen_idem (ue : UnitigExtension) : cleanSeen (cleanSeen ue) = cleanSeen ue := by
  obtain ⟨id, fw, bw⟩ := ue
  cases fw <;> cases bw <;> rfl

theorem foldl_modify_data {n : Nat} (f : UnitigExtension → UnitigExtension)
    (hf : ∀ ue, f (f ue) = f ue) (l : List (UnitigColorMap n)) (st : ExtendedCCDBG n)
    (j : Fin n) :
    (l.foldl (fun s ucm => s.modify ucm.unitig f) st).data j
      = if j ∈ l.map (fun u => u.unitig) then f (st.data j) else st.data j := by
  induction l generalizing st with
  | nil => simp
  | cons u rest ih =>
    simp only [List.foldl_cons, List.map_cons, List.mem_cons]
    rw [ih]
    simp only [ExtendedCCDBG.modify]
    by_cases hj : j = u.unitig
    · rw [if_pos hj, if_pos (Or.inl hj)]
      split
      · exact hf _
      · rfl
    · rw [if_neg hj]
      by_cases hr : j ∈ rest.map (fun u => u.unitig)
      · rw [if_pos hr, if_pos (Or.inr hr)]
      · rw [if_neg hr, if_neg (fun h => h.elim hj hr)]

theorem foldl_modify_rest {n : Nat} (f : UnitigExtension → UnitigExtension)
    (l : List (UnitigColorMap n)) (st : ExtendedCCDBG n) :
    (l.foldl (fun s ucm => s.modify ucm.unitig f) st).id_init_status = st.id_init_status
      ∧ (l.foldl (fun s ucm => s.modify ucm.unitig f) st).recursion_priority_counter
          = st.recursion_priority_counter := by
  induction l generalizing st with
  | nil => exact ⟨rfl, rfl⟩
  | cons u rest ih => exact ih _

theorem cleaner_seen_only_data {n : Nat} (g : CCDBG n) (st : ExtendedCCDBG n) (j : Fin n) :
    (DFS_cleaner_seen_only g st).data j
      = if j ∈ g.unitigs.map (fun u => u.unitig) then cleanSeen (st.data j) else st.data j :=
  foldl_modify_data cleanSeen cleanSeen_idem g.unitigs st j

/-- C19: `DFS_cleaner_seen_only` is idempotent: from every state of the graph members
(every assignment of traversal marks), applying it twice gives the state that applying it
once gives. -/
theorem C19_cleaner_seen_only_idempotent {n : Nat} (g : CCDBG n) (st : ExtendedCCDBG n) :
    DFS_cleaner_seen_only g (DFS_cleaner_seen_only g st) = DFS_cleaner_seen_only g st := by
  apply extendedCCDBG_eq
  · funext j
    rw [cleaner_seen_only_data g (DFS_cleaner_seen_only g st) j, cleaner_seen_only_data g st j]
    split
    · exact cleanSeen_idem _
    · rfl
  · exact (foldl_modify_rest cleanSeen g.unitigs _).1
  · exact (foldl_modify_rest cleanSeen g.unitigs _).2

/-- C20: for every unitig that the iteration meets, `DFS_cleaner_seen_only` keeps the id,
and in each direction on its own turns the mark seen into undiscovered and leaves the
marks visited and undiscovered as they are. -/
theorem C20_cleaner_seen_only_frame {n : Nat} (g : CCDBG n) (st : ExtendedCCDBG n)
    (u : UnitigColorMap n) (hu : u ∈ g.unitigs) :
    ((DFS_cleaner_seen_only g st).data u.unitig).ID = (st.data u.unitig).ID
    ∧ ((DFS_cleaner_seen_only g st).data u.unitig).dfs_fw
        = (match (st.data u.unitig).dfs_fw with
          | .seen => .undiscovered
          | .visited => .visited
          | .undiscovered => .undiscovered)
    ∧ ((DFS_cleaner_seen_only g st).data u.unitig).dfs_bw
        = (match (st.data u.unitig).dfs_bw with
          | .seen => .undiscovered
          | .visited => .visited
          | .undiscovered => .undiscovered) := by
  have hmem : u.unitig ∈ g.unitigs.map (fun u => u.unitig) := List.mem_map.2 ⟨u, hu, rfl⟩
  rw [cleaner_seen_only_data g st u.unitig, if_pos hmem]
  obtain ⟨id, fw, bw⟩ := st.data u.unitig
  cases fw <;> cases bw <;> exact ⟨rfl, rfl, rfl⟩

/-- Witness of C20 on the chain of scenario 2 with the first unitig seen forward and
visited backward. -/
theorem C20_cleaner_seen_only_frame_witness :
    ((DFS_cleaner_seen_only (chainGraph [0, 1, 2])
        ((numbered 3).modify 0 (fun _ => { ID := 1, dfs_fw := .seen, dfs_bw := .visited }))).data
          ({ unitig := 0, strand := true } : UnitigColorMap 3).unitig).ID
      = ((((numbered 3).modify 0
          (fun _ => { ID := 1, dfs_fw := .seen, dfs_bw := .visited })).data
            ({ unitig := 0, strand := true } : UnitigColorMap 3).unitig).ID)
    ∧ ((DFS_cleaner_seen_only (chainGraph [0, 1, 2])
        ((numbered 3).modify 0 (fun _ => { ID := 1, dfs_fw := .seen, dfs_bw := .visited }))).data
          ({ unitig := 0, strand := true } : UnitigColorMap 3).unitig).dfs_fw
        = (match (((numbered 3).modify 0
              (fun _ => { ID := 1, dfs_fw := .seen, dfs_bw := .visited })).data
                ({ unitig := 0, strand := true } : UnitigColorMap 3).unitig).dfs_fw with
          | .seen => .undiscovered
          | .visited => .visited
          | .undiscovered => .undiscovered)
    ∧ ((DFS_cleaner_seen_only (chainGraph [0, 1, 2])
        ((numbered 3).modify 0 (fun _ => { ID := 1, dfs_fw := .seen, dfs_bw := .visited }))).data
          ({ unitig := 0, strand := true } : UnitigColorMap 3).unitig).dfs_bw
        = (match (((numbered 3).modify 0
              (fun _ => { ID := 1, dfs_fw := .seen, dfs_bw := .visited })).data
                ({ unitig := 0, strand := true } : UnitigColorMap 3).unitig).dfs_bw with
          | .seen => .undiscovered
          | .visited => .visited
          | .undiscovered => .undiscovered) :=
  C20_cleaner_seen_only_frame (chainGraph [0, 1, 2])
    ((numbered 3).modify 0 (fun _ => { ID := 1, dfs_fw := .seen, dfs_bw := .visited }))
    { unitig := 0, strand := true } (by decide)

/-! ## Theorems: the numbering of the records -/

theorem cutconcatLoop_returns {α : Type} (k : Nat) (rest : List (List α)) (s : List α)
    (hlen : ∀ p ∈ rest, size_pred k ≤ p.length) : ∃ r, cutconcatLoop k rest s = .ok r := by
  induction rest generalizing s with
  | nil => exact ⟨s, rfl⟩
  | cons p rest ih =>
    have hp : size_pred k ≤ p.length := hlen p (List.mem_cons_self _ _)
    obtain ⟨r, hr⟩ := ih (s ++ p.drop (size_pred k))
      (fun q hq => hlen q (List.mem_cons_of_mem _ hq))
    refine ⟨r, ?_⟩
    unfold cutconcatLoop
    have hs : substr p (size_pred k) = .ok (p.drop (size_pred k)) := if_pos hp
    rw [hs]
    exact hr

theorem cutconcat_returns {α : Type} (k : Nat) (path : List (List α))
    (hlen : ∀ p ∈ path.dropLast, size_pred k ≤ p.length) :
    ∃ r, cutconcat [] path k = .ok r := by
  unfold cutconcat
  cases hrev : path.reverse with
  | nil => exact ⟨[], rfl⟩
  | cons first rest =>
    have hpath : path = rest.reverse ++ [first] := by
      rw [← List.reverse_reverse path, hrev, List.reverse_cons]
    apply cutconcatLoop_returns
    intro p hp
    apply hlen
    rw [hpath, List.dropLast_concat]
    exact List.mem_reverse.2 hp

theorem writeLoop_returns (k : Nat) (paths : List VSequences) (recs : List FastaRecord)
    (c : Nat) (hlen : ∀ p ∈ paths, ∀ s ∈ p.dropLast, size_pred k ≤ s.length) :
    ∃ recs2 c2, writeLoop k paths recs c = .ok (recs2, c2) := by
  induction paths generalizing recs c with
  | nil => exact ⟨recs, c, rfl⟩
  | cons p rest ih =>
    obtain ⟨seq, hseq⟩ := cutconcat_returns k p (hlen p (List.mem_cons_self _ _))
    unfold writeLoop
    rw [hseq]
    exact ih _ _ (fun q hq => hlen q (List.mem_cons_of_mem _ hq))

theorem writeLoop_numbers (k : Nat) (paths : List VSequences) (recs : List FastaRecord)
    (c : Nat) (recs2 : List FastaRecord) (c2 : Nat)
    (h : writeLoop k paths recs c = .ok (recs2, c2)) (hc : c < 2 ^ 64) :
    ∃ added, recs2 = recs ++ added ∧ added.length = paths.length
      ∧ c2 = (c + paths.length) % 2 ^ 64
      ∧ ∀ (i : Nat) (hi : i < paths.length), ∃ seq, cutconcat [] (paths.get ⟨i, hi⟩) k = .ok seq
          ∧ added[i]? = some { contig := (c + (i + 1)) % 2 ^ 64, seq := seq } := by
  induction paths generalizing recs c with
  | nil =>
    simp only [writeLoop, Except.ok.injEq, Prod.mk.injEq] at h
    refine ⟨[], by rw [← h.1, List.append_nil], rfl, ?_, ?_⟩
    · rw [← h.2, List.length_nil, Nat.add_zero, Nat.mod_eq_of_lt hc]
    · intro i hi
      exact absurd hi (Nat.not_lt_zero _)
  | cons p rest ih =>
    unfold writeLoop at h
    split at h
    · rename_i seq hseq
      have hc1 : (c + 1) % 2 ^ 64 < 2 ^ 64 := Nat.mod_lt _ (by norm_num)
      obtain ⟨added, h1, h2, h3, h4⟩ := ih _ _ h hc1
      refine ⟨{ contig := (c + 1) % 2 ^ 64, seq := seq } :: added, ?_, ?_, ?_, ?_⟩
      · rw [h1, List.append_assoc, List.singleton_append]
      · rw [List.length_cons, List.length_cons, h2]
      · rw [h3, List.length_cons]
        omega
      · intro i hi
        cases i with
        | zero => exact ⟨seq, hseq, by simp only [List.getElem?_cons_zero, Nat.zero_add]⟩
        | succ i =>
          obtain ⟨seq2, h5, h6⟩ := h4 i (Nat.lt_of_succ_lt_succ hi)
          refine ⟨seq2, h5, ?_⟩
          rw [List.getElem?_cons_succ, h6]
          congr 2
          omega
    · cases h

theorem numberedFromOne_write {n : Nat} (m : MergeState n) (tb : Traceback) (k : Nat)
    (written : Bool) (ofs1 : Ofstream) (counter1 : Nat) (graph1 : ExtendedCCDBG n)
    (sc1 : Setcover) (hm : NumberedFromOne m)
    (hw : tb.write m.ofs k m.sv_counter = .ok (written, ofs1, counter1)) :
    NumberedFromOne { graph := graph1, sc := sc1, ofs := ofs1, sv_counter := counter1 } := by
  unfold Traceback.write at hw
  split at hw
  · split at hw
    · rename_i recs c hloop
      simp only [Except.ok.injEq, Prod.mk.injEq] at hw
      have hc : m.sv_counter < 2 ^ 64 := by
        rw [hm.1]
        exact Nat.mod_lt _ (by norm_num)
      obtain ⟨added, h1, h2, h3, h4⟩ := writeLoop_numbers k _ _ _ _ _ hloop hc
      obtain ⟨_, hofs, hcnt⟩ := hw
      subst hofs
      subst hcnt
      subst h1
      constructor
      · show c = (m.ofs.records ++ added).length % 2 ^ 64
        rw [h3, hm.1, List.length_append, h2]
        omega
      · intro i hi
        show ((m.ofs.records ++ added).get ⟨i, hi⟩).contig = (i + 1) % 2 ^ 64
        by_cases hlt : i < m.ofs.records.length
        · rw [List.get_eq_getElem, List.getElem_append_left hlt]
          exact hm.2 i hlt
        · have hge : m.ofs.records.length ≤ i := Nat.le_of_not_lt hlt
          have hi2 : i - m.ofs.records.length < tb.pathseqs.length := by
            have := hi
            rw [List.length_append, h2] at this
            omega
          obtain ⟨seq, _, h6⟩ := h4 (i - m.ofs.records.length) hi2
          rw [List.get_eq_getElem, List.getElem_append_right hge]
          have h7 := List.getElem?_eq_some_iff.1 h6
          obtain ⟨hb, h8⟩ := h7
          rw [h8, hm.1]
          show (m.ofs.records.length % 2 ^ 64 + (i - m.ofs.records.length + 1)) % 2 ^ 64 = _
          omega
    · cases hw
  · simp only [Except.ok.injEq, Prod.mk.injEq] at hw
    obtain ⟨_, hofs, hcnt⟩ := hw
    subst hofs
    subst hcnt
    exact hm

theorem mergeUnitigs_numbered {n : Nat} (g : CCDBG n) (opt : CCDBG_Build_opt) (max_paths : Nat)
    (us : List (UnitigColorMap n)) (m : MergeState n) (ret : Bool) (m2 : MergeState n)
    (h : mergeUnitigs g opt max_paths us m = .ok (ret, m2)) (hm : NumberedFromOne m) :
    NumberedFromOne m2 := by
  induction us generalizing m with
  | nil =>
    simp only [mergeUnitigs, Except.ok.injEq, Prod.mk.injEq] at h
    rw [← h.2]
    exact hm
  | cons u rest ih =>
    unfold mergeUnitigs at h
    split at h
    · cases h
    · rename_i tb graph1 sc1 hinit
      split at h
      · split at h
        · cases h
        · rename_i written ofs1 counter1 hw
          split at h
          · exact ih _ h (numberedFromOne_write m tb opt.k written ofs1 counter1 _ sc1 hm hw)
          · simp only [Except.ok.injEq, Prod.mk.injEq] at h
            rw [← h.2]
            exact numberedFromOne_write m tb opt.k written ofs1 counter1 _ sc1 hm hw
      · exact ih _ h hm

theorem mergePasses_numbered {n : Nat} (g : CCDBG n) (opt : CCDBG_Build_opt) (max_paths : Nat)
    (passes : Nat) (m : MergeState n) (ret : Bool) (m2 : MergeState n)
    (h : mergePasses g opt max_paths passes m = .ok (ret, m2)) (hm : NumberedFromOne m) :
    NumberedFromOne m2 := by
  induction passes generalizing m with
  | zero =>
    simp only [mergePasses, Except.ok.injEq, Prod.mk.injEq] at h
    rw [← h.2]
    exact hm
  | succ p ih =>
    unfold mergePasses at h
    split at h
    · cases h
    · rename_i m1 hu
      exact ih _ h (mergeUnitigs_numbered g opt max_paths _ m true m1 hu hm)
    · rename_i m1 hu
      simp only [Except.ok.injEq, Prod.mk.injEq] at h
      rw [← h.2]
      exact mergeUnitigs_numbered g opt max_paths _ m false m1 hu hm

theorem merge_numbered {n : Nat} (g : CCDBG n) (opt : CCDBG_Build_opt) (max_paths : Nat)
    (canOpen : Bool) (st : ExtendedCCDBG n) (ret : Bool) (recs : List FastaRecord)
    (st2 : ExtendedCCDBG n) (h : merge g opt max_paths canOpen st = .ok (ret, recs, st2))
    (i : Nat) (hi : i < recs.length) : (recs.get ⟨i, hi⟩).contig = (i + 1) % 2 ^ 64 := by
  unfold merge at h
  split at h
  · simp only [Except.ok.injEq, Prod.mk.injEq] at h
    obtain ⟨_, h2, _⟩ := h
    subst h2
    exact absurd hi (Nat.not_lt_zero _)
  · split at h
    · simp only [Except.ok.injEq, Prod.mk.injEq] at h
      obtain ⟨_, h2, _⟩ := h
      subst h2
      exact absurd hi (Nat.not_lt_zero _)
    · split at h
      · cases h
      · rename_i ret2 m hp
        simp only [Except.ok.injEq, Prod.mk.injEq] at h
        obtain ⟨_, h2, _⟩ := h
        subst h2
        have h0 : NumberedFromOne
            { graph := st, sc := Setcover.init, ofs := { is_open := true, records := [] },
              sv_counter := 0 } :=
          ⟨rfl, fun i hi => absurd hi (Nat.not_lt_zero _)⟩
        exact (mergePasses_numbered g opt max_paths max_paths _ ret2 m hp h0).2 i hi

/-- C18 (counterexample): on the bundle holding the one path `A, C` with `k = 3`, `write`
on an open stream does not return true: `substr(2)` on the one-character string throws. -/
theorem C18_write_throws :
    Traceback.write { pathseqs := [[[.A], [.C]]], recursive_return_status := true }
      { is_open := true, records := [] } 3 0 = .error .out_of_range := by
  rfl

/-- C18 (amended): for every bundle with `m` paths and every `k` such that in every path
each sequence but the last has at least `k-1` characters (`k-1` as `size_t`), and every
initial value `c0` of the 64-bit counter, `write` on an open stream returns true, appends
exactly `m` records in bundle order, the one at position `i` (from 0) carrying the number
`c0+i+1` (in 64 bits) and the sequence `cutconcat(path_i, k)`, and leaves the counter at
`c0+m` (in 64 bits).  And in every run of `merge` that returns, the record at position `i`
(from 0) of the file carries the number `i+1` (in 64 bits): `contig_1, contig_2, ...`. -/
theorem C18_write_numbers_records (paths : List VSequences) (status : Bool) (k c0 : Nat)
    (ofs : Ofstream) (hopen : ofs.is_open = true) (hc0 : c0 < 2 ^ 64)
    (hlen : ∀ p ∈ paths, ∀ s ∈ p.dropLast, size_pred k ≤ s.length) :
    (∃ added : List FastaRecord,
      Traceback.write { pathseqs := paths, recursive_return_status := status } ofs k c0
        = .ok (true, { ofs with records := ofs.records ++ added }, (c0 + paths.length) % 2 ^ 64)
      ∧ added.length = paths.length
      ∧ ∀ (i : Nat) (hi : i < paths.length),
          ∃ seq, cutconcat [] (paths.get ⟨i, hi⟩) k = .ok seq
            ∧ added[i]? = some { contig := (c0 + (i + 1)) % 2 ^ 64, seq := seq })
    ∧ ∀ (n : Nat) (g : CCDBG n) (opt : CCDBG_Build_opt) (max_paths : Nat) (canOpen : Bool)
        (st : ExtendedCCDBG n) (ret : Bool) (recs : List FastaRecord) (st2 : ExtendedCCDBG n),
        merge g opt max_paths canOpen st = .ok (ret, recs, st2) →
        ∀ (i : Nat) (hi : i < recs.length), (recs.get ⟨i, hi⟩).contig = (i + 1) % 2 ^ 64 := by
  constructor
  · obtain ⟨recs2, c2, hloop⟩ := writeLoop_returns k paths ofs.records c0 hlen
    obtain ⟨added, h1, h2, h3, h4⟩ := writeLoop_numbers k paths ofs.records c0 recs2 c2 hloop hc0
    refine ⟨added, ?_, h2, h4⟩
    unfold Traceback.write
    rw [if_pos hopen]
    show (match writeLoop k paths ofs.records c0 with
      | .ok (recs, c) => Except.ok (true, { ofs with records := recs }, c)
      | .error e => .error e) = _
    rw [hloop, h1, h3]
  · intro n g opt max_paths canOpen st ret recs st2 h i hi
    exact merge_numbered g opt max_paths canOpen st ret recs st2 h i hi

/-- Witness of C18 (amended) on the bundle holding the path `ACG, CGT, GTA` and the path
`TTT`, with `k = 3` and the counter at 4. -/
theorem C18_write_numbers_records_witness :
    (∃ added : List FastaRecord,
      Traceback.write
          { pathseqs := [[[.A, .C, .G], [.C, .G, .T], [.G, .T, .A]], [[.T, .T, .T]]],
            recursive_return_status := true }
          { is_open := true, records := [] } 3 4
        = .ok (true,
            { ({ is_open := true, records := [] } : Ofstream) with
              records := ({ is_open := true, records := [] } : Ofstream).records ++ added },
            (4 + ([[[.A, .C, .G], [.C, .G, .T], [.G, .T, .A]], [[.T, .T, .T]]] :
              List VSequences).length) % 2 ^ 64)
      ∧ added.length
          = ([[[.A, .C, .G], [.C, .G, .T], [.G, .T, .A]], [[.T, .T, .T]]] : List VSequences).length
      ∧ ∀ (i : Nat)
          (hi : i < ([[[.A, .C, .G], [.C, .G, .T], [.G, .T, .A]], [[.T, .T, .T]]] :
            List VSequences).length),
          ∃ seq, cutconcat []
              (([[[.A, .C, .G], [.C, .G, .T], [.G, .T, .A]], [[.T, .T, .T]]] :
                List VSequences).get ⟨i, hi⟩) 3 = .ok seq
            ∧ added[i]? = some { contig := (4 + (i + 1)) % 2 ^ 64, seq := seq })
    ∧ ∀ (n : Nat) (g : CCDBG n) (opt : CCDBG_Build_opt) (max_paths : Nat) (canOpen : Bool)
        (st : ExtendedCCDBG n) (ret : Bool) (recs : List FastaRecord) (st2 : ExtendedCCDBG n),
        merge g opt max_paths canOpen st = .ok (ret, recs, st2) →
        ∀ (i : Nat) (hi : i < recs.length), (recs.get ⟨i, hi⟩).contig = (i + 1) % 2 ^ 64 :=
  C18_write_numbers_records [[[.A, .C, .G], [.C, .G, .T], [.G, .T, .A]], [[.T, .T, .T]]] true 3 4
    { is_open := true, records := [] } rfl (by norm_num) (by decide)

/-! ## Theorems: graphs without start nodes -/

theorem isEmpty_false_of_ne_nil {α : Type} (l : List α) (h : l ≠ []) : l.isEmpty = false := by
  cases l with
  | nil => exact absurd rfl h
  | cons a l => rfl

theorem DFS_Init_internal {n : Nat} (g : CCDBG n) (u : UnitigColorMap n) (sc : Setcover)
    (max_paths : Nat) (st : ExtendedCCDBG n) (hp : g.getPredecessors u ≠ [])
    (hs : g.getSuccessors u ≠ []) :
    DFS_Init g u sc max_paths st
      = .ok (Traceback.empty,
          { st with recursion_priority_counter := initialCounter max_paths }, sc) := by
  unfold DFS_Init DFS_InitFuel
  simp only [isEmpty_false_of_ne_nil _ hp, isEmpty_false_of_ne_nil _ hs, Bool.false_and,
    Bool.not_false, Bool.and_self, if_true, Bool.false_eq_true, if_false]
  split <;> rfl

theorem cleaner_seen_only_fresh {n : Nat} (g : CCDBG n) (st : ExtendedCCDBG n)
    (hfresh : ∀ i, (st.data i).dfs_fw = .undiscovered ∧ (st.data i).dfs_bw = .undiscovered) :
    (DFS_cleaner_seen_only g st).data = st.data := by
  funext j
  rw [cleaner_seen_only_data]
  split
  · have := hfresh j
    revert this
    cases st.data j with
    | mk id fw bw =>
      rintro ⟨h1, h2⟩
      simp only at h1 h2
      subst h1
      subst h2
      rfl
  · rfl

theorem mergeUnitigs_internal {n : Nat} (g : CCDBG n) (opt : CCDBG_Build_opt) (max_paths : Nat)
    (us : List (UnitigColorMap n))
    (hus : ∀ u ∈ us, g.getPredecessors u ≠ [] ∧ g.getSuccessors u ≠ []) (m : MergeState n)
    (hfresh : ∀ i, (m.graph.data i).dfs_fw = .undiscovered
      ∧ (m.graph.data i).dfs_bw = .undiscovered) :
    ∃ m2, mergeUnitigs g opt max_paths us m = .ok (true, m2)
      ∧ m2.graph.data = m.graph.data ∧ m2.ofs = m.ofs := by
  induction us generalizing m with
  | nil => exact ⟨m, rfl, rfl, rfl⟩
  | cons u rest ih =>
    obtain ⟨hp, hs⟩ := hus u (List.mem_cons_self _ _)
    have hd : (DFS_cleaner_seen_only g
        { m.graph with recursion_priority_counter := initialCounter max_paths }).data
          = m.graph.data :=
      cleaner_seen_only_fresh g _ hfresh
    obtain ⟨m2, h1, h2, h3⟩ := ih (fun v hv => hus v (List.mem_cons_of_mem _ hv))
      { m with
        graph := DFS_cleaner_seen_only g
          { m.graph with recursion_priority_counter := initialCounter max_paths }
        sc := m.sc }
      (by
        intro i
        show ((DFS_cleaner_seen_only g _).data i).dfs_fw = .undiscovered
          ∧ ((DFS_cleaner_seen_only g _).data i).dfs_bw = .undiscovered
        rw [hd]
        exact hfresh i)
    refine ⟨m2, ?_, h2.trans hd, h3⟩
    unfold mergeUnitigs
    rw [DFS_Init_internal g u m.sc max_paths m.graph hp hs]
    exact h1

theorem mergePasses_internal {n : Nat} (g : CCDBG n) (opt : CCDBG_Build_opt) (max_paths : Nat)
    (hinner : ∀ u ∈ g.unitigs, g.getPredecessors u ≠ [] ∧ g.getSuccessors u ≠ [])
    (passes : Nat) (m : MergeState n)
    (hfresh : ∀ i, (m.graph.data i).dfs_fw = .undiscovered
      ∧ (m.graph.data i).dfs_bw = .undiscovered) :
    ∃ m2, mergePasses g opt max_paths passes m = .ok (true, m2)
      ∧ m2.graph.data = m.graph.data ∧ m2.ofs = m.ofs := by
  induction passes generalizing m with
  | zero => exact ⟨m, rfl, rfl, rfl⟩
  | succ p ih =>
    obtain ⟨m1, h1, h2, h3⟩ := mergeUnitigs_internal g opt max_paths g.unitigs hinner m hfresh
    obtain ⟨m2, h4, h5, h6⟩ := ih m1 (by rw [h2]; exact hfresh)
    refine ⟨m2, ?_, h5.trans h2, h6.trans h3⟩
    unfold mergePasses
    rw [h1]
    exact h4

/-- C12: on a graph every unitig of which has at least one predecessor and at least one
successor, every call of `DFS_Init` on a unitig of the iteration returns the empty bundle
with the success flag down and leaves every unitig extension as it was; and `merge`,
started with the ids initialised and every mark undiscovered, returns (true when the file
opens) without writing a record and leaves every unitig extension as it was, so that no
mark is seen or visited. -/
theorem C12_internal_unitigs_emit_nothing {n : Nat} (g : CCDBG n) (opt : CCDBG_Build_opt)
    (max_paths : Nat) (canOpen : Bool) (st : ExtendedCCDBG n)
    (hinner : ∀ u ∈ g.unitigs, g.getPredecessors u ≠ [] ∧ g.getSuccessors u ≠ [])
    (hids : is_id_init st = true)
    (hfresh : ∀ i, (st.data i).dfs_fw = .undiscovered ∧ (st.data i).dfs_bw = .undiscovered) :
    (∀ u ∈ g.unitigs, ∀ (sc : Setcover) (st1 : ExtendedCCDBG n),
      DFS_Init g u sc max_paths st1
        = .ok (Traceback.empty,
            { st1 with recursion_priority_counter := initialCounter max_paths }, sc))
    ∧ ∃ st2, merge g opt max_paths canOpen st = .ok (canOpen, [], st2)
        ∧ st2.data = st.data
        ∧ ∀ i, (st2.data i).dfs_fw = .undiscovered ∧ (st2.data i).dfs_bw = .undiscovered := by
  constructor
  · intro u hu sc st1
    exact DFS_Init_internal g u sc max_paths st1 (hinner u hu).1 (hinner u hu).2
  · unfold is_id_init at hids
    unfold merge
    rw [if_neg (by rw [hids]; exact Bool.noConfusion)]
    cases canOpen with
    | false => exact ⟨st, rfl, rfl, hfresh⟩
    | true =>
      obtain ⟨m2, h1, h2, h3⟩ := mergePasses_internal g opt max_paths hinner max_paths
        { graph := st, sc := Setcover.init, ofs := { is_open := true, records := [] },
          sv_counter := 0 } hfresh
      refine ⟨m2.graph, ?_, h2, by rw [h2]; exact hfresh⟩
      rw [if_neg (by exact Bool.noConfusion), h1]
      show Except.ok (true, m2.ofs.records, m2.graph) = _
      rw [h3]

/-- Witness of C12 on the pure cycle of three unitigs with `max_paths = 2`. -/
theorem C12_internal_unitigs_emit_nothing_witness :
    (∀ u ∈ cycleGraph.unitigs, ∀ (sc : Setcover) (st1 : ExtendedCCDBG 3),
      DFS_Init cycleGraph u sc 2 st1
        = .ok (Traceback.empty, { st1 with recursion_priority_counter := initialCounter 2 }, sc))
    ∧ ∃ st2, merge cycleGraph { k := 3, verbose := false } 2 true (numbered 3)
          = .ok (true, [], st2)
        ∧ st2.data = (numbered 3).data
        ∧ ∀ i, (st2.data i).dfs_fw = .undiscovered ∧ (st2.data i).dfs_bw = .undiscovered :=
  C12_internal_unitigs_emit_nothing cycleGraph { k := 3, verbose := false } 2 true (numbered 3)
    (by decide) rfl (fun _ => ⟨rfl, rfl⟩)

/-! ## Theorems: connected components -/

theorem findSet_joinSets (uf : UnionFind) (a b q : Nat) :
    findSet (joinSets uf (findSet uf a) (findSet uf b)) q
      = if findSet uf q = findSet uf b then findSet uf a else findSet uf q :=
  rfl

theorem coarser_refl (uf : UnionFind) : UnionFind.Coarser uf uf :=
  fun _ _ h => h

theorem coarser_trans {a b c : UnionFind} (h1 : UnionFind.Coarser a b)
    (h2 : UnionFind.Coarser b c) : UnionFind.Coarser a c :=
  fun x y h => h2 x y (h1 x y h)

theorem coarser_joinSets (uf : UnionFind) (a b : Nat) :
    UnionFind.Coarser uf (joinSets uf (findSet uf a) (findSet uf b)) := by
  intro x y h
  rw [findSet_joinSets, findSet_joinSets, h]

theorem joinSets_joins (uf : UnionFind) (a b : Nat) :
    findSet (joinSets uf (findSet uf a) (findSet uf b)) a
      = findSet (joinSets uf (findSet uf a) (findSet uf b)) b := by
  rw [findSet_joinSets, findSet_joinSets, if_pos rfl]
  split <;> rfl

theorem sound_joinSets {n : Nat} (ids : Fin n → Nat) (E : Fin n → Fin n → Prop)
    (hE : Equivalence E) (uf : UnionFind) (hs : UnionFind.Sound ids E uf) (x y : Fin n)
    (hxy : E x y) :
    UnionFind.Sound ids E (joinSets uf (findSet uf (ids x)) (findSet uf (ids y))) := by
  intro i j h
  rw [findSet_joinSets, findSet_joinSets] at h
  by_cases hi : findSet uf (ids i) = findSet uf (ids y)
  · by_cases hj : findSet uf (ids j) = findSet uf (ids y)
    · exact hE.trans (hs i y hi) (hE.symm (hs j y hj))
    · rw [if_pos hi, if_neg hj] at h
      exact hE.trans (hs i y hi) (hE.trans (hE.symm hxy) (hs x j h))
  · by_cases hj : findSet uf (ids j) = findSet uf (ids y)
    · rw [if_neg hi, if_pos hj] at h
      exact hE.trans (hs i x h) (hE.trans hxy (hE.symm (hs j y hj)))
    · rw [if_neg hi, if_neg hj] at h
      exact hs i j h

theorem nonzero_joinSets (uf : UnionFind) (hz : ∀ q, q ≠ 0 → findSet uf q ≠ 0) (a b : Nat)
    (ha : a ≠ 0) : ∀ q, q ≠ 0 → findSet (joinSets uf (findSet uf a) (findSet uf b)) q ≠ 0 := by
  intro q hq
  rw [findSet_joinSets]
  split
  · exact hz a ha
  · exact hz q hq

theorem joinNeighbors_spec {n : Nat} (data : Fin n → UnitigExtension)
    (E : Fin n → Fin n → Prop) (hE : Equivalence E) (x : Fin n)
    (neighbors : List (UnitigColorMap n)) (hnb : ∀ v ∈ neighbors, E x v.unitig)
    (hx : (data x).ID ≠ 0) (uf : UnionFind)
    (hs : UnionFind.Sound (fun i => (data i).ID) E uf)
    (hz : ∀ q, q ≠ 0 → findSet uf q ≠ 0) :
    UnionFind.Sound (fun i => (data i).ID) E (joinNeighbors data (data x).ID neighbors uf)
      ∧ (∀ q, q ≠ 0 → findSet (joinNeighbors data (data x).ID neighbors uf) q ≠ 0)
      ∧ UnionFind.Coarser uf (joinNeighbors data (data x).ID neighbors uf)
      ∧ ∀ v ∈ neighbors,
          findSet (joinNeighbors data (data x).ID neighbors uf) (data x).ID
            = findSet (joinNeighbors data (data x).ID neighbors uf) (data v.unitig).ID := by
  induction neighbors generalizing uf with
  | nil =>
    refine ⟨hs, hz, coarser_refl uf, ?_⟩
    intro v hv
    cases hv
  | cons v rest ih =>
    have hv : E x v.unitig := hnb v (List.mem_cons_self _ _)
    have hs1 := sound_joinSets (fun i => (data i).ID) E hE uf hs x v.unitig hv
    have hz1 := nonzero_joinSets uf hz (data x).ID (data v.unitig).ID hx
    obtain ⟨h1, h2, h3, h4⟩ := ih (fun w hw => hnb w (List.mem_cons_of_mem _ hw)) _ hs1 hz1
    refine ⟨h1, h2, coarser_trans (coarser_joinSets uf _ _) h3, ?_⟩
    intro w hw
    rcases List.mem_cons.1 hw with rfl | hw
    · exact h3 _ _ (joinSets_joins uf _ _)
    · exact h4 w hw

theorem connected_fold_spec {n : Nat} (g : CCDBG n) (data : Fin n → UnitigExtension)
    (E : Fin n → Fin n → Prop) (hE : Equivalence E) (us : List (UnitigColorMap n))
    (hnb : ∀ u ∈ us, ∀ v ∈ g.getPredecessors u ++ g.getSuccessors u, E u.unitig v.unitig)
    (hid : ∀ i, (data i).ID ≠ 0) (uf : UnionFind)
    (hs : UnionFind.Sound (fun i => (data i).ID) E uf)
    (hz : ∀ q, q ≠ 0 → findSet uf q ≠ 0) :
    UnionFind.Sound (fun i => (data i).ID) E
        (us.foldl (fun uf unitig =>
          joinNeighbors data (data unitig.unitig).ID (g.getSuccessors unitig)
            (joinNeighbors data (data unitig.unitig).ID (g.getPredecessors unitig) uf)) uf)
      ∧ (∀ q, q ≠ 0 → findSet
        (us.foldl (fun uf unitig =>
          joinNeighbors data (data unitig.unitig).ID (g.getSuccessors unitig)
            (joinNeighbors data (data unitig.unitig).ID (g.getPredecessors unitig) uf)) uf)
          q ≠ 0)
      ∧ UnionFind.Coarser uf
        (us.foldl (fun uf unitig =>
          joinNeighbors data (data unitig.unitig).ID (g.getSuccessors unitig)
            (joinNeighbors data (data unitig.unitig).ID (g.getPredecessors unitig) uf)) uf)
      ∧ ∀ u ∈ us, ∀ v ∈ g.getPredecessors u ++ g.getSuccessors u,
          findSet
            (us.foldl (fun uf unitig =>
              joinNeighbors data (data unitig.unitig).ID (g.getSuccessors unitig)
                (joinNeighbors data (data unitig.unitig).ID (g.getPredecessors unitig) uf)) uf)
              (data u.unitig).ID
          = findSet
            (us.foldl (fun uf unitig =>
              joinNeighbors data (data unitig.unitig).ID (g.getSuccessors unitig)
                (joinNeighbors data (data unitig.unitig).ID (g.getPredecessors unitig) uf)) uf)
              (data v.unitig).ID := by
  induction us generalizing uf with
  | nil =>
    refine ⟨hs, hz, coarser_refl uf, ?_⟩
    intro u hu
    cases hu
  | cons u rest ih =>
    have hu := hnb u (List.mem_cons_self _ _)
    obtain ⟨a1, a2, a3, a4⟩ := joinNeighbors_spec data E hE u.unitig (g.getPredecessors u)
      (fun v hv => hu v (List.mem_append_left _ hv)) (hid _) uf hs hz
    obtain ⟨b1, b2, b3, b4⟩ := joinNeighbors_spec data E hE u.unitig (g.getSuccessors u)
      (fun v hv => hu v (List.mem_append_right _ hv)) (hid _) _ a1 a2
    obtain ⟨c1, c2, c3, c4⟩ := ih (fun w hw => hnb w (List.mem_cons_of_mem _ hw)) _ b1 b2
    refine ⟨c1, c2, coarser_trans a3 (coarser_trans b3 c3), ?_⟩
    intro w hw v hv
    rcases List.mem_cons.1 hw with rfl | hw
    · apply c3
      rcases List.mem_append.1 hv with hv | hv
      · exact b3 _ _ (a4 v hv)
      · exact b4 v hv
    · exact c4 w hw v hv

theorem card_image_eq_card_quot {α β : Type} [Fintype α] [DecidableEq β]
    (r : α → α → Prop) (f : α → β) (h : ∀ a b, f a = f b ↔ Relation.EqvGen r a b) :
    (Finset.univ.image f).card = Nat.card (Quot r) := by
  classical
  have hF : ∃ F : Quot r → {b // b ∈ Finset.univ.image f},
      ∀ a, (F (Quot.mk r a)).val = f a :=
    ⟨Quot.lift (fun a => ⟨f a, Finset.mem_image_of_mem f (Finset.mem_univ a)⟩)
      (fun a b hab => Subtype.ext ((h a b).2 (Relation.EqvGen.rel _ _ hab))), fun _ => rfl⟩
  obtain ⟨F, hF⟩ := hF
  have hinj : Function.Injective F := by
    intro p q
    refine Quot.inductionOn p (fun a => ?_)
    refine Quot.inductionOn q (fun b => ?_)
    intro hab
    have hfab : f a = f b := by
      rw [← hF a, ← hF b, hab]
    exact Quot.eqvGen_sound ((h a b).1 hfab)
  have hsurj : Function.Surjective F := by
    rintro ⟨b, hb⟩
    obtain ⟨a, _, rfl⟩ := Finset.mem_image.1 hb
    exact ⟨Quot.mk r a, Subtype.ext (hF a)⟩
  have := Nat.card_congr (Equiv.ofBijective F ⟨hinj, hsurj⟩)
  rw [this, Nat.card_eq_fintype_card, Fintype.card_coe]

theorem count_eq_card_image {n : Nat} (g : CCDBG n) (st : ExtendedCCDBG n) (uf : UnionFind)
    (hcover : ∀ i : Fin n, ∃ u ∈ g.unitigs, u.unitig = i) :
    count_connected_components g st uf
      = (Finset.univ.image (fun i : Fin n => findSet uf (st.data i).ID)).card := by
  unfold count_connected_components
  rw [← List.card_toFinset]
  congr 1
  ext x
  simp only [List.mem_toFinset, List.mem_map, Finset.mem_image, Finset.mem_univ, true_and]
  constructor
  · rintro ⟨u, _, hx⟩
    exact ⟨u.unitig, hx⟩
  · rintro ⟨i, hx⟩
    obtain ⟨u, hu, rfl⟩ := hcover i
    exact ⟨u, hu, hx⟩

theorem init_ids_ID_ne_zero {n : Nat} (g : CCDBG n) (st : ExtendedCCDBG n)
    (honce : IteratesOnce g) (i : Fin n) : ((init_ids g st).data i).ID ≠ 0 := by
  obtain ⟨k, _, _, hid⟩ := init_ids_ID_position g st honce i
  omega

theorem connected_components_spec {n : Nat} (g : CCDBG n) (st : ExtendedCCDBG n)
    (honce : IteratesOnce g) :
    (∀ i j : Fin n,
      findSet (connected_components g (init_ids g st) UnionFind.empty).2
          ((init_ids g st).data i).ID
        = findSet (connected_components g (init_ids g st) UnionFind.empty).2
          ((init_ids g st).data j).ID
      ↔ Relation.EqvGen (Linked g) i j)
    ∧ ∀ q, q ≠ 0 →
        findSet (connected_components g (init_ids g st) UnionFind.empty).2 q ≠ 0 := by
  have hE : Equivalence (Relation.EqvGen (Linked g)) := Relation.EqvGen.is_equivalence _
  have hnb : ∀ u ∈ g.unitigs, ∀ v ∈ g.getPredecessors u ++ g.getSuccessors u,
      Relation.EqvGen (Linked g) u.unitig v.unitig :=
    fun u hu v hv => Relation.EqvGen.rel _ _ ⟨u, hu, rfl, v, hv, rfl⟩
  have hs0 : UnionFind.Sound (fun i => ((init_ids g st).data i).ID)
      (Relation.EqvGen (Linked g)) (UnionFind.empty.resize (n + 1)) := by
    intro i j h
    have hij : ((init_ids g st).data i).ID = ((init_ids g st).data j).ID := h
    rw [init_ids_injective g st honce i j hij]
    exact Relation.EqvGen.refl _
  have hz0 : ∀ q, q ≠ 0 → findSet (UnionFind.empty.resize (n + 1)) q ≠ 0 := fun q hq => hq
  obtain ⟨h1, h2, _, h4⟩ := connected_fold_spec g (init_ids g st).data _ hE g.unitigs hnb
    (init_ids_ID_ne_zero g st honce) _ hs0 hz0
  refine ⟨fun i j => ⟨h1 i j, ?_⟩, h2⟩
  intro h
  induction h with
  | rel a b hab =>
    obtain ⟨u, hu, rfl, v, hv, rfl⟩ := hab
    exact h4 u hu v hv
  | refl a => rfl
  | symm a b _ ih => exact ih.symm
  | trans a b c _ _ ih1 ih2 => exact ih1.trans ih2

theorem count_connected_components_eq {n : Nat} (g : CCDBG n) (st : ExtendedCCDBG n)
    (honce : IteratesOnce g) :
    count_connected_components g (init_ids g st)
        (connected_components g (init_ids g st) UnionFind.empty).2
      = Nat.card (Quot (Linked g)) := by
  rw [count_eq_card_image g _ _ honce.2]
  exact card_image_eq_card_quot (Linked g) _ (connected_components_spec g st honce).1

theorem linked_of_perm {n : Nat} (g g2 : CCDBG n) (hp : g2.getPredecessors = g.getPredecessors)
    (hs : g2.getSuccessors = g.getSuccessors) (hperm : g2.unitigs.Perm g.unitigs) :
    Linked g2 = Linked g := by
  funext i j
  unfold Linked
  rw [hp, hs]
  apply propext
  constructor
  · rintro ⟨u, hu, h⟩
    exact ⟨u, hperm.mem_iff.1 hu, h⟩
  · rintro ⟨u, hu, h⟩
    exact ⟨u, hperm.mem_iff.2 hu, h⟩

theorem iteratesOnce_of_perm {n : Nat} (g g2 : CCDBG n) (hperm : g2.unitigs.Perm g.unitigs)
    (honce : IteratesOnce g) : IteratesOnce g2 := by
  constructor
  · exact (hperm.map (fun u => u.unitig)).nodup_iff.2 honce.1
  · intro i
    obtain ⟨u, hu, hi⟩ := honce.2 i
    exact ⟨u, hperm.mem_iff.2 hu, hi⟩

/-- C13: on a graph whose iteration meets every unitig once, after `init_ids` followed by
`connected_components` on a fresh union-find, `connected_components` has returned true and
`count_connected_components` returns the number of classes of unitigs under the
reflexive-symmetric-transitive closure of "is a predecessor or successor of" (`Quot`
divides by that closure); slot 0 is not counted, since no unitig has the representative
0; and a graph with the same neighbors iterated in another order gives the same count. -/
theorem C13_count_connected_components {n : Nat} (g : CCDBG n) (st : ExtendedCCDBG n)
    (honce : IteratesOnce g) :
    (connected_components g (init_ids g st) UnionFind.empty).1 = true
    ∧ count_connected_components g (init_ids g st)
        (connected_components g (init_ids g st) UnionFind.empty).2
      = Nat.card (Quot (Linked g))
    ∧ (∀ i : Fin n,
        findSet (connected_components g (init_ids g st) UnionFind.empty).2
          ((init_ids g st).data i).ID ≠ 0)
    ∧ ∀ g2 : CCDBG n, g2.getPredecessors = g.getPredecessors →
        g2.getSuccessors = g.getSuccessors → g2.unitigs.Perm g.unitigs →
        count_connected_components g2 (init_ids g2 st)
            (connected_components g2 (init_ids g2 st) UnionFind.empty).2
          = count_connected_components g (init_ids g st)
            (connected_components g (init_ids g st) UnionFind.empty).2 := by
  refine ⟨rfl, count_connected_components_eq g st honce, ?_, ?_⟩
  · intro i
    exact (connected_components_spec g st honce).2 _ (init_ids_ID_ne_zero g st honce i)
  · intro g2 hp hs hperm
    rw [count_connected_components_eq g st honce,
      count_connected_components_eq g2 st (iteratesOnce_of_perm g g2 hperm honce),
      linked_of_perm g g2 hp hs hperm]

/-- Witness of C13 on the graph of two components, the chain `u1 -> u2` and the single
unitig `u3`. -/
theorem C13_count_connected_components_witness :
    (connected_components twoComponents (init_ids twoComponents (constructed 3))
        UnionFind.empty).1 = true
    ∧ count_connected_components twoComponents (init_ids twoComponents (constructed 3))
        (connected_components twoComponents (init_ids twoComponents (constructed 3))
          UnionFind.empty).2
      = Nat.card (Quot (Linked twoComponents))
    ∧ (∀ i : Fin 3,
        findSet (connected_components twoComponents (init_ids twoComponents (constructed 3))
          UnionFind.empty).2 ((init_ids twoComponents (constructed 3)).data i).ID ≠ 0)
    ∧ ∀ g2 : CCDBG 3, g2.getPredecessors = twoComponents.getPredecessors →
        g2.getSuccessors = twoComponents.getSuccessors →
        g2.unitigs.Perm twoComponents.unitigs →
        count_connected_components g2 (init_ids g2 (constructed 3))
            (connected_components g2 (init_ids g2 (constructed 3)) UnionFind.empty).2
          = count_connected_components twoComponents
            (init_ids twoComponents (constructed 3))
            (connected_components twoComponents (init_ids twoComponents (constructed 3))
              UnionFind.empty).2 :=
  C13_count_connected_components twoComponents (constructed 3) ⟨by decide, by decide⟩

/-- Scenario 6 of the spec, evaluated: on the graph of two components the count is 2. -/
theorem twoComponents_count :
    count_connected_components twoComponents (init_ids twoComponents (constructed 3))
      (connected_components twoComponents (init_ids twoComponents (constructed 3))
        UnionFind.empty).2 = 2 := by
  decide

/-! ## Theorems: the Y graph -/

theorem whereToGo_fold {n : Nat} (src : UnitigColorMap n) (l : List (UnitigColorMap n))
    (d : Direction) :
    l.foldl (fun ret predecessor => if predecessor = src then Direction.GO_FORWARD else ret) d
      = if src ∈ l then Direction.GO_FORWARD else d := by
  induction l generalizing d with
  | nil => simp
  | cons p rest ih =>
    simp only [List.foldl_cons, ih, List.mem_cons]
    by_cases h1 : p = src
    · subst h1
      simp
    · have h2 : ¬ src = p := fun h => h1 h.symm
      simp [h1, h2]

theorem whereToGo_eq {n : Nat} (g : CCDBG n) (um src : UnitigColorMap n) :
    whereToGo g um src
      = if src ∈ g.getPredecessors um then Direction.GO_FORWARD else Direction.GO_BACKWARD :=
  whereToGo_fold src _ _

theorem initialCounter_lt (max_paths : Nat) (h : 1 ≤ max_paths) :
    initialCounter max_paths < max_paths := by
  unfold initialCounter
  omega

theorem DFS_Visit_succ {n : Nat} (g : CCDBG n) (max_paths fuel : Nat) (u : UnitigColorMap n)
    (d : Direction) (w : Walk n) :
    DFS_Visit g max_paths (fuel + 1) u d w
      = DFS_VisitBody g max_paths (fun u d x => DFS_Visit g max_paths fuel u d x) u d w :=
  rfl

/-- The start at `a`, whose only neighbor is its predecessor `h`, which has no predecessor of
its own: one path `h, a`. -/
theorem DFS_Init_hop_backward {n : Nat} (g : CCDBG n) (a h : UnitigColorMap n) (sc : Setcover)
    (max_paths : Nat) (hmp : 1 ≤ max_paths) (st : ExtendedCCDBG n)
    (hpa : g.getPredecessors a = [h]) (hsa : g.getSuccessors a = [])
    (hph : g.getPredecessors h = [])
    (hdeg : (g.getPredecessors h).length + (g.getSuccessors h).length ≠ 1)
    (hnv : (st.data a.unitig).dfs_fw ≠ .visited) (hne : h.unitig ≠ a.unitig)
    (hbw : (st.data h.unitig).dfs_bw = .undiscovered)
    (hrate : 0 < equalColorbits g (headVec g a) h)
    (hsv : is_empty_start_vec (update_start_vec g (headVec g a) h) = false) :
    ∃ st2 sc2, DFS_Init g a sc max_paths st
        = .ok ({ pathseqs := [[orientedSequence g h, orientedSequence g a]],
                 recursive_return_status := true }, st2, sc2)
      ∧ st2.id_init_status = st.id_init_status
      ∧ st2.data a.unitig
          = { ID := (st.data a.unitig).ID, dfs_fw := .visited, dfs_bw := .visited }
      ∧ st2.data h.unitig = { st.data h.unitig with dfs_bw := .seen }
      ∧ ∀ j, j ≠ a.unitig → j ≠ h.unitig → st2.data j = st.data j := by
  have hy : yStemCheck g a = false := by
    unfold yStemCheck
    rw [hpa]
    simp only [List.isEmpty_cons, if_true, yStemLoop, hdeg, ne_eq, not_false_eq_true]
  have hw : whereFrom g h a = .GO_FORWARD := by
    unfold whereFrom
    rw [whereToGo_eq, hph]
    simp
  have hv : (st.data a.unitig).is_visited_fw = false := by
    unfold UnitigExtension.is_visited_fw
    simp [hnv]
  unfold DFS_Init DFS_InitFuel
  simp only [hv, hpa, hsa, hy, List.isEmpty_cons, List.isEmpty_nil, Bool.false_and,
    Bool.not_false, Bool.and_false, Bool.not_true, Bool.false_eq_true, if_false, if_true,
    reduceCtorEq, traverseFrom, sortNeighbors, List.foldl_cons, List.foldl_nil, hrate,
    multimapInsert, neighborLoop, initialCounter_lt max_paths hmp, ExtendedCCDBG.modify,
    List.find?_cons, decide_True, DFS_case, hw, hne, UnitigExtension.is_undiscovered_bw, hbw,
    DFS_Visit_succ, DFS_VisitBody, hsv, hph, sinkReturn, absorb, finishInit, Traceback.join,
    Traceback.empty, List.map_cons, List.map_nil, List.nil_append, List.singleton_append,
    UnitigExtension.is_visited_bw, UnitigExtension.set_seen_bw, Bool.true_and,
    decide_eq_true_eq, List.cons_append, decide_False]
  refine ⟨_, _, rfl, rfl, ?_, ?_, ?_⟩
  · simp [UnitigExtension.set_visited_fw, UnitigExtension.set_visited_bw, Ne.symm hne]
  · simp [UnitigExtension.set_visited_fw, UnitigExtension.set_visited_bw, hne]
  · intro j h1 h2
    simp [h1, h2]

/-- The start at `a`, whose only neighbor is its successor `h`, which has `a` among its
predecessors and no successor of its own: one path `h, a`. -/
theorem DFS_Init_hop_forward {n : Nat} (g : CCDBG n) (a h : UnitigColorMap n) (sc : Setcover)
    (max_paths : Nat) (hmp : 1 ≤ max_paths) (st : ExtendedCCDBG n)
    (hpa : g.getPredecessors a = []) (hsa : g.getSuccessors a = [h])
    (hah : a ∈ g.getPredecessors h) (hsh : g.getSuccessors h = [])
    (hdeg : (g.getPredecessors h).length + (g.getSuccessors h).length ≠ 1)
    (hnv : (st.data a.unitig).dfs_fw ≠ .visited) (hne : h.unitig ≠ a.unitig)
    (hfw : (st.data h.unitig).dfs_fw = .undiscovered)
    (hrate : 0 < equalColorbits g (tailVec g a) h)
    (hsv : is_empty_start_vec (update_start_vec g (tailVec g a) h) = false) :
    ∃ st2 sc2, DFS_Init g a sc max_paths st
        = .ok ({ pathseqs := [[orientedSequence g h, orientedSequence g a]],
                 recursive_return_status := true }, st2, sc2)
      ∧ st2.id_init_status = st.id_init_status
      ∧ st2.data a.unitig
          = { ID := (st.data a.unitig).ID, dfs_fw := .visited, dfs_bw := .visited }
      ∧ st2.data h.unitig = { st.data h.unitig with dfs_fw := .seen }
      ∧ ∀ j, j ≠ a.unitig → j ≠ h.unitig → st2.data j = st.data j := by
  have hy : yStemCheck g a = false := by
    unfold yStemCheck
    rw [hpa, hsa]
    simp only [List.isEmpty_nil, yStemLoop, hdeg, ne_eq, not_false_eq_true, if_true]
    rfl
  have hw : whereFrom g h a = .GO_BACKWARD := by
    unfold whereFrom
    rw [whereToGo_eq, if_pos hah]
    rfl
  have hv : (st.data a.unitig).is_visited_fw = false := by
    unfold UnitigExtension.is_visited_fw
    simp [hnv]
  unfold DFS_Init DFS_InitFuel
  simp only [hv, hpa, hsa, hy, List.isEmpty_cons, List.isEmpty_nil, Bool.false_and,
    Bool.not_false, Bool.and_false, Bool.not_true, Bool.false_eq_true, if_false, if_true,
    reduceCtorEq, traverseFrom, sortNeighbors, List.foldl_cons, List.foldl_nil, hrate,
    multimapInsert, neighborLoop, initialCounter_lt max_paths hmp, ExtendedCCDBG.modify,
    List.find?_cons, decide_True, DFS_case, hw, hne, UnitigExtension.is_undiscovered_fw, hfw,
    DFS_Visit_succ, DFS_VisitBody, hsv, hsh, sinkReturn, absorb, finishInit, Traceback.join,
    Traceback.empty, List.map_cons, List.map_nil, List.nil_append, List.singleton_append,
    UnitigExtension.is_visited_fw, UnitigExtension.set_seen_fw, Bool.true_and,
    decide_eq_true_eq, List.cons_append, decide_False, Bool.and_true, Bool.true_and, hnv]
  refine ⟨_, _, rfl, rfl, ?_, ?_, ?_⟩
  · simp [UnitigExtension.set_visited_fw, UnitigExtension.set_visited_bw, Ne.symm hne]
  · simp [UnitigExtension.set_visited_fw, UnitigExtension.set_visited_bw, hne]
  · intro j h1 h2
    simp [h1, h2]

theorem DFS_Init_visited {n : Nat} (g : CCDBG n) (u : UnitigColorMap n) (sc : Setcover)
    (max_paths : Nat) (st : ExtendedCCDBG n) (hv : (st.data u.unitig).dfs_fw = .visited) :
    DFS_Init g u sc max_paths st
      = .ok (Traceback.empty,
          { st with recursion_priority_counter := initialCounter max_paths }, sc) := by
  unfold DFS_Init DFS_InitFuel
  have : (st.data u.unitig).is_visited_fw = true := by
    unfold UnitigExtension.is_visited_fw
    simp [hv]
  simp only [this, if_true]

theorem DFS_Init_yStem {n : Nat} (g : CCDBG n) (u : UnitigColorMap n) (sc : Setcover)
    (max_paths : Nat) (st : ExtendedCCDBG n)
    (hside : g.getPredecessors u = [] ∨ g.getSuccessors u = [])
    (hnb : g.getPredecessors u ++ g.getSuccessors u ≠ [])
    (hdeg : ∀ x ∈ g.getPredecessors u ++ g.getSuccessors u,
      (g.getPredecessors x).length + (g.getSuccessors x).length = 1) :
    DFS_Init g u sc max_paths st
      = .ok (Traceback.empty,
          { st with recursion_priority_counter := initialCounter max_paths }, sc) := by
  have hy : yStemCheck g u = true := by
    unfold yStemCheck
    split
    · rw [yStemLoop_iff]
      exact fun x hx => hdeg x (List.mem_append_left _ hx)
    · rw [yStemLoop_iff]
      exact fun x hx => hdeg x (List.mem_append_right _ hx)
  unfold DFS_Init DFS_InitFuel
  simp only [hy, if_true]
  split
  · rfl
  · rcases hside with hp | hs
    · rw [hp] at hnb ⊢
      have hs2 : (g.getSuccessors u).isEmpty = false :=
        isEmpty_false_of_ne_nil _ (by simpa using hnb)
      simp [hs2]
    · rw [hs] at hnb ⊢
      have hp2 : (g.getPredecessors u).isEmpty = false :=
        isEmpty_false_of_ne_nil _ (by simpa using hnb)
      simp [hp2]

theorem getD_map_range_lt (f : Nat → Bool) (m c : Nat) (h : c < m) :
    ((List.range m).map f).getD c false = f c := by
  simp [List.getD, h, List.getElem?_map, List.getElem?_range]

theorem not_empty_of_bit (sv : List Bool) (c : Nat) (h : sv.getD c false = true) :
    is_empty_start_vec sv = false := by
  unfold is_empty_start_vec
  simp only [Bool.not_eq_false_eq_eq_true, Bool.not_eq_eq_eq_not, Bool.not_false,
    List.any_eq_true]
  by_cases hc : c < sv.length
  · refine ⟨sv[c], List.getElem_mem _, ?_⟩
    simpa [List.getD, List.getElem?_eq_getElem hc] using h
  · simp [List.getD, List.getElem?_eq_none (Nat.le_of_not_lt hc)] at h

theorem rate_pos_of_common {n : Nat} (g : CCDBG n) (sv : List Bool) (h : UnitigColorMap n)
    (c : Nat) (hc : c < g.getNbColors) (hsv : sv.getD c false = true)
    (hh : g.headColor h.unitig c = true) (ht : g.tailColor h.unitig c = true) :
    0 < equalColorbits g sv h := by
  unfold equalColorbits
  apply List.length_pos_of_mem (a := c)
  rw [List.mem_filter]
  refine ⟨List.mem_range.2 hc, ?_⟩
  rw [hh, ht, hsv]
  rfl

theorem cutconcat_hop (k : Nat) (x y : Sequence) (hk : size_pred k ≤ x.length) :
    cutconcat [] [x, y] k = .ok (y ++ x.drop (size_pred k)) := by
  unfold cutconcat
  simp only [List.reverse_cons, List.reverse_nil, List.nil_append, List.singleton_append,
    cutconcatLoop]
  have hs : substr x (size_pred k) = .ok (x.drop (size_pred k)) := if_pos hk
  rw [hs]

theorem fin3_cases (s a1 a2 : Fin 3) (hd : s ≠ a1 ∧ s ≠ a2 ∧ a1 ≠ a2) (j : Fin 3) :
    j = s ∨ j = a1 ∨ j = a2 := by
  obtain ⟨h1, h2, h3⟩ := hd
  simp only [ne_eq, Fin.ext_iff] at h1 h2 h3 ⊢
  omega

theorem sameColors_common {n : Nat} (g : CCDBG n) (hc : SameColors g) :
    ∃ c, c < g.getNbColors ∧ ∀ i, g.headColor i c = true ∧ g.tailColor i c = true := by
  obtain ⟨h1, i, c, hc, hi⟩ := hc
  refine ⟨c, hc, fun j => ?_⟩
  obtain ⟨h2, h3⟩ := h1 j i c hc
  exact ⟨by rw [h2, hi], by rw [h3, hi]⟩

theorem yGraph_arm {g : CCDBG 3} {s a1 a2 : Fin 3} (hy : YGraph g s a1 a2)
    (a : UnitigColorMap 3) (ha : a.unitig = a1 ∨ a.unitig = a2) :
    ∃ h, h.unitig = s ∧ g.getPredecessors a ++ g.getSuccessors a = [h]
      ∧ (g.getPredecessors h).length + (g.getSuccessors h).length ≠ 1
      ∧ ((g.getPredecessors a = [h] ∧ g.getSuccessors a = [] ∧ g.getPredecessors h = [])
        ∨ (g.getPredecessors a = [] ∧ g.getSuccessors a = [h] ∧ a ∈ g.getPredecessors h
            ∧ g.getSuccessors h = [])) := by
  have harm := hy.arm a ha
  have hdeg : ∀ h : UnitigColorMap 3, h.unitig = s →
      (g.getPredecessors h).length + (g.getSuccessors h).length ≠ 1 := by
    intro h hh
    have := (hy.stem h hh).2.length_eq
    simp only [List.length_map, List.length_append, List.length_cons, List.length_nil] at this
    omega
  cases hp : g.getPredecessors a with
  | nil =>
    cases hs : g.getSuccessors a with
    | nil =>
      rw [hp, hs] at harm
      cases harm
    | cons h t =>
      rw [hp, hs] at harm
      simp only [List.nil_append, List.map_cons, List.cons.injEq, List.map_eq_nil_iff] at harm
      obtain ⟨hh, ht⟩ := harm
      subst ht
      have hmem : a ∈ g.getPredecessors h := (hy.reciprocal a h).1 (by rw [hs]; simp)
      have hsh : g.getSuccessors h = [] := by
        rcases (hy.stem h hh).1 with hnil | hnil
        · rw [hnil] at hmem
          cases hmem
        · exact hnil
      exact ⟨h, hh, rfl, hdeg h hh, Or.inr ⟨rfl, rfl, hmem, hsh⟩⟩
  | cons h t =>
    rw [hp] at harm
    simp only [List.cons_append, List.map_cons, List.cons.injEq, List.map_eq_nil_iff,
      List.append_eq_nil] at harm
    obtain ⟨hh, ht, hs⟩ := harm
    subst ht
    have hmem : a ∈ g.getSuccessors h := (hy.reciprocal h a).2 (by rw [hp]; simp)
    have hph : g.getPredecessors h = [] := by
      rcases (hy.stem h hh).1 with hnil | hnil
      · exact hnil
      · rw [hnil] at hmem
        cases hmem
    refine ⟨h, hh, by rw [hs]; rfl, hdeg h hh, Or.inl ⟨rfl, hs, hph⟩⟩

theorem yGraph_stem_init {g : CCDBG 3} {s a1 a2 : Fin 3} (hy : YGraph g s a1 a2)
    (x : UnitigColorMap 3) (hx : x.unitig = s) (sc : Setcover) (max_paths : Nat)
    (st : ExtendedCCDBG 3) :
    DFS_Init g x sc max_paths st
      = .ok (Traceback.empty,
          { st with recursion_priority_counter := initialCounter max_paths }, sc) := by
  obtain ⟨hside, hperm⟩ := hy.stem x hx
  apply DFS_Init_yStem g x sc max_paths st hside
  · intro hnil
    rw [hnil] at hperm
    have := hperm.length_eq
    simp at this
  · intro y hy2
    have hmem : y.unitig ∈ (g.getPredecessors x ++ g.getSuccessors x).map (fun u => u.unitig) :=
      List.mem_map.2 ⟨y, hy2, rfl⟩
    have hy3 : y.unitig = a1 ∨ y.unitig = a2 := by
      have := hperm.mem_iff.1 hmem
      simpa using this
    have := congrArg List.length (hy.arm y hy3)
    simpa using this

theorem yGraph_arm_init {g : CCDBG 3} {s a1 a2 : Fin 3} (hy : YGraph g s a1 a2)
    (hc : SameColors g) (max_paths : Nat) (hmp : 1 ≤ max_paths) (a : UnitigColorMap 3)
    (ha : a.unitig = a1 ∨ a.unitig = a2) (sc : Setcover) (st : ExtendedCCDBG 3)
    (hfw : (st.data s).dfs_fw = .undiscovered) (hbw : (st.data s).dfs_bw = .undiscovered)
    (hnv : (st.data a.unitig).dfs_fw ≠ .visited) :
    ∃ h st2 sc2, h.unitig = s ∧ g.getPredecessors a ++ g.getSuccessors a = [h]
      ∧ DFS_Init g a sc max_paths st
        = .ok ({ pathseqs := [[orientedSequence g h, orientedSequence g a]],
                 recursive_return_status := true }, st2, sc2)
      ∧ st2.data a.unitig
          = { ID := (st.data a.unitig).ID, dfs_fw := .visited, dfs_bw := .visited }
      ∧ (st2.data s).dfs_fw ≠ .visited ∧ (st2.data s).dfs_bw ≠ .visited
      ∧ ∀ j, j ≠ a.unitig → j ≠ s → st2.data j = st.data j := by
  obtain ⟨c, hcn, hcol⟩ := sameColors_common g hc
  obtain ⟨h, hh, hnb, hdeg, hcase⟩ := yGraph_arm hy a ha
  have hne : h.unitig ≠ a.unitig := by
    rw [hh]
    rcases ha with ha | ha
    · rw [ha]
      exact hy.distinct.1
    · rw [ha]
      exact hy.distinct.2.1
  rcases hcase with ⟨hpa, hsa, hph⟩ | ⟨hpa, hsa, hah, hsh⟩
  · have hsvc : (headVec g a).getD c false = true := by
      unfold headVec
      rw [getD_map_range_lt _ _ _ hcn]
      exact (hcol _).1
    have hrate := rate_pos_of_common g (headVec g a) h c hcn hsvc (hcol _).1 (hcol _).2
    have hsv : is_empty_start_vec (update_start_vec g (headVec g a) h) = false :=
      not_empty_of_bit _ c
        ((update_start_vec_getD g _ h c).2 ⟨hcn, hsvc, (hcol _).1, (hcol _).2⟩)
    obtain ⟨st2, sc2, h1, _, h3, h4, h5⟩ := DFS_Init_hop_backward g a h sc max_paths hmp st
      hpa hsa hph hdeg hnv hne (by rw [hh]; exact hbw) hrate hsv
    refine ⟨h, st2, sc2, hh, hnb, h1, h3, ?_, ?_, ?_⟩
    · rw [← hh, h4]
      show (st.data h.unitig).dfs_fw ≠ .visited
      rw [hh, hfw]
      exact Mark.noConfusion
    · rw [← hh, h4]
      exact Mark.noConfusion
    · intro j hj1 hj2
      exact h5 j hj1 (by rw [hh]; exact hj2)
  · have hsvc : (tailVec g a).getD c false = true := by
      unfold tailVec
      rw [getD_map_range_lt _ _ _ hcn]
      exact (hcol _).2
    have hrate := rate_pos_of_common g (tailVec g a) h c hcn hsvc (hcol _).1 (hcol _).2
    have hsv : is_empty_start_vec (update_start_vec g (tailVec g a) h) = false :=
      not_empty_of_bit _ c
        ((update_start_vec_getD g _ h c).2 ⟨hcn, hsvc, (hcol _).1, (hcol _).2⟩)
    obtain ⟨st2, sc2, h1, _, h3, h4, h5⟩ := DFS_Init_hop_forward g a h sc max_paths hmp st
      hpa hsa hah hsh hdeg hnv hne (by rw [hh]; exact hfw) hrate hsv
    refine ⟨h, st2, sc2, hh, hnb, h1, h3, ?_, ?_, ?_⟩
    · rw [← hh, h4]
      exact Mark.noConfusion
    · rw [← hh, h4]
      show (st.data h.unitig).dfs_bw ≠ .visited
      rw [hh, hbw]
      exact Mark.noConfusion
    · intro j hj1 hj2
      exact h5 j hj1 (by rw [hh]; exact hj2)

theorem cleanSeen_fw_visited (ue : UnitigExtension) :
    (cleanSeen ue).dfs_fw = .visited ↔ ue.dfs_fw = .visited := by
  obtain ⟨id, fw, bw⟩ := ue
  cases fw <;> cases bw <;> simp [cleanSeen, UnitigExtension.is_seen_fw,
    UnitigExtension.is_seen_bw, UnitigExtension.set_undiscovered_fw,
    UnitigExtension.set_undiscovered_bw]

theorem cleanSeen_undiscovered (ue : UnitigExtension) (h1 : ue.dfs_fw ≠ .visited)
    (h2 : ue.dfs_bw ≠ .visited) :
    (cleanSeen ue).dfs_fw = .undiscovered ∧ (cleanSeen ue).dfs_bw = .undiscovered := by
  obtain ⟨id, fw, bw⟩ := ue
  cases fw <;> cases bw <;> simp_all [cleanSeen, UnitigExtension.is_seen_fw,
    UnitigExtension.is_seen_bw, UnitigExtension.set_undiscovered_fw,
    UnitigExtension.set_undiscovered_bw]

theorem cleaner_fw_visited {n : Nat} (g : CCDBG n) (st : ExtendedCCDBG n) (j : Fin n) :
    ((DFS_cleaner_seen_only g st).data j).dfs_fw = .visited ↔ (st.data j).dfs_fw = .visited := by
  rw [cleaner_seen_only_data]
  split
  · exact cleanSeen_fw_visited _
  · exact Iff.rfl

theorem yMarks_cleaner {g : CCDBG 3} {s a1 a2 : Fin 3} (hy : YGraph g s a1 a2)
    (st : ExtendedCCDBG 3) (d1 d2 : Bool) (h1 : (st.data s).dfs_fw ≠ .visited)
    (h2 : (st.data s).dfs_bw ≠ .visited) (h3 : (st.data a1).dfs_fw = .visited ↔ d1 = true)
    (h4 : (st.data a2).dfs_fw = .visited ↔ d2 = true) :
    YMarks s a1 a2 (DFS_cleaner_seen_only g st) d1 d2 := by
  have hs : s ∈ g.unitigs.map (fun u => u.unitig) :=
    hy.iteration.mem_iff.2 (List.mem_cons_self _ _)
  refine ⟨?_, ?_, (cleaner_fw_visited g st a1).trans h3, (cleaner_fw_visited g st a2).trans h4⟩
  · rw [cleaner_seen_only_data, if_pos hs]
    exact (cleanSeen_undiscovered _ h1 h2).1
  · rw [cleaner_seen_only_data, if_pos hs]
    exact (cleanSeen_undiscovered _ h1 h2).2

theorem mergeUnitigs_skip {n : Nat} (g : CCDBG n) (opt : CCDBG_Build_opt) (max_paths : Nat)
    (u : UnitigColorMap n) (rest : List (UnitigColorMap n)) (m : MergeState n)
    (st1 : ExtendedCCDBG n) (sc1 : Setcover)
    (hinit : DFS_Init g u m.sc max_paths m.graph = .ok (Traceback.empty, st1, sc1)) :
    mergeUnitigs g opt max_paths (u :: rest) m
      = mergeUnitigs g opt max_paths rest
          { m with graph := DFS_cleaner_seen_only g st1, sc := sc1 } := by
  rw [mergeUnitigs, hinit]
  rfl

theorem mergeUnitigs_hop {n : Nat} (g : CCDBG n) (opt : CCDBG_Build_opt) (max_paths : Nat)
    (u : UnitigColorMap n) (rest : List (UnitigColorMap n)) (m : MergeState n)
    (x y : Sequence) (st2 : ExtendedCCDBG n) (sc2 : Setcover)
    (hinit : DFS_Init g u m.sc max_paths m.graph
      = .ok ({ pathseqs := [[x, y]], recursive_return_status := true }, st2, sc2))
    (hopen : m.ofs.is_open = true) (hk : size_pred opt.k ≤ x.length) :
    mergeUnitigs g opt max_paths (u :: rest) m
      = mergeUnitigs g opt max_paths rest
          { graph := DFS_cleaner_seen_only g st2, sc := sc2,
            ofs := { m.ofs with
              records := m.ofs.records
                ++ [{ contig := (m.sv_counter + 1) % 2 ^ 64,
                      seq := y ++ x.drop (size_pred opt.k) }] },
            sv_counter := (m.sv_counter + 1) % 2 ^ 64 } := by
  rw [mergeUnitigs, hinit]
  simp only [Traceback.write, hopen, if_true, writeLoop, cutconcat_hop opt.k x y hk,
    List.nil_append]

theorem hopContig_eq {n : Nat} (g : CCDBG n) (k : Nat) (a h : UnitigColorMap n)
    (hnb : g.getPredecessors a ++ g.getSuccessors a = [h]) :
    hopContig g k a = orientedSequence g a ++ (orientedSequence g h).drop (size_pred k) := by
  unfold hopContig
  rw [hnb]

theorem orientedSequence_length {n : Nat} (g : CCDBG n) (u : UnitigColorMap n) :
    (orientedSequence g u).length = (g.referenceUnitigToString u.unitig).length := by
  unfold orientedSequence reverse_complement
  split <;> simp

/-- One round of `merge` over handles of a Y graph: the stem is passed over, an arm that is
not yet visited gives one record and becomes visited, a visited arm is passed over. -/
theorem yGraph_round {g : CCDBG 3} {s a1 a2 : Fin 3} (hy : YGraph g s a1 a2)
    (hc : SameColors g) (opt : CCDBG_Build_opt) (max_paths : Nat) (hmp : 1 ≤ max_paths)
    (hk : size_pred opt.k ≤ (g.referenceUnitigToString s).length)
    (us : List (UnitigColorMap 3)) (hnd : (us.map (fun u => u.unitig)).Nodup)
    (m : MergeState 3) (d1 d2 : Bool) (hm : YMarks s a1 a2 m.graph d1 d2)
    (hopen : m.ofs.is_open = true) :
    ∃ m2, mergeUnitigs g opt max_paths us m = .ok (true, m2)
      ∧ YMarks s a1 a2 m2.graph (d1 || us.any (fun u => decide (u.unitig = a1)))
          (d2 || us.any (fun u => decide (u.unitig = a2)))
      ∧ m2.ofs.is_open = true
      ∧ m2.ofs.records.map (fun r => r.seq)
          = m.ofs.records.map (fun r => r.seq)
            ++ (us.filter (fun u =>
                (decide (u.unitig = a1) && !d1) || (decide (u.unitig = a2) && !d2))).map
              (hopContig g opt.k) := by
  obtain ⟨hsa1, hsa2, ha12⟩ := hy.distinct
  induction us generalizing m d1 d2 with
  | nil =>
    refine ⟨m, rfl, ?_, hopen, ?_⟩
    · simpa using hm
    · simp
  | cons u rest ih =>
    simp only [List.map_cons, List.nodup_cons] at hnd
    obtain ⟨hu_notin, hnd2⟩ := hnd
    have hskip : ∀ (st1 : ExtendedCCDBG 3),
        DFS_Init g u m.sc max_paths m.graph
          = .ok (Traceback.empty,
              { m.graph with recursion_priority_counter := initialCounter max_paths }, m.sc) →
        ∃ m2, mergeUnitigs g opt max_paths (u :: rest) m = .ok (true, m2)
          ∧ YMarks s a1 a2 m2.graph (d1 || rest.any (fun u => decide (u.unitig = a1)))
              (d2 || rest.any (fun u => decide (u.unitig = a2)))
          ∧ m2.ofs.is_open = true
          ∧ m2.ofs.records.map (fun r => r.seq)
              = m.ofs.records.map (fun r => r.seq)
                ++ (rest.filter (fun u =>
                    (decide (u.unitig = a1) && !d1) || (decide (u.unitig = a2) && !d2))).map
                  (hopContig g opt.k) := by
      intro _ hinit
      rw [mergeUnitigs_skip g opt max_paths u rest m _ _ hinit]
      exact ih hnd2 _ d1 d2
        (yMarks_cleaner hy _ d1 d2 (by rw [hm.1]; exact Mark.noConfusion)
          (by rw [hm.2.1]; exact Mark.noConfusion) hm.2.2.1 hm.2.2.2) hopen
    rcases fin3_cases s a1 a2 hy.distinct u.unitig with hu | hu | hu
    · obtain ⟨m2, h1, h2, h3, h4⟩ := hskip m.graph (yGraph_stem_init hy u hu m.sc max_paths m.graph)
      refine ⟨m2, h1, ?_, h3, ?_⟩
      · simpa [hu, hsa1, hsa2] using h2
      · simpa [hu, hsa1, hsa2] using h4
    · cases d1 with
      | true =>
        have hv : (m.graph.data u.unitig).dfs_fw = .visited := by
          rw [hu]
          exact hm.2.2.1.2 rfl
        obtain ⟨m2, h1, h2, h3, h4⟩ :=
          hskip m.graph (DFS_Init_visited g u m.sc max_paths m.graph hv)
        refine ⟨m2, h1, ?_, h3, ?_⟩
        · simpa [hu, ha12] using h2
        · simpa [hu, ha12] using h4
      | false =>
        have hnv : (m.graph.data u.unitig).dfs_fw ≠ .visited := by
          rw [hu]
          intro hv
          exact Bool.noConfusion (hm.2.2.1.1 hv)
        obtain ⟨h, st2, sc2, hh, hnb, hinit, e1, e2, e3, e4⟩ :=
          yGraph_arm_init hy hc max_paths hmp u (Or.inl hu) m.sc m.graph hm.1 hm.2.1 hnv
        have hk2 : size_pred opt.k ≤ (orientedSequence g h).length := by
          rw [orientedSequence_length, hh]
          exact hk
        rw [mergeUnitigs_hop g opt max_paths u rest m _ _ st2 sc2 hinit hopen hk2]
        have hmarks : YMarks s a1 a2 (DFS_cleaner_seen_only g st2) true d2 := by
          apply yMarks_cleaner hy st2 true d2 e2 e3
          · rw [← hu, e1]
            simp
          · rw [e4 a2 (by rw [hu]; exact Ne.symm ha12) (Ne.symm hsa2)]
            exact hm.2.2.2
        obtain ⟨m2, h1, h2, h3, h4⟩ := ih hnd2
          ⟨DFS_cleaner_seen_only g st2, sc2,
            { m.ofs with
              records := m.ofs.records
                ++ [{ contig := (m.sv_counter + 1) % 2 ^ 64,
                      seq := orientedSequence g u
                        ++ (orientedSequence g h).drop (size_pred opt.k) }] },
            (m.sv_counter + 1) % 2 ^ 64⟩ true d2 hmarks hopen
        refine ⟨m2, h1, ?_, h3, ?_⟩
        · simpa [hu, ha12] using h2
        · rw [h4]
          have hfil : rest.filter (fun u =>
                (decide (u.unitig = a1) && !true) || (decide (u.unitig = a2) && !d2))
              = rest.filter (fun u =>
                (decide (u.unitig = a1) && !false) || (decide (u.unitig = a2) && !d2)) := by
            apply List.filter_congr
            intro v hv
            have : v.unitig ≠ a1 := by
              intro h2
              exact hu_notin (List.mem_map.2 ⟨v, hv, by rw [h2, hu]⟩)
            simp [this]
          rw [hfil]
          simp [hu, hopContig_eq g opt.k u h hnb]
    · cases d2 with
      | true =>
        have hv : (m.graph.data u.unitig).dfs_fw = .visited := by
          rw [hu]
          exact hm.2.2.2.2 rfl
        obtain ⟨m2, h1, h2, h3, h4⟩ :=
          hskip m.graph (DFS_Init_visited g u m.sc max_paths m.graph hv)
        refine ⟨m2, h1, ?_, h3, ?_⟩
        · simpa [hu, Ne.symm ha12] using h2
        · simpa [hu, Ne.symm ha12] using h4
      | false =>
        have hnv : (m.graph.data u.unitig).dfs_fw ≠ .visited := by
          rw [hu]
          intro hv
          exact Bool.noConfusion (hm.2.2.2.1 hv)
        obtain ⟨h, st2, sc2, hh, hnb, hinit, e1, e2, e3, e4⟩ :=
          yGraph_arm_init hy hc max_paths hmp u (Or.inr hu) m.sc m.graph hm.1 hm.2.1 hnv
        have hk2 : size_pred opt.k ≤ (orientedSequence g h).length := by
          rw [orientedSequence_length, hh]
          exact hk
        rw [mergeUnitigs_hop g opt max_paths u rest m _ _ st2 sc2 hinit hopen hk2]
        have hmarks : YMarks s a1 a2 (DFS_cleaner_seen_only g st2) d1 true := by
          apply yMarks_cleaner hy st2 d1 true e2 e3
          · rw [e4 a1 (by rw [hu]; exact ha12) (Ne.symm hsa1)]
            exact hm.2.2.1
          · rw [← hu, e1]
            simp
        obtain ⟨m2, h1, h2, h3, h4⟩ := ih hnd2
          ⟨DFS_cleaner_seen_only g st2, sc2,
            { m.ofs with
              records := m.ofs.records
                ++ [{ contig := (m.sv_counter + 1) % 2 ^ 64,
                      seq := orientedSequence g u
                        ++ (orientedSequence g h).drop (size_pred opt.k) }] },
            (m.sv_counter + 1) % 2 ^ 64⟩ d1 true hmarks hopen
        refine ⟨m2, h1, ?_, h3, ?_⟩
        · simpa [hu, Ne.symm ha12] using h2
        · rw [h4]
          have hfil : rest.filter (fun u =>
                (decide (u.unitig = a1) && !d1) || (decide (u.unitig = a2) && !true))
              = rest.filter (fun u =>
                (decide (u.unitig = a1) && !d1) || (decide (u.unitig = a2) && !false)) := by
            apply List.filter_congr
            intro v hv
            have : v.unitig ≠ a2 := by
              intro h2
              exact hu_notin (List.mem_map.2 ⟨v, hv, by rw [h2, hu]⟩)
            simp [this]
          rw [hfil]
          simp [hu, Ne.symm ha12, hopContig_eq g opt.k u h hnb]

theorem yGraph_nodup {g : CCDBG 3} {s a1 a2 : Fin 3} (hy : YGraph g s a1 a2) :
    (g.unitigs.map (fun u => u.unitig)).Nodup := by
  obtain ⟨h1, h2, h3⟩ := hy.distinct
  apply hy.iteration.nodup_iff.2
  simp [h1, h2, h3]

theorem yGraph_later {g : CCDBG 3} {s a1 a2 : Fin 3} (hy : YGraph g s a1 a2)
    (hc : SameColors g) (opt : CCDBG_Build_opt) (max_paths : Nat) (hmp : 1 ≤ max_paths)
    (hk : size_pred opt.k ≤ (g.referenceUnitigToString s).length) (passes : Nat)
    (m : MergeState 3) (hm : YMarks s a1 a2 m.graph true true)
    (hopen : m.ofs.is_open = true) :
    ∃ m2, mergePasses g opt max_paths passes m = .ok (true, m2)
      ∧ m2.ofs.records.map (fun r => r.seq) = m.ofs.records.map (fun r => r.seq) := by
  induction passes generalizing m with
  | zero => exact ⟨m, rfl, rfl⟩
  | succ p ih =>
    obtain ⟨m1, h1, h2, h3, h4⟩ :=
      yGraph_round hy hc opt max_paths hmp hk g.unitigs (yGraph_nodup hy) m true true hm hopen
    obtain ⟨m2, h5, h6⟩ := ih m1 (by simpa using h2) h3
    refine ⟨m2, ?_, ?_⟩
    · rw [mergePasses, h1]
      exact h5
    · rw [h6, h4]
      simp

theorem yGraph_filter {g : CCDBG 3} {s a1 a2 : Fin 3} (hy : YGraph g s a1 a2)
    (us : List (UnitigColorMap 3)) :
    us.filter (fun u => (decide (u.unitig = a1) && !false) || (decide (u.unitig = a2) && !false))
      = us.filter (fun u => decide (u.unitig ≠ s)) := by
  obtain ⟨h1, h2, h3⟩ := hy.distinct
  apply List.filter_congr
  intro u _
  rcases fin3_cases s a1 a2 hy.distinct u.unitig with hu | hu | hu
  · simp [hu, h1, h2]
  · simp [hu, Ne.symm h1]
  · simp [hu, Ne.symm h2]

/-- C11: for every three-unitig Y graph (stem `s`, arms `a1` and `a2`) in which all head
and tail k-mers carry the same non-empty color set, every `max_paths >= 1` and every `k`
whose `k-1` (as `size_t`) does not exceed the length of the stem: `DFS_Init` on the stem
returns the empty bundle with the success flag down and leaves every mark as it was; and
`merge`, started with the ids initialised, every mark undiscovered and a file that opens,
writes one contig for each unitig of the iteration other than the stem, in iteration order,
that is exactly two, one per arm; the contig of an arm is the one `cutconcat` builds from
the single path that `DFS_Init` started at that arm returns. -/
theorem C11_y_graph_two_contigs (g : CCDBG 3) (s a1 a2 : Fin 3) (hy : YGraph g s a1 a2)
    (hc : SameColors g) (opt : CCDBG_Build_opt) (max_paths : Nat) (hmp : 1 ≤ max_paths)
    (hk : size_pred opt.k ≤ (g.referenceUnitigToString s).length) (st : ExtendedCCDBG 3)
    (hids : is_id_init st = true)
    (hfresh : ∀ i, (st.data i).dfs_fw = .undiscovered ∧ (st.data i).dfs_bw = .undiscovered) :
    (∀ x : UnitigColorMap 3, x.unitig = s → ∀ (sc : Setcover) (st1 : ExtendedCCDBG 3),
      DFS_Init g x sc max_paths st1
        = .ok (Traceback.empty,
            { st1 with recursion_priority_counter := initialCounter max_paths }, sc))
    ∧ writtenSequences (merge g opt max_paths true st)
        = some ((g.unitigs.filter (fun u => decide (u.unitig ≠ s))).map (hopContig g opt.k))
    ∧ ((g.unitigs.filter (fun u => decide (u.unitig ≠ s))).map (fun u => u.unitig)).Perm
        [a1, a2]
    ∧ ∀ u ∈ g.unitigs, u.unitig ≠ s →
        ∃ p, returnedBundle (DFS_Init g u Setcover.init max_paths st)
            = some { pathseqs := [p], recursive_return_status := true }
          ∧ cutconcat [] p opt.k = .ok (hopContig g opt.k u) := by
  obtain ⟨hsa1, hsa2, ha12⟩ := hy.distinct
  refine ⟨fun x hx sc st1 => yGraph_stem_init hy x hx sc max_paths st1, ?_, ?_, ?_⟩
  · obtain ⟨p, rfl⟩ : ∃ p, max_paths = p + 1 := ⟨max_paths - 1, by omega⟩
    have hm0 : YMarks s a1 a2 st false false := by
      refine ⟨(hfresh s).1, (hfresh s).2, ?_, ?_⟩
      · rw [(hfresh a1).1]
        simp
      · rw [(hfresh a2).1]
        simp
    obtain ⟨m1, h1, h2, h3, h4⟩ :=
      yGraph_round hy hc opt (p + 1) hmp hk g.unitigs (yGraph_nodup hy)
        { graph := st, sc := Setcover.init, ofs := { is_open := true, records := [] },
          sv_counter := 0 } false false hm0 rfl
    have hany1 : g.unitigs.any (fun u => decide (u.unitig = a1)) = true := by
      have : a1 ∈ g.unitigs.map (fun u => u.unitig) := hy.iteration.mem_iff.2 (by simp)
      obtain ⟨u, hu, hu2⟩ := List.mem_map.1 this
      exact List.any_eq_true.2 ⟨u, hu, by simp [hu2]⟩
    have hany2 : g.unitigs.any (fun u => decide (u.unitig = a2)) = true := by
      have : a2 ∈ g.unitigs.map (fun u => u.unitig) := hy.iteration.mem_iff.2 (by simp)
      obtain ⟨u, hu, hu2⟩ := List.mem_map.1 this
      exact List.any_eq_true.2 ⟨u, hu, by simp [hu2]⟩
    rw [hany1, hany2] at h2
    obtain ⟨m2, h5, h6⟩ := yGraph_later hy hc opt (p + 1) hmp hk p m1 h2 h3
    unfold is_id_init at hids
    have hpass : mergePasses g opt (p + 1) (p + 1)
        { graph := st, sc := Setcover.init, ofs := { is_open := true, records := [] },
          sv_counter := 0 } = .ok (true, m2) := by
      rw [mergePasses, h1]
      exact h5
    have hmerge : merge g opt (p + 1) true st = .ok (true, m2.ofs.records, m2.graph) := by
      unfold merge
      rw [if_neg (by rw [hids]; exact Bool.noConfusion), if_neg (by exact Bool.noConfusion),
        hpass]
    rw [hmerge]
    show some (m2.ofs.records.map (fun r => r.seq)) = _
    rw [h6, h4, yGraph_filter hy]
    rfl
  · have hmap : (g.unitigs.filter (fun u => decide (u.unitig ≠ s))).map (fun u => u.unitig)
        = (g.unitigs.map (fun u => u.unitig)).filter (fun j => decide (j ≠ s)) := by
      rw [List.filter_map]
      rfl
    rw [hmap]
    have := hy.iteration.filter (fun j => decide (j ≠ s))
    simpa [hsa1, hsa2, Ne.symm hsa1, Ne.symm hsa2] using this
  · intro u _ hus
    have hu : u.unitig = a1 ∨ u.unitig = a2 := by
      rcases fin3_cases s a1 a2 hy.distinct u.unitig with h | h | h
      · exact absurd h hus
      · exact Or.inl h
      · exact Or.inr h
    obtain ⟨h, st2, sc2, hh, hnb, hinit, _⟩ :=
      yGraph_arm_init hy hc max_paths hmp u hu Setcover.init st (hfresh s).1 (hfresh s).2
        (by rw [(hfresh u.unitig).1]; exact Mark.noConfusion)
    refine ⟨[orientedSequence g h, orientedSequence g u], ?_, ?_⟩
    · rw [hinit]
      rfl
    · rw [hopContig_eq g opt.k u h hnb]
      apply cutconcat_hop
      rw [orientedSequence_length, hh]
      exact hk

theorem yGraph_shape : YGraph (yGraph [1, 0, 2]) 0 1 2 where
  distinct := by decide
  iteration := by decide
  reciprocal := by
    rintro ⟨i, b⟩ ⟨j, c⟩
    fin_cases i <;> fin_cases j <;> cases b <;> cases c <;> decide
  stem := by
    rintro ⟨i, b⟩ hx
    simp only at hx
    subst hx
    cases b <;> decide
  arm := by
    rintro ⟨i, b⟩ hx
    simp only at hx
    rcases hx with hx | hx <;> subst hx <;> cases b <;> decide

theorem yGraph_colors (order : List (Fin 3)) : SameColors (yGraph order) :=
  ⟨fun _ _ _ _ => ⟨rfl, rfl⟩, 0, 0, Nat.zero_lt_one, rfl⟩

/-- Witness of C11 on the Y graph `u1 -> u2`, `u1 -> u3` iterated in the order
`u2, u1, u3`, with `k = 3` and `max_paths = 2`. -/
theorem C11_y_graph_two_contigs_witness :
    (∀ x : UnitigColorMap 3, x.unitig = 0 → ∀ (sc : Setcover) (st1 : ExtendedCCDBG 3),
      DFS_Init (yGraph [1, 0, 2]) x sc 2 st1
        = .ok (Traceback.empty, { st1 with recursion_priority_counter := initialCounter 2 }, sc))
    ∧ writtenSequences (merge (yGraph [1, 0, 2]) { k := 3, verbose := false } 2 true (numbered 3))
        = some (((yGraph [1, 0, 2]).unitigs.filter (fun u => decide (u.unitig ≠ 0))).map
            (hopContig (yGraph [1, 0, 2]) ({ k := 3, verbose := false } : CCDBG_Build_opt).k))
    ∧ (((yGraph [1, 0, 2]).unitigs.filter (fun u => decide (u.unitig ≠ 0))).map
        (fun u => u.unitig)).Perm [1, 2]
    ∧ ∀ u ∈ (yGraph [1, 0, 2]).unitigs, u.unitig ≠ 0 →
        ∃ p, returnedBundle (DFS_Init (yGraph [1, 0, 2]) u Setcover.init 2 (numbered 3))
            = some { pathseqs := [p], recursive_return_status := true }
          ∧ cutconcat [] p ({ k := 3, verbose := false } : CCDBG_Build_opt).k
            = .ok (hopContig (yGraph [1, 0, 2])
                ({ k := 3, verbose := false } : CCDBG_Build_opt).k u) :=
  C11_y_graph_two_contigs (yGraph [1, 0, 2]) 0 1 2 yGraph_shape (yGraph_colors [1, 0, 2])
    { k := 3, verbose := false } 2 (by decide) (by decide) (numbered 3) rfl
    (fun _ => ⟨rfl, rfl⟩)

/-- The Y graph, evaluated: iterated in the order `u2, u1, u3` with `k = 3` and
`max_paths = 2`, `merge` writes the two contigs `ACCGG ACC` and `CGGTT ACC`. -/
theorem yGraph_contigs :
    runMerge (yGraph [1, 0, 2]) 3 2
      = some [[.A, .C, .C, .G, .G, .A, .C, .C], [.C, .G, .G, .T, .T, .A, .C, .C]] := by
  decide

/-! ## Theorems: the returns of the traversal, case by case -/

/-- The ways in which `DFS_case` returns: it leaves bundle and walk alone, or it entered
the neighbor, whose mark on the side given by `whereFrom` was undiscovered, and absorbed
what the visit returned. -/
theorem DFS_case_cases {n : Nat} (g : CCDBG n) (visit : Visit n)
    (ucm neighbor : UnitigColorMap n) (tb : Traceback) (w : Walk n) (tb2 : Traceback)
    (w2 : Walk n) (h : DFS_case g visit ucm neighbor tb w = .ok (tb2, w2)) :
    (tb2 = tb ∧ w2 = w)
    ∨ ∃ rtb, visit neighbor (whereFrom g neighbor ucm)
          { w with sc := w.sc.add (w.graph.data ucm.unitig).ID } = .ok (rtb, w2)
        ∧ tb2 = absorb g ucm tb rtb
        ∧ markOf (whereFrom g neighbor ucm) (w.graph.data neighbor.unitig) = .undiscovered := by
  unfold DFS_case at h
  split at h
  · rename_i hdir
    split at h
    · rename_i hu
      split at h
      · rename_i rtb w3 hvis
        simp only [Except.ok.injEq, Prod.mk.injEq] at h
        obtain ⟨rfl, rfl⟩ := h
        refine Or.inr ⟨rtb, ?_, rfl, ?_⟩
        · rw [hdir]
          exact hvis
        · rw [hdir]
          simpa [markOf, UnitigExtension.is_undiscovered_fw] using hu
      · cases h
    · simp only [Except.ok.injEq, Prod.mk.injEq] at h
      exact Or.inl ⟨h.1.symm, h.2.symm⟩
  · rename_i hdir
    have hdir2 : whereFrom g neighbor ucm = .GO_FORWARD := by
      cases hd : whereFrom g neighbor ucm with
      | GO_FORWARD => rfl
      | GO_BACKWARD => exact absurd hd hdir
    split at h
    · rename_i hu
      split at h
      · rename_i rtb w3 hvis
        simp only [Except.ok.injEq, Prod.mk.injEq] at h
        obtain ⟨rfl, rfl⟩ := h
        refine Or.inr ⟨rtb, ?_, rfl, ?_⟩
        · rw [hdir2]
          exact hvis
        · rw [hdir2]
          simpa [markOf, UnitigExtension.is_undiscovered_bw] using hu
      · cases h
    · simp only [Except.ok.injEq, Prod.mk.injEq] at h
      exact Or.inl ⟨h.1.symm, h.2.symm⟩

/-- An invariant of bundle and walk that every `DFS_case` on a neighbor of the list keeps
while the guard holds is kept by the whole loop. -/
theorem neighborLoop_inv {n : Nat} (g : CCDBG n) (visit : Visit n) (max_paths : Nat)
    (ucm : UnitigColorMap n) (neighbors : List (UnitigColorMap n))
    (I : Traceback → Walk n → Prop)
    (hstep : ∀ neighbor ∈ neighbors, ∀ tb w tb1 w1, I tb w →
      w.graph.recursion_priority_counter < max_paths →
      DFS_case g visit ucm neighbor tb w = .ok (tb1, w1) → I tb1 w1)
    (sorted : List (Nat × Nat)) (tb : Traceback) (w : Walk n) (tb2 : Traceback) (w2 : Walk n)
    (hI : I tb w)
    (h : neighborLoop g visit max_paths ucm neighbors sorted tb w = .ok (tb2, w2)) :
    I tb2 w2 := by
  induction sorted generalizing tb w with
  | nil =>
    simp only [neighborLoop, Except.ok.injEq, Prod.mk.injEq] at h
    obtain ⟨rfl, rfl⟩ := h
    exact hI
  | cons it rest ih =>
    unfold neighborLoop at h
    split at h
    · rename_i hguard
      split at h
      · rename_i neighbor hfind
        split at h
        · rename_i tb1 w1 hcase
          exact ih tb1 w1
            (hstep neighbor (List.mem_of_find?_eq_some hfind) tb w tb1 w1 hI hguard hcase) h
        · cases h
      · exact ih tb w hI h
    · simp only [Except.ok.injEq, Prod.mk.injEq] at h
      obtain ⟨rfl, rfl⟩ := h
      exact hI

/-- The three returns of the body of `DFS_Visit`: after the color prune, at a sink, and
after the loop over the ranked neighbors of the traversal side. -/
theorem DFS_VisitBody_cases {n : Nat} (g : CCDBG n) (max_paths : Nat) (visit : Visit n)
    (u : UnitigColorMap n) (d : Direction) (w : Walk n) (tb : Traceback) (w2 : Walk n)
    (h : DFS_VisitBody g max_paths visit u d w = .ok (tb, w2)) :
    (is_empty_start_vec (update_start_vec g w.start_vec u) = true
      ∧ tb = Traceback.empty ∧ w2 = entered g u d w)
    ∨ (is_empty_start_vec (update_start_vec g w.start_vec u) = false
      ∧ sideOf g d u = [] ∧ markOf d ((entered g u d w).graph.data u.unitig) ≠ .visited
      ∧ (tb, w2) = sinkReturn g u (entered g u d w))
    ∨ (is_empty_start_vec (update_start_vec g w.start_vec u) = false
      ∧ ∃ w3, neighborLoop g visit max_paths u (sideOf g d u)
            (sortNeighbors g (entered g u d w).graph.data (sideOf g d u)
              (update_start_vec g w.start_vec u) []) Traceback.empty (entered g u d w)
            = .ok (tb, w3)
          ∧ w2 = { w3 with sc := w3.sc.del }) := by
  cases d with
  | GO_FORWARD =>
    simp only [DFS_VisitBody, if_true, if_false, reduceCtorEq] at h
    split at h
    · rename_i he
      simp only [Except.ok.injEq, Prod.mk.injEq] at h
      exact Or.inl ⟨he, h.1.symm, h.2.symm⟩
    · rename_i he
      split at h
      · rename_i hs
        simp only [Bool.and_eq_true, List.isEmpty_iff, Bool.not_eq_true_eq_eq_false,
          Bool.not_eq_eq_eq_not, Bool.not_true] at hs
        simp only [Except.ok.injEq] at h
        refine Or.inr (Or.inl ⟨by simpa using he, hs.1, ?_, h.symm⟩)
        have := hs.2
        simpa [markOf, entered, seenSetter, UnitigExtension.is_visited_bw] using this
      · split at h
        · rename_i tb1 w3 hloop
          simp only [Except.ok.injEq, Prod.mk.injEq] at h
          obtain ⟨rfl, rfl⟩ := h
          exact Or.inr (Or.inr ⟨by simpa using he, w3, hloop, rfl⟩)
        · cases h
  | GO_BACKWARD =>
    simp only [DFS_VisitBody, if_true, if_false, reduceCtorEq] at h
    split at h
    · rename_i he
      simp only [Except.ok.injEq, Prod.mk.injEq] at h
      exact Or.inl ⟨he, h.1.symm, h.2.symm⟩
    · rename_i he
      split at h
      · rename_i hs
        simp only [Bool.and_eq_true, List.isEmpty_iff, Bool.not_eq_true_eq_eq_false,
          Bool.not_eq_eq_eq_not, Bool.not_true] at hs
        simp only [Except.ok.injEq] at h
        refine Or.inr (Or.inl ⟨by simpa using he, hs.1, ?_, h.symm⟩)
        have := hs.2
        simpa [markOf, entered, seenSetter, UnitigExtension.is_visited_fw] using this
      · split at h
        · rename_i tb1 w3 hloop
          simp only [Except.ok.injEq, Prod.mk.injEq] at h
          obtain ⟨rfl, rfl⟩ := h
          exact Or.inr (Or.inr ⟨by simpa using he, w3, hloop, rfl⟩)
        · cases h

/-- A property of the calls and returns of a visit that the body passes on from the
recursive calls holds of `DFS_Visit` at every fuel. -/
theorem DFS_Visit_induct {n : Nat} (g : CCDBG n) (max_paths : Nat)
    (P : UnitigColorMap n → Direction → Walk n → Traceback → Walk n → Prop)
    (hbody : ∀ visit : Visit n,
      (∀ u d w tb w2, visit u d w = .ok (tb, w2) → P u d w tb w2) →
      ∀ u d w tb w2, DFS_VisitBody g max_paths visit u d w = .ok (tb, w2) → P u d w tb w2)
    (fuel : Nat) (u : UnitigColorMap n) (d : Direction) (w : Walk n) (tb : Traceback)
    (w2 : Walk n) (h : DFS_Visit g max_paths fuel u d w = .ok (tb, w2)) : P u d w tb w2 := by
  induction fuel generalizing u d w tb w2 with
  | zero => simp [DFS_Visit] at h
  | succ fuel ih => exact hbody _ (fun u d w tb w2 h2 => ih u d w tb w2 h2) u d w tb w2 h

/-! ## Theorems: one sink per start for max_paths up to 255 -/

theorem absorb_length {n : Nat} (g : CCDBG n) (ucm : UnitigColorMap n) (tb rtb : Traceback) :
    (absorb g ucm tb rtb).pathseqs.length ≤ tb.pathseqs.length + rtb.pathseqs.length := by
  unfold absorb
  split
  · simp [Traceback.join]
  · omega

theorem DFS_Visit_oneSink {n : Nat} (g : CCDBG n) (max_paths : Nat) (hmp : max_paths ≤ 255)
    (fuel : Nat) (u : UnitigColorMap n) (d : Direction) (w : Walk n) (tb : Traceback)
    (w2 : Walk n) (h : DFS_Visit g max_paths fuel u d w = .ok (tb, w2)) :
    w.graph.recursion_priority_counter + 1 = max_paths → OneSink max_paths tb w2 := by
  refine DFS_Visit_induct g max_paths
    (fun _ _ w tb w2 => w.graph.recursion_priority_counter + 1 = max_paths →
      OneSink max_paths tb w2) ?_ fuel u d w tb w2 h
  intro visit hv u d w tb w2 h hc
  rcases DFS_VisitBody_cases g max_paths visit u d w tb w2 h with
    ⟨_, rfl, rfl⟩ | ⟨_, _, _, hsink⟩ | ⟨_, w3, hloop, rfl⟩
  · exact Or.inl ⟨hc, rfl⟩
  · simp only [sinkReturn, Prod.mk.injEq] at hsink
    obtain ⟨rfl, rfl⟩ := hsink
    refine Or.inr ⟨?_, Nat.le_refl _⟩
    show ((entered g u d w).graph.recursion_priority_counter + 1) % 256 = max_paths
    have : (entered g u d w).graph.recursion_priority_counter
        = w.graph.recursion_priority_counter := rfl
    rw [this]
    omega
  · have hI := neighborLoop_inv g visit max_paths u (sideOf g d u) (OneSink max_paths)
      (fun neighbor _ tb w tb1 w1 hI hguard hcase => by
        rcases hI with ⟨h1, h2⟩ | ⟨h1, _⟩
        · rcases DFS_case_cases g visit u neighbor tb w tb1 w1 hcase with
            ⟨rfl, rfl⟩ | ⟨rtb, hvis, rfl, _⟩
          · exact Or.inl ⟨h1, h2⟩
          · have hlen := absorb_length g u tb rtb
            rw [h2] at hlen
            rcases hv _ _ _ _ _ hvis h1 with ⟨h3, h4⟩ | ⟨h3, h4⟩
            · refine Or.inl ⟨h3, ?_⟩
              rw [h4] at hlen
              exact List.eq_nil_of_length_eq_zero (Nat.le_zero.1 hlen)
            · refine Or.inr ⟨h3, ?_⟩
              simp only [List.length_nil, Nat.zero_add] at hlen
              exact Nat.le_trans hlen h4
        · omega)
      _ Traceback.empty (entered g u d w) tb w3 (Or.inl ⟨hc, rfl⟩) hloop
    exact hI

theorem traverseFrom_oneSink {n : Nat} (g : CCDBG n) (max_paths : Nat) (hmp : max_paths ≤ 255)
    (fuel : Nat) (ucm : UnitigColorMap n) (sc : Setcover) (st1 : ExtendedCCDBG n)
    (hc : st1.recursion_priority_counter + 1 = max_paths)
    (neighbors : List (UnitigColorMap n)) (start_vec : List Bool)
    (tb : Traceback) (st2 : ExtendedCCDBG n) (sc2 : Setcover)
    (h : traverseFrom g (DFS_Visit g max_paths fuel) max_paths ucm sc st1 neighbors start_vec
      = .ok (tb, st2, sc2)) :
    tb.pathseqs.length ≤ 1
      ∧ (tb.pathseqs ≠ [] → st2.recursion_priority_counter = max_paths) := by
  unfold traverseFrom at h
  split at h
  · rename_i tb1 w1 hloop
    have hI := neighborLoop_inv g (DFS_Visit g max_paths fuel) max_paths ucm neighbors
      (OneSink max_paths)
      (fun neighbor _ tb w tb1 w1 hI hguard hcase => by
        rcases hI with ⟨h1, h2⟩ | ⟨h1, _⟩
        · rcases DFS_case_cases g _ ucm neighbor tb w tb1 w1 hcase with
            ⟨rfl, rfl⟩ | ⟨rtb, hvis, rfl, _⟩
          · exact Or.inl ⟨h1, h2⟩
          · have hlen := absorb_length g ucm tb rtb
            rw [h2] at hlen
            rcases DFS_Visit_oneSink g max_paths hmp fuel _ _ _ _ _ hvis h1 with
              ⟨h3, h4⟩ | ⟨h3, h4⟩
            · refine Or.inl ⟨h3, ?_⟩
              rw [h4] at hlen
              exact List.eq_nil_of_length_eq_zero (Nat.le_zero.1 hlen)
            · refine Or.inr ⟨h3, ?_⟩
              simp only [List.length_nil, Nat.zero_add] at hlen
              exact Nat.le_trans hlen h4
        · omega)
      _ Traceback.empty { start_vec := start_vec, graph := st1, sc := sc } tb1 w1
      (Or.inl ⟨hc, rfl⟩) hloop
    simp only [Except.ok.injEq] at h
    have h1 : tb = tb1 := by
      have := congrArg Prod.fst h
      rw [(finishInit_ID ucm tb1 w1.graph w1.sc).1] at this
      exact this.symm
    have h2 : st2.recursion_priority_counter = w1.graph.recursion_priority_counter := by
      have := congrArg (fun r => r.2.1.recursion_priority_counter) h
      simp only at this
      rw [← this]
      unfold finishInit
      split <;> rfl
    rw [h1, h2]
    rcases hI with ⟨_, h4⟩ | ⟨h3, h4⟩
    · rw [h4]
      exact ⟨Nat.zero_le _, fun hne => absurd rfl hne⟩
    · exact ⟨h4, fun _ => h3⟩
  · cases h

theorem initialCounter_succ (max_paths : Nat) (h1 : 1 ≤ max_paths) (h2 : max_paths ≤ 255) :
    initialCounter max_paths + 1 = max_paths := by
  unfold initialCounter
  omega

/-- C22: for every graph, every start, every state of marks and set cover and every
`max_paths` from 1 to 255, `DFS_Init` returns a bundle with at most one path; when the
bundle has a path, the static counter stands at `max_paths`, so that no guard
`counter < max_paths` holds any more. -/
theorem C22_at_most_one_path {n : Nat} (g : CCDBG n) (ucm : UnitigColorMap n) (sc : Setcover)
    (max_paths : Nat) (st : ExtendedCCDBG n) (h1 : 1 ≤ max_paths) (h2 : max_paths ≤ 255) :
    ∃ tb st2 sc2, DFS_Init g ucm sc max_paths st = .ok (tb, st2, sc2)
      ∧ tb.pathseqs.length ≤ 1
      ∧ (((g.getPredecessors ucm).isEmpty && (g.getSuccessors ucm).isEmpty) = false →
          tb.pathseqs ≠ [] → st2.recursion_priority_counter = max_paths) := by
  obtain ⟨tb, st2, sc2, h⟩ := DFS_Init_returns g ucm sc max_paths st
  refine ⟨tb, st2, sc2, h, ?_⟩
  unfold DFS_Init at h
  rcases DFS_InitFuel_cases g (2 * n + 1) ucm sc max_paths st with
    h3 | ⟨hp, hs, h3⟩ | ⟨_, _, h3⟩ | ⟨_, _, h3⟩
  · rw [h3] at h
    simp only [Except.ok.injEq, Prod.mk.injEq] at h
    rw [← h.1]
    exact ⟨Nat.zero_le _, fun _ hne => absurd rfl hne⟩
  · rw [h3] at h
    simp only [Except.ok.injEq, Prod.mk.injEq] at h
    rw [← h.1, hp, hs]
    exact ⟨Nat.le_refl _, fun hf => by simp at hf⟩
  · rw [h3] at h
    have := traverseFrom_oneSink g max_paths h2 _ ucm sc _
      (initialCounter_succ max_paths h1 h2) _ _ tb st2 sc2 h
    exact ⟨this.1, fun _ => this.2⟩
  · rw [h3] at h
    have := traverseFrom_oneSink g max_paths h2 _ ucm sc _
      (initialCounter_succ max_paths h1 h2) _ _ tb st2 sc2 h
    exact ⟨this.1, fun _ => this.2⟩

/-- Witness of C22 on the bush, whose start has 272 sinks within reach: with
`max_paths = 255` the bundle has at most one path. -/
theorem C22_at_most_one_path_witness :
    ∃ tb st2 sc2, DFS_Init bush ⟨0, true⟩ Setcover.init 255 (numbered 291)
        = .ok (tb, st2, sc2)
      ∧ tb.pathseqs.length ≤ 1
      ∧ (((bush.getPredecessors ⟨0, true⟩).isEmpty
            && (bush.getSuccessors ⟨0, true⟩).isEmpty) = false →
          tb.pathseqs ≠ [] → st2.recursion_priority_counter = 255) :=
  C22_at_most_one_path bush ⟨0, true⟩ Setcover.init 255 (numbered 291) (by decide)
    (by decide)

/-! ## Theorems: a color vector without a bit stays so -/

theorem update_empty {n : Nat} (g : CCDBG n) (sv : List Bool) (u : UnitigColorMap n)
    (h : is_empty_start_vec sv = true) :
    is_empty_start_vec (update_start_vec g sv u) = true := by
  cases he : is_empty_start_vec (update_start_vec g sv u) with
  | true => rfl
  | false =>
    obtain ⟨c, hc⟩ := exists_bit_of_not_empty _ he
    have h2 := ((update_start_vec_getD g sv u c).1 hc).2.1
    have h3 := not_empty_of_bit sv c h2
    rw [h] at h3
    cases h3

theorem DFS_Visit_empty {n : Nat} (g : CCDBG n) (max_paths fuel : Nat) (u : UnitigColorMap n)
    (d : Direction) (w : Walk n)
    (h : is_empty_start_vec (update_start_vec g w.start_vec u) = true) :
    DFS_Visit g max_paths (fuel + 1) u d w = .ok (Traceback.empty, entered g u d w) := by
  cases d with
  | GO_FORWARD =>
    simp only [DFS_Visit, DFS_VisitBody, if_true, if_false, reduceCtorEq, h]
    rfl
  | GO_BACKWARD =>
    simp only [DFS_Visit, DFS_VisitBody, if_true, if_false, reduceCtorEq, h]
    rfl

theorem DFS_case_empty {n : Nat} (g : CCDBG n) (visit : Visit n)
    (hv : ∀ u d w, is_empty_start_vec w.start_vec = true →
      ∃ w2, visit u d w = .ok (Traceback.empty, w2) ∧ is_empty_start_vec w2.start_vec = true)
    (ucm neighbor : UnitigColorMap n) (tb : Traceback) (w : Walk n)
    (h : is_empty_start_vec w.start_vec = true) :
    ∃ w2, DFS_case g visit ucm neighbor tb w = .ok (tb, w2)
      ∧ is_empty_start_vec w2.start_vec = true := by
  unfold DFS_case
  split
  · split
    · obtain ⟨w2, h1, h2⟩ := hv neighbor .GO_BACKWARD
        { w with sc := w.sc.add (w.graph.data ucm.unitig).ID } h
      rw [h1]
      exact ⟨w2, rfl, h2⟩
    · exact ⟨w, rfl, h⟩
  · split
    · obtain ⟨w2, h1, h2⟩ := hv neighbor .GO_FORWARD
        { w with sc := w.sc.add (w.graph.data ucm.unitig).ID } h
      rw [h1]
      exact ⟨w2, rfl, h2⟩
    · exact ⟨w, rfl, h⟩

theorem neighborLoop_empty {n : Nat} (g : CCDBG n) (visit : Visit n)
    (hv : ∀ u d w, is_empty_start_vec w.start_vec = true →
      ∃ w2, visit u d w = .ok (Traceback.empty, w2) ∧ is_empty_start_vec w2.start_vec = true)
    (max_paths : Nat) (ucm : UnitigColorMap n) (neighbors : List (UnitigColorMap n))
    (sorted : List (Nat × Nat)) (tb : Traceback) (w : Walk n)
    (h : is_empty_start_vec w.start_vec = true) :
    ∃ w2, neighborLoop g visit max_paths ucm neighbors sorted tb w = .ok (tb, w2)
      ∧ is_empty_start_vec w2.start_vec = true := by
  induction sorted generalizing w with
  | nil => exact ⟨w, rfl, h⟩
  | cons it rest ih =>
    unfold neighborLoop
    split
    · split
      · rename_i neighbor _
        obtain ⟨w1, h1, h2⟩ := DFS_case_empty g visit hv ucm neighbor tb w h
        rw [h1]
        exact ih w1 h2
      · exact ih w h
    · exact ⟨w, rfl, h⟩

/-- C23: `start_vec` is one vector threaded through the whole call and never restored.
A `DFS_Visit` whose updated vector has no bit set returns the empty unsuccessful bundle
and leaves the vector without a bit; and from every state `w` whose vector has no bit
set, every `DFS_Visit` returns the empty unsuccessful bundle, every `DFS_case` and every
loop over ranked neighbors return their bundle as it was (no sink is reached), and each
of them leaves the vector without a bit again, so that whatever runs later in the call
starts from such a state too. -/
theorem C23_empty_start_vec_persists {n : Nat} (g : CCDBG n) (max_paths fuel0 : Nat)
    (u0 : UnitigColorMap n) (d0 : Direction) (w0 : Walk n)
    (hprune : is_empty_start_vec (update_start_vec g w0.start_vec u0) = true) :
    (∃ w1, DFS_Visit g max_paths (fuel0 + 1) u0 d0 w0 = .ok (Traceback.empty, w1)
      ∧ is_empty_start_vec w1.start_vec = true)
    ∧ ∀ w : Walk n, is_empty_start_vec w.start_vec = true →
        (∀ fuel u d, ∃ w2, DFS_Visit g max_paths (fuel + 1) u d w = .ok (Traceback.empty, w2)
          ∧ is_empty_start_vec w2.start_vec = true)
        ∧ (∀ fuel ucm neighbor tb,
            ∃ w2, DFS_case g (DFS_Visit g max_paths (fuel + 1)) ucm neighbor tb w = .ok (tb, w2)
              ∧ is_empty_start_vec w2.start_vec = true)
        ∧ (∀ fuel ucm neighbors sorted tb,
            ∃ w2, neighborLoop g (DFS_Visit g max_paths (fuel + 1)) max_paths ucm neighbors
                sorted tb w = .ok (tb, w2)
              ∧ is_empty_start_vec w2.start_vec = true) := by
  have hvis : ∀ fuel (u : UnitigColorMap n) (d : Direction) (w : Walk n),
      is_empty_start_vec w.start_vec = true →
      ∃ w2, DFS_Visit g max_paths (fuel + 1) u d w = .ok (Traceback.empty, w2)
        ∧ is_empty_start_vec w2.start_vec = true := by
    intro fuel u d w hw
    have h := update_empty g w.start_vec u hw
    exact ⟨_, DFS_Visit_empty g max_paths fuel u d w h, h⟩
  refine ⟨⟨_, DFS_Visit_empty g max_paths fuel0 u0 d0 w0 hprune, hprune⟩, ?_⟩
  intro w hw
  refine ⟨fun fuel u d => hvis fuel u d w hw, ?_, ?_⟩
  · intro fuel ucm neighbor tb
    exact DFS_case_empty g _ (hvis fuel) ucm neighbor tb w hw
  · intro fuel ucm neighbors sorted tb
    exact neighborLoop_empty g _ (hvis fuel) max_paths ucm neighbors sorted tb w hw

/-- Witness of C23 on the chain of scenario 4, `u1 -> u2 -> u3` with colors {0,1}, {0}
and {1}: the visit of `u3`, entered with only color 0 left, is pruned. -/
theorem C23_empty_start_vec_persists_witness :
    is_empty_start_vec (update_start_vec (pruneGraph [0, 1, 2])
        ({ start_vec := [true, false], graph := numbered 3, sc := Setcover.init } :
          Walk 3).start_vec ⟨2, true⟩) = true
    ∧ (∃ w1, DFS_Visit (pruneGraph [0, 1, 2]) 1 (0 + 1) ⟨2, true⟩ .GO_BACKWARD
          { start_vec := [true, false], graph := numbered 3, sc := Setcover.init }
          = .ok (Traceback.empty, w1)
        ∧ is_empty_start_vec w1.start_vec = true)
    ∧ ∀ w : Walk 3, is_empty_start_vec w.start_vec = true →
        (∀ fuel u d, ∃ w2, DFS_Visit (pruneGraph [0, 1, 2]) 1 (fuel + 1) u d w
            = .ok (Traceback.empty, w2)
          ∧ is_empty_start_vec w2.start_vec = true)
        ∧ (∀ fuel ucm neighbor tb,
            ∃ w2, DFS_case (pruneGraph [0, 1, 2]) (DFS_Visit (pruneGraph [0, 1, 2]) 1 (fuel + 1))
                ucm neighbor tb w = .ok (tb, w2)
              ∧ is_empty_start_vec w2.start_vec = true)
        ∧ (∀ fuel ucm neighbors sorted tb,
            ∃ w2, neighborLoop (pruneGraph [0, 1, 2])
                (DFS_Visit (pruneGraph [0, 1, 2]) 1 (fuel + 1)) 1 ucm neighbors
                sorted tb w = .ok (tb, w2)
              ∧ is_empty_start_vec w2.start_vec = true) :=
  ⟨by decide,
   C23_empty_start_vec_persists (pruneGraph [0, 1, 2]) 1 0 ⟨2, true⟩ .GO_BACKWARD
     { start_vec := [true, false], graph := numbered 3, sc := Setcover.init } (by decide)⟩

/-! ## Theorems: the marks only rise within a call -/

theorem marksLe_refl {n : Nat} (a : ExtendedCCDBG n) : MarksLe a a :=
  fun _ => ⟨Nat.le_refl _, Nat.le_refl _⟩

theorem marksLe_trans {n : Nat} {a b c : ExtendedCCDBG n} (h1 : MarksLe a b)
    (h2 : MarksLe b c) : MarksLe a c :=
  fun i => ⟨Nat.le_trans (h1 i).1 (h2 i).1, Nat.le_trans (h1 i).2 (h2 i).2⟩

theorem noNewVisited_refl {n : Nat} (a : ExtendedCCDBG n) : NoNewVisited a a :=
  fun _ => ⟨fun h => h, fun h => h⟩

theorem noNewVisited_trans {n : Nat} {a b c : ExtendedCCDBG n} (h1 : NoNewVisited a b)
    (h2 : NoNewVisited b c) : NoNewVisited a c :=
  fun i => ⟨fun h => (h1 i).1 ((h2 i).1 h), fun h => (h1 i).2 ((h2 i).2 h)⟩

theorem marksLe_entered {n : Nat} (g : CCDBG n) (u : UnitigColorMap n) (d : Direction)
    (w : Walk n) (h : markOf d (w.graph.data u.unitig) ≠ .visited) :
    MarksLe w.graph (entered g u d w).graph := by
  intro i
  cases d with
  | GO_FORWARD =>
    simp only [markOf, reduceCtorEq, if_false] at h
    simp only [entered, seenSetter, reduceCtorEq, if_false, ExtendedCCDBG.modify,
      UnitigExtension.set_seen_bw]
    by_cases hi : i = u.unitig
    · subst hi
      simp only [if_true]
      refine ⟨Nat.le_refl _, ?_⟩
      cases hm : (w.graph.data u.unitig).dfs_bw with
      | undiscovered => decide
      | seen => decide
      | visited => exact absurd hm h
    · simp only [hi, if_false]
      exact ⟨Nat.le_refl _, Nat.le_refl _⟩
  | GO_BACKWARD =>
    simp only [markOf, if_true] at h
    simp only [entered, seenSetter, if_true, ExtendedCCDBG.modify,
      UnitigExtension.set_seen_fw]
    by_cases hi : i = u.unitig
    · subst hi
      simp only [if_true]
      refine ⟨?_, Nat.le_refl _⟩
      cases hm : (w.graph.data u.unitig).dfs_fw with
      | undiscovered => decide
      | seen => decide
      | visited => exact absurd hm h
    · simp only [hi, if_false]
      exact ⟨Nat.le_refl _, Nat.le_refl _⟩

theorem noNewVisited_entered {n : Nat} (g : CCDBG n) (u : UnitigColorMap n) (d : Direction)
    (w : Walk n) : NoNewVisited w.graph (entered g u d w).graph := by
  intro i
  cases d with
  | GO_FORWARD =>
    simp only [entered, seenSetter, reduceCtorEq, if_false, ExtendedCCDBG.modify,
      UnitigExtension.set_seen_bw]
    by_cases hi : i = u.unitig
    · subst hi
      simp only [if_true]
      exact ⟨fun h => h, fun h => by cases h⟩
    · simp only [hi, if_false]
      exact ⟨fun h => h, fun h => h⟩
  | GO_BACKWARD =>
    simp only [entered, seenSetter, if_true, ExtendedCCDBG.modify,
      UnitigExtension.set_seen_fw]
    by_cases hi : i = u.unitig
    · subst hi
      simp only [if_true]
      exact ⟨fun h => (by cases h), fun h => h⟩
    · simp only [hi, if_false]
      exact ⟨fun h => h, fun h => h⟩

theorem DFS_Visit_marks {n : Nat} (g : CCDBG n) (max_paths : Nat)
    (fuel : Nat) (u : UnitigColorMap n) (d : Direction) (w : Walk n) (tb : Traceback)
    (w2 : Walk n) (h : DFS_Visit g max_paths fuel u d w = .ok (tb, w2)) :
    (markOf d (w.graph.data u.unitig) ≠ .visited → MarksLe w.graph w2.graph)
      ∧ NoNewVisited w.graph w2.graph := by
  refine DFS_Visit_induct g max_paths
    (fun u d w _ w2 => (markOf d (w.graph.data u.unitig) ≠ .visited →
        MarksLe w.graph w2.graph) ∧ NoNewVisited w.graph w2.graph) ?_ fuel u d w tb w2 h
  intro visit hv u d w tb w2 h
  rcases DFS_VisitBody_cases g max_paths visit u d w tb w2 h with
    ⟨_, _, rfl⟩ | ⟨_, _, _, hsink⟩ | ⟨_, w3, hloop, rfl⟩
  · exact ⟨marksLe_entered g u d w, noNewVisited_entered g u d w⟩
  · simp only [sinkReturn, Prod.mk.injEq] at hsink
    obtain ⟨_, rfl⟩ := hsink
    exact ⟨marksLe_entered g u d w, noNewVisited_entered g u d w⟩
  · have hI := neighborLoop_inv g visit max_paths u (sideOf g d u)
      (fun _ w1 => MarksLe (entered g u d w).graph w1.graph
        ∧ NoNewVisited (entered g u d w).graph w1.graph)
      (fun neighbor _ tb w tb1 w1 hI _ hcase => by
        rcases DFS_case_cases g visit u neighbor tb w tb1 w1 hcase with
          ⟨_, rfl⟩ | ⟨rtb, hvis, _, hund⟩
        · exact hI
        · obtain ⟨h1, h2⟩ := hv _ _ _ _ _ hvis
          exact ⟨marksLe_trans hI.1 (h1 (by
              show markOf _ (w.graph.data neighbor.unitig) ≠ _
              rw [hund]
              exact Mark.noConfusion)),
            noNewVisited_trans hI.2 h2⟩)
      _ Traceback.empty (entered g u d w) tb w3 ⟨marksLe_refl _, noNewVisited_refl _⟩ hloop
    exact ⟨fun hm => marksLe_trans (marksLe_entered g u d w hm) hI.1,
      noNewVisited_trans (noNewVisited_entered g u d w) hI.2⟩

theorem DFS_case_marks {n : Nat} (g : CCDBG n) (max_paths fuel : Nat)
    (ucm neighbor : UnitigColorMap n) (tb : Traceback) (w : Walk n) (tb2 : Traceback)
    (w2 : Walk n)
    (h : DFS_case g (DFS_Visit g max_paths fuel) ucm neighbor tb w = .ok (tb2, w2)) :
    MarksLe w.graph w2.graph ∧ NoNewVisited w.graph w2.graph := by
  rcases DFS_case_cases g _ ucm neighbor tb w tb2 w2 h with ⟨_, rfl⟩ | ⟨rtb, hvis, _, hund⟩
  · exact ⟨marksLe_refl _, noNewVisited_refl _⟩
  · obtain ⟨h1, h2⟩ := DFS_Visit_marks g max_paths fuel _ _ _ _ _ hvis
    exact ⟨h1 (by
      show markOf _ (w.graph.data neighbor.unitig) ≠ _
      rw [hund]
      exact Mark.noConfusion), h2⟩

theorem neighborLoop_marks {n : Nat} (g : CCDBG n) (max_paths fuel : Nat)
    (ucm : UnitigColorMap n) (neighbors : List (UnitigColorMap n))
    (sorted : List (Nat × Nat)) (tb : Traceback) (w : Walk n) (tb2 : Traceback) (w2 : Walk n)
    (h : neighborLoop g (DFS_Visit g max_paths fuel) max_paths ucm neighbors sorted tb w
      = .ok (tb2, w2)) :
    MarksLe w.graph w2.graph ∧ NoNewVisited w.graph w2.graph :=
  neighborLoop_inv g _ max_paths ucm neighbors
    (fun _ w1 => MarksLe w.graph w1.graph ∧ NoNewVisited w.graph w1.graph)
    (fun neighbor _ tb0 w0 tb1 w1 hI _ hcase =>
      have h1 := DFS_case_marks g max_paths fuel ucm neighbor tb0 w0 tb1 w1 hcase
      ⟨marksLe_trans hI.1 h1.1, noNewVisited_trans hI.2 h1.2⟩)
    sorted tb w tb2 w2 ⟨marksLe_refl _, noNewVisited_refl _⟩ h

theorem rank_le_visited (m : Mark) : m.rank ≤ Mark.visited.rank := by
  cases m <;> decide

theorem finishInit_marks {n : Nat} (ucm : UnitigColorMap n) (tb : Traceback)
    (graph : ExtendedCCDBG n) (sc : Setcover) :
    MarksLe graph (finishInit ucm tb graph sc).2.1
    ∧ (∀ i, (((finishInit ucm tb graph sc).2.1.data i).dfs_fw = .visited →
          (graph.data i).dfs_fw = .visited
            ∨ (i = ucm.unitig ∧ tb.recursive_return_status = true))
        ∧ (((finishInit ucm tb graph sc).2.1.data i).dfs_bw = .visited →
          (graph.data i).dfs_bw = .visited
            ∨ (i = ucm.unitig ∧ tb.recursive_return_status = true)))
    ∧ (tb.recursive_return_status = true →
        ((finishInit ucm tb graph sc).2.1.data ucm.unitig).dfs_fw = .visited
          ∧ ((finishInit ucm tb graph sc).2.1.data ucm.unitig).dfs_bw = .visited) := by
  unfold finishInit
  split
  · rename_i hs
    refine ⟨fun i => ?_, fun i => ?_, fun _ => ?_⟩
    · simp only [ExtendedCCDBG.modify, UnitigExtension.set_visited_fw,
        UnitigExtension.set_visited_bw]
      by_cases hi : i = ucm.unitig
      · simp only [hi, if_true]
        exact ⟨rank_le_visited _, rank_le_visited _⟩
      · simp only [hi, if_false]
        exact ⟨Nat.le_refl _, Nat.le_refl _⟩
    · simp only [ExtendedCCDBG.modify, UnitigExtension.set_visited_fw,
        UnitigExtension.set_visited_bw]
      by_cases hi : i = ucm.unitig
      · exact ⟨fun _ => Or.inr ⟨hi, hs⟩, fun _ => Or.inr ⟨hi, hs⟩⟩
      · simp only [hi, if_false]
        exact ⟨fun h => Or.inl h, fun h => Or.inl h⟩
    · simp [ExtendedCCDBG.modify, UnitigExtension.set_visited_fw,
        UnitigExtension.set_visited_bw]
  · rename_i hs
    exact ⟨marksLe_refl _, fun i => ⟨fun h => Or.inl h, fun h => Or.inl h⟩,
      fun h => absurd h hs⟩

theorem traverseFrom_marks {n : Nat} (g : CCDBG n) (max_paths fuel : Nat)
    (ucm : UnitigColorMap n) (sc : Setcover) (st1 : ExtendedCCDBG n)
    (neighbors : List (UnitigColorMap n)) (start_vec : List Bool)
    (tb : Traceback) (st2 : ExtendedCCDBG n) (sc2 : Setcover)
    (h : traverseFrom g (DFS_Visit g max_paths fuel) max_paths ucm sc st1 neighbors start_vec
      = .ok (tb, st2, sc2)) :
    MarksLe st1 st2
    ∧ (∀ i, ((st2.data i).dfs_fw = .visited →
          (st1.data i).dfs_fw = .visited ∨ (i = ucm.unitig ∧ tb.recursive_return_status = true))
        ∧ ((st2.data i).dfs_bw = .visited →
          (st1.data i).dfs_bw = .visited
            ∨ (i = ucm.unitig ∧ tb.recursive_return_status = true)))
    ∧ (tb.recursive_return_status = true →
        (st2.data ucm.unitig).dfs_fw = .visited ∧ (st2.data ucm.unitig).dfs_bw = .visited) := by
  unfold traverseFrom at h
  split at h
  · rename_i tb1 w1 hloop
    obtain ⟨a1, a2⟩ := neighborLoop_marks g max_paths fuel ucm neighbors _ _ _ _ _ hloop
    obtain ⟨b1, b2, b3⟩ := finishInit_marks ucm tb1 w1.graph w1.sc
    have b0 := (finishInit_ID ucm tb1 w1.graph w1.sc).1
    simp only [Except.ok.injEq] at h
    rw [h] at b0 b1 b2 b3
    simp only at b0 b1 b2 b3
    subst b0
    refine ⟨marksLe_trans a1 b1, fun i => ⟨fun hv => ?_, fun hv => ?_⟩, b3⟩
    · rcases (b2 i).1 hv with h1 | h1
      · exact Or.inl ((a2 i).1 h1)
      · exact Or.inr h1
    · rcases (b2 i).2 hv with h1 | h1
      · exact Or.inl ((a2 i).2 h1)
      · exact Or.inr h1
  · cases h

theorem modify_seen_fw_marks {n : Nat} (st : ExtendedCCDBG n) (c : Nat) (u : Fin n)
    (h : (st.data u).dfs_fw ≠ .visited) :
    MarksLe st (ExtendedCCDBG.modify { st with recursion_priority_counter := c } u
        UnitigExtension.set_seen_fw)
      ∧ NoNewVisited st (ExtendedCCDBG.modify { st with recursion_priority_counter := c } u
        UnitigExtension.set_seen_fw) := by
  constructor
  · intro i
    simp only [ExtendedCCDBG.modify, UnitigExtension.set_seen_fw]
    by_cases hi : i = u
    · subst hi
      simp only [if_true]
      refine ⟨?_, Nat.le_refl _⟩
      cases hm : (st.data i).dfs_fw with
      | undiscovered => decide
      | seen => decide
      | visited => exact absurd hm h
    · simp only [hi, if_false]
      exact ⟨Nat.le_refl _, Nat.le_refl _⟩
  · intro i
    simp only [ExtendedCCDBG.modify, UnitigExtension.set_seen_fw]
    by_cases hi : i = u
    · subst hi
      simp only [if_true]
      exact ⟨fun h => (by cases h), fun h => h⟩
    · simp only [hi, if_false]
      exact ⟨fun h => h, fun h => h⟩

theorem modify_seen_bw_marks {n : Nat} (st : ExtendedCCDBG n) (c : Nat) (u : Fin n)
    (h : (st.data u).dfs_bw ≠ .visited) :
    MarksLe st (ExtendedCCDBG.modify { st with recursion_priority_counter := c } u
        UnitigExtension.set_seen_bw)
      ∧ NoNewVisited st (ExtendedCCDBG.modify { st with recursion_priority_counter := c } u
        UnitigExtension.set_seen_bw) := by
  constructor
  · intro i
    simp only [ExtendedCCDBG.modify, UnitigExtension.set_seen_bw]
    by_cases hi : i = u
    · subst hi
      simp only [if_true]
      refine ⟨Nat.le_refl _, ?_⟩
      cases hm : (st.data i).dfs_bw with
      | undiscovered => decide
      | seen => decide
      | visited => exact absurd hm h
    · simp only [hi, if_false]
      exact ⟨Nat.le_refl _, Nat.le_refl _⟩
  · intro i
    simp only [ExtendedCCDBG.modify, UnitigExtension.set_seen_bw]
    by_cases hi : i = u
    · subst hi
      simp only [if_true]
      exact ⟨fun h => h, fun h => (by cases h)⟩
    · simp only [hi, if_false]
      exact ⟨fun h => h, fun h => h⟩

/-- What `DFS_Init` does to the marks: provided the start is not visited in the direction
of the traversal, no mark is lowered; a mark that is visited afterwards was visited before
or belongs to the start of a successful traversal; and after a successful traversal both
marks of the start are visited. -/
theorem DFS_Init_marks {n : Nat} (g : CCDBG n) (ucm : UnitigColorMap n) (sc : Setcover)
    (max_paths : Nat) (st : ExtendedCCDBG n) (tb : Traceback) (st2 : ExtendedCCDBG n)
    (sc2 : Setcover) (h : DFS_Init g ucm sc max_paths st = .ok (tb, st2, sc2)) :
    (((st.data ucm.unitig).dfs_bw = .visited → (st.data ucm.unitig).dfs_fw = .visited) →
      MarksLe st st2)
    ∧ (∀ i, ((st2.data i).dfs_fw = .visited →
          (st.data i).dfs_fw = .visited
            ∨ (i = ucm.unitig ∧ tb.recursive_return_status = true
              ∧ ((g.getPredecessors ucm).isEmpty && (g.getSuccessors ucm).isEmpty) = false))
        ∧ ((st2.data i).dfs_bw = .visited →
          (st.data i).dfs_bw = .visited
            ∨ (i = ucm.unitig ∧ tb.recursive_return_status = true
              ∧ ((g.getPredecessors ucm).isEmpty && (g.getSuccessors ucm).isEmpty) = false)))
    ∧ (((g.getPredecessors ucm).isEmpty && (g.getSuccessors ucm).isEmpty) = false →
        (st.data ucm.unitig).dfs_fw ≠ .visited →
        tb.recursive_return_status = true →
        (st2.data ucm.unitig).dfs_fw = .visited ∧ (st2.data ucm.unitig).dfs_bw = .visited) := by
  unfold DFS_Init at h
  by_cases hvis : (st.data ucm.unitig).dfs_fw = .visited
  · have h0 : DFS_InitFuel g (2 * n + 1) ucm sc max_paths st
        = .ok (Traceback.empty,
            { st with recursion_priority_counter := initialCounter max_paths }, sc) := by
      unfold DFS_InitFuel
      simp [UnitigExtension.is_visited_fw, hvis]
    rw [h0] at h
    simp only [Except.ok.injEq, Prod.mk.injEq] at h
    obtain ⟨rfl, rfl, _⟩ := h
    exact ⟨fun _ => marksLe_refl _, fun i => ⟨fun h => Or.inl h, fun h => Or.inl h⟩,
      fun _ hn _ => absurd hvis hn⟩
  · rcases DFS_InitFuel_cases g (2 * n + 1) ucm sc max_paths st with
      h3 | ⟨hp, hs, h3⟩ | ⟨hp, hs, h3⟩ | ⟨hp, hs, h3⟩
    · rw [h3] at h
      simp only [Except.ok.injEq, Prod.mk.injEq] at h
      obtain ⟨rfl, rfl, _⟩ := h
      exact ⟨fun _ => marksLe_refl _, fun i => ⟨fun h => Or.inl h, fun h => Or.inl h⟩,
        fun _ _ hs => by simp [Traceback.empty] at hs⟩
    · rw [h3] at h
      simp only [Except.ok.injEq, Prod.mk.injEq] at h
      obtain ⟨rfl, rfl, _⟩ := h
      exact ⟨fun _ => marksLe_refl _, fun i => ⟨fun h => Or.inl h, fun h => Or.inl h⟩,
        fun hne _ _ => by simp [hp, hs] at hne⟩
    · rw [h3] at h
      obtain ⟨a1, a2, a3⟩ := traverseFrom_marks g max_paths _ ucm sc _ _ _ tb st2 sc2 h
      obtain ⟨b1, b2⟩ := modify_seen_fw_marks st (initialCounter max_paths) ucm.unitig hvis
      have hne : ((g.getPredecessors ucm).isEmpty && (g.getSuccessors ucm).isEmpty) = false := by
        cases hl : g.getSuccessors ucm with
        | nil => exact absurd hl hs
        | cons _ _ => simp
      refine ⟨fun _ => marksLe_trans b1 a1, fun i => ⟨fun hv => ?_, fun hv => ?_⟩,
        fun _ _ hst => a3 hst⟩
      · rcases (a2 i).1 hv with h1 | ⟨h1, h2⟩
        · exact Or.inl ((b2 i).1 h1)
        · exact Or.inr ⟨h1, h2, hne⟩
      · rcases (a2 i).2 hv with h1 | ⟨h1, h2⟩
        · exact Or.inl ((b2 i).2 h1)
        · exact Or.inr ⟨h1, h2, hne⟩
    · rw [h3] at h
      obtain ⟨a1, a2, a3⟩ := traverseFrom_marks g max_paths _ ucm sc _ _ _ tb st2 sc2 h
      have hne : ((g.getPredecessors ucm).isEmpty && (g.getSuccessors ucm).isEmpty) = false := by
        cases hl : g.getPredecessors ucm with
        | nil => exact absurd hl hp
        | cons _ _ => simp
      have b2 : NoNewVisited st (ExtendedCCDBG.modify
          { st with recursion_priority_counter := initialCounter max_paths } ucm.unitig
          UnitigExtension.set_seen_bw) := by
        intro i
        simp only [ExtendedCCDBG.modify, UnitigExtension.set_seen_bw]
        by_cases hi : i = ucm.unitig
        · subst hi
          simp only [if_true]
          exact ⟨fun h => h, fun h => (by cases h)⟩
        · simp only [hi, if_false]
          exact ⟨fun h => h, fun h => h⟩
      refine ⟨fun hpair => marksLe_trans
          (modify_seen_bw_marks st (initialCounter max_paths) ucm.unitig
            (fun hb => hvis (hpair hb))).1 a1,
        fun i => ⟨fun hv => ?_, fun hv => ?_⟩, fun _ _ hst => a3 hst⟩
      · rcases (a2 i).1 hv with h1 | ⟨h1, h2⟩
        · exact Or.inl ((b2 i).1 h1)
        · exact Or.inr ⟨h1, h2, hne⟩
      · rcases (a2 i).2 hv with h1 | ⟨h1, h2⟩
        · exact Or.inl ((b2 i).2 h1)
        · exact Or.inr ⟨h1, h2, hne⟩

theorem visited_of_rank_le {a b : Mark} (h : a.rank ≤ b.rank) (ha : a = .visited) :
    b = .visited := by
  subst ha
  cases b with
  | undiscovered => exact absurd h (by decide)
  | seen => exact absurd h (by decide)
  | visited => rfl

/-- `DFS_Init` keeps the visited marks in pairs. -/
theorem DFS_Init_pairs {n : Nat} (g : CCDBG n) (ucm : UnitigColorMap n) (sc : Setcover)
    (max_paths : Nat) (st : ExtendedCCDBG n) (tb : Traceback) (st2 : ExtendedCCDBG n)
    (sc2 : Setcover) (h : DFS_Init g ucm sc max_paths st = .ok (tb, st2, sc2))
    (hp : VisitedInPairs st) : VisitedInPairs st2 := by
  obtain ⟨a1, a2, a3⟩ := DFS_Init_marks g ucm sc max_paths st tb st2 sc2 h
  have hle := a1 (hp ucm.unitig).2
  have hstart : ∀ i, i = ucm.unitig → tb.recursive_return_status = true →
      ((g.getPredecessors ucm).isEmpty && (g.getSuccessors ucm).isEmpty) = false →
      (st2.data i).dfs_fw = .visited ∧ (st2.data i).dfs_bw = .visited := by
    intro i hi hs hne
    subst hi
    by_cases hv : (st.data ucm.unitig).dfs_fw = .visited
    · exact ⟨visited_of_rank_le (hle _).1 hv,
        visited_of_rank_le (hle _).2 ((hp _).1 hv)⟩
    · exact a3 hne hv hs
  intro i
  constructor
  · intro hv
    rcases (a2 i).1 hv with h1 | ⟨h1, h2, h3⟩
    · exact visited_of_rank_le (hle i).2 ((hp i).1 h1)
    · exact (hstart i h1 h2 h3).2
  · intro hv
    rcases (a2 i).2 hv with h1 | ⟨h1, h2, h3⟩
    · exact visited_of_rank_le (hle i).1 ((hp i).2 h1)
    · exact (hstart i h1 h2 h3).1

/-- The seen-only cleaner keeps the visited marks in pairs. -/
theorem cleaner_seen_only_pairs {n : Nat} (g : CCDBG n) (st : ExtendedCCDBG n)
    (hp : VisitedInPairs st) : VisitedInPairs (DFS_cleaner_seen_only g st) := by
  intro i
  rw [cleaner_seen_only_data g st i]
  have := hp i
  split
  · cases hf : (st.data i).dfs_fw <;> cases hb : (st.data i).dfs_bw <;>
      simp_all [cleanSeen, UnitigExtension.is_seen_fw, UnitigExtension.is_seen_bw,
        UnitigExtension.set_undiscovered_fw, UnitigExtension.set_undiscovered_bw]
  · exact this

/-- After construction, and after `init_ids`, the visited marks are in pairs: there is
none. -/
theorem constructed_pairs (n : Nat) (g : CCDBG n) :
    VisitedInPairs (constructed n) ∧ VisitedInPairs (init_ids g (constructed n)) := by
  constructor
  · intro i
    exact ⟨fun h => (by cases h), fun h => (by cases h)⟩
  · intro i
    show ((init_idsLoop g.unitigs 1 (constructed n)).data i).dfs_fw = .visited
      ↔ ((init_idsLoop g.unitigs 1 (constructed n)).data i).dfs_bw = .visited
    rw [init_idsLoop_data]
    cases lastId g.unitigs 1 i with
    | some v => simp [UnitigExtension.setID, constructed]
    | none => simp [constructed]

/-- C27: during a call of `DFS_Init` no traversal mark is lowered in the order
`undiscovered < seen < visited`. For every graph, start and state in which the backward
mark of the start is visited only if its forward mark is (the program sets the two visited
marks of a unitig together), `DFS_Init` returns and every mark stands at least as high
afterwards as before; and the same holds of every step inside the call: of every
`DFS_Visit` entered on a mark that is not visited (`DFS_case` enters undiscovered marks
only), of every `DFS_case` and of every loop over ranked neighbors. -/
theorem C27_marks_only_rise {n : Nat} (g : CCDBG n) (ucm : UnitigColorMap n) (sc : Setcover)
    (max_paths : Nat) (st : ExtendedCCDBG n)
    (hpair : (st.data ucm.unitig).dfs_bw = .visited → (st.data ucm.unitig).dfs_fw = .visited) :
    (∃ tb st2 sc2, DFS_Init g ucm sc max_paths st = .ok (tb, st2, sc2) ∧ MarksLe st st2)
    ∧ (∀ fuel x d w tb w2, DFS_Visit g max_paths fuel x d w = .ok (tb, w2) →
        markOf d (w.graph.data x.unitig) ≠ .visited → MarksLe w.graph w2.graph)
    ∧ (∀ fuel x neighbor tb w tb2 w2,
        DFS_case g (DFS_Visit g max_paths fuel) x neighbor tb w = .ok (tb2, w2) →
        MarksLe w.graph w2.graph)
    ∧ (∀ fuel x neighbors sorted tb w tb2 w2,
        neighborLoop g (DFS_Visit g max_paths fuel) max_paths x neighbors sorted tb w
          = .ok (tb2, w2) →
        MarksLe w.graph w2.graph) := by
  refine ⟨?_, ?_, ?_, ?_⟩
  · obtain ⟨tb, st2, sc2, h⟩ := DFS_Init_returns g ucm sc max_paths st
    exact ⟨tb, st2, sc2, h, (DFS_Init_marks g ucm sc max_paths st tb st2 sc2 h).1 hpair⟩
  · intro fuel x d w tb w2 h hm
    exact (DFS_Visit_marks g max_paths fuel x d w tb w2 h).1 hm
  · intro fuel x neighbor tb w tb2 w2 h
    exact (DFS_case_marks g max_paths fuel x neighbor tb w tb2 w2 h).1
  · intro fuel x neighbors sorted tb w tb2 w2 h
    exact (neighborLoop_marks g max_paths fuel x neighbors sorted tb w tb2 w2 h).1

/-- Witness of C27 on the Y-split of scenario 3 with every mark undiscovered. -/
theorem C27_marks_only_rise_witness :
    (∃ tb st2 sc2, DFS_Init (ySplitGraph [0, 1, 2, 3]) ⟨0, true⟩ Setcover.init 2 (numbered 4)
        = .ok (tb, st2, sc2) ∧ MarksLe (numbered 4) st2)
    ∧ (∀ fuel x d w tb w2, DFS_Visit (ySplitGraph [0, 1, 2, 3]) 2 fuel x d w = .ok (tb, w2) →
        markOf d (w.graph.data x.unitig) ≠ .visited → MarksLe w.graph w2.graph)
    ∧ (∀ fuel x neighbor tb w tb2 w2,
        DFS_case (ySplitGraph [0, 1, 2, 3]) (DFS_Visit (ySplitGraph [0, 1, 2, 3]) 2 fuel) x
          neighbor tb w = .ok (tb2, w2) →
        MarksLe w.graph w2.graph)
    ∧ (∀ fuel x neighbors sorted tb w tb2 w2,
        neighborLoop (ySplitGraph [0, 1, 2, 3]) (DFS_Visit (ySplitGraph [0, 1, 2, 3]) 2 fuel) 2
          x neighbors sorted tb w = .ok (tb2, w2) →
        MarksLe w.graph w2.graph) :=
  C27_marks_only_rise (ySplitGraph [0, 1, 2, 3]) ⟨0, true⟩ Setcover.init 2 (numbered 4)
    (fun h => (by cases h))

/-- C30: for every start `s` that is not a singleton and is visited in neither direction
when `DFS_Init(s)` is called, the call returns, and afterwards `s` is visited in both
directions exactly when the returned bundle has `recursive_return_status = true`; when
the status is false, `s` is visited in neither direction. -/
theorem C30_start_visited_iff_success {n : Nat} (g : CCDBG n) (s : UnitigColorMap n)
    (sc : Setcover) (max_paths : Nat) (st : ExtendedCCDBG n)
    (hns : ((g.getPredecessors s).isEmpty && (g.getSuccessors s).isEmpty) = false)
    (hfw : (st.data s.unitig).dfs_fw ≠ .visited) (hbw : (st.data s.unitig).dfs_bw ≠ .visited) :
    ∃ tb st2 sc2, DFS_Init g s sc max_paths st = .ok (tb, st2, sc2)
      ∧ (((st2.data s.unitig).dfs_fw = .visited ∧ (st2.data s.unitig).dfs_bw = .visited)
          ↔ tb.recursive_return_status = true)
      ∧ (tb.recursive_return_status = false →
          (st2.data s.unitig).dfs_fw ≠ .visited ∧ (st2.data s.unitig).dfs_bw ≠ .visited) := by
  obtain ⟨tb, st2, sc2, h⟩ := DFS_Init_returns g s sc max_paths st
  obtain ⟨_, a2, a3⟩ := DFS_Init_marks g s sc max_paths st tb st2 sc2 h
  refine ⟨tb, st2, sc2, h, ⟨fun hv => ?_, fun hs => a3 hns hfw hs⟩, fun hs => ⟨fun hv => ?_, fun hv => ?_⟩⟩
  · rcases (a2 s.unitig).1 hv.1 with h1 | ⟨_, h2, _⟩
    · exact absurd h1 hfw
    · exact h2
  · rcases (a2 s.unitig).1 hv with h1 | ⟨_, h2, _⟩
    · exact absurd h1 hfw
    · rw [hs] at h2
      cases h2
  · rcases (a2 s.unitig).2 hv with h1 | ⟨_, h2, _⟩
    · exact absurd h1 hbw
    · rw [hs] at h2
      cases h2

/-- Witness of C30 on the start `u0` of the Y-split of scenario 3 with every mark
undiscovered. -/
theorem C30_start_visited_iff_success_witness :
    ∃ tb st2 sc2, DFS_Init (ySplitGraph [0, 1, 2, 3]) ⟨0, true⟩ Setcover.init 2 (numbered 4)
        = .ok (tb, st2, sc2)
      ∧ (((st2.data (⟨0, true⟩ : UnitigColorMap 4).unitig).dfs_fw = .visited
            ∧ (st2.data (⟨0, true⟩ : UnitigColorMap 4).unitig).dfs_bw = .visited)
          ↔ tb.recursive_return_status = true)
      ∧ (tb.recursive_return_status = false →
          (st2.data (⟨0, true⟩ : UnitigColorMap 4).unitig).dfs_fw ≠ .visited
            ∧ (st2.data (⟨0, true⟩ : UnitigColorMap 4).unitig).dfs_bw ≠ .visited) :=
  C30_start_visited_iff_success (ySplitGraph [0, 1, 2, 3]) ⟨0, true⟩ Setcover.init 2
    (numbered 4) (by decide) (by decide) (by decide)

/-! ## Theorems: the returned paths are walks of the graph -/

theorem walkTo_last {n : Nat} (g : CCDBG n) (u : UnitigColorMap n) (d : Direction)
    (walk : List (UnitigColorMap n)) (h : WalkTo g u d walk) : walk.getLast? = some u := by
  cases h with
  | sink _ => rfl
  | step v q _ _ => simp

theorem sideOf_subset {n : Nat} (g : CCDBG n) (d : Direction) (u v : UnitigColorMap n)
    (h : v ∈ sideOf g d u) : v ∈ g.getPredecessors u ++ g.getSuccessors u := by
  unfold sideOf at h
  split at h
  · exact List.mem_append_right _ h
  · exact List.mem_append_left _ h

theorem walkTo_chain {n : Nat} (g : CCDBG n) (u : UnitigColorMap n) (d : Direction)
    (walk : List (UnitigColorMap n)) (h : WalkTo g u d walk) :
    List.Chain' (fun a b => a ∈ g.getPredecessors b ++ g.getSuccessors b) walk := by
  induction h with
  | sink u d _ => exact List.chain'_singleton u
  | step u d v q hv hq ih =>
    apply List.Chain'.append ih (List.chain'_singleton u)
    intro x hx y hy
    rw [walkTo_last g v _ q hq] at hx
    simp only [Option.mem_def, Option.some.injEq, List.head?_cons] at hx hy
    subst hx
    subst hy
    exact sideOf_subset g d _ _ hv

theorem walkTo_sink {n : Nat} (g : CCDBG n) (u : UnitigColorMap n) (d : Direction)
    (walk : List (UnitigColorMap n)) (h : WalkTo g u d walk) :
    (walk = [u] ∧ sideOf g d u = [])
      ∨ ∃ x y rest, walk = x :: y :: rest ∧ sideOf g (whereFrom g x y) x = [] := by
  induction h with
  | sink u d hs => exact Or.inl ⟨rfl, hs⟩
  | step u d v q hv hq ih =>
    rcases ih with ⟨rfl, hs⟩ | ⟨x, y, rest, rfl, hs⟩
    · exact Or.inr ⟨v, u, [], rfl, hs⟩
    · exact Or.inr ⟨x, y, rest ++ [u], rfl, hs⟩

theorem DFS_Visit_walks {n : Nat} (g : CCDBG n) (max_paths : Nat)
    (fuel : Nat) (u : UnitigColorMap n) (d : Direction) (w : Walk n) (tb : Traceback)
    (w2 : Walk n) (h : DFS_Visit g max_paths fuel u d w = .ok (tb, w2)) :
    ∀ p ∈ tb.pathseqs, ∃ walk, p = walk.map (orientedSequence g) ∧ WalkTo g u d walk := by
  refine DFS_Visit_induct g max_paths
    (fun u d _ tb _ => ∀ p ∈ tb.pathseqs,
      ∃ walk, p = walk.map (orientedSequence g) ∧ WalkTo g u d walk) ?_ fuel u d w tb w2 h
  intro visit hv u d w tb w2 h
  rcases DFS_VisitBody_cases g max_paths visit u d w tb w2 h with
    ⟨_, rfl, _⟩ | ⟨_, hside, _, hsink⟩ | ⟨_, w3, hloop, _⟩
  · intro p hp
    simp [Traceback.empty] at hp
  · simp only [sinkReturn, Prod.mk.injEq] at hsink
    obtain ⟨rfl, _⟩ := hsink
    intro p hp
    rw [List.mem_singleton.1 hp]
    exact ⟨[u], rfl, WalkTo.sink u d hside⟩
  · exact neighborLoop_inv g visit max_paths u (sideOf g d u)
      (fun tb _ => ∀ p ∈ tb.pathseqs,
        ∃ walk, p = walk.map (orientedSequence g) ∧ WalkTo g u d walk)
      (fun neighbor hn tb w tb1 w1 hI _ hcase => by
        rcases DFS_case_cases g visit u neighbor tb w tb1 w1 hcase with
          ⟨rfl, _⟩ | ⟨rtb, hvis, rfl, _⟩
        · exact hI
        · intro p hp
          rcases absorb_pathseqs g u tb rtb p hp with hp | ⟨q, hq, rfl⟩
          · exact hI p hp
          · obtain ⟨walk, rfl, hw⟩ := hv _ _ _ _ _ hvis q hq
            exact ⟨walk ++ [u], by simp, WalkTo.step u d neighbor walk hn hw⟩)
      _ Traceback.empty (entered g u d w) tb w3
      (fun p hp => by simp [Traceback.empty] at hp) hloop

theorem traverseFrom_walks {n : Nat} (g : CCDBG n) (max_paths fuel : Nat)
    (ucm : UnitigColorMap n) (d : Direction) (sc : Setcover) (st1 : ExtendedCCDBG n)
    (start_vec : List Bool) (tb : Traceback) (st2 : ExtendedCCDBG n) (sc2 : Setcover)
    (h : traverseFrom g (DFS_Visit g max_paths fuel) max_paths ucm sc st1 (sideOf g d ucm)
      start_vec = .ok (tb, st2, sc2)) :
    ∀ p ∈ tb.pathseqs, ∃ v walk, p = (walk ++ [ucm]).map (orientedSequence g)
      ∧ v ∈ sideOf g d ucm ∧ WalkTo g v (whereFrom g v ucm) walk := by
  unfold traverseFrom at h
  split at h
  · rename_i tb1 w1 hloop
    have hI := neighborLoop_inv g (DFS_Visit g max_paths fuel) max_paths ucm (sideOf g d ucm)
      (fun tb _ => ∀ p ∈ tb.pathseqs, ∃ v walk, p = (walk ++ [ucm]).map (orientedSequence g)
        ∧ v ∈ sideOf g d ucm ∧ WalkTo g v (whereFrom g v ucm) walk)
      (fun neighbor hn tb w tb1 w1 hI _ hcase => by
        rcases DFS_case_cases g _ ucm neighbor tb w tb1 w1 hcase with
          ⟨rfl, _⟩ | ⟨rtb, hvis, rfl, _⟩
        · exact hI
        · intro p hp
          rcases absorb_pathseqs g ucm tb rtb p hp with hp | ⟨q, hq, rfl⟩
          · exact hI p hp
          · obtain ⟨walk, rfl, hw⟩ := DFS_Visit_walks g max_paths fuel _ _ _ _ _ hvis q hq
            exact ⟨neighbor, walk, by simp, hn, hw⟩)
      _ Traceback.empty { start_vec := start_vec, graph := st1, sc := sc } tb1 w1
      (fun p hp => by simp [Traceback.empty] at hp) hloop
    simp only [Except.ok.injEq] at h
    have h1 : tb = tb1 := by
      have := congrArg Prod.fst h
      rw [(finishInit_ID ucm tb1 w1.graph w1.sc).1] at this
      exact this.symm
    rw [h1]
    exact hI
  · cases h

theorem DFS_Init_walks {n : Nat} (g : CCDBG n) (s : UnitigColorMap n) (sc : Setcover)
    (max_paths : Nat) (st : ExtendedCCDBG n)
    (hns : ((g.getPredecessors s).isEmpty && (g.getSuccessors s).isEmpty) = false)
    (tb : Traceback) (st2 : ExtendedCCDBG n) (sc2 : Setcover)
    (h : DFS_Init g s sc max_paths st = .ok (tb, st2, sc2)) :
    ∀ p ∈ tb.pathseqs, ∃ d v walk, p = (walk ++ [s]).map (orientedSequence g)
      ∧ v ∈ sideOf g d s ∧ WalkTo g v (whereFrom g v s) walk := by
  unfold DFS_Init at h
  rcases DFS_InitFuel_cases g (2 * n + 1) s sc max_paths st with
    h3 | ⟨hp, hs, h3⟩ | ⟨hp, hs, h3⟩ | ⟨hp, hs, h3⟩
  · rw [h3] at h
    simp only [Except.ok.injEq, Prod.mk.injEq] at h
    obtain ⟨rfl, _⟩ := h
    intro p hp
    simp [Traceback.empty] at hp
  · simp [hp, hs] at hns
  · rw [h3] at h
    have hside : g.getSuccessors s = sideOf g .GO_BACKWARD s := by simp [sideOf]
    rw [hside] at h
    intro p hp
    obtain ⟨v, walk, h1, h2, h4⟩ :=
      traverseFrom_walks g max_paths _ s .GO_BACKWARD sc _ _ tb st2 sc2 h p hp
    exact ⟨.GO_BACKWARD, v, walk, h1, h2, h4⟩
  · rw [h3] at h
    have hside : g.getPredecessors s = sideOf g .GO_FORWARD s := by simp [sideOf]
    rw [hside] at h
    intro p hp
    obtain ⟨v, walk, h1, h2, h4⟩ :=
      traverseFrom_walks g max_paths _ s .GO_FORWARD sc _ _ tb st2 sc2 h p hp
    exact ⟨.GO_FORWARD, v, walk, h1, h2, h4⟩

/-- C28: for every graph, every state and every start `s` that is not a singleton,
`DFS_Init` returns, and every path of the bundle lists, sink-first, the oriented sequences
of a walk `x, y, ...` of at least two unitigs: the last one is `s`; the first one, `x`,
entered from `y`, has no neighbor on the side it would be left by (no successor when
`whereFrom` says the walk came from behind, no predecessor otherwise); and every unitig
of the walk is among the predecessors or successors of the one that follows it in the
list, from which the walk entered it, so that, links being reciprocal, that one is among
its neighbors. -/
theorem C28_paths_are_walks {n : Nat} (g : CCDBG n) (s : UnitigColorMap n) (sc : Setcover)
    (max_paths : Nat) (st : ExtendedCCDBG n)
    (hns : ((g.getPredecessors s).isEmpty && (g.getSuccessors s).isEmpty) = false) :
    ∃ tb st2 sc2, DFS_Init g s sc max_paths st = .ok (tb, st2, sc2)
      ∧ ∀ p ∈ tb.pathseqs, ∃ x y rest,
          p = (x :: y :: rest).map (orientedSequence g)
          ∧ (x :: y :: rest).getLast? = some s
          ∧ ((whereFrom g x y = .GO_BACKWARD ∧ g.getSuccessors x = [])
              ∨ (whereFrom g x y = .GO_FORWARD ∧ g.getPredecessors x = []))
          ∧ List.Chain' (fun a b => a ∈ g.getPredecessors b ++ g.getSuccessors b)
              (x :: y :: rest)
          ∧ ((∀ a b, b ∈ g.getSuccessors a ↔ a ∈ g.getPredecessors b) →
              List.Chain' (fun a b => b ∈ g.getPredecessors a ++ g.getSuccessors a)
                (x :: y :: rest)) := by
  obtain ⟨tb, st2, sc2, h⟩ := DFS_Init_returns g s sc max_paths st
  refine ⟨tb, st2, sc2, h, ?_⟩
  intro p hp
  obtain ⟨d, v, walk, rfl, hv, hw⟩ := DFS_Init_walks g s sc max_paths st hns tb st2 sc2 h p hp
  have hfull : WalkTo g s d (walk ++ [s]) := WalkTo.step s d v walk hv hw
  have hchain := walkTo_chain g s d _ hfull
  rcases walkTo_sink g s d _ hfull with ⟨_, hnil⟩ | ⟨x, y, rest, hxy, hsink⟩
  · rw [hnil] at hv
    cases hv
  · rw [hxy] at hchain
    refine ⟨x, y, rest, by rw [hxy], ?_, ?_, hchain, ?_⟩
    · rw [← hxy]
      simp
    · cases hd : whereFrom g x y with
      | GO_FORWARD =>
        rw [hd] at hsink
        exact Or.inr ⟨rfl, by simpa [sideOf] using hsink⟩
      | GO_BACKWARD =>
        rw [hd] at hsink
        exact Or.inl ⟨rfl, by simpa [sideOf] using hsink⟩
    · intro hrec
      refine List.Chain'.imp ?_ hchain
      intro a b hab
      rcases List.mem_append.1 hab with hab | hab
      · exact List.mem_append_right _ ((hrec a b).2 hab)
      · exact List.mem_append_left _ ((hrec b a).1 hab)

/-- Witness of C28 on the start `u0` of the Y-split of scenario 3. -/
theorem C28_paths_are_walks_witness :
    ∃ tb st2 sc2, DFS_Init (ySplitGraph [0, 1, 2, 3]) ⟨0, true⟩ Setcover.init 2 (numbered 4)
        = .ok (tb, st2, sc2)
      ∧ ∀ p ∈ tb.pathseqs, ∃ x y rest,
          p = (x :: y :: rest).map (orientedSequence (ySplitGraph [0, 1, 2, 3]))
          ∧ (x :: y :: rest).getLast? = some ⟨0, true⟩
          ∧ ((whereFrom (ySplitGraph [0, 1, 2, 3]) x y = .GO_BACKWARD
                ∧ (ySplitGraph [0, 1, 2, 3]).getSuccessors x = [])
              ∨ (whereFrom (ySplitGraph [0, 1, 2, 3]) x y = .GO_FORWARD
                ∧ (ySplitGraph [0, 1, 2, 3]).getPredecessors x = []))
          ∧ List.Chain' (fun a b => a ∈ (ySplitGraph [0, 1, 2, 3]).getPredecessors b
              ++ (ySplitGraph [0, 1, 2, 3]).getSuccessors b) (x :: y :: rest)
          ∧ ((∀ a b, b ∈ (ySplitGraph [0, 1, 2, 3]).getSuccessors a
                ↔ a ∈ (ySplitGraph [0, 1, 2, 3]).getPredecessors b) →
              List.Chain' (fun a b => b ∈ (ySplitGraph [0, 1, 2, 3]).getPredecessors a
                ++ (ySplitGraph [0, 1, 2, 3]).getSuccessors a) (x :: y :: rest)) :=
  C28_paths_are_walks (ySplitGraph [0, 1, 2, 3]) ⟨0, true⟩ Setcover.init 2 (numbered 4)
    (by decide)

/-! ## Theorems: components of two unitigs -/

theorem DFS_Init_isolatedEnd {n : Nat} (g : CCDBG n) (x : UnitigColorMap n)
    (hx : IsolatedEnd g x) (sc : Setcover) (max_paths : Nat) (st : ExtendedCCDBG n) :
    DFS_Init g x sc max_paths st
      = .ok (Traceback.empty,
          { st with recursion_priority_counter := initialCounter max_paths }, sc) := by
  obtain ⟨y, hy, hdeg⟩ := hx
  apply DFS_Init_yStem g x sc max_paths st
  · cases hp : g.getPredecessors x with
    | nil => exact Or.inl rfl
    | cons a l =>
      right
      rw [hp] at hy
      simp only [List.cons_append, List.cons.injEq, List.append_eq_nil] at hy
      exact hy.2.2
  · rw [hy]
    exact List.cons_ne_nil _ _
  · intro z hz
    rw [hy] at hz
    rw [List.mem_singleton.1 hz]
    exact hdeg

theorem mergeUnitigs_skips {n : Nat} (g : CCDBG n) (opt : CCDBG_Build_opt) (max_paths : Nat)
    (us : List (UnitigColorMap n))
    (hskip : ∀ u ∈ us, ∀ (sc : Setcover) (st : ExtendedCCDBG n),
      DFS_Init g u sc max_paths st
        = .ok (Traceback.empty,
            { st with recursion_priority_counter := initialCounter max_paths }, sc))
    (m : MergeState n) :
    ∃ m2, mergeUnitigs g opt max_paths us m = .ok (true, m2) ∧ m2.ofs = m.ofs := by
  induction us generalizing m with
  | nil => exact ⟨m, rfl, rfl⟩
  | cons u rest ih =>
    obtain ⟨m2, h1, h2⟩ := ih (fun v hv => hskip v (List.mem_cons_of_mem _ hv))
      { m with
        graph := DFS_cleaner_seen_only g
          { m.graph with recursion_priority_counter := initialCounter max_paths }
        sc := m.sc }
    refine ⟨m2, ?_, h2⟩
    rw [mergeUnitigs, hskip u (List.mem_cons_self _ _) m.sc m.graph]
    exact h1

theorem mergePasses_skips {n : Nat} (g : CCDBG n) (opt : CCDBG_Build_opt) (max_paths : Nat)
    (hskip : ∀ u ∈ g.unitigs, ∀ (sc : Setcover) (st : ExtendedCCDBG n),
      DFS_Init g u sc max_paths st
        = .ok (Traceback.empty,
            { st with recursion_priority_counter := initialCounter max_paths }, sc))
    (passes : Nat) (m : MergeState n) :
    ∃ m2, mergePasses g opt max_paths passes m = .ok (true, m2) ∧ m2.ofs = m.ofs := by
  induction passes generalizing m with
  | zero => exact ⟨m, rfl, rfl⟩
  | succ p ih =>
    obtain ⟨m1, h1, h2⟩ := mergeUnitigs_skips g opt max_paths g.unitigs hskip m
    obtain ⟨m2, h3, h4⟩ := ih m1
    refine ⟨m2, ?_, h4.trans h2⟩
    rw [mergePasses, h1]
    exact h3

/-- C26: a component of two unitigs joined by a single edge never yields a contig,
whatever the colors and whatever `max_paths`. In every graph, `DFS_Init` started at a
handle whose only neighbor has itself exactly one neighbor returns the empty bundle with
the success flag down and changes nothing but the static counter (the Y-stem guard rejects
the start); and on a graph whose iteration meets only such ends, `merge`, started with
the ids initialised and a file that opens, returns true without writing a record. -/
theorem C26_two_unitig_component {n : Nat} (g : CCDBG n) (opt : CCDBG_Build_opt)
    (max_paths : Nat) (st : ExtendedCCDBG n) (hids : is_id_init st = true)
    (hends : ∀ x ∈ g.unitigs, IsolatedEnd g x) :
    (∀ x, IsolatedEnd g x → yStemCheck g x = true
      ∧ ∀ (sc : Setcover) (st1 : ExtendedCCDBG n),
        DFS_Init g x sc max_paths st1
          = .ok (Traceback.empty,
              { st1 with recursion_priority_counter := initialCounter max_paths }, sc))
    ∧ ∃ st2, merge g opt max_paths true st = .ok (true, [], st2) := by
  constructor
  · intro x hx
    refine ⟨?_, fun sc st1 => DFS_Init_isolatedEnd g x hx sc max_paths st1⟩
    obtain ⟨y, hy, hdeg⟩ := hx
    unfold yStemCheck
    cases hp : g.getPredecessors x with
    | nil =>
      rw [hp] at hy
      simp only [List.nil_append] at hy
      simp [hy, yStemLoop, hdeg]
    | cons a l =>
      rw [hp] at hy
      simp only [List.cons_append, List.cons.injEq, List.append_eq_nil] at hy
      obtain ⟨rfl, rfl, _⟩ := hy
      simp [yStemLoop, hdeg]
  · obtain ⟨m2, h1, h2⟩ := mergePasses_skips g opt max_paths
      (fun u hu sc st1 => DFS_Init_isolatedEnd g u (hends u hu) sc max_paths st1) max_paths
      { graph := st, sc := Setcover.init, ofs := { is_open := true, records := [] },
        sv_counter := 0 }
    unfold is_id_init at hids
    refine ⟨m2.graph, ?_⟩
    unfold merge
    rw [if_neg (by rw [hids]; exact Bool.noConfusion), if_neg (by exact Bool.noConfusion), h1]
    show Except.ok (true, m2.ofs.records, m2.graph) = _
    rw [h2]

theorem pairGraph_ends (order : List (Fin 2)) :
    ∀ x ∈ (pairGraph order).unitigs, IsolatedEnd (pairGraph order) x := by
  intro x _
  obtain ⟨i, b⟩ := x
  fin_cases i <;> cases b
  · exact ⟨⟨1, false⟩, rfl, rfl⟩
  · exact ⟨⟨1, true⟩, rfl, rfl⟩
  · exact ⟨⟨0, false⟩, rfl, rfl⟩
  · exact ⟨⟨0, true⟩, rfl, rfl⟩

/-- Witness of C26 on the graph `u1 -> u2` with three colors, `k = 4` and
`max_paths = 2`. -/
theorem C26_two_unitig_component_witness :
    (∀ x, IsolatedEnd (pairGraph [0, 1]) x → yStemCheck (pairGraph [0, 1]) x = true
      ∧ ∀ (sc : Setcover) (st1 : ExtendedCCDBG 2),
        DFS_Init (pairGraph [0, 1]) x sc 2 st1
          = .ok (Traceback.empty,
              { st1 with recursion_priority_counter := initialCounter 2 }, sc))
    ∧ ∃ st2, merge (pairGraph [0, 1]) { k := 4, verbose := false } 2 true (numbered 2)
        = .ok (true, [], st2) :=
  C26_two_unitig_component (pairGraph [0, 1]) { k := 4, verbose := false } 2 (numbered 2) rfl
    (pairGraph_ends [0, 1])

/-- The two-unitig graph, evaluated: `merge` writes nothing, in either iteration order. -/
theorem pairGraph_contigs :
    runMerge (pairGraph [0, 1]) 4 2 = some [] ∧ runMerge (pairGraph [1, 0]) 4 2 = some [] := by
  decide

/-! ## Theorems: the early returns of a visit, and backward walks -/

/-- What the sink return and the color-pruned return of `DFS_Visit` do to the current-path
stack: the sink return leaves it one id longer (`sc.add`, no `sc.del()`), the pruned
return leaves it as it was. -/
theorem DFS_Visit_early_stack {n : Nat} (g : CCDBG n) (max_paths fuel : Nat)
    (u : UnitigColorMap n) (d : Direction) (w : Walk n) :
    (is_empty_start_vec (update_start_vec g w.start_vec u) = true →
      stackAfter (DFS_Visit g max_paths (fuel + 1) u d w) = some w.sc.current_path)
    ∧ (is_empty_start_vec (update_start_vec g w.start_vec u) = false → sideOf g d u = [] →
        markOf d (w.graph.data u.unitig) ≠ .visited →
        stackAfter (DFS_Visit g max_paths (fuel + 1) u d w)
          = some (w.sc.current_path ++ [(w.graph.data u.unitig).ID])) := by
  constructor
  · intro he
    rw [DFS_Visit_empty g max_paths fuel u d w he]
    rfl
  · intro he hside hm
    cases d with
    | GO_FORWARD =>
      simp only [sideOf, reduceCtorEq, if_false] at hside
      simp only [markOf, reduceCtorEq, if_false] at hm
      simp [DFS_Visit, DFS_VisitBody, he, hside, stackAfter, sinkReturn, Setcover.add,
        Setcover.unify, ExtendedCCDBG.modify, UnitigExtension.is_visited_bw,
        UnitigExtension.set_seen_bw]
    | GO_BACKWARD =>
      simp only [sideOf, if_true] at hside
      simp only [markOf, if_true] at hm
      simp [DFS_Visit, DFS_VisitBody, he, hside, stackAfter, sinkReturn, Setcover.add,
        Setcover.unify, ExtendedCCDBG.modify, UnitigExtension.is_visited_fw,
        UnitigExtension.set_seen_fw]

/-- C24 (the code at the failing input): in the fork `u0 -> u1`, `u0 -> u2`, `u2 -> u3`,
`u2 -> u4` (ids 1 to 5) the visit of the sink `u3`, entered while the current-path stack
holds the ids 1 and 3, returns with the stack `[1, 3, 4]`: no id was removed, one was
added; with the colors of `forkGraph` the visit of `u1`, entered from `u0` and pruned by
its colors, returns with the stack `[1]` as it was; only the return after the loop over
the ranked neighbors calls `sc.del()`, as the visit of `u2` shows, which returns with
`[1, 3]` after its sink pushed 4. The same at the sink of the chain of scenario 2 and at
the pruned unitig of the chain of scenario 4. -/
theorem C24_early_returns_skip_del :
    stackAfter (DFS_Visit (forkPlain [0, 1, 2, 3, 4]) 1 1 ⟨3, true⟩ .GO_BACKWARD
        { start_vec := [true], graph := numbered 5,
          sc := { current_path := [1, 3], covered := [], startnodes := [] } })
      = some [1, 3, 4]
    ∧ stackAfter (DFS_Visit forkGraph 1 1 ⟨1, true⟩ .GO_BACKWARD
        { start_vec := tailVec forkGraph ⟨0, true⟩, graph := numbered 5,
          sc := { current_path := [1], covered := [], startnodes := [] } })
      = some [1]
    ∧ stackAfter (DFS_Visit (forkPlain [0, 1, 2, 3, 4]) 1 2 ⟨2, true⟩ .GO_BACKWARD
        { start_vec := [true], graph := numbered 5,
          sc := { current_path := [1], covered := [], startnodes := [] } })
      = some [1, 3]
    ∧ stackAfter (DFS_Visit (chainGraph [0, 1, 2]) 1 1 ⟨2, true⟩ .GO_BACKWARD
        { start_vec := [true], graph := numbered 3,
          sc := { current_path := [1, 2], covered := [], startnodes := [] } })
      = some [1, 2, 3]
    ∧ stackAfter (DFS_Visit (pruneGraph [0, 1, 2]) 1 1 ⟨2, true⟩ .GO_BACKWARD
        { start_vec := [true, false], graph := numbered 3,
          sc := { current_path := [1, 2], covered := [], startnodes := [] } })
      = some [1, 2] := by
  decide

/-- C21 (the code at the failing input): on the fork `u0 -> u1`, `u0 -> u2`, `u2 -> u3`,
`u2 -> u4` with sequences AAACC, ACCGA, ACCTT, CTTAC, CTTGG and `k = 4`, every edge
satisfies the overlap of `k-1 = 3` characters. `DFS_Init` started at `u1`, which has only
a predecessor, walks backward and returns the path `u0, u1` (sink first); `cutconcat`
makes of it ACCGA CC, of which AAACC, the sequence of `u0`, is not a substring; started at
`u3` it returns `u0, u2, u3`, which becomes CTTAC TT CC and contains neither ACCTT nor
AAACC; `merge` writes the first of these when the iteration meets `u1` first. Started at
`u0` the walk is forward and the contig AAACC GA contains both of its unitigs. The
same on the chain of scenario 2 with `k = 4`, started at its last unitig. -/
theorem C21_backward_contig_misses_unitigs :
    ((forkSeq 0).drop 2 = (forkSeq 1).take 3 ∧ (forkSeq 0).drop 2 = (forkSeq 2).take 3
      ∧ (forkSeq 2).drop 2 = (forkSeq 3).take 3 ∧ (forkSeq 2).drop 2 = (forkSeq 4).take 3)
    ∧ (forkPlain [1, 0, 2, 3, 4]).getPredecessors ⟨1, true⟩ = [⟨0, true⟩]
    ∧ (forkPlain [1, 0, 2, 3, 4]).getSuccessors ⟨1, true⟩ = []
    ∧ returnedBundle (DFS_Init (forkPlain [1, 0, 2, 3, 4]) ⟨1, true⟩ Setcover.init 1
          (numbered 5))
        = some { pathseqs := [[forkSeq 0, forkSeq 1]], recursive_return_status := true }
    ∧ cutconcat [] [forkSeq 0, forkSeq 1] 4 = .ok [.A, .C, .C, .G, .A, .C, .C]
    ∧ ¬ (forkSeq 0) <:+: [.A, .C, .C, .G, .A, .C, .C]
    ∧ returnedBundle (DFS_Init (forkPlain [1, 0, 2, 3, 4]) ⟨3, true⟩ Setcover.init 1
          (numbered 5))
        = some { pathseqs := [[forkSeq 0, forkSeq 2, forkSeq 3]],
                 recursive_return_status := true }
    ∧ cutconcat [] [forkSeq 0, forkSeq 2, forkSeq 3] 4
        = .ok [.C, .T, .T, .A, .C, .T, .T, .C, .C]
    ∧ ¬ (forkSeq 2) <:+: [.C, .T, .T, .A, .C, .T, .T, .C, .C]
    ∧ ¬ (forkSeq 0) <:+: [.C, .T, .T, .A, .C, .T, .T, .C, .C]
    ∧ runMerge (forkPlain [1, 0, 2, 3, 4]) 4 1
        = some [[.A, .C, .C, .G, .A, .C, .C], [.A, .A, .A, .C, .C, .T, .T, .A, .C]]
    ∧ runMerge (forkPlain [0, 1, 2, 3, 4]) 4 1 = some [[.A, .A, .A, .C, .C, .G, .A]]
    ∧ runMerge (chainGraph [2, 1, 0]) 4 1 = some [[.C, .G, .G, .T, .T, .G, .G, .C, .C]]
    ∧ ¬ (chainSeq 1) <:+: [.C, .G, .G, .T, .T, .G, .G, .C, .C] := by
  refine ⟨by decide, by decide, by decide, by decide, rfl, by decide, by decide, rfl,
    by decide, by decide, by decide, by decide, by decide, by decide⟩

/-! ## Theorems: the loop of merge and the loop of the specification -/

theorem guardSim_both_small (mp1 mp2 : Nat) (h1 : 1 ≤ mp1) (h2 : mp1 ≤ 255) (h3 : 1 ≤ mp2)
    (h4 : mp2 ≤ 255) :
    GuardSim mp1 mp2 (fun c1 c2 => (c1 + 1 = mp1 ∧ c2 + 1 = mp2) ∨ (c1 = mp1 ∧ c2 = mp2)) where
  guard := by
    intro c1 c2 h
    omega
  step := by
    intro c1 c2 h hlt
    omega

theorem mergeUnitigs_sim_small {n : Nat} (g : CCDBG n) (opt : CCDBG_Build_opt)
    (mp1 mp2 : Nat) (h1 : 1 ≤ mp1) (h2 : mp1 ≤ 255) (h3 : 1 ≤ mp2) (h4 : mp2 ≤ 255)
    (m1 m2 : MergeState n) (hm : MergeSim m1 m2) :
    PassSim (mergeUnitigs g opt mp1 g.unitigs m1) (mergeUnitigs g opt mp2 g.unitigs m2) :=
  mergeUnitigs_sim g opt mp1 mp2 _ (guardSim_both_small mp1 mp2 h1 h2 h3 h4)
    (Or.inl ⟨initialCounter_succ mp1 h1 h2, initialCounter_succ mp2 h3 h4⟩) g.unitigs m1 m2 hm

theorem specPasses_sim {n : Nat} (g : CCDBG n) (opt : CCDBG_Build_opt) (mp : Nat)
    (h1 : 1 ≤ mp) (h2 : mp ≤ 255) (passes : Nat) (hp : passes ≤ 255) (m1 m2 : MergeState n)
    (hm : MergeSim m1 m2) :
    PassSim (mergePasses g opt mp passes m1) (specPasses g opt passes m2) := by
  induction passes generalizing m1 m2 with
  | zero => exact ⟨rfl, hm⟩
  | succ p ih =>
    unfold mergePasses specPasses
    have h := mergeUnitigs_sim_small g opt mp (p + 1) h1 h2 (Nat.succ_pos p) hp m1 m2 hm
    revert h
    generalize mergeUnitigs g opt mp g.unitigs m1 = r1
    generalize mergeUnitigs g opt (p + 1) g.unitigs m2 = r2
    intro h
    rcases r1 with e1 | ⟨b1, x1⟩ <;> rcases r2 with e2 | ⟨b2, x2⟩
    · exact h
    · exact h.elim
    · exact h.elim
    · obtain ⟨rfl, hx⟩ := h
      cases b1 with
      | true => exact ih (Nat.le_of_succ_le hp) x1 x2 hx
      | false => exact ⟨rfl, hx⟩

theorem specMerge_records {n : Nat} (g : CCDBG n) (opt : CCDBG_Build_opt) (mp : Nat)
    (st : ExtendedCCDBG n) (hst : st.id_init_status = true) :
    writtenRecords (specMerge g opt mp true st)
      = passRecords (specPasses g opt mp ⟨st, Setcover.init, ⟨true, []⟩, 0⟩) := by
  unfold specMerge
  simp only [hst, Bool.true_eq_false, if_false]
  cases specPasses g opt mp ⟨st, Setcover.init, ⟨true, []⟩, 0⟩ with
  | error e => rfl
  | ok r => rfl

/-- For `max_paths` from 1 to 255 the loop of `merge`, which hands `max_paths` to
`DFS_Init` in every round, writes the records of the loop of the specification, which
hands the loop value `c`. -/
theorem merge_eq_specMerge_small {n : Nat} (g : CCDBG n) (opt : CCDBG_Build_opt)
    (max_paths : Nat) (h1 : 1 ≤ max_paths) (h2 : max_paths ≤ 255) (canOpen : Bool)
    (st : ExtendedCCDBG n) :
    writtenRecords (merge g opt max_paths canOpen st)
      = writtenRecords (specMerge g opt max_paths canOpen st) := by
  cases hst : st.id_init_status with
  | false => simp [merge, specMerge, hst]
  | true =>
    cases canOpen with
    | false => simp [merge, specMerge, hst]
    | true =>
      rw [merge_records g opt max_paths st hst, specMerge_records g opt max_paths st hst]
      exact passRecords_sim _ _
        (specPasses_sim g opt max_paths h1 h2 max_paths h2 _ _ ⟨rfl, rfl, rfl, rfl, rfl⟩)

theorem passView_sim {n : Nat} (r1 r2 : Except Fault (Bool × MergeState n))
    (h : PassSim r1 r2) : passView r1 = passView r2 := by
  rcases r1 with e1 | ⟨b1, x1⟩ <;> rcases r2 with e2 | ⟨b2, x2⟩
  · rfl
  · exact h.elim
  · exact h.elim
  · obtain ⟨rfl, h1, _, _, h4, h5⟩ := h
    simp only [passView, marksOf, h1, h4, h5]

theorem pass_eq_state {n : Nat} (r : Except Fault (Bool × MergeState n)) (m0 : MergeState n)
    (x : List (Mark × Mark) × Ofstream × Nat) (h : passView r = some (true, x)) :
    r = .ok (true, passState r m0) := by
  rcases r with e | ⟨b, m⟩
  · simp [passView] at h
  · simp only [passView, Option.some.injEq, Prod.mk.injEq] at h
    rw [h.1]
    rfl

theorem specPasses_stable {n : Nat} (g : CCDBG n) (opt : CCDBG_Build_opt)
    (d : Fin n → UnitigExtension)
    (hpass : ∀ sc c ofs k, passView (mergeUnitigs g opt 1 g.unitigs
        (⟨⟨d, true, c⟩, sc, ofs, k⟩ : MergeState n))
      = some (true, marksOf (⟨d, true, 0⟩ : ExtendedCCDBG n), ofs, k))
    (passes : Nat) (hp : passes ≤ 255) (sc : Setcover) (c : Nat) (ofs : Ofstream) (k : Nat) :
    ∃ sc2 c2, specPasses g opt passes (⟨⟨d, true, c⟩, sc, ofs, k⟩ : MergeState n)
      = .ok (true, (⟨⟨d, true, c2⟩, sc2, ofs, k⟩ : MergeState n)) := by
  induction passes generalizing sc c with
  | zero => exact ⟨sc, c, rfl⟩
  | succ p ih =>
    have hview : passView (mergeUnitigs g opt (p + 1) g.unitigs
        (⟨⟨d, true, c⟩, sc, ofs, k⟩ : MergeState n))
          = some (true, marksOf (⟨d, true, 0⟩ : ExtendedCCDBG n), ofs, k) := by
      rw [passView_sim _ _ (mergeUnitigs_sim_small g opt (p + 1) 1 (Nat.succ_pos p) hp
        (Nat.le_refl 1) (by decide) _ _ ⟨rfl, rfl, rfl, rfl, rfl⟩)]
      exact hpass sc c ofs k
    obtain ⟨sc1, c1, h1⟩ := pass_of_view g opt (p + 1) _ rfl d (fun _ => rfl) ofs k hview
    obtain ⟨sc2, c2, h2⟩ := ih (Nat.le_of_succ_le hp) sc1 c1
    refine ⟨sc2, c2, ?_⟩
    simp only [specPasses, h1, h2]

theorem fork_first_pass :
    passView (mergeUnitigs forkGraph { k := 4, verbose := false } 256 forkGraph.unitigs
        ⟨init_ids forkGraph (constructed 5), Setcover.init, ⟨true, []⟩, 0⟩)
      = some (true,
          [(.undiscovered, .undiscovered), (.visited, .visited), (.undiscovered, .undiscovered),
            (.undiscovered, .undiscovered), (.undiscovered, .undiscovered)],
          ⟨true, [{ contig := 1, seq := [.A, .C, .C, .G, .A, .C, .C] }]⟩, 1) := by
  decide

theorem fork_second_pass_code :
    passView (mergeUnitigs forkGraph { k := 4, verbose := false } 256 forkGraph.unitigs
        (passState (mergeUnitigs forkGraph { k := 4, verbose := false } 256 forkGraph.unitigs
          ⟨init_ids forkGraph (constructed 5), Setcover.init, ⟨true, []⟩, 0⟩)
          ⟨init_ids forkGraph (constructed 5), Setcover.init, ⟨true, []⟩, 0⟩))
      = some (true, marksOf (⟨forkAfter, true, 0⟩ : ExtendedCCDBG 5),
          ⟨true, [{ contig := 1, seq := [.A, .C, .C, .G, .A, .C, .C] },
                  { contig := 2, seq := [.A, .A, .A, .C, .C, .T, .T, .A, .C] },
                  { contig := 3, seq := [.A, .A, .A, .C, .C, .T, .T, .G, .G] }]⟩, 3) := by
  decide!

theorem fork_second_pass_spec :
    passView (mergeUnitigs forkGraph { k := 4, verbose := false } 255 forkGraph.unitigs
        (passState (mergeUnitigs forkGraph { k := 4, verbose := false } 256 forkGraph.unitigs
          ⟨init_ids forkGraph (constructed 5), Setcover.init, ⟨true, []⟩, 0⟩)
          ⟨init_ids forkGraph (constructed 5), Setcover.init, ⟨true, []⟩, 0⟩))
      = some (true, marksOf (⟨forkAfter, true, 0⟩ : ExtendedCCDBG 5),
          ⟨true, [{ contig := 1, seq := [.A, .C, .C, .G, .A, .C, .C] },
                  { contig := 2, seq := [.A, .A, .A, .C, .C, .T, .T, .A, .C] }]⟩, 2) := by
  decide!

theorem fork_state_ids :
    (passState (mergeUnitigs forkGraph { k := 4, verbose := false } 256 forkGraph.unitigs
          ⟨init_ids forkGraph (constructed 5), Setcover.init, ⟨true, []⟩, 0⟩)
          ⟨init_ids forkGraph (constructed 5), Setcover.init, ⟨true, []⟩, 0⟩).graph.id_init_status
        = true
    ∧ ∀ i, (forkAfter i).ID
        = ((passState (mergeUnitigs forkGraph { k := 4, verbose := false } 256
            forkGraph.unitigs
            ⟨init_ids forkGraph (constructed 5), Setcover.init, ⟨true, []⟩, 0⟩)
            ⟨init_ids forkGraph (constructed 5), Setcover.init, ⟨true, []⟩, 0⟩).graph.data
              i).ID := by
  decide

/-- A round over unitigs whose `DFS_Init`, started from the unitig data `d`, returns the
empty bundle and leaves, once the seen marks are cleaned, the marks of `d`: it writes
nothing and ends with the data `d`. -/
theorem mergeUnitigs_idle {n : Nat} (g : CCDBG n) (opt : CCDBG_Build_opt) (max_paths : Nat)
    (d : Fin n → UnitigExtension) (us : List (UnitigColorMap n))
    (hidle : ∀ u ∈ us, ∀ (sc : Setcover) (c : Nat), ∃ st2 sc2,
      DFS_Init g u sc max_paths ⟨d, true, c⟩ = .ok (Traceback.empty, st2, sc2)
        ∧ marksOf (DFS_cleaner_seen_only g st2) = marksOf (⟨d, true, 0⟩ : ExtendedCCDBG n))
    (sc : Setcover) (c : Nat) (ofs : Ofstream) (k : Nat) :
    ∃ sc2 c2, mergeUnitigs g opt max_paths us (⟨⟨d, true, c⟩, sc, ofs, k⟩ : MergeState n)
      = .ok (true, (⟨⟨d, true, c2⟩, sc2, ofs, k⟩ : MergeState n)) := by
  induction us generalizing sc c with
  | nil => exact ⟨sc, c, rfl⟩
  | cons u rest ih =>
    obtain ⟨st2, sc2, h1, h2⟩ := hidle u (List.mem_cons_self _ _) sc c
    have hs1 := DFS_Init_sameIds g u sc max_paths _ _ _ _ h1
    have hs2 := DFS_cleaner_seen_only_sameIds g st2
    have hd : (DFS_cleaner_seen_only g st2).data = d :=
      data_eq_of_marks (DFS_cleaner_seen_only g st2) ⟨d, true, 0⟩
        (fun i => ((hs2.1 i).trans (hs1.1 i))) h2
    have hst : DFS_cleaner_seen_only g st2
        = ⟨d, true, (DFS_cleaner_seen_only g st2).recursion_priority_counter⟩ :=
      extendedCCDBG_eq _ _ hd (hs2.2.trans hs1.2) rfl
    obtain ⟨sc3, c3, h3⟩ := ih (fun v hv => hidle v (List.mem_cons_of_mem _ hv)) sc2
      (DFS_cleaner_seen_only g st2).recursion_priority_counter
    refine ⟨sc3, c3, ?_⟩
    rw [mergeUnitigs_skip g opt max_paths u rest _ st2 sc2 h1]
    show mergeUnitigs g opt max_paths rest ⟨DFS_cleaner_seen_only g st2, sc2, ofs, k⟩ = _
    rw [hst]
    exact h3

theorem idle_view {n : Nat} (g : CCDBG n) (opt : CCDBG_Build_opt) (max_paths : Nat)
    (d : Fin n → UnitigExtension)
    (hidle : ∀ u ∈ g.unitigs, ∀ (sc : Setcover) (c : Nat), ∃ st2 sc2,
      DFS_Init g u sc max_paths ⟨d, true, c⟩ = .ok (Traceback.empty, st2, sc2)
        ∧ marksOf (DFS_cleaner_seen_only g st2) = marksOf (⟨d, true, 0⟩ : ExtendedCCDBG n))
    (sc : Setcover) (c : Nat) (ofs : Ofstream) (k : Nat) :
    passView (mergeUnitigs g opt max_paths g.unitigs (⟨⟨d, true, c⟩, sc, ofs, k⟩ : MergeState n))
      = some (true, marksOf (⟨d, true, 0⟩ : ExtendedCCDBG n), ofs, k) := by
  obtain ⟨sc2, c2, h⟩ := mergeUnitigs_idle g opt max_paths d g.unitigs hidle sc c ofs k
  rw [h]
  rfl

set_option maxHeartbeats 1000000 in
theorem fork_idle (mp0 : Nat) (h : mp0 = 1 ∨ mp0 = 256) :
    ∀ u ∈ forkGraph.unitigs, ∀ (sc : Setcover) (c : Nat), ∃ st2 sc2,
      DFS_Init forkGraph u sc mp0 ⟨forkAfter, true, c⟩ = .ok (Traceback.empty, st2, sc2)
        ∧ marksOf (DFS_cleaner_seen_only forkGraph st2)
          = marksOf (⟨forkAfter, true, 0⟩ : ExtendedCCDBG 5) := by
  intro u hu sc c
  have hu2 : u = ⟨0, true⟩ ∨ u = ⟨1, true⟩ ∨ u = ⟨2, true⟩ ∨ u = ⟨3, true⟩ ∨ u = ⟨4, true⟩ := by
    simpa [forkGraph, forwardGraph] using hu
  rcases h with rfl | rfl <;> rcases hu2 with rfl | rfl | rfl | rfl | rfl <;>
    exact ⟨_, _, rfl, rfl⟩

theorem fork_later_pass (mp0 : Nat) (h : mp0 = 1 ∨ mp0 = 256) (sc : Setcover) (c : Nat)
    (ofs : Ofstream) (k : Nat) :
    passView (mergeUnitigs forkGraph { k := 4, verbose := false } mp0 forkGraph.unitigs
        (⟨⟨forkAfter, true, c⟩, sc, ofs, k⟩ : MergeState 5))
      = some (true, marksOf (⟨forkAfter, true, 0⟩ : ExtendedCCDBG 5), ofs, k) :=
  idle_view forkGraph _ mp0 forkAfter (fork_idle mp0 h) sc c ofs k

theorem mergePasses_succ_of_ok {n : Nat} (g : CCDBG n) (opt : CCDBG_Build_opt)
    (max_paths p : Nat) (m m1 : MergeState n)
    (h : mergeUnitigs g opt max_paths g.unitigs m = .ok (true, m1)) :
    mergePasses g opt max_paths (p + 1) m = mergePasses g opt max_paths p m1 := by
  rw [mergePasses, h]

theorem specPasses_succ_of_ok {n : Nat} (g : CCDBG n) (opt : CCDBG_Build_opt)
    (p : Nat) (m m1 : MergeState n)
    (h : mergeUnitigs g opt (p + 1) g.unitigs m = .ok (true, m1)) :
    specPasses g opt (p + 1) m = specPasses g opt p m1 := by
  rw [specPasses, h]

/-- C25 (the code at the failing input): on the fork `u0 -> u1`, `u0 -> u2`, `u2 -> u3`,
`u2 -> u4` with `k = 4` and `max_paths = 256`, `merge` writes three records, the loop of
the specification two. The first round (loop value 256 in both) writes the contig of
`u1`; in the second round `u0`, no longer blocked by `u1`, reaches the two sinks `u3` and
`u4`: `merge` calls `DFS_Init(u0, 256)`, whose 8-bit counter never reaches 256, and writes
both paths, where `dfs_init(u0, 255)` stops after the first. -/
theorem C25_merge_differs_from_spec_loop :
    writtenSequences (merge forkGraph { k := 4, verbose := false } 256 true
        (init_ids forkGraph (constructed 5)))
      = some [[.A, .C, .C, .G, .A, .C, .C], [.A, .A, .A, .C, .C, .T, .T, .A, .C],
          [.A, .A, .A, .C, .C, .T, .T, .G, .G]]
    ∧ writtenSequences (specMerge forkGraph { k := 4, verbose := false } 256 true
        (init_ids forkGraph (constructed 5)))
      = some [[.A, .C, .C, .G, .A, .C, .C], [.A, .A, .A, .C, .C, .T, .T, .A, .C]] := by
  have hp1 := pass_eq_state _
    (⟨init_ids forkGraph (constructed 5), Setcover.init, ⟨true, []⟩, 0⟩ : MergeState 5) _
    fork_first_pass
  constructor
  · unfold writtenSequences
    rw [merge_records _ _ 256 _ rfl]
    have h1 := mergePasses_succ_of_ok forkGraph { k := 4, verbose := false } 256 255 _ _ hp1
    have h2 := mergePasses_first_then_stable forkGraph { k := 4, verbose := false } 256 _
      fork_state_ids.1 forkAfter fork_state_ids.2 _ _ fork_second_pass_code
      (fork_later_pass 256 (Or.inr rfl)) 254
    rw [h1, h2]
    rfl
  · unfold writtenSequences
    rw [specMerge_records _ _ 256 _ rfl]
    have h1 := specPasses_succ_of_ok forkGraph { k := 4, verbose := false } 255 _ _ hp1
    obtain ⟨sc1, c1, h2⟩ := pass_of_view forkGraph { k := 4, verbose := false } 255 _
      fork_state_ids.1 forkAfter fork_state_ids.2 _ _ fork_second_pass_spec
    have h3 := specPasses_succ_of_ok forkGraph { k := 4, verbose := false } 254 _ _ h2
    obtain ⟨sc2, c2, h4⟩ := specPasses_stable forkGraph { k := 4, verbose := false } forkAfter
      (fork_later_pass 1 (Or.inl rfl)) 254 (by decide) sc1 c1
      ⟨true, [{ contig := 1, seq := [.A, .C, .C, .G, .A, .C, .C] },
              { contig := 2, seq := [.A, .A, .A, .C, .C, .T, .T, .A, .C] }]⟩ 2
    rw [h1, h3, h4]
    rfl

/-! ## Theorems: counting the visits of a call -/

theorem DFS_case_counts {n : Nat} (g : CCDBG n) (fuel : Nat) (visit : Visit n)
    (count : UnitigColorMap n → Direction → Walk n → Nat)
    (hv : VisitCounts fuel visit count) (ucm neighbor : UnitigColorMap n) (tb : Traceback)
    (w : Walk n) (hw : undiscoveredMarks w.graph ≤ fuel) :
    ∃ tb2 w2, DFS_case g visit ucm neighbor tb w = .ok (tb2, w2)
      ∧ caseVisits g count ucm neighbor w + undiscoveredMarks w2.graph
          ≤ undiscoveredMarks w.graph := by
  unfold DFS_case caseVisits
  by_cases hd : whereFrom g neighbor ucm = .GO_BACKWARD
  · simp only [hd, if_true]
    by_cases hu : (w.graph.data neighbor.unitig).is_undiscovered_fw = true
    · simp only [hu, if_true]
      obtain ⟨rtb, w2, h1, h2⟩ := hv.1 neighbor
        { w with sc := w.sc.add (w.graph.data ucm.unitig).ID }
        hw (by simpa [UnitigExtension.is_undiscovered_fw] using hu)
      rw [h1]
      exact ⟨_, _, rfl, h2⟩
    · simp only [hu, Bool.false_eq_true, if_false]
      exact ⟨_, _, rfl, by omega⟩
  · simp only [hd, if_false]
    by_cases hu : (w.graph.data neighbor.unitig).is_undiscovered_bw = true
    · simp only [hu, if_true]
      obtain ⟨rtb, w2, h1, h2⟩ := hv.2 neighbor
        { w with sc := w.sc.add (w.graph.data ucm.unitig).ID }
        hw (by simpa [UnitigExtension.is_undiscovered_bw] using hu)
      rw [h1]
      exact ⟨_, _, rfl, h2⟩
    · simp only [hu, Bool.false_eq_true, if_false]
      exact ⟨_, _, rfl, by omega⟩

theorem neighborLoop_counts {n : Nat} (g : CCDBG n) (fuel : Nat) (visit : Visit n)
    (count : UnitigColorMap n → Direction → Walk n → Nat)
    (hv : VisitCounts fuel visit count) (max_paths : Nat) (ucm : UnitigColorMap n)
    (neighbors : List (UnitigColorMap n)) (sorted : List (Nat × Nat)) (tb : Traceback)
    (w : Walk n) (hw : undiscoveredMarks w.graph ≤ fuel) :
    ∃ tb2 w2, neighborLoop g visit max_paths ucm neighbors sorted tb w = .ok (tb2, w2)
      ∧ loopVisits g visit count max_paths ucm neighbors sorted tb w
          + undiscoveredMarks w2.graph ≤ undiscoveredMarks w.graph := by
  induction sorted generalizing tb w with
  | nil => exact ⟨tb, w, rfl, by simp [loopVisits]⟩
  | cons it rest ih =>
    unfold neighborLoop loopVisits
    by_cases hg : w.graph.recursion_priority_counter < max_paths
    · simp only [hg, if_true]
      cases hf : neighbors.find? (fun neighbor => (w.graph.data neighbor.unitig).ID = it.2) with
      | some neighbor =>
        simp only
        obtain ⟨tb1, w1, h1, h2⟩ := DFS_case_counts g fuel visit count hv ucm neighbor tb w hw
        rw [h1]
        simp only
        obtain ⟨tb2, w2, h3, h4⟩ := ih tb1 w1 (by omega)
        exact ⟨tb2, w2, h3, by omega⟩
      | none =>
        simp only
        exact ih tb w hw
    · simp only [hg, if_false]
      exact ⟨tb, w, rfl, by omega⟩

theorem DFS_VisitBody_counts {n : Nat} (g : CCDBG n) (max_paths fuel : Nat) (visit : Visit n)
    (count : UnitigColorMap n → Direction → Walk n → Nat)
    (hv : VisitCounts fuel visit count) :
    VisitCounts (fuel + 1) (DFS_VisitBody g max_paths visit)
      (bodyVisits g max_paths visit count) := by
  constructor
  · intro u w hw hu
    have hm := marks_seen_fw w.graph u.unitig hu
    simp only [DFS_VisitBody, bodyVisits, if_true, if_false, reduceCtorEq]
    split
    · exact ⟨_, _, rfl, by simp only; omega⟩
    · split
      · exact ⟨_, _, rfl, by
          simp only [sinkReturn]
          show 1 + undiscoveredMarks (w.graph.modify u.unitig UnitigExtension.set_seen_fw) ≤ _
          omega⟩
      · obtain ⟨tb2, w2, h1, h2⟩ := neighborLoop_counts g fuel visit count hv max_paths u
          (g.getSuccessors u)
          (sortNeighbors g (w.graph.modify u.unitig UnitigExtension.set_seen_fw).data
            (g.getSuccessors u) (update_start_vec g w.start_vec u) [])
          Traceback.empty
          { w with start_vec := update_start_vec g w.start_vec u
                   graph := w.graph.modify u.unitig UnitigExtension.set_seen_fw }
          (by simp only; omega)
        rw [h1]
        exact ⟨_, _, rfl, by simp only at h2 ⊢; omega⟩
  · intro u w hw hu
    have hm := marks_seen_bw w.graph u.unitig hu
    simp only [DFS_VisitBody, bodyVisits, if_true, if_false, reduceCtorEq]
    split
    · exact ⟨_, _, rfl, by simp only; omega⟩
    · split
      · exact ⟨_, _, rfl, by
          simp only [sinkReturn]
          show 1 + undiscoveredMarks (w.graph.modify u.unitig UnitigExtension.set_seen_bw) ≤ _
          omega⟩
      · obtain ⟨tb2, w2, h1, h2⟩ := neighborLoop_counts g fuel visit count hv max_paths u
          (g.getPredecessors u)
          (sortNeighbors g (w.graph.modify u.unitig UnitigExtension.set_seen_bw).data
            (g.getPredecessors u) (update_start_vec g w.start_vec u) [])
          Traceback.empty
          { w with start_vec := update_start_vec g w.start_vec u
                   graph := w.graph.modify u.unitig UnitigExtension.set_seen_bw }
          (by simp only; omega)
        rw [h1]
        exact ⟨_, _, rfl, by simp only at h2 ⊢; omega⟩

theorem DFS_Visit_counts {n : Nat} (g : CCDBG n) (max_paths : Nat) (fuel : Nat) :
    VisitCounts fuel (DFS_Visit g max_paths fuel) (visitCount g max_paths fuel) := by
  induction fuel with
  | zero =>
    constructor
    · intro u w hw hu
      have h1 := undiscoveredAt_le_marks w.graph u.unitig
      simp [undiscoveredAt, hu] at h1
      omega
    · intro u w hw hu
      have h1 := undiscoveredAt_le_marks w.graph u.unitig
      simp [undiscoveredAt, hu] at h1
      omega
  | succ fuel ih => exact DFS_VisitBody_counts g max_paths fuel _ _ ih

theorem initVisits_le {n : Nat} (g : CCDBG n) (ucm : UnitigColorMap n) (sc : Setcover)
    (max_paths : Nat) (st : ExtendedCCDBG n) :
    initVisits g ucm sc max_paths st ≤ 2 * n := by
  have hv := DFS_Visit_counts g max_paths (2 * n + 1)
  unfold initVisits
  simp only
  split
  · exact Nat.zero_le _
  · split
    · exact Nat.zero_le _
    · split
      · exact Nat.zero_le _
      · split
        · exact Nat.zero_le _
        · split
          · simp only [reduceCtorEq, if_false]
            obtain ⟨tb2, w2, _, h2⟩ := neighborLoop_counts g (2 * n + 1) _ _ hv max_paths ucm
              (g.getSuccessors ucm)
              (sortNeighbors g (ExtendedCCDBG.modify
                  { st with recursion_priority_counter := initialCounter max_paths }
                  ucm.unitig UnitigExtension.set_seen_fw).data
                (g.getSuccessors ucm) (tailVec g ucm) []) Traceback.empty
              { start_vec := tailVec g ucm,
                graph := ExtendedCCDBG.modify
                  { st with recursion_priority_counter := initialCounter max_paths }
                  ucm.unitig UnitigExtension.set_seen_fw, sc := sc }
              (Nat.le_trans (undiscoveredMarks_le _) (Nat.le_succ _))
            have h3 := undiscoveredMarks_le (ExtendedCCDBG.modify
                  { st with recursion_priority_counter := initialCounter max_paths }
                  ucm.unitig UnitigExtension.set_seen_fw)
            simp only at h2
            omega
          · simp only [if_true]
            obtain ⟨tb2, w2, _, h2⟩ := neighborLoop_counts g (2 * n + 1) _ _ hv max_paths ucm
              (g.getPredecessors ucm)
              (sortNeighbors g (ExtendedCCDBG.modify
                  { st with recursion_priority_counter := initialCounter max_paths }
                  ucm.unitig UnitigExtension.set_seen_bw).data
                (g.getPredecessors ucm) (headVec g ucm) []) Traceback.empty
              { start_vec := headVec g ucm,
                graph := ExtendedCCDBG.modify
                  { st with recursion_priority_counter := initialCounter max_paths }
                  ucm.unitig UnitigExtension.set_seen_bw, sc := sc }
              (Nat.le_trans (undiscoveredMarks_le _) (Nat.le_succ _))
            have h3 := undiscoveredMarks_le (ExtendedCCDBG.modify
                  { st with recursion_priority_counter := initialCounter max_paths }
                  ucm.unitig UnitigExtension.set_seen_bw)
            simp only at h2
            omega

theorem entered_mark {n : Nat} (g : CCDBG n) (u : UnitigColorMap n) (d : Direction)
    (w : Walk n) : markOf d ((entered g u d w).graph.data u.unitig) = .seen := by
  cases d <;>
    simp [markOf, entered, seenSetter, ExtendedCCDBG.modify, UnitigExtension.set_seen_fw,
      UnitigExtension.set_seen_bw]

theorem DFS_Visit_leaves_seen {n : Nat} (g : CCDBG n) (max_paths fuel : Nat)
    (x : UnitigColorMap n) (d : Direction) (w : Walk n) (tb : Traceback) (w2 : Walk n)
    (h : DFS_Visit g max_paths (fuel + 1) x d w = .ok (tb, w2)) :
    markOf d (w2.graph.data x.unitig) ≠ .undiscovered := by
  have hseen := entered_mark g x d w
  have hle : MarksLe (entered g x d w).graph w2.graph := by
    rcases DFS_VisitBody_cases g max_paths _ x d w tb w2 h with
      ⟨_, _, rfl⟩ | ⟨_, _, _, hsink⟩ | ⟨_, w3, hloop, rfl⟩
    · exact marksLe_refl _
    · simp only [sinkReturn, Prod.mk.injEq] at hsink
      obtain ⟨_, rfl⟩ := hsink
      exact marksLe_refl _
    · exact (neighborLoop_marks g max_paths fuel x _ _ _ _ _ _ hloop).1
  intro hu
  have h1 := hle x.unitig
  cases d with
  | GO_FORWARD =>
    simp only [markOf, reduceCtorEq, if_false] at hseen hu
    rw [hseen, hu] at h1
    exact absurd h1.2 (by decide)
  | GO_BACKWARD =>
    simp only [markOf, if_true] at hseen hu
    rw [hseen, hu] at h1
    exact absurd h1.1 (by decide)

/-- C29: `DFS_Init` terminates on every graph the facade can describe, cycles, self-loops
and hairpins included: for every graph, start and state the call returns, and the number
of calls of `DFS_Visit` it makes, nested and successive, is at most twice the number of
unitigs. The reason is stated with it: `DFS_case` calls `DFS_Visit` only for a neighbor
whose mark on the side it is entered by is undiscovered; the visit sets that mark to seen
before anything else; and when it returns the mark is not undiscovered. -/
theorem C29_DFS_Init_terminates {n : Nat} (g : CCDBG n) (ucm : UnitigColorMap n)
    (sc : Setcover) (max_paths : Nat) (st : ExtendedCCDBG n) :
    (∃ tb st2 sc2, DFS_Init g ucm sc max_paths st = .ok (tb, st2, sc2))
    ∧ initVisits g ucm sc max_paths st ≤ 2 * n
    ∧ (∀ (visit : Visit n) x neighbor tb w tb2 w2,
        DFS_case g visit x neighbor tb w = .ok (tb2, w2) →
        (tb2 = tb ∧ w2 = w)
        ∨ ∃ rtb, visit neighbor (whereFrom g neighbor x)
              { w with sc := w.sc.add (w.graph.data x.unitig).ID } = .ok (rtb, w2)
            ∧ markOf (whereFrom g neighbor x) (w.graph.data neighbor.unitig) = .undiscovered)
    ∧ (∀ x d (w : Walk n), markOf d ((entered g x d w).graph.data x.unitig) = .seen)
    ∧ (∀ fuel x d w tb w2, DFS_Visit g max_paths (fuel + 1) x d w = .ok (tb, w2) →
        markOf d (w2.graph.data x.unitig) ≠ .undiscovered) := by
  refine ⟨DFS_Init_returns g ucm sc max_paths st, initVisits_le g ucm sc max_paths st, ?_,
    fun x d w => entered_mark g x d w,
    fun fuel x d w tb w2 h => DFS_Visit_leaves_seen g max_paths fuel x d w tb w2 h⟩
  intro visit x neighbor tb w tb2 w2 h
  rcases DFS_case_cases g visit x neighbor tb w tb2 w2 h with h1 | ⟨rtb, h1, _, h3⟩
  · exact Or.inl h1
  · exact Or.inr ⟨rtb, h1, h3⟩

/-- The graph with a cycle, a self-loop and a hairpin, evaluated: `DFS_Init` started at
`u0` returns, with an empty bundle, after two visits. -/
theorem loopyGraph_terminates :
    bundleSize (DFS_Init loopyGraph ⟨0, true⟩ Setcover.init 2 (numbered 3)) = some 0
    ∧ initVisits loopyGraph ⟨0, true⟩ Setcover.init 2 (numbered 3) = 2 := by
  decide

/-! ## Theorems: forward walks are stitched correctly -/

theorem suffix_stitch {α : Type} (k : Nat) (acc a b : List α) (ha : a <:+ acc)
    (hov : Overlaps k a b) : b <:+ acc ++ b.drop (k - 1) := by
  obtain ⟨pre, rfl⟩ := ha
  obtain ⟨_, _, h3⟩ := hov
  refine ⟨pre ++ a.take (a.length - (k - 1)), ?_⟩
  have hb : b = b.take (k - 1) ++ b.drop (k - 1) := (List.take_append_drop _ _).symm
  have ha2 : a = a.take (a.length - (k - 1)) ++ a.drop (a.length - (k - 1)) :=
    (List.take_append_drop _ _).symm
  conv_lhs => rw [hb]
  conv_rhs => rw [ha2, h3]
  simp only [List.append_assoc]

theorem stitch_infix {α : Type} (k : Nat) (rest : List (List α)) (acc a : List α)
    (ha : a <:+ acc) (hch : List.Chain (Overlaps k) a rest) :
    ∀ x ∈ rest, x <:+: acc ++ (rest.map (List.drop (k - 1))).flatten := by
  induction rest generalizing acc a with
  | nil =>
    intro x hx
    cases hx
  | cons b rest ih =>
    obtain ⟨hab, hrest⟩ := List.chain_cons.1 hch
    have hb : b <:+ acc ++ b.drop (k - 1) := suffix_stitch k acc a b ha hab
    intro x hx
    simp only [List.map_cons, List.flatten_cons, ← List.append_assoc]
    rcases List.mem_cons.1 hx with rfl | hx
    · obtain ⟨pre, hpre⟩ := hb
      exact ⟨pre, (rest.map (List.drop (k - 1))).flatten, by rw [hpre]⟩
    · exact ih (acc ++ b.drop (k - 1)) b hb hrest x hx

theorem chain_overlaps_length {α : Type} (k : Nat) (l : List (List α)) (a : List α)
    (h : List.Chain (Overlaps k) a l) : ∀ b ∈ l, k - 1 ≤ b.length := by
  induction l generalizing a with
  | nil =>
    intro b hb
    cases hb
  | cons c rest ih =>
    obtain ⟨hac, hrest⟩ := List.chain_cons.1 h
    intro b hb
    rcases List.mem_cons.1 hb with rfl | hb
    · exact hac.2.1
    · exact ih c hrest b hb

theorem walkTo_forward {n : Nat} (g : CCDBG n)
    (hrec : ∀ a b : UnitigColorMap n, b ∈ g.getSuccessors a ↔ a ∈ g.getPredecessors b)
    (u : UnitigColorMap n) (d : Direction) (walk : List (UnitigColorMap n))
    (h : WalkTo g u d walk) (hd : d = .GO_BACKWARD) :
    List.Chain' (fun a b => a ∈ g.getSuccessors b) walk := by
  induction h with
  | sink u d _ => exact List.chain'_singleton u
  | step u d v q hv hq ih =>
    subst hd
    have hvs : v ∈ g.getSuccessors u := by simpa [sideOf] using hv
    have hdir : whereFrom g v u = .GO_BACKWARD := by
      unfold whereFrom
      rw [whereToGo_eq, if_pos ((hrec u v).1 hvs)]
      rfl
    apply List.Chain'.append (ih hdir) (List.chain'_singleton u)
    intro x hx y hy
    rw [walkTo_last g v _ q hq] at hx
    simp only [Option.mem_def, Option.some.injEq, List.head?_cons] at hx hy
    subst hx
    subst hy
    exact hvs

/-- The forward half of the claim about contigs, which the code keeps: in a graph with
reciprocal links in which every edge `a -> b` satisfies the overlap of `k-1` characters,
every path that `DFS_Init` returns for a start without predecessors is turned by
`cutconcat` into a contig that contains the oriented sequence of every unitig of the path
as a contiguous substring. -/
theorem forward_contig_contains {n : Nat} (g : CCDBG n) (k : Nat) (hk : 1 ≤ k)
    (hk64 : k < 2 ^ 64)
    (hrec : ∀ a b : UnitigColorMap n, b ∈ g.getSuccessors a ↔ a ∈ g.getPredecessors b)
    (hov : ∀ a b : UnitigColorMap n, b ∈ g.getSuccessors a →
      Overlaps k (orientedSequence g a) (orientedSequence g b))
    (s : UnitigColorMap n) (hp : g.getPredecessors s = []) (hs : g.getSuccessors s ≠ [])
    (sc : Setcover) (max_paths : Nat) (st : ExtendedCCDBG n) (tb : Traceback)
    (st2 : ExtendedCCDBG n) (sc2 : Setcover)
    (h : DFS_Init g s sc max_paths st = .ok (tb, st2, sc2)) :
    ∀ p ∈ tb.pathseqs, ∃ c, cutconcat [] p k = .ok c ∧ ∀ x ∈ p, x <:+: c := by
  intro p hpp
  have hns : ((g.getPredecessors s).isEmpty && (g.getSuccessors s).isEmpty) = false := by
    cases hl : g.getSuccessors s with
    | nil => exact absurd hl hs
    | cons _ _ => simp
  obtain ⟨d, v, walk, rfl, hv, hw⟩ := DFS_Init_walks g s sc max_paths st hns tb st2 sc2 h p hpp
  have hd : d = .GO_BACKWARD := by
    cases d with
    | GO_BACKWARD => rfl
    | GO_FORWARD =>
      simp only [sideOf, reduceCtorEq, if_false, hp] at hv
      cases hv
  have hchain := walkTo_forward g hrec s d (walk ++ [s]) (WalkTo.step s d v walk hv hw) hd
  have hrev : List.Chain (Overlaps k) (orientedSequence g s)
      ((walk.map (orientedSequence g)).reverse) := by
    have h1 := List.chain'_reverse.2 (hchain : List.Chain' _ (walk ++ [s]))
    rw [List.reverse_append, List.reverse_singleton, List.singleton_append] at h1
    have h2 : List.Chain (fun a b => b ∈ g.getSuccessors a) s walk.reverse := h1
    rw [← List.map_reverse, List.chain_map]
    exact h2.imp (fun a b hab => hov a b hab)
  have hlen : ∀ q ∈ walk.map (orientedSequence g), k - 1 ≤ q.length := by
    intro q hq
    exact chain_overlaps_length k _ _ hrev q (List.mem_reverse.2 hq)
  refine ⟨_, by rw [List.map_append, List.map_singleton]; exact
    cutconcat_snoc _ _ k hk hk64 hlen, ?_⟩
  intro x hx
  rw [List.map_append, List.map_singleton] at hx
  rcases List.mem_append.1 hx with hx | hx
  · exact stitch_infix k _ _ (orientedSequence g s) (List.suffix_refl _) hrev x
      (List.mem_reverse.2 hx)
  · rw [List.mem_singleton.1 hx]
    exact List.infix_append' [] _ _

/-- The neighbor lists of the fork are reciprocal. -/
theorem forkPlain_reciprocal (a b : UnitigColorMap 5) :
    b ∈ (forkPlain [0, 1, 2, 3, 4]).getSuccessors a
      ↔ a ∈ (forkPlain [0, 1, 2, 3, 4]).getPredecessors b := by
  obtain ⟨i, s⟩ := a
  obtain ⟨j, t⟩ := b
  fin_cases i <;> fin_cases j <;> cases s <;> cases t <;> decide

/-- Every edge of the fork overlaps in `k - 1 = 3` characters. -/
theorem forkPlain_overlaps (a b : UnitigColorMap 5)
    (h : b ∈ (forkPlain [0, 1, 2, 3, 4]).getSuccessors a) :
    Overlaps 4 (orientedSequence (forkPlain [0, 1, 2, 3, 4]) a)
      (orientedSequence (forkPlain [0, 1, 2, 3, 4]) b) := by
  obtain ⟨i, s⟩ := a
  obtain ⟨j, t⟩ := b
  revert h
  fin_cases i <;> fin_cases j <;> cases s <;> cases t <;>
    first
    | exact fun _ => ⟨by decide, by decide, by decide⟩
    | exact fun h => absurd h (by decide)

/-- The forward half on the fork: whatever `DFS_Init` returns for the start `u0`, every
path becomes a contig that contains all its unitigs. -/
theorem forkPlain_forward_contig (sc : Setcover) (max_paths : Nat) (st : ExtendedCCDBG 5)
    (tb : Traceback) (st2 : ExtendedCCDBG 5) (sc2 : Setcover)
    (h : DFS_Init (forkPlain [0, 1, 2, 3, 4]) ⟨0, true⟩ sc max_paths st = .ok (tb, st2, sc2)) :
    ∀ p ∈ tb.pathseqs, ∃ c, cutconcat [] p 4 = .ok c ∧ ∀ x ∈ p, x <:+: c :=
  forward_contig_contains (forkPlain [0, 1, 2, 3, 4]) 4 (by decide) (by decide)
    forkPlain_reciprocal forkPlain_overlaps ⟨0, true⟩ rfl (by decide) sc max_paths st tb st2
    sc2 h

/-! ## Theorems: directions, rates and the color vector -/

/-- The length of a filtered range is the number of indices that pass the filter. -/
theorem length_filter_range (p : Nat → Bool) (m : Nat) :
    ((List.range m).filter p).length = ((Finset.range m).filter (fun c => p c = true)).card := by
  rw [Finset.card_def, Finset.filter_val, Finset.range_val, Multiset.range,
    Multiset.filter_coe, Multiset.coe_card]
  congr 1
  apply List.filter_congr
  intro c _
  simp

/-- C36: for all handles `u` and `src`, `whereToGo(u, src)` is `GO_FORWARD` exactly when
`src` equals some predecessor of `u` and `GO_BACKWARD` otherwise, and `whereFrom(u, src)`
is always the other direction. -/
theorem C36_whereToGo_whereFrom {n : Nat} (g : CCDBG n) (u src : UnitigColorMap n) :
    (whereToGo g u src = .GO_FORWARD ↔ ∃ p ∈ g.getPredecessors u, p = src)
    ∧ (whereToGo g u src = .GO_BACKWARD ↔ ¬ ∃ p ∈ g.getPredecessors u, p = src)
    ∧ (whereFrom g u src = .GO_BACKWARD ↔ whereToGo g u src = .GO_FORWARD)
    ∧ (whereFrom g u src = .GO_FORWARD ↔ whereToGo g u src = .GO_BACKWARD)
    ∧ whereFrom g u src ≠ whereToGo g u src := by
  have hex : (∃ p ∈ g.getPredecessors u, p = src) ↔ src ∈ g.getPredecessors u :=
    ⟨fun ⟨p, hp, h⟩ => h ▸ hp, fun h => ⟨src, h, rfl⟩⟩
  rw [hex]
  unfold whereFrom
  rw [whereToGo_eq]
  by_cases h : src ∈ g.getPredecessors u
  · simp [h]
  · simp [h]

/-- An integer is its own nearest integer. -/
theorem roundHalfEven_intCast (z : Int) : roundHalfEven (z : ℚ) = z := by
  unfold roundHalfEven
  rw [Int.floor_intCast]
  simp

/-- The nearest integer is the floor or its successor. -/
theorem roundHalfEven_cases (x : ℚ) :
    roundHalfEven x = ⌊x⌋ ∨ roundHalfEven x = ⌊x⌋ + 1 := by
  unfold roundHalfEven
  split
  · exact Or.inl rfl
  · split
    · exact Or.inr rfl
    · split
      · exact Or.inl rfl
      · exact Or.inr rfl

/-- The nearest integer is within one half. -/
theorem roundHalfEven_near (x : ℚ) : |(roundHalfEven x : ℚ) - x| ≤ 1 / 2 := by
  have h1 := Int.floor_le x
  have h2 := Int.lt_floor_add_one x
  unfold roundHalfEven
  rw [abs_le]
  split
  · constructor <;> linarith
  · split
    · push_cast
      constructor <;> linarith
    · rename_i h3 h4
      have h5 : x - ⌊x⌋ = 1 / 2 := le_antisymm (not_lt.mp h4) (not_lt.mp h3)
      split
      · constructor <;> linarith
      · push_cast
        constructor <;> linarith

/-- The unit in the last place of a positive number is positive and at most the number
divided by `2 ^ 23`. -/
theorem ulp_bounds (q : ℚ) (hq : 0 < q) :
    (0 : ℚ) < 2 ^ (Int.log 2 |q| - 23)
    ∧ (2 : ℚ) ^ (23 : ℕ) * 2 ^ (Int.log 2 |q| - 23) ≤ q := by
  have hpos : (0 : ℚ) < 2 ^ (Int.log 2 |q| - 23) := zpow_pos (by norm_num) _
  refine ⟨hpos, ?_⟩
  have h1 : ((2 : ℕ) : ℚ) ^ Int.log 2 |q| ≤ |q| :=
    Int.zpow_log_le_self (by norm_num) (abs_pos.mpr hq.ne.symm)
  rw [abs_of_pos hq] at h1 ⊢
  have h2 : (2 : ℚ) ^ (23 : ℕ) * 2 ^ (Int.log 2 q - 23) = 2 ^ Int.log 2 q := by
    rw [← zpow_natCast, ← zpow_add₀ (by norm_num : (2 : ℚ) ≠ 0)]
    congr 1
    omega
  rw [h2]
  exact_mod_cast h1

/-- The float nearest to a positive number is positive. -/
theorem toFloat_pos (q : ℚ) (hq : 0 < q) : 0 < toFloat q := by
  obtain ⟨hu, hle⟩ := ulp_bounds q hq
  unfold toFloat
  rw [if_neg hq.ne.symm]
  apply mul_pos _ hu
  have h1 : ((2 ^ 23 : ℤ) : ℚ) ≤ q / 2 ^ (Int.log 2 |q| - 23) := by
    rw [le_div_iff₀ hu]
    push_cast
    exact hle
  have h2 : (2 ^ 23 : ℤ) ≤ ⌊q / 2 ^ (Int.log 2 |q| - 23)⌋ := Int.le_floor.mpr h1
  have h3 : (0 : ℤ) < roundHalfEven (q / 2 ^ (Int.log 2 |q| - 23)) := by
    rcases roundHalfEven_cases (q / 2 ^ (Int.log 2 |q| - 23)) with h | h <;> rw [h] <;> omega
  exact_mod_cast h3

/-- The float nearest to a number is positive exactly when the number is. -/
theorem toFloat_pos_iff (q : ℚ) : 0 < toFloat q ↔ 0 < q := by
  refine ⟨fun h => ?_, toFloat_pos q⟩
  by_contra hq
  have hq2 : q ≤ 0 := not_lt.mp hq
  unfold toFloat at h
  by_cases h0 : q = 0
  · rw [if_pos h0] at h
    exact lt_irrefl _ h
  · rw [if_neg h0] at h
    have hu : (0 : ℚ) < 2 ^ (Int.log 2 |q| - 23) := zpow_pos (by norm_num) _
    have h1 : q / 2 ^ (Int.log 2 |q| - 23) < 0 :=
      div_neg_of_neg_of_pos (lt_of_le_of_ne hq2 h0) hu
    have h2 : ⌊q / 2 ^ (Int.log 2 |q| - 23)⌋ < 0 := Int.floor_lt.mpr (by exact_mod_cast h1)
    have h3 : roundHalfEven (q / 2 ^ (Int.log 2 |q| - 23)) ≤ 0 := by
      rcases roundHalfEven_cases (q / 2 ^ (Int.log 2 |q| - 23)) with h | h <;> rw [h] <;> omega
    have h4 : (roundHalfEven (q / 2 ^ (Int.log 2 |q| - 23)) : ℚ) ≤ 0 := by exact_mod_cast h3
    have := mul_nonpos_of_nonpos_of_nonneg h4 hu.le
    linarith

/-- A number with at most 24 significant bits is a float. -/
theorem toFloat_exact (m : Nat) (z : Int) (hm : m < 2 ^ 24) :
    toFloat ((m : ℚ) * 2 ^ z) = (m : ℚ) * 2 ^ z := by
  by_cases hm0 : m = 0
  · simp [hm0, toFloat]
  have hmq : (0 : ℚ) < (m : ℚ) := by exact_mod_cast Nat.pos_of_ne_zero hm0
  have hz : (0 : ℚ) < 2 ^ z := zpow_pos (by norm_num) _
  have hq : (0 : ℚ) < (m : ℚ) * 2 ^ z := mul_pos hmq hz
  unfold toFloat
  rw [if_neg hq.ne.symm, abs_of_pos hq]
  have hlt : (m : ℚ) * 2 ^ z < ((2 : ℕ) : ℚ) ^ (24 + z) := by
    rw [zpow_add₀ (by norm_num)]
    apply mul_lt_mul_of_pos_right _ (by exact_mod_cast hz)
    exact_mod_cast hm
  have hlog : Int.log 2 ((m : ℚ) * 2 ^ z) < 24 + z :=
    (Int.lt_zpow_iff_log_lt (by norm_num) hq).mp hlt
  generalize Int.log 2 ((m : ℚ) * 2 ^ z) = e at hlog
  obtain ⟨d, hd⟩ : ∃ d : ℕ, z = e - 23 + d := ⟨(z - (e - 23)).toNat, by omega⟩
  have hdiv : (m : ℚ) * 2 ^ z / 2 ^ (e - 23) = ((m * 2 ^ d : ℤ) : ℚ) := by
    rw [hd, zpow_add₀ (by norm_num : (2 : ℚ) ≠ 0), zpow_natCast]
    have hu : (2 : ℚ) ^ (e - 23) ≠ 0 := (zpow_pos (by norm_num) _).ne.symm
    field_simp
    ring
  rw [hdiv, roundHalfEven_intCast]
  rw [hd, zpow_add₀ (by norm_num : (2 : ℚ) ≠ 0), zpow_natCast]
  push_cast
  ring

/-- A natural number below `2 ^ 24` is a float. -/
theorem toFloat_natCast (m : Nat) (hm : m < 2 ^ 24) : toFloat (m : ℚ) = (m : ℚ) := by
  have := toFloat_exact m 0 hm
  simpa using this

/-- The float nearest to a positive number differs from it by at most the number divided by
`2 ^ 24`. -/
theorem toFloat_near (q : ℚ) (hq : 0 < q) : |toFloat q - q| ≤ q / 2 ^ 24 := by
  obtain ⟨hu, hle⟩ := ulp_bounds q hq
  unfold toFloat
  rw [if_neg hq.ne.symm]
  generalize (2 : ℚ) ^ (Int.log 2 |q| - 23) = u at hu hle
  have hnear := roundHalfEven_near (q / u)
  have heq : (roundHalfEven (q / u) : ℚ) * u - q = ((roundHalfEven (q / u) : ℚ) - q / u) * u := by
    field_simp
  rw [heq, abs_mul, abs_of_pos hu]
  have h1 : |(roundHalfEven (q / u) : ℚ) - q / u| * u ≤ 1 / 2 * u :=
    mul_le_mul_of_nonneg_right hnear hu.le
  have h2 : 1 / 2 * u ≤ q / 2 ^ 24 := by
    rw [le_div_iff₀ (by norm_num)]
    norm_num at hle ⊢
    linarith
  linarith

/-- The float nearest to one third. -/
theorem toFloat_third : toFloat (1 / 3) = 11184811 / 33554432 := by
  have hlog : Int.log 2 |(1 / 3 : ℚ)| = -2 := by
    rw [abs_of_pos (by norm_num)]
    apply le_antisymm
    · have : Int.log 2 (1 / 3 : ℚ) < -1 :=
        (Int.lt_zpow_iff_log_lt (by norm_num) (by norm_num)).mp (by norm_num)
      omega
    · exact (Int.zpow_le_iff_le_log (by norm_num) (by norm_num)).mp (by norm_num)
  unfold toFloat
  rw [if_neg (by norm_num), hlog]
  have hval : (1 / 3 : ℚ) / 2 ^ ((-2 : ℤ) - 23) = 33554432 / 3 := by norm_num
  have hfloor : ⌊(33554432 / 3 : ℚ)⌋ = 11184810 := by
    rw [Int.floor_eq_iff]
    constructor <;> norm_num
  have hround : roundHalfEven (33554432 / 3 : ℚ) = 11184811 := by
    unfold roundHalfEven
    rw [hfloor]
    norm_num
  rw [hval, hround]
  norm_num

/-- The counter of the source is the number of agreeing colors. -/
theorem equalColorbits_eq_card {n : Nat} (g : CCDBG n) (v : List Bool)
    (neighbor : UnitigColorMap n) (hv : v.length = g.getNbColors) :
    equalColorbits g v neighbor = (agreeingColors g v neighbor).card := by
  unfold equalColorbits agreeingColors
  rw [length_filter_range]
  congr 1
  apply Finset.filter_congr
  intro c hc
  have hlt : c < v.length := by
    rw [hv]
    exact Finset.mem_range.mp hc
  have hget : v[c]? = some (v.getD c false) := by
    simp [List.getD, List.getElem?_eq_getElem hlt]
  rw [hget]
  cases g.headColor neighbor.unitig c <;> cases g.tailColor neighbor.unitig c <;>
    cases v.getD c false <;> simp

/-- There are at most as many agreeing colors as colors. -/
theorem agreeingColors_card_le {n : Nat} (g : CCDBG n) (v : List Bool)
    (neighbor : UnitigColorMap n) : (agreeingColors g v neighbor).card ≤ g.getNbColors := by
  unfold agreeingColors
  exact (Finset.card_filter_le _ _).trans (by rw [Finset.card_range])

/-- C34 (amended): for every reference vector `v` with one entry per color, `C > 0` colors,
and every neighbor, the counter of the source is the number `n` of colors `c < C` whose head
bit, tail bit and `v[c]` are all set or all clear, and the rate is `n` divided by `C` in
`float` arithmetic: both converted to `float`, the quotient rounded to `float`. Below `2 ^ 24`
colors this is the `float` nearest to `n / C`, which differs from `n / C` by at most
`n / C / 2 ^ 24` and is `n / C` itself when `C` is a power of two. -/
theorem C34_equalColorbitsRate {n : Nat} (g : CCDBG n) (v : List Bool)
    (neighbor : UnitigColorMap n) (_hC : 0 < g.getNbColors) (hv : v.length = g.getNbColors) :
    equalColorbits g v neighbor = (agreeingColors g v neighbor).card
    ∧ equalColorbitsRate g v neighbor
        = toFloat (toFloat ((agreeingColors g v neighbor).card : ℚ)
            / toFloat (g.getNbColors : ℚ))
    ∧ (g.getNbColors < 2 ^ 24 →
        equalColorbitsRate g v neighbor
          = toFloat (((agreeingColors g v neighbor).card : ℚ) / (g.getNbColors : ℚ))
        ∧ |equalColorbitsRate g v neighbor
            - ((agreeingColors g v neighbor).card : ℚ) / (g.getNbColors : ℚ)|
          ≤ ((agreeingColors g v neighbor).card : ℚ) / (g.getNbColors : ℚ) / 2 ^ 24)
    ∧ (∀ j : Nat, j ≤ 23 → g.getNbColors = 2 ^ j →
        equalColorbitsRate g v neighbor
          = ((agreeingColors g v neighbor).card : ℚ) / (g.getNbColors : ℚ)) := by
  have h1 := equalColorbits_eq_card g v neighbor hv
  have hle := agreeingColors_card_le g v neighbor
  have hrate : equalColorbitsRate g v neighbor
      = toFloat (toFloat ((agreeingColors g v neighbor).card : ℚ)
          / toFloat (g.getNbColors : ℚ)) := by
    unfold equalColorbitsRate
    rw [h1]
  have hsmall : g.getNbColors < 2 ^ 24 → equalColorbitsRate g v neighbor
      = toFloat (((agreeingColors g v neighbor).card : ℚ) / (g.getNbColors : ℚ)) := by
    intro hC
    rw [hrate, toFloat_natCast _ (by omega), toFloat_natCast _ hC]
  refine ⟨h1, hrate, fun hC => ⟨hsmall hC, ?_⟩, ?_⟩
  · rw [hsmall hC]
    by_cases h0 : (agreeingColors g v neighbor).card = 0
    · simp [h0, toFloat]
    · apply toFloat_near
      apply div_pos
      · exact_mod_cast Nat.pos_of_ne_zero h0
      · exact_mod_cast _hC
  · intro j hj hpow
    have hC : g.getNbColors < 2 ^ 24 := by
      rw [hpow]
      exact Nat.pow_lt_pow_right (by decide) (by omega)
    rw [hsmall hC, hpow]
    have hcard : (agreeingColors g v neighbor).card < 2 ^ 24 := by omega
    have hform : ((agreeingColors g v neighbor).card : ℚ) / ((2 ^ j : ℕ) : ℚ)
        = ((agreeingColors g v neighbor).card : ℚ) * 2 ^ (-(j : ℤ)) := by
      rw [zpow_neg, zpow_natCast, div_eq_mul_inv]
      push_cast
      rfl
    rw [hform]
    exact toFloat_exact _ _ hcard

/-- Witness of C34 on the Y-split of scenario 3: the neighbor `u2` (color 0 at head and
tail) against the vector `[true, false]`. -/
theorem C34_equalColorbitsRate_witness :
    equalColorbits (ySplitGraph [0, 1, 2, 3]) [true, false] ⟨2, true⟩
        = (agreeingColors (ySplitGraph [0, 1, 2, 3]) [true, false] ⟨2, true⟩).card
    ∧ equalColorbitsRate (ySplitGraph [0, 1, 2, 3]) [true, false] ⟨2, true⟩
        = toFloat (toFloat
            ((agreeingColors (ySplitGraph [0, 1, 2, 3]) [true, false] ⟨2, true⟩).card : ℚ)
            / toFloat ((ySplitGraph [0, 1, 2, 3]).getNbColors : ℚ))
    ∧ ((ySplitGraph [0, 1, 2, 3]).getNbColors < 2 ^ 24 →
        equalColorbitsRate (ySplitGraph [0, 1, 2, 3]) [true, false] ⟨2, true⟩
          = toFloat
            (((agreeingColors (ySplitGraph [0, 1, 2, 3]) [true, false] ⟨2, true⟩).card : ℚ)
              / ((ySplitGraph [0, 1, 2, 3]).getNbColors : ℚ))
        ∧ |equalColorbitsRate (ySplitGraph [0, 1, 2, 3]) [true, false] ⟨2, true⟩
            - ((agreeingColors (ySplitGraph [0, 1, 2, 3]) [true, false] ⟨2, true⟩).card : ℚ)
              / ((ySplitGraph [0, 1, 2, 3]).getNbColors : ℚ)|
          ≤ ((agreeingColors (ySplitGraph [0, 1, 2, 3]) [true, false] ⟨2, true⟩).card : ℚ)
              / ((ySplitGraph [0, 1, 2, 3]).getNbColors : ℚ) / 2 ^ 24)
    ∧ (∀ j : Nat, j ≤ 23 → (ySplitGraph [0, 1, 2, 3]).getNbColors = 2 ^ j →
        equalColorbitsRate (ySplitGraph [0, 1, 2, 3]) [true, false] ⟨2, true⟩
          = ((agreeingColors (ySplitGraph [0, 1, 2, 3]) [true, false] ⟨2, true⟩).card : ℚ)
            / ((ySplitGraph [0, 1, 2, 3]).getNbColors : ℚ)) :=
  C34_equalColorbitsRate (ySplitGraph [0, 1, 2, 3]) [true, false] ⟨2, true⟩ (by decide) rfl

/-- C34 (counterexample): in the fork with three colors, seen with the tail colors of `u0`
(all three), the neighbor `u1` agrees in one color of three; the rate is the `float` nearest
to one third, `11184811 / 2 ^ 25`, and not one third. -/
theorem C34_rate_is_not_the_quotient :
    (agreeingColors forkThree (tailVec forkThree ⟨0, true⟩) ⟨1, true⟩).card = 1
    ∧ forkThree.getNbColors = 3
    ∧ equalColorbitsRate forkThree (tailVec forkThree ⟨0, true⟩) ⟨1, true⟩
        = 11184811 / 33554432
    ∧ equalColorbitsRate forkThree (tailVec forkThree ⟨0, true⟩) ⟨1, true⟩
        ≠ ((agreeingColors forkThree (tailVec forkThree ⟨0, true⟩) ⟨1, true⟩).card : ℚ)
          / (forkThree.getNbColors : ℚ) := by
  have hcard : (agreeingColors forkThree (tailVec forkThree ⟨0, true⟩) ⟨1, true⟩).card = 1 := by
    decide
  have hcount : equalColorbits forkThree (tailVec forkThree ⟨0, true⟩) ⟨1, true⟩ = 1 := by
    decide
  have hC : forkThree.getNbColors = 3 := rfl
  have hrate : equalColorbitsRate forkThree (tailVec forkThree ⟨0, true⟩) ⟨1, true⟩
      = 11184811 / 33554432 := by
    unfold equalColorbitsRate
    rw [hcount, hC, toFloat_natCast 1 (by decide), toFloat_natCast 3 (by decide)]
    simpa using toFloat_third
  refine ⟨hcard, hC, hrate, ?_⟩
  rw [hrate, hcard, hC]
  norm_num

/-- The rate on the same input, evaluated: both colors agree, the counter is 2. -/
theorem equalColorbits_example :
    equalColorbits (ySplitGraph [0, 1, 2, 3]) [true, false] ⟨2, true⟩ = 2
    ∧ equalColorbits (ySplitGraph [0, 1, 2, 3]) [true, true] ⟨2, true⟩ = 1
    ∧ equalColorbits (ySplitGraph [0, 1, 2, 3]) [false, true] ⟨2, true⟩ = 0 := by
  decide

/-- The vector `update_start_vec` leaves has one entry per color. -/
theorem update_start_vec_length {n : Nat} (g : CCDBG n) (sv : List Bool)
    (u : UnitigColorMap n) : (update_start_vec g sv u).length = g.getNbColors := by
  simp [update_start_vec]

/-- The entry of a color after `update_start_vec`: the old entry AND the head and tail colors
of the unitig. -/
theorem update_start_vec_get {n : Nat} (g : CCDBG n) (sv : List Bool) (u : UnitigColorMap n)
    (c : Nat) (hc : c < g.getNbColors) :
    (update_start_vec g sv u)[c]?
      = some (sv.getD c false && g.headColor u.unitig c && g.tailColor u.unitig c) := by
  simp [update_start_vec, List.getElem?_map, List.getElem?_range hc]

/-- C35: for every start vector `csv` with one entry per color and every unitig `u`,
`update_start_vec` leaves a vector of the same length whose entry `c` is the old entry AND
the head color `c` of `u` AND its tail color `c`; hence no entry that was clear is set; and
along a walk the vector only loses bits: after every `DFS_Visit`, every `DFS_case` and
every loop over ranked neighbors each set entry was set before. -/
theorem C35_update_start_vec {n : Nat} (g : CCDBG n) (csv : List Bool) (u : UnitigColorMap n)
    (hlen : csv.length = g.getNbColors) :
    (update_start_vec g csv u).length = csv.length
    ∧ (∀ c (hc : c < csv.length),
        (update_start_vec g csv u)[c]?
          = some (csv[c] && g.headColor u.unitig c && g.tailColor u.unitig c))
    ∧ (∀ c : Nat, (update_start_vec g csv u)[c]? = some true → csv[c]? = some true)
    ∧ (∀ max_paths fuel x d (w : Walk n) tb w2,
        DFS_Visit g max_paths fuel x d w = .ok (tb, w2) →
        ∀ c, w2.start_vec.getD c false = true → w.start_vec.getD c false = true)
    ∧ (∀ max_paths fuel x neighbor tb (w : Walk n) tb2 w2,
        DFS_case g (DFS_Visit g max_paths fuel) x neighbor tb w = .ok (tb2, w2) →
        ∀ c, w2.start_vec.getD c false = true → w.start_vec.getD c false = true)
    ∧ (∀ max_paths fuel x neighbors sorted tb (w : Walk n) tb2 w2,
        neighborLoop g (DFS_Visit g max_paths fuel) max_paths x neighbors sorted tb w
          = .ok (tb2, w2) →
        ∀ c, w2.start_vec.getD c false = true → w.start_vec.getD c false = true) := by
  refine ⟨?_, ?_, ?_, ?_, ?_, ?_⟩
  · rw [update_start_vec_length, hlen]
  · intro c hc
    rw [update_start_vec_get g csv u c (hlen ▸ hc)]
    simp [List.getD, List.getElem?_eq_getElem hc]
  · intro c h
    by_cases hc : c < g.getNbColors
    · rw [update_start_vec_get g csv u c hc] at h
      have hc2 : c < csv.length := hlen ▸ hc
      simp only [Option.some.injEq, Bool.and_eq_true] at h
      have := h.1.1
      simpa [List.getD, List.getElem?_eq_getElem hc2] using this
    · have : (update_start_vec g csv u)[c]? = none := by
        apply List.getElem?_eq_none
        rw [update_start_vec_length]
        omega
      rw [this] at h
      cases h
  · intro max_paths fuel x d w tb w2 h
    exact (DFS_Visit_keeps g max_paths fuel x d w tb w2 h).2.2.1
  · intro max_paths fuel x neighbor tb w tb2 w2 h
    exact (DFS_case_keeps g _ (DFS_Visit_keeps g max_paths fuel) x neighbor tb w tb2 w2 h).2.2.1
  · intro max_paths fuel x neighbors sorted tb w tb2 w2 h
    exact (neighborLoop_keeps g _ (DFS_Visit_keeps g max_paths fuel) max_paths x neighbors
      sorted tb w tb2 w2 h).2.2.1

/-- Witness of C35 on the chain of scenario 4: the vector `[true, true]` updated with
`u2`, which has color 0 only. -/
theorem C35_update_start_vec_witness :
    (update_start_vec (pruneGraph [0, 1, 2]) [true, true] ⟨1, true⟩).length
      = [true, true].length
    ∧ (∀ c (hc : c < [true, true].length),
        (update_start_vec (pruneGraph [0, 1, 2]) [true, true] ⟨1, true⟩)[c]?
          = some ([true, true][c]
              && (pruneGraph [0, 1, 2]).headColor (⟨1, true⟩ : UnitigColorMap 3).unitig c
              && (pruneGraph [0, 1, 2]).tailColor (⟨1, true⟩ : UnitigColorMap 3).unitig c))
    ∧ (∀ c : Nat,
        (update_start_vec (pruneGraph [0, 1, 2]) [true, true] ⟨1, true⟩)[c]? = some true →
        [true, true][c]? = some true)
    ∧ (∀ max_paths fuel x d (w : Walk 3) tb w2,
        DFS_Visit (pruneGraph [0, 1, 2]) max_paths fuel x d w = .ok (tb, w2) →
        ∀ c, w2.start_vec.getD c false = true → w.start_vec.getD c false = true)
    ∧ (∀ max_paths fuel x neighbor tb (w : Walk 3) tb2 w2,
        DFS_case (pruneGraph [0, 1, 2]) (DFS_Visit (pruneGraph [0, 1, 2]) max_paths fuel) x
          neighbor tb w = .ok (tb2, w2) →
        ∀ c, w2.start_vec.getD c false = true → w.start_vec.getD c false = true)
    ∧ (∀ max_paths fuel x neighbors sorted tb (w : Walk 3) tb2 w2,
        neighborLoop (pruneGraph [0, 1, 2]) (DFS_Visit (pruneGraph [0, 1, 2]) max_paths fuel)
          max_paths x neighbors sorted tb w = .ok (tb2, w2) →
        ∀ c, w2.start_vec.getD c false = true → w.start_vec.getD c false = true) :=
  C35_update_start_vec (pruneGraph [0, 1, 2]) [true, true] ⟨1, true⟩ rfl

/-- The update of the witness, evaluated. -/
theorem update_start_vec_example :
    update_start_vec (pruneGraph [0, 1, 2]) [true, true] ⟨1, true⟩ = [true, false]
    ∧ update_start_vec (pruneGraph [0, 1, 2]) [true, false] ⟨2, true⟩ = [false, false] := by
  decide

/-! ## Theorems: the ranking of the neighbors -/

/-- An insertion adds its pair to the pairs of the container. -/
theorem multimapInsert_perm (p : Nat × Nat) (l : List (Nat × Nat)) :
    (multimapInsert p l).Perm (l ++ [p]) := by
  induction l with
  | nil => exact List.Perm.refl _
  | cons q qs ih =>
    unfold multimapInsert
    split
    · exact @List.perm_append_comm _ [p] (q :: qs)
    · exact List.Perm.cons q ih

/-- An insertion keeps the keys of the container in non-increasing order. -/
theorem multimapInsert_descending (p : Nat × Nat) (l : List (Nat × Nat))
    (h : Descending l) : Descending (multimapInsert p l) := by
  induction l with
  | nil => exact List.pairwise_singleton _ _
  | cons q qs ih =>
    unfold Descending at h ⊢
    obtain ⟨h1, h2⟩ := List.pairwise_cons.1 h
    unfold multimapInsert
    split
    · rename_i hgt
      simp only [GreaterThan, decide_eq_true_eq] at hgt
      refine List.pairwise_cons.2 ⟨?_, h⟩
      intro b hb
      rcases List.mem_cons.1 hb with rfl | hb
      · exact Nat.le_of_lt hgt
      · exact Nat.le_trans (h1 b hb) (Nat.le_of_lt hgt)
    · rename_i hgt
      simp only [GreaterThan, decide_eq_true_eq, Nat.not_lt] at hgt
      refine List.pairwise_cons.2 ⟨?_, ih h2⟩
      intro b hb
      rcases (List.mem_append.1 ((multimapInsert_perm p qs).mem_iff.1 hb)) with hb | hb
      · exact h1 b hb
      · rw [List.mem_singleton.1 hb]
        exact hgt

/-- An insertion puts its pair behind the pairs of the same key: the pairs of any one key
are the old ones followed by the new one, if it has that key. -/
theorem multimapInsert_stable (p : Nat × Nat) (l : List (Nat × Nat)) (h : Descending l)
    (r : Nat) :
    (multimapInsert p l).filter (fun q => decide (q.1 = r))
      = l.filter (fun q => decide (q.1 = r)) ++ [p].filter (fun q => decide (q.1 = r)) := by
  induction l with
  | nil => rfl
  | cons q qs ih =>
    unfold Descending at h
    obtain ⟨h1, h2⟩ := List.pairwise_cons.1 h
    unfold multimapInsert
    split
    · rename_i hgt
      simp only [GreaterThan, decide_eq_true_eq] at hgt
      by_cases hp : p.1 = r
      · have hnil : (q :: qs).filter (fun x => decide (x.1 = r)) = [] := by
          apply List.filter_eq_nil_iff.2
          intro b hb
          have hle : b.1 ≤ q.1 := by
            rcases List.mem_cons.1 hb with rfl | hb
            · exact Nat.le_refl _
            · exact h1 b hb
          simp only [decide_eq_true_eq]
          omega
        rw [List.filter_cons_of_pos (by simpa using hp), hnil]
        simp [hp]
      · rw [List.filter_cons_of_neg (by simpa using hp)]
        simp [hp]
    · rw [List.filter_cons, List.filter_cons, ih h2]
      split <;> simp

/-- One round of the loop of `sortNeighbors`: the first neighbor is inserted if its counter
is positive, and the loop goes on with the rest. -/
theorem sortNeighbors_cons {n : Nat} (g : CCDBG n) (data : Fin n → UnitigExtension)
    (x : UnitigColorMap n) (xs : List (UnitigColorMap n)) (sv : List Bool)
    (cont : List (Nat × Nat)) :
    sortNeighbors g data (x :: xs) sv cont
      = sortNeighbors g data xs sv
          (if 0 < equalColorbits g sv x then
            multimapInsert (equalColorbits g sv x, (data x.unitig).ID) cont
          else cont) := by
  simp only [sortNeighbors, List.foldl_cons]

/-- The pairs to insert, for a neighbor list with a first element. -/
theorem ratedNeighbors_cons {n : Nat} (g : CCDBG n) (data : Fin n → UnitigExtension)
    (x : UnitigColorMap n) (xs : List (UnitigColorMap n)) (sv : List Bool) :
    ratedNeighbors g data (x :: xs) sv
      = (if 0 < equalColorbits g sv x then [(equalColorbits g sv x, (data x.unitig).ID)]
          else []) ++ ratedNeighbors g data xs sv := by
  unfold ratedNeighbors
  by_cases h : 0 < equalColorbits g sv x
  · simp [h, List.filter_cons]
  · simp [h, List.filter_cons]

/-- What `sortNeighbors` does to a container whose keys are in non-increasing order: it
adds the pairs of the neighbors of positive rate, keeps the order of the keys, and puts
each new pair behind all pairs of the same key that are there or were added before. -/
theorem sortNeighbors_spec {n : Nat} (g : CCDBG n) (data : Fin n → UnitigExtension)
    (neighbors : List (UnitigColorMap n)) (sv : List Bool) (cont : List (Nat × Nat))
    (hc : Descending cont) :
    (sortNeighbors g data neighbors sv cont).Perm (cont ++ ratedNeighbors g data neighbors sv)
    ∧ Descending (sortNeighbors g data neighbors sv cont)
    ∧ ∀ r, (sortNeighbors g data neighbors sv cont).filter (fun q => decide (q.1 = r))
        = (cont ++ ratedNeighbors g data neighbors sv).filter (fun q => decide (q.1 = r)) := by
  induction neighbors generalizing cont with
  | nil =>
    simp only [sortNeighbors, List.foldl_nil, ratedNeighbors, List.filter_nil, List.map_nil,
      List.append_nil]
    exact ⟨List.Perm.refl _, hc, fun _ => trivial⟩
  | cons x xs ih =>
    rw [sortNeighbors_cons, ratedNeighbors_cons]
    by_cases h : 0 < equalColorbits g sv x
    · simp only [h, if_true]
      obtain ⟨h1, h2, h3⟩ := ih (multimapInsert (equalColorbits g sv x, (data x.unitig).ID) cont)
        (multimapInsert_descending _ cont hc)
      refine ⟨?_, h2, ?_⟩
      · refine h1.trans ?_
        rw [← List.append_assoc]
        exact List.Perm.append_right _ (multimapInsert_perm _ cont)
      · intro r
        rw [h3 r, List.filter_append, multimapInsert_stable _ cont hc r]
        simp only [List.filter_append, List.append_assoc]
    · simp only [h, if_false, List.nil_append]
      exact ih cont hc

/-- The rate is positive exactly when the counter of equal color bits is. -/
theorem rate_pos_iff {n : Nat} (g : CCDBG n) (v : List Bool) (x : UnitigColorMap n) :
    0 < equalColorbitsRate g v x ↔ 0 < equalColorbits g v x := by
  unfold equalColorbitsRate
  rw [toFloat_pos_iff]
  by_cases hC : g.getNbColors = 0
  · have h0 : equalColorbits g v x = 0 := by
      unfold equalColorbits
      rw [hC]
      rfl
    rw [hC, h0]
    simp [toFloat]
  · have hpos : (0 : ℚ) < toFloat (g.getNbColors : ℚ) :=
      toFloat_pos _ (by exact_mod_cast Nat.pos_of_ne_zero hC)
    rw [div_pos_iff_of_pos_right hpos, toFloat_pos_iff]
    exact_mod_cast Iff.rfl

/-- The counter divided by the number of colors is positive exactly when the counter is. -/
theorem quotient_pos_iff {n : Nat} (g : CCDBG n) (v : List Bool) (x : UnitigColorMap n) :
    0 < (equalColorbits g v x : ℚ) / (g.getNbColors : ℚ) ↔ 0 < equalColorbits g v x := by
  by_cases hC : g.getNbColors = 0
  · have h0 : equalColorbits g v x = 0 := by
      unfold equalColorbits
      rw [hC]
      rfl
    rw [hC, h0]
    simp
  · have hpos : (0 : ℚ) < (g.getNbColors : ℚ) := by
      exact_mod_cast Nat.pos_of_ne_zero hC
    rw [div_pos_iff_of_pos_right hpos]
    exact_mod_cast Iff.rfl

/-- C33: for every neighbor list and start vector `v`, `sortNeighbors` called on the empty
container leaves in it exactly one pair per neighbor whose `equalColorbitsRate(v, neighbor)`
is greater than 0 (the counter standing for the rate, which is the counter divided by the
number of colors, and the id of the neighbor) and nothing else, every key is positive, and
the iteration meets the pairs in non-increasing order of rate. -/
theorem C33_sortNeighbors_fills {n : Nat} (g : CCDBG n) (data : Fin n → UnitigExtension)
    (neighbors : List (UnitigColorMap n)) (v : List Bool) :
    (sortNeighbors g data neighbors v []).Perm
        ((neighbors.filter (fun x => decide (0 < equalColorbitsRate g v x))).map
          (fun x => (equalColorbits g v x, (data x.unitig).ID)))
    ∧ (∀ p ∈ sortNeighbors g data neighbors v [], 0 < (p.1 : ℚ) / (g.getNbColors : ℚ))
    ∧ (sortNeighbors g data neighbors v []).Pairwise
        (fun a b => (b.1 : ℚ) / (g.getNbColors : ℚ) ≤ (a.1 : ℚ) / (g.getNbColors : ℚ)) := by
  obtain ⟨h1, h2, _⟩ := sortNeighbors_spec g data neighbors v [] List.Pairwise.nil
  have hfilter : neighbors.filter (fun x => decide (0 < equalColorbitsRate g v x))
      = neighbors.filter (fun x => decide (0 < equalColorbits g v x)) := by
    apply List.filter_congr
    intro x _
    simp only [rate_pos_iff]
  rw [hfilter]
  refine ⟨by simpa [ratedNeighbors] using h1, ?_, ?_⟩
  · intro p hp
    have hp2 : p ∈ ratedNeighbors g data neighbors v := by
      have := h1.mem_iff.1 hp
      simpa using this
    unfold ratedNeighbors at hp2
    obtain ⟨x, hx, rfl⟩ := List.mem_map.1 hp2
    have hpos := (List.mem_filter.1 hx).2
    simp only [decide_eq_true_eq] at hpos
    exact (quotient_pos_iff g v x).2 hpos
  · refine List.Pairwise.imp ?_ h2
    intro a b hab
    apply div_le_div_of_nonneg_right _ (Nat.cast_nonneg _)
    exact_mod_cast hab

/-- C32 (amended): for every neighbor list and start vector, among the pairs of one rate
the sequence iterated after `sortNeighbors` keeps the order in which the neighbor list
yields the neighbors: the pairs of key `r` are, in this order, the pairs of key `r`
inserted. -/
theorem C32_ties_keep_neighbor_order {n : Nat} (g : CCDBG n) (data : Fin n → UnitigExtension)
    (neighbors : List (UnitigColorMap n)) (v : List Bool) (r : Nat) :
    (sortNeighbors g data neighbors v []).filter (fun q => decide (q.1 = r))
      = (ratedNeighbors g data neighbors v).filter (fun q => decide (q.1 = r)) := by
  have := (sortNeighbors_spec g data neighbors v [] List.Pairwise.nil).2.2 r
  simpa using this

/-- C32 (counterexample): in the Y graph `u1 -> u2`, `u1 -> u3` iterated in the order
`u1, u3, u2`, so that `u2` has id 3 and `u3` id 2, the successors of `u1` have the same
rate and are ranked `u2, u3`: ids 3, 2, the order of the neighbor list, not ascending. -/
theorem C32_ties_not_by_id :
    sortNeighbors (yGraph [0, 2, 1]) (init_ids (yGraph [0, 2, 1]) (constructed 3)).data
        ((yGraph [0, 2, 1]).getSuccessors ⟨0, true⟩) (tailVec (yGraph [0, 2, 1]) ⟨0, true⟩) []
      = [(1, 3), (1, 2)]
    ∧ ¬ ([(1, 3), (1, 2)] : List (Nat × Nat)).Pairwise (fun a b => a.1 = b.1 → a.2 ≤ b.2) := by
  decide

/-- The ranking on the fork with the colors of `forkGraph`, evaluated: seen from `u0`
with its tail colors, `u1` and `u2` have one equal color bit each and keep the order of
the neighbor list. -/
theorem sortNeighbors_example :
    sortNeighbors forkGraph (numbered 5).data (forkGraph.getSuccessors ⟨0, true⟩)
        (tailVec forkGraph ⟨0, true⟩) []
      = [(1, 2), (1, 3)] := by
  decide

/-! ## Theorems: visited marks come in pairs -/

/-- One round of `merge` over the unitigs keeps the visited marks in pairs: at the entry of
every `DFS_Init` it calls and in the state it returns. -/
theorem mergeUnitigs_pairs {n : Nat} (g : CCDBG n) (opt : CCDBG_Build_opt) (max_paths : Nat)
    (us : List (UnitigColorMap n)) (m : MergeState n) (hp : VisitedInPairs m.graph) :
    (∀ s ∈ mergeUnitigsCalls g opt max_paths us m, VisitedInPairs s)
    ∧ (∀ b m2, mergeUnitigs g opt max_paths us m = .ok (b, m2) → VisitedInPairs m2.graph) := by
  induction us generalizing m with
  | nil =>
    refine ⟨fun s hs => (by cases hs), fun b m2 h => ?_⟩
    simp only [mergeUnitigs, Except.ok.injEq, Prod.mk.injEq] at h
    rw [← h.2]
    exact hp
  | cons u rest ih =>
    unfold mergeUnitigs mergeUnitigsCalls
    cases hinit : DFS_Init g u m.sc max_paths m.graph with
    | error e =>
      refine ⟨fun s hs => ?_, fun b m2 h => (by cases h)⟩
      simp only [List.mem_cons, List.not_mem_nil, or_false] at hs
      rw [hs]
      exact hp
    | ok r =>
      obtain ⟨tb, graph1, sc1⟩ := r
      have hp1 : VisitedInPairs (DFS_cleaner_seen_only g graph1) :=
        cleaner_seen_only_pairs g graph1
          (DFS_Init_pairs g u m.sc max_paths m.graph tb graph1 sc1 hinit hp)
      have hg1 : VisitedInPairs graph1 :=
        DFS_Init_pairs g u m.sc max_paths m.graph tb graph1 sc1 hinit hp
      simp only
      by_cases hs : tb.recursive_return_status = true
      · simp only [hs, if_true]
        cases hw : tb.write m.ofs opt.k m.sv_counter with
        | error e =>
          refine ⟨fun s hs => ?_, fun b m2 h => (by cases h)⟩
          simp only [List.mem_cons, List.not_mem_nil, or_false] at hs
          rw [hs]
          exact hp
        | ok r2 =>
          obtain ⟨written, ofs1, counter1⟩ := r2
          simp only
          cases written with
          | true =>
            simp only [if_true]
            obtain ⟨a1, a2⟩ := ih
              { graph := DFS_cleaner_seen_only g graph1, sc := sc1, ofs := ofs1,
                sv_counter := counter1 } hp1
            refine ⟨fun s hs => ?_, a2⟩
            rcases List.mem_cons.1 hs with rfl | hs
            · exact hp
            · exact a1 s hs
          | false =>
            simp only [Bool.false_eq_true, if_false]
            refine ⟨fun s hs => ?_, fun b m2 h => ?_⟩
            · simp only [List.mem_cons, List.not_mem_nil, or_false] at hs
              rw [hs]
              exact hp
            · simp only [Except.ok.injEq, Prod.mk.injEq] at h
              rw [← h.2]
              exact hg1
      · simp only [hs, if_false]
        obtain ⟨a1, a2⟩ := ih { m with graph := DFS_cleaner_seen_only g graph1, sc := sc1 } hp1
        refine ⟨fun s hs => ?_, a2⟩
        rcases List.mem_cons.1 hs with rfl | hs
        · exact hp
        · exact a1 s hs

/-- The passes of `merge` keep the visited marks in pairs: at the entry of every `DFS_Init`
they call and in the state they return. -/
theorem mergePasses_pairs {n : Nat} (g : CCDBG n) (opt : CCDBG_Build_opt) (max_paths : Nat)
    (passes : Nat) (m : MergeState n) (hp : VisitedInPairs m.graph) :
    (∀ s ∈ mergePassesCalls g opt max_paths passes m, VisitedInPairs s)
    ∧ (∀ b m2, mergePasses g opt max_paths passes m = .ok (b, m2) →
        VisitedInPairs m2.graph) := by
  induction passes generalizing m with
  | zero =>
    refine ⟨fun s hs => (by cases hs), fun b m2 h => ?_⟩
    simp only [mergePasses, Except.ok.injEq, Prod.mk.injEq] at h
    rw [← h.2]
    exact hp
  | succ p ih =>
    obtain ⟨a1, a2⟩ := mergeUnitigs_pairs g opt max_paths g.unitigs m hp
    unfold mergePasses mergePassesCalls
    cases hr : mergeUnitigs g opt max_paths g.unitigs m with
    | error e =>
      refine ⟨fun s hs => ?_, fun b m2 h => (by cases h)⟩
      simp only [List.append_nil] at hs
      exact a1 s hs
    | ok r =>
      obtain ⟨b1, m1⟩ := r
      have hm1 := a2 b1 m1 hr
      cases b1 with
      | true =>
        simp only
        obtain ⟨c1, c2⟩ := ih m1 hm1
        refine ⟨fun s hs => ?_, c2⟩
        rcases List.mem_append.1 hs with hs | hs
        · exact a1 s hs
        · exact c1 s hs
      | false =>
        simp only
        refine ⟨fun s hs => ?_, fun b m2 h => ?_⟩
        · simp only [List.append_nil] at hs
          exact a1 s hs
        · simp only [Except.ok.injEq, Prod.mk.injEq] at h
          rw [← h.2]
          exact hm1

/-- A visit entered on a mark that is not visited keeps the visited marks in pairs. -/
theorem DFS_Visit_pairs {n : Nat} (g : CCDBG n) (max_paths fuel : Nat) (x : UnitigColorMap n)
    (d : Direction) (w : Walk n) (tb : Traceback) (w2 : Walk n)
    (h : DFS_Visit g max_paths fuel x d w = .ok (tb, w2))
    (hm : markOf d (w.graph.data x.unitig) ≠ .visited) (hp : VisitedInPairs w.graph) :
    VisitedInPairs w2.graph := by
  obtain ⟨h1, h2⟩ := DFS_Visit_marks g max_paths fuel x d w tb w2 h
  have hle := h1 hm
  intro i
  constructor
  · intro hv
    exact visited_of_rank_le (hle i).2 ((hp i).1 ((h2 i).1 hv))
  · intro hv
    exact visited_of_rank_le (hle i).1 ((hp i).2 ((h2 i).2 hv))

/-- C31: in every run of `merge` from a state in which every mark is undiscovered, at the
entry of every `DFS_Init` that `merge` calls each unitig is visited in the forward
direction exactly when it is visited in the backward direction, so that `is_visited_fw()`
and `is_visited_bw()` give the same answer there; the same holds of the state `merge`
returns; and the steps in between keep it: every `DFS_Init`, the seen-only cleaner, and
inside a call every `DFS_Visit` entered on an undiscovered mark. -/
theorem C31_visited_in_pairs {n : Nat} (g : CCDBG n) (opt : CCDBG_Build_opt)
    (max_paths : Nat) (canOpen : Bool) (st : ExtendedCCDBG n)
    (hfresh : ∀ i, (st.data i).dfs_fw = .undiscovered ∧ (st.data i).dfs_bw = .undiscovered) :
    (∀ s ∈ mergeCalls g opt max_paths canOpen st, ∀ i,
      ((s.data i).dfs_fw = .visited ↔ (s.data i).dfs_bw = .visited)
        ∧ (s.data i).is_visited_fw = (s.data i).is_visited_bw)
    ∧ (∀ ret recs st2, merge g opt max_paths canOpen st = .ok (ret, recs, st2) →
        VisitedInPairs st2)
    ∧ (∀ u sc s tb st2 sc2, DFS_Init g u sc max_paths s = .ok (tb, st2, sc2) →
        VisitedInPairs s → VisitedInPairs st2)
    ∧ (∀ s, VisitedInPairs s → VisitedInPairs (DFS_cleaner_seen_only g s))
    ∧ (∀ fuel x d (w : Walk n) tb w2, DFS_Visit g max_paths fuel x d w = .ok (tb, w2) →
        markOf d (w.graph.data x.unitig) = .undiscovered →
        VisitedInPairs w.graph → VisitedInPairs w2.graph) := by
  have hp0 : VisitedInPairs st := by
    intro i
    rw [(hfresh i).1, (hfresh i).2]
  refine ⟨?_, ?_, ?_, fun s hs => cleaner_seen_only_pairs g s hs, ?_⟩
  · intro s hs i
    have hps : VisitedInPairs s := by
      unfold mergeCalls at hs
      split at hs
      · cases hs
      · split at hs
        · cases hs
        · exact (mergePasses_pairs g opt max_paths max_paths _ hp0).1 s hs
    refine ⟨hps i, ?_⟩
    unfold UnitigExtension.is_visited_fw UnitigExtension.is_visited_bw
    exact decide_eq_decide.2 (hps i)
  · intro ret recs st2 h
    unfold merge at h
    split at h
    · simp only [Except.ok.injEq, Prod.mk.injEq] at h
      rw [← h.2.2]
      exact hp0
    · split at h
      · simp only [Except.ok.injEq, Prod.mk.injEq] at h
        rw [← h.2.2]
        exact hp0
      · split at h
        · cases h
        · rename_i r m hm
          simp only [Except.ok.injEq, Prod.mk.injEq] at h
          rw [← h.2.2]
          exact (mergePasses_pairs g opt max_paths max_paths _ hp0).2 r m hm
  · intro u sc s tb st2 sc2 h hs
    exact DFS_Init_pairs g u sc max_paths s tb st2 sc2 h hs
  · intro fuel x d w tb w2 h hm hp
    exact DFS_Visit_pairs g max_paths fuel x d w tb w2 h
      (by rw [hm]; exact Mark.noConfusion) hp

/-- Witness of C31 on the Y-split of scenario 3 with `max_paths = 2`. -/
theorem C31_visited_in_pairs_witness :
    (∀ s ∈ mergeCalls (ySplitGraph [2, 0, 1, 3]) { k := 3, verbose := false } 2 true
        (numbered 4), ∀ i,
      ((s.data i).dfs_fw = .visited ↔ (s.data i).dfs_bw = .visited)
        ∧ (s.data i).is_visited_fw = (s.data i).is_visited_bw)
    ∧ (∀ ret recs st2, merge (ySplitGraph [2, 0, 1, 3]) { k := 3, verbose := false } 2 true
          (numbered 4) = .ok (ret, recs, st2) →
        VisitedInPairs st2)
    ∧ (∀ u sc s tb st2 sc2, DFS_Init (ySplitGraph [2, 0, 1, 3]) u sc 2 s = .ok (tb, st2, sc2) →
        VisitedInPairs s → VisitedInPairs st2)
    ∧ (∀ s, VisitedInPairs s → VisitedInPairs (DFS_cleaner_seen_only (ySplitGraph [2, 0, 1, 3]) s))
    ∧ (∀ fuel x d (w : Walk 4) tb w2,
        DFS_Visit (ySplitGraph [2, 0, 1, 3]) 2 fuel x d w = .ok (tb, w2) →
        markOf d (w.graph.data x.unitig) = .undiscovered →
        VisitedInPairs w.graph → VisitedInPairs w2.graph) :=
  C31_visited_in_pairs (ySplitGraph [2, 0, 1, 3]) { k := 3, verbose := false } 2 true
    (numbered 4) (fun _ => ⟨rfl, rfl⟩)

/-- The calls of the witness, evaluated: two passes over four unitigs make eight calls of
`DFS_Init`; the start `u2` is visited after the first call, `u0` after the second, each
in both directions. -/
theorem mergeCalls_example :
    (mergeCalls (ySplitGraph [2, 0, 1, 3]) { k := 3, verbose := false } 2 true
        (numbered 4)).map marksOf
      = [[(.undiscovered, .undiscovered), (.undiscovered, .undiscovered),
            (.undiscovered, .undiscovered), (.undiscovered, .undiscovered)],
          [(.undiscovered, .undiscovered), (.undiscovered, .undiscovered),
            (.visited, .visited), (.undiscovered, .undiscovered)]]
        ++ List.replicate 6 [(.visited, .visited), (.undiscovered, .undiscovered),
            (.visited, .visited), (.undiscovered, .undiscovered)] := by
  decide

/-! ## Theorems: mate records -/

/-- The flag test of a single bit is the test of that bit. -/
theorem hasFlag_two_pow (i : Nat) (record : BamAlignmentRecord) :
    hasFlag (2 ^ i) record = record.flag.testBit i := by
  unfold hasFlag
  rw [Nat.and_two_pow]
  have h : 2 ^ i ≠ 0 := (Nat.two_pow_pos i).ne.symm
  cases record.flag.testBit i
  · simp only [Bool.toNat_false, zero_mul, beq_eq_false_iff_ne, ne_eq]
    exact fun h2 => h h2.symm
  · simp

/-- The flag tests of `setMates` as bit tests. -/
theorem hasFlag_bits (record : BamAlignmentRecord) :
    hasFlagMultiple record = record.flag.testBit 0
    ∧ hasFlagUnmapped record = record.flag.testBit 2
    ∧ hasFlagNextUnmapped record = record.flag.testBit 3
    ∧ hasFlagRC record = record.flag.testBit 4
    ∧ hasFlagNextRC record = record.flag.testBit 5
    ∧ hasFlagFirst record = record.flag.testBit 6
    ∧ hasFlagLast record = record.flag.testBit 7 :=
  ⟨hasFlag_two_pow 0 record, hasFlag_two_pow 2 record, hasFlag_two_pow 3 record,
    hasFlag_two_pow 4 record, hasFlag_two_pow 5 record, hasFlag_two_pow 6 record,
    hasFlag_two_pow 7 record⟩

/-- The bits of a flag word after `orFlag`. -/
theorem orFlag_testBit (bit : Nat) (record : BamAlignmentRecord) (i : Nat) :
    (orFlag bit record).flag.testBit i = (record.flag.testBit i || bit.testBit i) := by
  simp [orFlag, Nat.testBit_or]

/-- The bits of a flag word after `clearFlag`. -/
theorem clearFlag_testBit (bit : Nat) (record : BamAlignmentRecord) (i : Nat) :
    (clearFlag bit record).flag.testBit i
      = (record.flag.testBit i && (2 ^ 32 - 1 - bit).testBit i) := by
  simp [clearFlag, Nat.testBit_and]

/-- Setting a flag bit keeps the flag word in 32 bits. -/
theorem orFlag_lt (bit : Nat) (record : BamAlignmentRecord) (hb : bit < 2 ^ 32)
    (h : record.flag < 2 ^ 32) : (orFlag bit record).flag < 2 ^ 32 :=
  Nat.or_lt_two_pow h hb

/-- Clearing a flag bit keeps the flag word in 32 bits. -/
theorem clearFlag_lt (bit : Nat) (record : BamAlignmentRecord)
    (h : record.flag < 2 ^ 32) : (clearFlag bit record).flag < 2 ^ 32 :=
  Nat.lt_of_le_of_lt Nat.and_le_left h

/-- A conditional record has a 32 bit flag word when both alternatives have one. -/
theorem ite_flag_lt (c : Prop) [Decidable c] (a b : BamAlignmentRecord)
    (ha : a.flag < 2 ^ 32) (hb : b.flag < 2 ^ 32) : (if c then a else b).flag < 2 ^ 32 := by
  split
  · exact ha
  · exact hb

/-- The flag words `setMates` writes stay in 32 bits. -/
theorem setMatesBody_flag_lt (record1 record2 : BamAlignmentRecord)
    (h1 : record1.flag < 2 ^ 32) (h2 : record2.flag < 2 ^ 32) :
    (setMatesBody record1 record2).1.flag < 2 ^ 32
    ∧ (setMatesBody record1 record2).2.flag < 2 ^ 32 := by
  simp only [setMatesBody]
  constructor <;>
  repeat' first
    | exact h1
    | exact h2
    | apply ite_flag_lt
    | apply clearFlag_lt
    | exact orFlag_lt _ _ (by decide) (by assumption)
    | apply orFlag_lt _ _ (by decide)

/-- Claim C40: under its two assertions `setMates` returns, and then the next reference id
and next position of each record are the reference id and position of the other, the
next-unmapped and next-reversed flags of each record are set exactly when the other record is
unmapped or reversed, both records carry the paired flag, and reference id, position,
unmapped flag and reversed flag of each record are as before. -/
theorem C40_setMates (record1 record2 : BamAlignmentRecord)
    (hfirst : hasFlagFirst record1 = false ∨ hasFlagFirst record2 = false)
    (hlast : hasFlagLast record1 = false ∨ hasFlagLast record2 = false) :
    ∃ mate1 mate2 : BamAlignmentRecord,
      setMates record1 record2 = some (mate1, mate2)
      ∧ mate1.rNextId = record2.rID ∧ mate2.rNextId = record1.rID
      ∧ mate1.pNext = record2.beginPos ∧ mate2.pNext = record1.beginPos
      ∧ hasFlagNextUnmapped mate1 = hasFlagUnmapped record2
      ∧ hasFlagNextUnmapped mate2 = hasFlagUnmapped record1
      ∧ hasFlagNextRC mate1 = hasFlagRC record2
      ∧ hasFlagNextRC mate2 = hasFlagRC record1
      ∧ hasFlagMultiple mate1 = true ∧ hasFlagMultiple mate2 = true
      ∧ mate1.rID = record1.rID ∧ mate2.rID = record2.rID
      ∧ mate1.beginPos = record1.beginPos ∧ mate2.beginPos = record2.beginPos
      ∧ hasFlagUnmapped mate1 = hasFlagUnmapped record1
      ∧ hasFlagUnmapped mate2 = hasFlagUnmapped record2
      ∧ hasFlagRC mate1 = hasFlagRC record1
      ∧ hasFlagRC mate2 = hasFlagRC record2 := by
  have hassert : setMatesAsserts record1 record2 = true := by
    unfold setMatesAsserts
    rcases hfirst with h | h <;> rcases hlast with h2 | h2 <;> simp [h, h2]
  refine ⟨(setMatesBody record1 record2).1, (setMatesBody record1 record2).2, ?_, ?_⟩
  · simp [setMates, hassert]
  have k0 : BAM_FLAG_MULTIPLE = 2 ^ 0 := rfl
  have k3 : BAM_FLAG_NEXT_UNMAPPED = 2 ^ 3 := rfl
  have k5 : BAM_FLAG_NEXT_RC = 2 ^ 5 := rfl
  have k6 : BAM_FLAG_FIRST = 2 ^ 6 := rfl
  have k7 : BAM_FLAG_LAST = 2 ^ 7 := rfl
  have c30 : (2 ^ 32 - 1 - 2 ^ 3).testBit 0 = true := by decide
  have c32 : (2 ^ 32 - 1 - 2 ^ 3).testBit 2 = true := by decide
  have c33 : (2 ^ 32 - 1 - 2 ^ 3).testBit 3 = false := by decide
  have c34 : (2 ^ 32 - 1 - 2 ^ 3).testBit 4 = true := by decide
  have c35 : (2 ^ 32 - 1 - 2 ^ 3).testBit 5 = true := by decide
  have c36 : (2 ^ 32 - 1 - 2 ^ 3).testBit 6 = true := by decide
  have c37 : (2 ^ 32 - 1 - 2 ^ 3).testBit 7 = true := by decide
  have c56 : (2 ^ 32 - 1 - 2 ^ 5).testBit 6 = true := by decide
  have c57 : (2 ^ 32 - 1 - 2 ^ 5).testBit 7 = true := by decide
  have c50 : (2 ^ 32 - 1 - 2 ^ 5).testBit 0 = true := by decide
  have c52 : (2 ^ 32 - 1 - 2 ^ 5).testBit 2 = true := by decide
  have c53 : (2 ^ 32 - 1 - 2 ^ 5).testBit 3 = true := by decide
  have c54 : (2 ^ 32 - 1 - 2 ^ 5).testBit 4 = true := by decide
  have c55 : (2 ^ 32 - 1 - 2 ^ 5).testBit 5 = false := by decide
  have hite : ∀ (c : Prop) [Decidable c] (a b i : Nat),
      (if c then a else b).testBit i = if c then a.testBit i else b.testBit i :=
    fun c _ a b i => apply_ite (fun x : Nat => x.testBit i) c a b
  have hb := fun r : BamAlignmentRecord => hasFlag_bits r
  simp only [fun r => (hb r).1, fun r => (hb r).2.1, fun r => (hb r).2.2.1,
    fun r => (hb r).2.2.2.1, fun r => (hb r).2.2.2.2.1, fun r => (hb r).2.2.2.2.2.1,
    fun r => (hb r).2.2.2.2.2.2, setMatesBody, orFlag, clearFlag, k0, k3, k5, k6, k7,
    apply_ite BamAlignmentRecord.flag, apply_ite BamAlignmentRecord.rID,
    apply_ite BamAlignmentRecord.beginPos, apply_ite BamAlignmentRecord.rNextId,
    apply_ite BamAlignmentRecord.pNext, hite, c30, c32, c33, c34, c35, c50, c52, c53, c54, c55, c36, c37, c56, c57,
    Nat.testBit_or, Nat.testBit_and, Nat.testBit_two_pow, ite_self]
  simp

/-- Witness of C40 on a reversed first segment and an unmapped last segment. -/
theorem C40_setMates_witness :
    (hasFlagFirst mateA = false ∨ hasFlagFirst mateB = false)
    ∧ (hasFlagLast mateA = false ∨ hasFlagLast mateB = false)
    ∧ ∃ mate1 mate2 : BamAlignmentRecord,
      setMates mateA mateB = some (mate1, mate2)
      ∧ mate1.rNextId = mateB.rID ∧ mate2.rNextId = mateA.rID
      ∧ mate1.pNext = mateB.beginPos ∧ mate2.pNext = mateA.beginPos
      ∧ hasFlagNextUnmapped mate1 = hasFlagUnmapped mateB
      ∧ hasFlagNextUnmapped mate2 = hasFlagUnmapped mateA
      ∧ hasFlagNextRC mate1 = hasFlagRC mateB
      ∧ hasFlagNextRC mate2 = hasFlagRC mateA
      ∧ hasFlagMultiple mate1 = true ∧ hasFlagMultiple mate2 = true
      ∧ mate1.rID = mateA.rID ∧ mate2.rID = mateB.rID
      ∧ mate1.beginPos = mateA.beginPos ∧ mate2.beginPos = mateB.beginPos
      ∧ hasFlagUnmapped mate1 = hasFlagUnmapped mateA
      ∧ hasFlagUnmapped mate2 = hasFlagUnmapped mateB
      ∧ hasFlagRC mate1 = hasFlagRC mateA
      ∧ hasFlagRC mate2 = hasFlagRC mateB :=
  ⟨Or.inr (by decide), Or.inl (by decide),
    C40_setMates mateA mateB (Or.inr (by decide)) (Or.inl (by decide))⟩

/-- The two example records after `setMates`: each points at the other, the stale next flags
of the second are replaced and both are paired. -/
theorem setMates_example :
    setMates mateA mateB
      = some ({ rID := 3, beginPos := 100, flag := 0x59, rNextId := 5, pNext := 250 },
              { rID := 5, beginPos := 250, flag := 0xA5, rNextId := 3, pNext := 100 })
    ∧ setMates mateA mateA = none := by
  decide



/-- The byte at an exhausted pointer is the terminator, which is no digit. -/
theorem isdigit_zero : isdigit 0 = false := by decide

/-- The zeros skipped and the rest: the rest is a suffix and does not start with a zero. -/
theorem skipZeros_spec (p : List Nat) :
    ∃ z, p = List.replicate z 48 ++ skipZeros p ∧ deref (skipZeros p) ≠ 48 := by
  induction p with
  | nil => exact ⟨0, rfl, by decide⟩
  | cons c p ih =>
    obtain ⟨z, hz, hne⟩ := ih
    by_cases hc : c = 48
    · refine ⟨z + 1, ?_, ?_⟩
      · simp only [skipZeros, hc, if_true, List.replicate_succ, List.cons_append]
        rw [← hz]
      · simpa only [skipZeros, hc, if_true] using hne
    · refine ⟨0, ?_, ?_⟩
      · simp [skipZeros, hc]
      · simp [skipZeros, hc, deref]

/-- The equal digits skipped and the two rests: the rests are suffixes after the same
digits, and they do not both start with the same digit. -/
theorem skipEqualDigits_spec (pa pb : List Nat) :
    ∃ ds, pa = ds ++ (skipEqualDigits pa pb).1 ∧ pb = ds ++ (skipEqualDigits pa pb).2
      ∧ ¬ (isdigit (deref (skipEqualDigits pa pb).1) = true
          ∧ isdigit (deref (skipEqualDigits pa pb).2) = true
          ∧ deref (skipEqualDigits pa pb).1 = deref (skipEqualDigits pa pb).2) := by
  induction pa generalizing pb with
  | nil =>
    refine ⟨[], by simp [skipEqualDigits], by simp [skipEqualDigits], ?_⟩
    simp [skipEqualDigits, deref, isdigit_zero]
  | cons c pa ih =>
    cases pb with
    | nil =>
      refine ⟨[], by simp [skipEqualDigits], by simp [skipEqualDigits], ?_⟩
      simp [skipEqualDigits, deref, isdigit_zero]
    | cons d pb =>
      by_cases h : (isdigit c && isdigit d && decide (c = d)) = true
      · obtain ⟨ds, h1, h2, h3⟩ := ih pb
        have hcd : c = d := by
          simp only [Bool.and_eq_true, decide_eq_true_eq] at h
          exact h.2
        refine ⟨c :: ds, ?_, ?_, ?_⟩
        · simp only [skipEqualDigits, h, if_true, List.cons_append]
          rw [← h1]
        · simp only [skipEqualDigits, h, if_true, List.cons_append]
          rw [← h2, hcd]
        · simpa only [skipEqualDigits, h, if_true] using h3
      · refine ⟨[], ?_, ?_, ?_⟩
        · simp [skipEqualDigits, h]
        · simp [skipEqualDigits, h]
        · simp only [skipEqualDigits, h, if_false, deref, List.headD_cons]
          simpa only [Bool.and_eq_true, decide_eq_true_eq, and_assoc] using h

/-- Skipping equal digits with the two pointers exchanged gives the exchanged rests. -/
theorem skipEqualDigits_swap (pa pb : List Nat) :
    skipEqualDigits pb pa = ((skipEqualDigits pa pb).2, (skipEqualDigits pa pb).1) := by
  induction pa generalizing pb with
  | nil => cases pb <;> simp [skipEqualDigits]
  | cons c pa ih =>
    cases pb with
    | nil => simp [skipEqualDigits]
    | cons d pb =>
      by_cases h : (isdigit c && isdigit d && decide (c = d)) = true
      · have h2 : (isdigit d && isdigit c && decide (d = c)) = true := by
          simp only [Bool.and_eq_true, decide_eq_true_eq] at h ⊢
          exact ⟨⟨h.1.2, h.1.1⟩, h.2.symm⟩
        simp only [skipEqualDigits, h, h2, if_true]
        exact ih pb
      · have h2 : ¬ (isdigit d && isdigit c && decide (d = c)) = true := by
          simp only [Bool.and_eq_true, decide_eq_true_eq] at h ⊢
          exact fun h3 => h ⟨⟨h3.1.2, h3.1.1⟩, h3.2.symm⟩
        simp only [skipEqualDigits, h, h2, if_false, Bool.false_eq_true]

/-- The run of common digit positions does not depend on the order of the pointers. -/
theorem commonDigits_swap (pa pb : List Nat) : commonDigits pb pa = commonDigits pa pb := by
  induction pa generalizing pb with
  | nil => cases pb <;> simp [commonDigits]
  | cons c pa ih =>
    cases pb with
    | nil => simp [commonDigits]
    | cons d pb =>
      simp only [commonDigits, Bool.and_comm (isdigit d) (isdigit c), ih pb]

/-- At the end of the run of common digit positions the two bytes are not both digits. -/
theorem commonDigits_end (pa pb : List Nat) :
    ¬ (isdigit (deref (pa.drop (commonDigits pa pb))) = true
      ∧ isdigit (deref (pb.drop (commonDigits pa pb))) = true) := by
  induction pa generalizing pb with
  | nil => simp [commonDigits, deref, isdigit_zero]
  | cons c pa ih =>
    cases pb with
    | nil => simp [commonDigits, deref, isdigit_zero]
    | cons d pb =>
      by_cases h : (isdigit c && isdigit d) = true
      · simpa only [commonDigits, h, if_true, List.drop_succ_cons] using ih pb
      · simp only [commonDigits, h, if_false, List.drop_zero, deref, List.headD_cons]
        simpa only [Bool.and_eq_true] using h

/-- The body of the loop with the two strings exchanged returns the negated value, or goes
on with the exchanged pointers. -/
theorem compare_qNameBody_swap (a b pa pb : List Nat) :
    compare_qNameBody b a pb pa
      = match compare_qNameBody a b pa pb with
        | .inl r => .inl (-r)
        | .inr p => .inr (p.2, p.1) := by
  unfold compare_qNameBody
  rw [skipEqualDigits_swap (skipZeros pa) (skipZeros pb)]
  have hend := commonDigits_end (skipEqualDigits (skipZeros pa) (skipZeros pb)).1
    (skipEqualDigits (skipZeros pa) (skipZeros pb)).2
  rw [← commonDigits_swap] at hend
  generalize skipEqualDigits (skipZeros pa) (skipZeros pb) = q at hend ⊢
  simp only [commonDigits_swap q.1 q.2] at hend ⊢
  generalize commonDigits q.1 q.2 = i at hend ⊢
  cases h1 : isdigit (deref pa) <;> cases h2 : isdigit (deref pb) <;>
    simp only [Bool.and_true, Bool.and_false, Bool.true_and, Bool.false_and, if_true, if_false,
      Bool.false_eq_true]
  case true.true =>
    cases h3 : isdigit (deref q.1) <;> cases h4 : isdigit (deref q.2) <;>
      simp only [Bool.and_true, Bool.and_false, Bool.true_and, Bool.false_and, if_true,
        if_false, Bool.false_eq_true, reduceCtorEq]
    · by_cases h5 : a.length - q.1.length = b.length - q.2.length
      · simp [h5]
      · have h6 : ¬ b.length - q.2.length = a.length - q.1.length := fun h => h5 h.symm
        simp only [ne_eq, h5, h6, not_false_eq_true, if_true]
        by_cases h7 : a.length - q.1.length < b.length - q.2.length
        · have h8 : ¬ b.length - q.2.length < a.length - q.1.length := by omega
          simp [h7, h8]
        · have h8 : b.length - q.2.length < a.length - q.1.length := by omega
          simp [h7, h8]
    · simp
    · cases h5 : isdigit (deref (List.drop i q.1)) <;>
        cases h6 : isdigit (deref (List.drop i q.2)) <;>
        simp only [h5, h6, and_self, not_true_eq_false] at hend <;> simp
  all_goals
    by_cases h5 : deref pa = deref pb
    · simp [h5]
    · have h6 : ¬ deref pb = deref pa := fun h => h5 h.symm
      simp [h5, h6]

/-- A pointer at a byte other than the terminator has not reached the end. -/
theorem deref_ne_zero_length {p : List Nat} (h : deref p ≠ 0) : p.tail.length < p.length := by
  cases p with
  | nil => exact absurd rfl h
  | cons c p => simp

/-- The pointers a pass of the body that goes on leaves: both bytes are no digits after a run
of digits, or the pointers moved by one byte over equal bytes. -/
theorem compare_qNameBody_inr (a b pa pb : List Nat) (p : List Nat × List Nat)
    (h : compare_qNameBody a b pa pb = .inr p) :
    (isdigit (deref pa) = true ∧ isdigit (deref pb) = true
      ∧ p = skipEqualDigits (skipZeros pa) (skipZeros pb)
      ∧ isdigit (deref p.1) = false ∧ isdigit (deref p.2) = false
      ∧ a.length - p.1.length = b.length - p.2.length)
    ∨ (deref pa = deref pb ∧ p = (pa.tail, pb.tail)) := by
  unfold compare_qNameBody at h
  split at h
  · rename_i hd
    simp only [Bool.and_eq_true] at hd
    simp only [] at h
    split at h
    · cases h
    · rename_i hd2
      split at h
      · cases h
      · rename_i hd3
        split at h
        · cases h
        · rename_i hd4
          split at h
          · cases h
          · rename_i hoff
            simp only [Sum.inr.injEq] at h
            refine Or.inl ⟨hd.1, hd.2, h.symm, ?_, ?_, ?_⟩
            · rw [← h]
              simpa using hd3
            · rw [← h]
              simpa using hd4
            · rw [← h]
              simpa using hoff
  · split at h
    · cases h
    · rename_i heq
      simp only [Sum.inr.injEq] at h
      exact Or.inr ⟨by simpa using heq, h.symm⟩

/-- A pass of the body that goes on moves the first pointer. -/
theorem compare_qNameBody_progress (a b pa pb : List Nat) (p : List Nat × List Nat)
    (h : compare_qNameBody a b pa pb = .inr p) (hpa : deref pa ≠ 0) :
    p.1.length < pa.length := by
  rcases compare_qNameBody_inr a b pa pb p h with ⟨hd1, _, hp, hd3, _, _⟩ | ⟨_, hp⟩
  · obtain ⟨z, hz, _⟩ := skipZeros_spec pa
    obtain ⟨ds, h1, _, _⟩ := skipEqualDigits_spec (skipZeros pa) (skipZeros pb)
    rw [← hp] at h1
    have hlen : pa.length = z + (ds.length + p.1.length) := by
      rw [hz, h1]
      simp
    have hne : z + ds.length ≠ 0 := by
      intro h0
      have hz0 : z = 0 := by omega
      have hds : ds = [] := List.length_eq_zero.mp (by omega)
      rw [hz0, h1, hds] at hz
      simp only [List.replicate_zero, List.nil_append] at hz
      rw [hz, hd3] at hd1
      cases hd1
    omega
  · rw [hp]
    exact deref_ne_zero_length hpa

/-- A value the body returns is not zero. -/
theorem compare_qNameBody_inl (a b pa pb : List Nat) (r : Int)
    (h : compare_qNameBody a b pa pb = .inl r) : r ≠ 0 := by
  unfold compare_qNameBody at h
  obtain ⟨_, _, _, hq⟩ := skipEqualDigits_spec (skipZeros pa) (skipZeros pb)
  generalize skipEqualDigits (skipZeros pa) (skipZeros pb) = q at h hq
  split at h
  · simp only [] at h
    split at h
    · rename_i hd2
      simp only [Bool.and_eq_true] at hd2
      simp only [Sum.inl.injEq] at h
      rw [← h]
      split
      · decide
      · split
        · decide
        · have hne : deref q.1 ≠ deref q.2 := fun h3 => hq ⟨hd2.1, hd2.2, h3⟩
          omega
    · split at h
      · simp only [Sum.inl.injEq] at h
        omega
      · split at h
        · simp only [Sum.inl.injEq] at h
          omega
        · split at h
          · simp only [Sum.inl.injEq] at h
            rw [← h]
            split <;> decide
          · cases h
  · split at h
    · rename_i hne
      simp only [Sum.inl.injEq] at h
      omega
    · cases h

/-- A pass of the body that goes on has moved both pointers over the same bytes. -/
theorem compare_qNameBody_aligned (a b pa pb : List Nat) (p : List Nat × List Nat)
    (h : compare_qNameBody a b pa pb = .inr p) (hpa : deref pa ≠ 0) (hpb : deref pb ≠ 0)
    (hal : ∃ pre, a = pre ++ pa ∧ b = pre ++ pb) :
    ∃ pre, a = pre ++ p.1 ∧ b = pre ++ p.2 := by
  obtain ⟨pre, ha, hb⟩ := hal
  rcases compare_qNameBody_inr a b pa pb p h with ⟨_, _, hp, _, _, hoff⟩ | ⟨heq, hp⟩
  · obtain ⟨za, hza, _⟩ := skipZeros_spec pa
    obtain ⟨zb, hzb, _⟩ := skipZeros_spec pb
    obtain ⟨ds, h1, h2, _⟩ := skipEqualDigits_spec (skipZeros pa) (skipZeros pb)
    rw [← hp] at h1 h2
    rw [h1] at hza
    rw [h2] at hzb
    have hla : a.length = pre.length + (za + (ds.length + p.1.length)) := by
      rw [ha, hza]
      simp
    have hlb : b.length = pre.length + (zb + (ds.length + p.2.length)) := by
      rw [hb, hzb]
      simp
    have hz : za = zb := by omega
    refine ⟨pre ++ (List.replicate za 48 ++ ds), ?_, ?_⟩
    · rw [ha, hza]
      simp
    · rw [hb, hzb, hz]
      simp
  · cases pa with
    | nil => exact absurd rfl hpa
    | cons c pa =>
      cases pb with
      | nil => exact absurd rfl hpb
      | cons d pb =>
        have hcd : c = d := by simpa [deref] using heq
        refine ⟨pre ++ [c], ?_, ?_⟩
        · rw [ha, hp]
          simp
        · rw [hb, hp, hcd]
          simp

/-! ## Theorems: the order of read names -/

/-- The loop of `compare_qName` returns once the fuel exceeds the bytes left in the first
string. -/
theorem compare_qNameLoop_returns (a b : List Nat) (fuel : Nat) (pa pb : List Nat)
    (hfuel : pa.length < fuel) : ∃ r, compare_qNameLoop a b fuel pa pb = .ok r := by
  induction fuel generalizing pa pb with
  | zero => omega
  | succ fuel ih =>
    unfold compare_qNameLoop
    split
    · rename_i hg
      split
      · exact ⟨_, rfl⟩
      · rename_i p hbody
        have := compare_qNameBody_progress a b pa pb p hbody hg.1
        exact ih p.1 p.2 (by omega)
    · exact ⟨_, rfl⟩

/-- The loop of `compare_qName` with the two strings exchanged returns the negated value,
with any fuel that exceeds the bytes left in the second string. -/
theorem compare_qNameLoop_swap (a b : List Nat) (fuel fuel2 : Nat) (pa pb : List Nat)
    (r : Int) (h : compare_qNameLoop a b fuel pa pb = .ok r) (hfuel : pb.length < fuel2) :
    compare_qNameLoop b a fuel2 pb pa = .ok (-r) := by
  induction fuel generalizing fuel2 pa pb with
  | zero => simp [compare_qNameLoop] at h
  | succ fuel ih =>
    cases fuel2 with
    | zero => omega
    | succ fuel2 =>
      unfold compare_qNameLoop at h ⊢
      by_cases hg : deref pa ≠ 0 ∧ deref pb ≠ 0
      · have hg2 : deref pb ≠ 0 ∧ deref pa ≠ 0 := ⟨hg.2, hg.1⟩
        rw [if_pos hg] at h
        rw [if_pos hg2]
        have hswap := compare_qNameBody_swap a b pa pb
        cases hbody : compare_qNameBody a b pa pb with
        | inl r2 =>
          rw [hbody] at h hswap
          simp only [Except.ok.injEq] at h
          rw [hswap, h]
        | inr p =>
          rw [hbody] at h hswap
          simp only [] at h hswap
          rw [hswap]
          have := compare_qNameBody_progress b a pb pa (p.2, p.1) hswap hg.2
          exact ih fuel2 p.1 p.2 h (by simp only [] at this; omega)
      · have hg2 : ¬ (deref pb ≠ 0 ∧ deref pa ≠ 0) := fun h2 => hg ⟨h2.2, h2.1⟩
        rw [if_neg hg] at h
        rw [if_neg hg2]
        simp only [Except.ok.injEq] at h ⊢
        by_cases h1 : deref pa = 0
        · by_cases h2 : deref pb = 0
          · simp only [h1, h2, ne_eq, not_true_eq_false, if_false] at h ⊢
            omega
          · simp only [h1, h2, ne_eq, not_true_eq_false, not_false_eq_true, if_false,
              if_true] at h ⊢
            omega
        · by_cases h2 : deref pb = 0
          · simp only [h1, h2, ne_eq, not_true_eq_false, not_false_eq_true, if_false,
              if_true] at h ⊢
            omega
          · exact absurd ⟨h1, h2⟩ hg

/-- The loop of `compare_qName` returns zero only on equal strings, when it has moved the
pointers over the same bytes and the strings hold no terminator. -/
theorem compare_qNameLoop_zero (a b : List Nat) (fuel : Nat) (pa pb : List Nat)
    (ha : ∀ c ∈ a, c ≠ 0) (hb : ∀ c ∈ b, c ≠ 0)
    (hal : ∃ pre, a = pre ++ pa ∧ b = pre ++ pb)
    (h : compare_qNameLoop a b fuel pa pb = .ok 0) : a = b := by
  induction fuel generalizing pa pb with
  | zero => simp [compare_qNameLoop] at h
  | succ fuel ih =>
    unfold compare_qNameLoop at h
    by_cases hg : deref pa ≠ 0 ∧ deref pb ≠ 0
    · rw [if_pos hg] at h
      cases hbody : compare_qNameBody a b pa pb with
      | inl r2 =>
        rw [hbody] at h
        simp only [Except.ok.injEq] at h
        exact absurd h (compare_qNameBody_inl a b pa pb r2 hbody)
      | inr p =>
        rw [hbody] at h
        exact ih p.1 p.2 (compare_qNameBody_aligned a b pa pb p hbody hg.1 hg.2 hal) h
    · rw [if_neg hg] at h
      simp only [Except.ok.injEq] at h
      obtain ⟨pre, hpa, hpb⟩ := hal
      have h1 : deref pa = 0 := by
        by_contra h1
        simp [h1] at h
      have h2 : deref pb = 0 := by
        by_contra h2
        simp [h1, h2] at h
      have hnil : ∀ (s p : List Nat), (∀ c ∈ s, c ≠ 0) → s = pre ++ p → deref p = 0 →
          p = [] := by
        intro s p hs hsp hd
        cases p with
        | nil => rfl
        | cons c p =>
          exact absurd hd (hs c (by rw [hsp]; simp))
      rw [hpa, hpb, hnil a pa ha hpa h1, hnil b pb hb hpb h2]

/-- The function `compare_qName` returns on every pair of strings. -/
theorem compare_qName_returns (a b : List Nat) : ∃ r, compare_qName a b = .ok r :=
  compare_qNameLoop_returns a b (a.length + 1) a b (Nat.lt_succ_self _)

/-- The function `compare_qName` with its arguments exchanged returns the negated value. -/
theorem compare_qName_swap (a b : List Nat) (r : Int) (h : compare_qName a b = .ok r) :
    compare_qName b a = .ok (-r) :=
  compare_qNameLoop_swap a b (a.length + 1) (b.length + 1) a b r h (Nat.lt_succ_self _)

/-- Claim C38: on strings without a NUL byte `compare_qName` returns, and the value is zero
exactly when the two strings are the same; hence of the three tests that guard the inner loops
of `merge_and_set_mate` (second name before first, names equal, first name before second) one
always holds. -/
theorem C38_compare_qName_zero_iff_equal (a b : List Nat)
    (ha : ∀ c ∈ a, c ≠ 0) (hb : ∀ c ∈ b, c ≠ 0) :
    ∃ r s : Int, compare_qName a b = .ok r ∧ compare_qName b a = .ok s
      ∧ (r = 0 ↔ a = b)
      ∧ (s < 0 ∨ a = b ∨ r < 0) := by
  obtain ⟨r, hr⟩ := compare_qName_returns a b
  have hs := compare_qName_swap a b r hr
  have hzero : r = 0 → a = b := by
    intro h0
    rw [h0] at hr
    exact compare_qNameLoop_zero a b (a.length + 1) a b ha hb ⟨[], rfl, rfl⟩ hr
  have hrefl : a = b → r = 0 := by
    intro hab
    subst hab
    rw [hr] at hs
    simp only [Except.ok.injEq] at hs
    omega
  refine ⟨r, -r, hr, hs, ⟨hzero, hrefl⟩, ?_⟩
  by_cases h0 : r = 0
  · exact Or.inr (Or.inl (hzero h0))
  · by_cases hneg : r < 0
    · exact Or.inr (Or.inr hneg)
    · exact Or.inl (by omega)

/-- Witness of C38 on the names `read01` and `read1`. -/
theorem C38_compare_qName_zero_iff_equal_witness :
    (∀ c ∈ bytesOf "read01", c ≠ 0) ∧ (∀ c ∈ bytesOf "read1", c ≠ 0)
    ∧ ∃ r s : Int, compare_qName (bytesOf "read01") (bytesOf "read1") = .ok r
      ∧ compare_qName (bytesOf "read1") (bytesOf "read01") = .ok s
      ∧ (r = 0 ↔ bytesOf "read01" = bytesOf "read1")
      ∧ (s < 0 ∨ bytesOf "read01" = bytesOf "read1" ∨ r < 0) :=
  ⟨by decide, by decide,
    C38_compare_qName_zero_iff_equal (bytesOf "read01") (bytesOf "read1") (by decide)
      (by decide)⟩

/-- Claim C39: `compare_qName` is antisymmetric in sign: with the arguments exchanged it
returns the negated value, so one value is negative exactly when the other is positive and
zero exactly when the other is zero. -/
theorem C39_compare_qName_antisymmetric (a b : List Nat) :
    ∃ r s : Int, compare_qName a b = .ok r ∧ compare_qName b a = .ok s
      ∧ s = -r ∧ (r < 0 ↔ 0 < s) ∧ (r = 0 ↔ s = 0) := by
  obtain ⟨r, hr⟩ := compare_qName_returns a b
  exact ⟨r, -r, hr, compare_qName_swap a b r hr, rfl, by omega, by omega⟩

/-- Values of `compare_qName`: leading zeros sort first, shorter numbers sort first, and two
strings that differ only behind a NUL byte compare as equal. -/
theorem compare_qName_example :
    compare_qName (bytesOf "read01") (bytesOf "read1") = .ok (-1)
    ∧ compare_qName (bytesOf "read1") (bytesOf "read01") = .ok 1
    ∧ compare_qName (bytesOf "read9") (bytesOf "read10") = .ok (-1)
    ∧ compare_qName (bytesOf "read10") (bytesOf "read9") = .ok 1
    ∧ compare_qName (bytesOf "r12a") (bytesOf "r13") = .ok (-1)
    ∧ compare_qName (bytesOf "r12") (bytesOf "r12") = .ok 0
    ∧ compare_qName [97, 0, 98] [97, 0, 99] = .ok 0 :=
  ⟨rfl, rfl, rfl, rfl, rfl, rfl, rfl⟩



/-! ## Theorems: the entropy of a sequence -/

/-- Counting a dimer keeps every count of the table between 1 and the new `counted`, while
the counter stays below `2 ^ 32 - 1`. -/
theorem countDimer_bounds (diCounts : List (List Char × Nat)) (dimer : List Char)
    (counted : Nat) (hlt : counted + 1 < 2 ^ 32)
    (h : ∀ it ∈ diCounts, 1 ≤ it.2 ∧ it.2 ≤ counted) :
    ∀ it ∈ countDimer diCounts dimer, 1 ≤ it.2 ∧ it.2 ≤ counted + 1 := by
  intro it hit
  unfold countDimer at hit
  split at hit
  · rcases List.mem_append.mp hit with h1 | h1
    · exact ⟨(h it h1).1, Nat.le_succ_of_le (h it h1).2⟩
    · simp only [List.mem_singleton] at h1
      rw [h1]
      exact ⟨Nat.le_refl 1, Nat.le_add_left 1 counted⟩
  · obtain ⟨e, he, hite⟩ := List.mem_map.mp hit
    have hb := h e he
    split at hite
    · rw [← hite]
      have hmod : (e.2 + 1) % 2 ^ 32 = e.2 + 1 := Nat.mod_eq_of_lt (by omega)
      simp only [hmod]
      omega
    · rw [← hite]
      omega

/-- After the first loop of `entropy` over `m` positions every count of the table lies
between 1 and `counted`, and `counted` is at most `m`. -/
theorem countLoop_bounds (sequence : List Char) (m : Nat) (hm : m < 2 ^ 32) :
    (∀ it ∈ ((List.range m).foldl (countLoopBody sequence) ([], 0)).1,
        1 ≤ it.2 ∧ it.2 ≤ ((List.range m).foldl (countLoopBody sequence) ([], 0)).2)
    ∧ ((List.range m).foldl (countLoopBody sequence) ([], 0)).2 ≤ m := by
  induction m with
  | zero =>
    refine ⟨fun it hit => ?_, Nat.le_refl 0⟩
    simp at hit
  | succ m ih =>
    obtain ⟨h1, h2⟩ := ih (by omega)
    rw [List.range_succ, List.foldl_append]
    simp only [List.foldl_cons, List.foldl_nil]
    generalize (List.range m).foldl (countLoopBody sequence) ([], 0) = st at h1 h2
    unfold countLoopBody
    simp only []
    split
    · have hmod : (st.2 + 1) % 2 ^ 32 = st.2 + 1 := Nat.mod_eq_of_lt (by omega)
      simp only [hmod]
      exact ⟨countDimer_bounds st.1 _ st.2 (by omega) h1, by omega⟩
    · exact ⟨h1, by omega⟩

/-- A value above -1 and at most 0 subtracted from zero converts to the `unsigned` zero. -/
theorem toUnsigned_zero_sub (x : ℚ) (h1 : -1 < x) (h2 : x ≤ 0) :
    toUnsigned (((0 : Nat) : ℚ) - x) = 0 := by
  unfold toUnsigned
  have h : ⌊((0 : Nat) : ℚ) - x⌋ = 0 := by
    rw [Int.floor_eq_zero_iff]
    constructor
    · simp only [Nat.cast_zero, zero_sub]
      linarith
    · simp only [Nat.cast_zero, zero_sub]
      linarith
  rw [h]
  rfl

/-- The second loop of `entropy` leaves the `unsigned` variable at zero. -/
theorem entropyLoop_zero (plog : Nat → Nat → ℚ) (counted : Nat)
    (hplog : ∀ c n, 1 ≤ c → c ≤ n → -1 < plog c n ∧ plog c n ≤ 0)
    (diCounts : List (List Char × Nat)) (h : ∀ it ∈ diCounts, 1 ≤ it.2 ∧ it.2 ≤ counted) :
    diCounts.foldl (entropyLoopBody plog counted) 0 = 0 := by
  induction diCounts with
  | nil => rfl
  | cons it rest ih =>
    have hb := h it (List.mem_cons_self _ _)
    have hstep : entropyLoopBody plog counted 0 it = 0 := by
      unfold entropyLoopBody
      split
      · rfl
      · exact toUnsigned_zero_sub _ (hplog it.2 counted hb.1 hb.2).1
          (hplog it.2 counted hb.1 hb.2).2
    rw [List.foldl_cons, hstep]
    exact ih (fun e he => h e (List.mem_cons_of_mem _ he))

/-- The function `entropy` returns zero on every sequence on which it returns. -/
theorem entropy_zero (plog : Nat → Nat → ℚ)
    (hplog : ∀ c n, 1 ≤ c → c ≤ n → -1 < plog c n ∧ plog c n ≤ 0)
    (sequence : List Char) (h1 : 1 ≤ sequence.length) (h2 : sequence.length ≤ 2 ^ 32) :
    entropy plog sequence = .ok 0 := by
  unfold entropy
  have hne : ¬ sequence.length = 0 := by omega
  have hle : ¬ 2 ^ 32 < sequence.length := by omega
  rw [if_neg hne, if_neg hle]
  simp only []
  have hb := countLoop_bounds sequence (sequence.length - 1) (by omega)
  rw [entropyLoop_zero plog _ hplog _ hb.1]
  simp

/-- The dinucleotides of the example sequence: 16 positions, all different. -/
theorem everyDimerOnce_dimers :
    (specDimers everyDimerOnce).length = 16
    ∧ (specDimers everyDimerOnce).dedup = specDimers everyDimerOnce
    ∧ (specDimers everyDimerOnce).map (fun d => (specDimers everyDimerOnce).count d)
        = List.replicate 16 1 := by
  decide

/-- The value `plogDyadic` lies above -1 and is at most 0. -/
theorem plogDyadic_bounds (c n : Nat) (hc : 1 ≤ c) (hn : c ≤ n) :
    -1 < plogDyadic c n ∧ plogDyadic c n ≤ 0 := by
  unfold plogDyadic
  have hn0 : (0 : ℚ) < (n : ℚ) := by exact_mod_cast (by omega : 0 < n)
  have hm : n / c ≠ 0 := by
    have := Nat.div_pos hn (by omega : 0 < c)
    omega
  have hlog : Nat.log 2 (n / c) < n / c := Nat.log_lt_self 2 hm
  have hmul : c * (n / c) ≤ n := Nat.mul_div_le n c
  have hlt : c * Nat.log 2 (n / c) < n := by
    have : c * Nat.log 2 (n / c) < c * (n / c) := Nat.mul_lt_mul_of_pos_left hlog (by omega)
    omega
  have hltq : (c : ℚ) * (Nat.log 2 (n / c) : ℚ) < (n : ℚ) := by exact_mod_cast hlt
  have hnonneg : (0 : ℚ) ≤ (c : ℚ) / (n : ℚ) * (Nat.log 2 (n / c) : ℚ) := by positivity
  have hlt1 : (c : ℚ) / (n : ℚ) * (Nat.log 2 (n / c) : ℚ) < 1 := by
    rw [div_mul_eq_mul_div, div_lt_one hn0]
    exact hltq
  constructor
  · rw [neg_mul]
    linarith
  · rw [neg_mul]
    linarith

/-- Claim C37: the function `entropy` does not return `H / 4`: for every value of the floating
point terms above -1 and at most 0 it returns 0 on every sequence on which it returns, since
its accumulator is `unsigned`; on a sequence with each of the 16 dinucleotides once, where
`p * log2 p` is -1/4 and the entropy of the spec is 1, it returns 0. -/
theorem C37_entropy_returns_zero (plog : Nat → Nat → ℚ)
    (hplog : ∀ c n, 1 ≤ c → c ≤ n → -1 < plog c n ∧ plog c n ≤ 0)
    (hexact : plog 1 16 = -1 / 4) :
    (∀ sequence : List Char, 1 ≤ sequence.length → sequence.length ≤ 2 ^ 32 →
        entropy plog sequence = .ok 0)
    ∧ specEntropy plog everyDimerOnce = 1
    ∧ entropy plog everyDimerOnce = .ok 0
    ∧ entropy plog everyDimerOnce ≠ .ok (specEntropy plog everyDimerOnce) := by
  have hzero := entropy_zero plog hplog
  have hspec : specEntropy plog everyDimerOnce = 1 := by
    obtain ⟨hlen, hdedup, hcount⟩ := everyDimerOnce_dimers
    unfold specEntropy
    rw [hdedup, hlen]
    have hmap : (specDimers everyDimerOnce).map
        (fun dimer => plog ((specDimers everyDimerOnce).count dimer) 16)
        = ((specDimers everyDimerOnce).map
            (fun d => (specDimers everyDimerOnce).count d)).map (fun c => plog c 16) := by
      rw [List.map_map]
      rfl
    rw [hmap, hcount]
    simp only [List.map_replicate, List.sum_replicate, hexact]
    norm_num
  have hcode : entropy plog everyDimerOnce = .ok 0 :=
    hzero everyDimerOnce (by decide) (by decide)
  refine ⟨hzero, hspec, hcode, ?_⟩
  rw [hcode, hspec]
  intro h
  simp only [Except.ok.injEq] at h
  norm_num at h

/-- Witness of C37 with the dyadic value for the floating point terms. -/
theorem C37_entropy_returns_zero_witness :
    (∀ c n, 1 ≤ c → c ≤ n → -1 < plogDyadic c n ∧ plogDyadic c n ≤ 0)
    ∧ plogDyadic 1 16 = -1 / 4
    ∧ (∀ sequence : List Char, 1 ≤ sequence.length → sequence.length ≤ 2 ^ 32 →
        entropy plogDyadic sequence = .ok 0)
    ∧ specEntropy plogDyadic everyDimerOnce = 1
    ∧ entropy plogDyadic everyDimerOnce = .ok 0
    ∧ entropy plogDyadic everyDimerOnce ≠ .ok (specEntropy plogDyadic everyDimerOnce) :=
  have hexact : plogDyadic 1 16 = -1 / 4 := by
    have hlog : Nat.log 2 (16 / 1) = 4 := Nat.log_pow (by decide) 4
    unfold plogDyadic
    rw [hlog]
    norm_num
  ⟨plogDyadic_bounds, hexact, C37_entropy_returns_zero plogDyadic plogDyadic_bounds hexact⟩

/-- The first loop of `entropy` on the example sequence counts what the spec counts: each of
the 16 dinucleotides once, 16 positions in all. -/
theorem countLoop_example :
    (List.range (everyDimerOnce.length - 1)).foldl (countLoopBody everyDimerOnce) ([], 0)
      = ((specDimers everyDimerOnce).map (fun dimer => (dimer, 1)), 16) := by
  decide

/-! ## Theorems: the quaternary tree is a compacted de Bruijn graph -/

set_option maxRecDepth 100000 in
/-- Every 11-mer of the quaternary tree stands in `quadKmers` at the position read off it. -/
theorem quadTree_index :
    (List.range 690).map (fun j => quadIndex (kmerAt j)) = List.range 690 := by
  decide!

/-- Two functions that give the same list over a range agree below its bound. -/
theorem map_range_congr {α : Type} (f g : Nat → α) (n : Nat)
    (h : (List.range n).map f = (List.range n).map g) (j : Nat) (hj : j < n) : f j = g j := by
  have h2 := congrArg (fun l => l[j]?) h
  simpa [List.getElem?_map, List.getElem?_range hj] using h2

/-- The position read off the 11-mer at position `j` is `j`. -/
theorem quadIndex_kmerAt (j : Nat) (hj : j < 690) : quadIndex (kmerAt j) = j :=
  map_range_congr (fun j => quadIndex (kmerAt j)) id 690
    (by rw [List.map_id]; exact quadTree_index) j hj

/-- The 345 11-mers of the quaternary tree and their reverse complements are 690 different
sequences. -/
theorem quadTree_distinct : quadKmers.Nodup := by
  apply List.Nodup.of_map quadIndex
  unfold quadKmers
  rw [List.map_map, show (quadIndex ∘ kmerAt) = (fun j => quadIndex (kmerAt j)) from rfl,
    quadTree_index]
  exact List.nodup_range 690

/-- Two functions that give the same list over a shifted range agree on it. -/
theorem chunk_congr {α : Type} (f g : Nat → α) (off n : Nat)
    (h : (List.range n).map (fun t => f (off + t)) = (List.range n).map (fun t => g (off + t)))
    (j : Nat) (h1 : off ≤ j) (h2 : j < off + n) : f j = g j := by
  have h3 := map_range_congr (fun t => f (off + t)) (fun t => g (off + t)) n h (j - off)
    (by omega)
  simp only [] at h3
  rwa [show off + (j - off) = j by omega] at h3

set_option maxRecDepth 100000 in
/-- The first 115 positions: of the four 11-mers that overlap the 11-mer at a position in
its last 10 characters, those among the 11-mers of the quaternary tree stand at the positions
`quadLinks`. -/
theorem quadTree_extensions_0 :
    (List.range 115).map (fun t => extRow (0 + t))
      = (List.range 115).map (fun t => quadLinks (0 + t)) := by
  decide!

set_option maxRecDepth 100000 in
/-- The second 115 positions: of the four 11-mers that overlap the 11-mer at a position in
its last 10 characters, those among the 11-mers of the quaternary tree stand at the positions
`quadLinks`. -/
theorem quadTree_extensions_1 :
    (List.range 115).map (fun t => extRow (115 + t))
      = (List.range 115).map (fun t => quadLinks (115 + t)) := by
  decide!

set_option maxRecDepth 100000 in
/-- The third 115 positions: of the four 11-mers that overlap the 11-mer at a position in
its last 10 characters, those among the 11-mers of the quaternary tree stand at the positions
`quadLinks`. -/
theorem quadTree_extensions_2 :
    (List.range 115).map (fun t => extRow (230 + t))
      = (List.range 115).map (fun t => quadLinks (230 + t)) := by
  decide!

set_option maxRecDepth 100000 in
/-- The fourth 115 positions: of the four 11-mers that overlap the 11-mer at a position in
its last 10 characters, those among the 11-mers of the quaternary tree stand at the positions
`quadLinks`. -/
theorem quadTree_extensions_3 :
    (List.range 115).map (fun t => extRow (345 + t))
      = (List.range 115).map (fun t => quadLinks (345 + t)) := by
  decide!

set_option maxRecDepth 100000 in
/-- The fifth 115 positions: of the four 11-mers that overlap the 11-mer at a position in
its last 10 characters, those among the 11-mers of the quaternary tree stand at the positions
`quadLinks`. -/
theorem quadTree_extensions_4 :
    (List.range 115).map (fun t => extRow (460 + t))
      = (List.range 115).map (fun t => quadLinks (460 + t)) := by
  decide!

set_option maxRecDepth 100000 in
/-- The sixth 115 positions: of the four 11-mers that overlap the 11-mer at a position in
its last 10 characters, those among the 11-mers of the quaternary tree stand at the positions
`quadLinks`. -/
theorem quadTree_extensions_5 :
    (List.range 115).map (fun t => extRow (575 + t))
      = (List.range 115).map (fun t => quadLinks (575 + t)) := by
  decide!

/-- Of the four 11-mers that overlap the 11-mer at position `j` in its last 10 characters,
those among the 11-mers of the quaternary tree stand at the positions `quadLinks j`. -/
theorem quadTree_extensions (j : Nat) (hj : j < 690) : extRow j = quadLinks j := by
  by_cases h1 : j < 115
  · exact chunk_congr extRow quadLinks 0 115 quadTree_extensions_0 j (by omega) (by omega)
  by_cases h2 : j < 230
  · exact chunk_congr extRow quadLinks 115 115 quadTree_extensions_1 j (by omega) (by omega)
  by_cases h3 : j < 345
  · exact chunk_congr extRow quadLinks 230 115 quadTree_extensions_2 j (by omega) (by omega)
  by_cases h4 : j < 460
  · exact chunk_congr extRow quadLinks 345 115 quadTree_extensions_3 j (by omega) (by omega)
  by_cases h5 : j < 575
  · exact chunk_congr extRow quadLinks 460 115 quadTree_extensions_4 j (by omega) (by omega)
  · exact chunk_congr extRow quadLinks 575 115 quadTree_extensions_5 j (by omega) (by omega)

set_option maxRecDepth 100000 in
/-- Every 11-mer of the quaternary tree has 11 characters, the last of them a base. -/
theorem quadTree_shape :
    (List.range 690).all (fun j => decide ((kmerAt j).length = 11)
      && decide ((kmerAt j).drop 10 ∈ [[Nucleotide.A], [.C], [.G], [.T]])) = true := by
  decide!

set_option maxRecDepth 100000 in
/-- The positions `quadLinks` are those of the successors in the graph: of a unitig on the
forward strand, and, 345 more, of a unitig on the reverse strand. -/
theorem quadTree_links_successors : ∀ i : Fin 345,
    (quadTree.getSuccessors ⟨i, true⟩).map (fun h => h.unitig.val) = quadLinks i.val
    ∧ (quadTree.getSuccessors ⟨i, false⟩).map (fun h => 345 + h.unitig.val)
        = quadLinks (345 + i.val) := by
  decide!

/-- Among the 11-mers of the quaternary tree on both strands, two overlap in 10 characters
only along a link of the tree. -/
theorem quadTree_overlaps_only_links (i j : Nat) (hi : i < 690) (hj : j < 690)
    (h : (kmerAt i).drop 1 = (kmerAt j).take 10) : j ∈ quadLinks i := by
  have hshape := List.all_eq_true.mp quadTree_shape j (List.mem_range.mpr hj)
  simp only [Bool.and_eq_true, decide_eq_true_eq] at hshape
  obtain ⟨_, hlast⟩ := hshape
  have hy : kmerAt j = (kmerAt i).drop 1 ++ (kmerAt j).drop 10 := by
    rw [h]
    exact (List.take_append_drop 10 (kmerAt j)).symm
  have hext : kmerAt j ∈ extensions (kmerAt i) := by
    unfold extensions
    simp only [List.mem_cons, List.mem_singleton, List.not_mem_nil, or_false] at hlast
    rcases hlast with h1 | h1 | h1 | h1 <;> rw [h1] at hy
    · exact List.mem_cons.mpr (Or.inl hy)
    · exact List.mem_cons_of_mem _ (List.mem_cons.mpr (Or.inl hy))
    · exact List.mem_cons_of_mem _ (List.mem_cons_of_mem _ (List.mem_cons.mpr (Or.inl hy)))
    · exact List.mem_cons_of_mem _ (List.mem_cons_of_mem _
        (List.mem_cons_of_mem _ (List.mem_cons.mpr (Or.inl hy))))
  have hin : inQuadKmers (kmerAt j) = true := by
    unfold inQuadKmers
    rw [quadIndex_kmerAt j hj]
    simp [hj]
  have hmem : quadIndex (kmerAt j) ∈ extRow i :=
    List.mem_map_of_mem _ (List.mem_filter.mpr ⟨hext, hin⟩)
  rw [quadTree_extensions i hi, quadIndex_kmerAt j hj] at hmem
  exact hmem

end PopIns2
